import Mathlib

/-!
# Blocked skip list: shallow embedding and verification

The development embeds `blocked_skiplist_node.hpp` and `blocked_skiplist.hpp`.

* Keys and values are `int` (the instantiation of `test/test.cpp`), modelled as `Int`;
  they are only compared, never added.
* Blocks live in a heap, a list of slots indexed by block address.  `new` appends a
  slot, `delete` empties it, addresses are never reused.  A pointer is an `Option Nat`.
* An operation that would be undefined behaviour in C++ (null dereference, access to a
  freed block, an index outside a block's storage, a failed `assert`) returns a `Fault`.
* Loops and recursion whose termination depends on the shape of the heap carry fuel and
  report `Fault.fuel` when it runs out.
* `uint16_t` and `size_t` fields are `Nat` with explicit reduction modulo `2^16`, `2^64`.
-/

namespace BlockedSkipList

/-- Number of index levels, `SKIP_LIST_LEVELS`. -/
def SKIP_LIST_LEVELS : Nat := 6

/-- Modulus of `uint16_t`. -/
def U16 : Nat := 65536

/-- Modulus of `size_t`. -/
def U64 : Nat := 18446744073709551616

/-- Key/value pair, `Entry<int, int>`. -/
structure Entry where
  key : Int
  val : Int
deriving DecidableEq

/-- Default entry `Entry()`: value-initialised key and value. -/
def Entry.dflt : Entry := ⟨0, 0⟩

/-- Ways in which an operation leaves defined behaviour (or runs out of fuel). -/
inductive Fault where
  | nullDeref
  | useAfterFree
  | outOfBounds
  | assertion
  | fuel
deriving DecidableEq

/-- Block of the skip list, `Node<int, int>`. -/
structure Node where
  m_max_key : Int
  size : Nat
  capacity : Nat
  forward : List (Option Nat)
  prev : Option Nat
  data : List Entry
deriving DecidableEq

/-- Constructor `Node(block_size)`: empty block, all links null, `capacity` the 16-bit
truncation of `block_size`.  The storage is modelled as `block_size` default entries; the
code allocates `block_size` entries and fills the first `capacity` of them, so model and
code agree for `block_size < 65536`. -/
def Node.new (block_size : Nat) : Node :=
  { m_max_key := 0
    size := 0
    capacity := block_size % U16
    forward := List.replicate SKIP_LIST_LEVELS none
    prev := none
    data := List.replicate block_size Entry.dflt }

/-- Read `data[i]`. -/
def readAt (data : List Entry) (i : Nat) : Except Fault Entry :=
  match data[i]? with
  | some e => .ok e
  | none => .error .outOfBounds

/-- Read `data[n - 1]` where `n` is a `uint16_t` promoted to `int`: index `-1` when
`n = 0`. -/
def readLast (data : List Entry) (n : Nat) : Except Fault Entry :=
  if n = 0 then .error .outOfBounds else readAt data (n - 1)

/-- The range `[a, b)` of `data` (empty when `b ≤ a`). -/
def slice (data : List Entry) (a b : Nat) : Except Fault (List Entry) :=
  if b ≤ a then .ok []
  else if b ≤ data.length then .ok ((data.drop a).take (b - a))
  else .error .outOfBounds

/-- Write `src` into `dst` starting at index `pos`. -/
def copyInto (dst : List Entry) (pos : Nat) (src : List Entry) : Except Fault (List Entry) :=
  if src.length = 0 then .ok dst
  else if pos + src.length ≤ dst.length then
    .ok (dst.take pos ++ src ++ dst.drop (pos + src.length))
  else .error .outOfBounds

/-- Write `src` into `dst` so that it ends just before index `d_last`
(`std::move_backward` with destination end `d_last`). -/
def copyBackInto (dst : List Entry) (d_last : Nat) (src : List Entry) :
    Except Fault (List Entry) :=
  if src.length = 0 then .ok dst
  else if d_last < src.length then .error .outOfBounds
  else copyInto dst (d_last - src.length) src

/-- Loop of `std::lower_bound(data + first, data + first + len, key)`; the fuel is `len`,
which strictly decreases. -/
def lowerBound (data : List Entry) (key : Int) : Nat → Nat → Nat → Except Fault Nat
  | 0, first, _ => .ok first
  | fuel + 1, first, len =>
    if len = 0 then .ok first
    else
      let half := len / 2
      match data[first + half]? with
      | none => .error .outOfBounds
      | some e =>
        if e.key < key then lowerBound data key fuel (first + half + 1) (len - half - 1)
        else lowerBound data key fuel first half

/-- Loop of `std::upper_bound(data + first, data + first + len, entry)`. -/
def upperBound (data : List Entry) (key : Int) : Nat → Nat → Nat → Except Fault Nat
  | 0, first, _ => .ok first
  | fuel + 1, first, len =>
    if len = 0 then .ok first
    else
      let half := len / 2
      match data[first + half]? with
      | none => .error .outOfBounds
      | some e =>
        if key < e.key then upperBound data key fuel first half
        else upperBound data key fuel (first + half + 1) (len - half - 1)

/-- Lookup `Node::find(key)`: index of the entry, or `none` for `nullptr`. -/
def Node.find (n : Node) (key : Int) : Except Fault (Option Nat) := do
  let pos ← lowerBound n.data key n.size 0 n.size
  if pos = n.size then return none
  let e ← readAt n.data pos
  if e.key ≠ key then return none
  return some pos

/-- Insertion `Node::insert(Entry)`: the new block and the index written. -/
def Node.insert (n : Node) (entry : Entry) : Except Fault (Node × Nat) := do
  let pos ← upperBound n.data entry.key n.size 0 n.size
  let tail ← slice n.data pos n.size
  let d1 ← copyBackInto n.data (n.size + 1) tail
  if d1.length ≤ pos then throw .outOfBounds
  let d2 := d1.set pos entry
  return ({ n with data := d2, size := (n.size + 1) % U16,
                   m_max_key := max n.m_max_key entry.key }, pos)

/-- Removal `Node::erase(key)`: the new block and the removed pair, if any. -/
def Node.erase (n : Node) (key : Int) : Except Fault (Node × Option (Int × Int)) := do
  match ← n.find key with
  | none => return (n, none)
  | some pos =>
    let e ← readAt n.data pos
    let tail ← slice n.data (pos + 1) n.size
    let d1 ← copyInto n.data pos tail
    let size1 := (n.size + U16 - 1) % U16
    let last ← readLast d1 size1
    return ({ n with data := d1, size := size1, m_max_key := last.key }, some (e.key, e.val))

/-- Split `Node::split_into(other)`: returns `(this, other)` after the call. -/
def Node.split_into (n other : Node) : Except Fault (Node × Node) := do
  let half := n.size / 2
  let upper ← slice n.data half n.size
  let od ← copyInto other.data 0 upper
  let size1 := n.size - half
  let osize := (other.size + half) % U16
  let olast ← readLast od osize
  let last ← readLast n.data size1
  return ({ n with size := size1, m_max_key := last.key },
          { other with data := od, size := osize, m_max_key := olast.key })

/-- Heap of blocks: slot `a` holds the block at address `a`, or `none` once freed. -/
abbrev Heap := List (Option Node)

/-- Dereference a block pointer. -/
def Heap.load (h : Heap) (p : Option Nat) : Except Fault Node :=
  match p with
  | none => .error .nullDeref
  | some a =>
    match h[a]? with
    | some (some n) => .ok n
    | _ => .error .useAfterFree

/-- Overwrite the block at address `a`. -/
def Heap.store (h : Heap) (a : Nat) (n : Node) : Heap := h.set a (some n)

/-- Apply `f` to the block behind pointer `p`. -/
def Heap.modify (h : Heap) (p : Option Nat) (f : Node → Node) : Except Fault Heap := do
  let n ← h.load p
  match p with
  | some a => return h.store a (f n)
  | none => throw .nullDeref

/-- Release the block at address `a` (`delete`). -/
def Heap.free (h : Heap) (a : Nat) : Heap := h.set a none

/-- Level `l` successor `forward[l]` of a block. -/
def Node.fwd (n : Node) (l : Nat) : Option Nat := n.forward.getD l none

/-- Assignment `forward[l] = p`. -/
def Node.setFwd (n : Node) (l : Nat) (p : Option Nat) : Node :=
  { n with forward := n.forward.set l p }

/-- Container `BlockedSkipList<int, int>` together with the heap its blocks live in. -/
structure Container where
  head : Option Nat
  m_size : Nat
  block_size : Nat
  heap : Heap
deriving DecidableEq

/-- The constructor's test `(block_size & (block_size - 1)) != 0` on `size_t`. -/
def ctorRejects (block_size : Nat) : Bool :=
  (block_size &&& ((block_size + U64 - 1) % U64)) != 0

/-- Constructor `BlockedSkipList(block_size)`.  It does not initialise `m_size`; `m0` is
the indeterminate value that field starts with.  `none` stands for the thrown
`std::runtime_error`. -/
def construct (block_size : Nat) (m0 : Nat) : Option Container :=
  if ctorRejects block_size then none
  else some { head := some 0, m_size := m0, block_size := block_size,
              heap := [some (Node.new block_size)] }

/-- Inner `while` of `find_node` at level `l`, starting from block `cur`. -/
def findNodeWalk (h : Heap) (key : Int) (l : Nat) : Nat → Nat → Except Fault Nat
  | 0, _ => .error .fuel
  | fuel + 1, cur => do
    let c ← h.load (some cur)
    match c.fwd l with
    | none => return cur
    | some nx =>
      let n ← h.load (some nx)
      if n.m_max_key < key ∧ (n.fwd 0).isSome then findNodeWalk h key l fuel nx
      else return cur

/-- Outer `for` of `find_node` over the levels `l - 1, ..., 0`; the accumulator ends as
`level_lower_bound[0 .. SKIP_LIST_LEVELS)`. -/
def findNodeLevels (h : Heap) (key : Int) (fuel : Nat) :
    Nat → Nat → List Nat → Except Fault (List Nat)
  | 0, _, acc => .ok acc
  | l + 1, cur, acc => do
    let cur1 ← findNodeWalk h key l fuel cur
    findNodeLevels h key fuel l cur1 (cur1 :: acc)

/-- Search `find_node(start, key, level_lower_bound)`: the target block and the
per-level predecessors. -/
def find_node (h : Heap) (start : Option Nat) (key : Int) : Except Fault (Nat × List Nat) := do
  match start with
  | none => throw .nullDeref
  | some s =>
    let lb ← findNodeLevels h key (h.length + 1) SKIP_LIST_LEVELS s []
    let p0 := lb.getD 0 s
    let n0 ← h.load (some p0)
    match n0.fwd 0 with
    | some nx => if n0.m_max_key < key then return (nx, lb) else return (p0, lb)
    | none => return (p0, lb)

/-- Threshold `get_node_lower_bound()`: `0.45 * block_size` truncated.  The code truncates
the product in `double` arithmetic; it equals this quotient for every block size a 16-bit
size field can reach (the two differ only for block sizes from `2 ^ 54` on). -/
def get_node_lower_bound (block_size : Nat) : Nat := block_size * 45 / 100

/-- Relinking loop of `merge_node`: for `l = from, from + 1, ...` redirect
`predecessors[l]->forward[l]` from `node` to `node->forward[l]`, stopping at the first
level whose predecessor does not point at `node`. -/
def unlinkLevels (node : Nat) (preds : List Nat) : Nat → Nat → Heap → Except Fault Heap
  | 0, _, h => .ok h
  | cnt + 1, l, h => do
    let p := preds.getD l node
    let pn ← h.load (some p)
    if pn.fwd l ≠ some node then return h
    let n ← h.load (some node)
    let h1 ← h.modify (some p) (fun x => x.setFwd l (n.fwd l))
    unlinkLevels node preds cnt (l + 1) h1

/-- Loop `for l: head->forward[l] = nullptr` of `merge_node`. -/
def clearForward (n : Node) : Node :=
  { n with forward := n.forward.map (fun _ => none) }

/-- Recursive collapse `merge_node(node)`, acting on the heap. -/
def merge_node (head : Option Nat) (block_size : Nat) :
    Nat → Option Nat → Heap → Except Fault Heap
  | 0, _, _ => .error .fuel
  | fuel + 1, node, h => do
    let n ← h.load node
    let prev_node := n.prev
    let next_node := n.fwd 0
    if node = head then
      match next_node with
      | some _ => merge_node head block_size fuel next_node h
      | none => return h
    else if next_node = none then
      if prev_node = head then
        let p ← h.load prev_node
        let src ← slice n.data 0 n.size
        let pd ← copyInto p.data p.size src
        let psize := (p.size + n.size) % U16
        let last ← readLast pd psize
        let h1 ← h.modify prev_node
          (fun x => { x with data := pd, size := psize, m_max_key := last.key })
        let h2 ← h1.modify head clearForward
        let h3 := match node with
          | some a => h2.free a
          | none => h2
        merge_node head block_size fuel prev_node h3
      else
        merge_node head block_size fuel prev_node h
    else
      let first ← readAt n.data 0
      let (_, predecessors) ← find_node h head first.key
      let nx ← h.load next_node
      let pv ← h.load prev_node
      let h1 ←
        if nx.size < pv.size then do
          if ¬ (nx.size + n.size ≤ block_size) then throw Fault.assertion
          let own ← slice nx.data 0 nx.size
          let d1 ← copyBackInto nx.data n.size own
          let src ← slice n.data 0 n.size
          let d2 ← copyInto d1 0 src
          h.modify next_node (fun x => { x with data := d2, size := (nx.size + n.size) % U16 })
        else do
          if ¬ (pv.size + n.size ≤ block_size) then throw Fault.assertion
          let src ← slice n.data 0 n.size
          let pd ← copyInto pv.data pv.size src
          let psize := (pv.size + n.size) % U16
          let last ← readLast pd psize
          h.modify prev_node
            (fun x => { x with data := pd, size := psize, m_max_key := last.key })
      match node with
      | none => throw Fault.nullDeref
      | some a =>
        let h2 ← unlinkLevels a predecessors SKIP_LIST_LEVELS 0 h1
        let h3 ← h2.modify next_node (fun x => { x with prev := prev_node })
        return h3.free a

/-- Choice of the neighbour in `balance_block`: the predecessor when it exists and the
successor is absent or not larger, otherwise the successor. -/
def pickNeighbour (h : Heap) (prev_node next_node : Option Nat) :
    Except Fault (Option Nat) :=
  match prev_node, next_node with
  | none, _ => pure next_node
  | some _, none => pure prev_node
  | some _, some _ => do
    let pv ← h.load prev_node
    let nx ← h.load next_node
    pure (if pv.size ≥ nx.size then prev_node else next_node)

/-- Redistribution branch of `balance_block`: entries move from the neighbour `another`
(block `an`) into `node` (block `n`). -/
def redistribute (h : Heap) (node another next_node : Option Nat) (n an : Node) :
    Except Fault Heap := do
  let size_after_balance := (an.size + n.size) / 2
  if an.size < size_after_balance then throw Fault.outOfBounds
  let size_to_move := an.size - size_after_balance
  if another = next_node then
    let moved ← slice an.data 0 size_to_move
    let nd ← copyInto n.data n.size moved
    let rest ← slice an.data size_to_move an.size
    let ad ← copyInto an.data 0 rest
    let nsize := (n.size + size_to_move) % U16
    let asize := (an.size + U16 - size_to_move) % U16
    let last ← readLast nd nsize
    let h1 ← h.modify node
      (fun x => { x with data := nd, size := nsize, m_max_key := last.key })
    h1.modify another (fun x => { x with data := ad, size := asize })
  else
    let own ← slice n.data 0 n.size
    let d1 ← copyBackInto n.data (n.size + size_to_move) own
    let moved ← slice an.data (an.size - size_to_move) an.size
    let nd ← copyInto d1 0 moved
    let nsize := (n.size + size_to_move) % U16
    let asize := (an.size + U16 - size_to_move) % U16
    let last ← readLast an.data asize
    let h1 ← h.modify node (fun x => { x with data := nd, size := nsize })
    h1.modify another (fun x => { x with size := asize, m_max_key := last.key })

/-- Underflow handling `balance_block(node)`, acting on the heap. -/
def balance_block (head : Option Nat) (block_size : Nat) (node : Option Nat) (h : Heap) :
    Except Fault Heap := do
  let n ← h.load node
  if n.size < get_node_lower_bound block_size then
    let prev_node := n.prev
    let next_node := n.fwd 0
    if prev_node = none ∧ next_node = none then return h
    let another ← pickNeighbour h prev_node next_node
    let an ← h.load another
    if an.size + n.size ≤ block_size then
      merge_node head block_size (h.length + 2) node h
    else
      redistribute h node another next_node n an
  else
    return h

/-- Cursor `BlockedSkipListIterator`. -/
structure Iterator where
  node : Option Nat
  index : Nat
  forward : Bool
deriving DecidableEq

/-- Comparison `operator==` of iterators: block and index only. -/
def Iterator.same (a b : Iterator) : Bool := a.node == b.node && a.index == b.index

/-- Level splicing loop of `insert` for `l = l, l + 1, ..., SKIP_LIST_LEVELS - 1`. -/
def spliceLevels (height target new_node : Nat) (lb : List Nat) :
    Nat → Nat → Heap → Except Fault Heap
  | 0, _, h => .ok h
  | cnt + 1, l, h => do
    if l < height then
      let p := lb.getD l target
      let pn ← h.load (some p)
      let h1 ←
        if pn.fwd l ≠ some target then do
          let h0 ← h.modify (some new_node) (fun x => x.setFwd l (pn.fwd l))
          h0.modify (some p) (fun x => x.setFwd l (some new_node))
        else do
          let tn ← h.load (some target)
          let h0 ← h.modify (some new_node) (fun x => x.setFwd l (tn.fwd l))
          h0.modify (some target) (fun x => x.setFwd l (some new_node))
      spliceLevels height target new_node lb cnt (l + 1) h1
    else
      let h1 ← h.modify (some new_node) (fun x => x.setFwd l none)
      spliceLevels height target new_node lb cnt (l + 1) h1

/-- Body of `insert(Entry)`.  `draw k` is the value `get_random_level()` returns for the
`k`-th split of this call; the first fuel argument bounds the retries. -/
def insertAux (draw : Nat → Nat) (entry : Entry) :
    Nat → Nat → Container → Except Fault (Container × Iterator)
  | 0, _, _ => .error .fuel
  | fuel + 1, k, c => do
    let (target, blocks_per_level) ← find_node c.heap c.head entry.key
    let tn ← c.heap.load (some target)
    if tn.size = c.block_size then
      let new_node := c.heap.length
      let (tn1, nn1) ← tn.split_into (Node.new 256)
      let h1 := (c.heap.store target tn1) ++ [some nn1]
      let h2 ← h1.modify (some new_node)
        (fun x => { x.setFwd 0 (tn1.fwd 0) with prev := some target })
      let h3 ←
        match tn1.fwd 0 with
        | some nx => h2.modify (some nx) (fun x => { x with prev := some new_node })
        | none => pure h2
      let h4 ← h3.modify (some target) (fun x => x.setFwd 0 (some new_node))
      let h5 ← spliceLevels (draw k) target new_node blocks_per_level
        (SKIP_LIST_LEVELS - 1) 1 h4
      insertAux draw entry fuel (k + 1) { c with heap := h5 }
    else
      let (tn1, pos) ← tn.insert entry
      let h1 := c.heap.store target tn1
      let h2 ← balance_block c.head c.block_size (some target) h1
      return ({ c with heap := h2, m_size := (c.m_size + 1) % U64 },
              { node := some target, index := pos, forward := true })

/-- Insertion `insert(entry)`. -/
def insert (c : Container) (entry : Entry) (draw : Nat → Nat) :
    Except Fault (Container × Iterator) :=
  insertAux draw entry (c.heap.length + 2) 0 c

/-- Iterator `end()`. -/
def Container.end_ : Iterator := { node := none, index := 0, forward := true }

/-- Iterator `begin()`. -/
def Container.begin_ (c : Container) : Iterator :=
  { node := c.head, index := 0, forward := true }

/-- Lookup `find(key)`. -/
def find (c : Container) (key : Int) : Except Fault Iterator := do
  match c.head with
  | none => return Container.end_
  | some _ =>
    let (block, _) ← find_node c.heap c.head key
    let bn ← c.heap.load (some block)
    match ← bn.find key with
    | some pos => return { node := some block, index := pos, forward := true }
    | none => return Container.end_

/-- Dereference `*it`. -/
def deref (h : Heap) (it : Iterator) : Except Fault Entry := do
  let n ← h.load it.node
  readAt n.data it.index

/-- Overwrite-or-insert `update(entry)`. -/
def update (c : Container) (entry : Entry) (draw : Nat → Nat) :
    Except Fault (Container × Iterator) := do
  let iter ← find c entry.key
  if ! iter.same Container.end_ then
    let n ← c.heap.load iter.node
    if n.data.length ≤ iter.index then throw Fault.outOfBounds
    let e ← readAt n.data iter.index
    let h1 ← c.heap.modify iter.node
      (fun x => { x with data := x.data.set iter.index { e with val := entry.val } })
    return ({ c with heap := h1 }, iter)
  else
    insert c entry draw

/-- Removal `erase(key)`. -/
def erase (c : Container) (key : Int) : Except Fault (Container × Option (Int × Int)) := do
  let (target, _) ← find_node c.heap c.head key
  let tn ← c.heap.load (some target)
  let (tn1, entry) ← tn.erase key
  match entry with
  | some _ =>
    let h1 := c.heap.store target tn1
    let h2 ← balance_block c.head c.block_size (some target) h1
    return ({ c with heap := h2, m_size := (c.m_size + U64 - 1) % U64 }, entry)
  | none => return (c, entry)

/-- Loop of `clear()` (and of the destructor): free every block of the level-0 chain. -/
def freeChain : Nat → Option Nat → Heap → Except Fault Heap
  | 0, _, _ => .error .fuel
  | fuel + 1, cur, h =>
    match cur with
    | none => .ok h
    | some a => do
      let n ← h.load cur
      freeChain fuel (n.fwd 0) (h.free a)

/-- Reset `clear()`. -/
def clear (c : Container) : Except Fault Container := do
  let h1 ← freeChain (c.heap.length + 1) c.head c.heap
  return { c with head := none, m_size := 0, heap := h1 }

/-- Iterator `rend()`. -/
def Container.rend : Iterator := { node := none, index := 0, forward := false }

/-- Value of `node->size - 1` converted to `size_t`. -/
def lastIndex (size : Nat) : Nat := (size + U64 - 1) % U64

/-- Step `operator++`. -/
def Iterator.next (h : Heap) (it : Iterator) : Except Fault Iterator := do
  match it.node with
  | none => return it
  | some _ =>
    let n ← h.load it.node
    if it.forward then
      let index := (it.index + 1) % U64
      if index ≥ n.size then return { it with node := n.fwd 0, index := 0 }
      else return { it with index := index }
    else
      if it.index = 0 then
        match n.prev with
        | none => return { it with node := none }
        | some p =>
          let pn ← h.load (some p)
          return { it with node := some p, index := lastIndex pn.size }
      else return { it with index := it.index - 1 }

/-- Loop `for (; it != stop; ++it) visit(*it)`: the entries visited, in order. -/
def collect (h : Heap) (stop : Iterator) : Nat → Iterator → Except Fault (List Entry)
  | 0, _ => .error .fuel
  | fuel + 1, it =>
    if it.same stop then .ok []
    else do
      let e ← deref h it
      let it1 ← it.next h
      let rest ← collect h stop fuel it1
      return e :: rest

/-- Fuel that covers any traversal of the heap: every step either advances inside a
block (fewer than `2^16` times) or moves on to another block. -/
def travFuel (h : Heap) : Nat := h.length * U16 + 1

/-- Entries visited from `begin()` to `end()`. -/
def forwardEntries (c : Container) : Except Fault (List Entry) :=
  collect c.heap Container.end_ (travFuel c.heap) c.begin_

/-- Loop of `rbegin()`: follow `forward[0]` to the last block. -/
def lastBlock (h : Heap) : Nat → Option Nat → Except Fault (Option Nat)
  | 0, _ => .error .fuel
  | fuel + 1, cur => do
    let n ← h.load cur
    match n.fwd 0 with
    | none => return cur
    | some nx => lastBlock h fuel (some nx)

/-- Iterator `rbegin()`. -/
def rbegin (c : Container) : Except Fault Iterator := do
  let last ← lastBlock c.heap (c.heap.length + 1) c.head
  let n ← c.heap.load last
  return { node := last, index := lastIndex n.size, forward := false }

/-- Entries visited from `rbegin()` to `rend()`. -/
def backwardEntries (c : Container) : Except Fault (List Entry) := do
  let it ← rbegin c
  collect c.heap Container.rend (travFuel c.heap) it

/-- Loop of `merge`: insert into `a` every entry visited in `other`; `draws i` supplies
the level draws of the `i`-th insert. -/
def mergeLoop (other : Heap) (draws : Nat → Nat → Nat) :
    Nat → Nat → Iterator → Container → Except Fault Container
  | 0, _, _, _ => .error .fuel
  | fuel + 1, i, it, a =>
    if it.same Container.end_ then .ok a
    else do
      let e ← deref other it
      let (a1, _) ← insert a e (draws i)
      let it1 ← it.next other
      mergeLoop other draws fuel (i + 1) it1 a1

/-- Whole-structure merge `a.merge(other)`: returns `(a, other)` after the call. -/
def merge (a other : Container) (draws : Nat → Nat → Nat) :
    Except Fault (Container × Container) := do
  let a1 ← mergeLoop other.heap draws (travFuel other.heap) 0 other.begin_ a
  let o1 ← clear other
  return (a1, o1)

/-- Live entries of the blocks of the level-0 chain starting at `cur`, in chain order. -/
def chainEntries (h : Heap) : Nat → Option Nat → Except Fault (List Entry)
  | 0, _ => .error .fuel
  | fuel + 1, cur =>
    match cur with
    | none => .ok []
    | some _ => do
      let n ← h.load cur
      let live ← slice n.data 0 n.size
      let rest ← chainEntries h fuel (n.fwd 0)
      return live ++ rest

/-- Container operations of a test sequence. -/
inductive Op where
  | ins (key val : Int) (draw : Nat → Nat)
  | del (key : Int)

/-- Apply one operation. -/
def step (c : Container) : Op → Except Fault Container
  | .ins k v draw => do
    let (c1, _) ← insert c ⟨k, v⟩ draw
    return c1
  | .del k => do
    let (c1, _) ← erase c k
    return c1

/-- Apply a sequence of operations, left to right. -/
def run (c : Container) : List Op → Except Fault Container
  | [] => .ok c
  | op :: ops => do
    let c1 ← step c op
    run c1 ops

/-- Level draw used in the scenarios: every new block gets height 1. -/
def lowDraw : Nat → Nat := fun _ => 1

/-- Insertions of the keys `lo, lo + 1, ..., lo + n - 1`, each with itself as value. -/
def ascending : Nat → Nat → List Op
  | _, 0 => []
  | lo, n + 1 => Op.ins (lo : Nat) (lo : Nat) lowDraw :: ascending (lo + 1) n

/-- Removals of the keys `hi, hi - 1, ..., hi - n + 1`. -/
def descendingErase : Nat → Nat → List Op
  | _, 0 => []
  | hi, n + 1 => Op.del (hi : Nat) :: descendingErase (hi - 1) n

/-- Storage holding the entries `lo, ..., lo + n - 1` (value = key) followed by `rest`. -/
def keysThen : Nat → Nat → List Entry → List Entry
  | _, 0, rest => rest
  | lo, n + 1, rest => ⟨(lo : Nat), (lo : Nat)⟩ :: keysThen (lo + 1) n rest

/-- Storage of `pad` default entries. -/
def blank (pad : Nat) : List Entry := List.replicate pad Entry.dflt

/-- Forward links of a block that is linked at level 0 only. -/
def linkAt0 (p : Option Nat) : List (Option Nat) := p :: List.replicate 5 none

/-- Block that holds the keys `lo, ..., lo + cnt - 1` and has no successor. -/
def growing (lo cnt : Nat) (prev : Option Nat) : Node :=
  { m_max_key := ((lo + cnt - 1 : Nat) : Int), size := cnt, capacity := 256,
    forward := linkAt0 none, prev := prev, data := keysThen lo cnt (blank (256 - cnt)) }

/-- One block holding the keys `1 .. n`. -/
def stateA (n : Nat) : Container :=
  { head := some 0, m_size := n, block_size := 256, heap := [some (growing 1 n none)] }

/-- Head block after its split: keys `1 .. 128` live, the moved upper half still in the
storage behind them. -/
def headHalf (next : Nat) : Node :=
  { m_max_key := 128, size := 128, capacity := 256, forward := linkAt0 (some next),
    prev := none, data := keysThen 1 256 [] }

/-- Two blocks holding the keys `1 .. 128` and `129 .. 128 + cnt`. -/
def stateB (cnt : Nat) : Container :=
  { head := some 0, m_size := 128 + cnt, block_size := 256,
    heap := [some (headHalf 1), some (growing 129 cnt (some 0))] }

/-- Three blocks holding the keys `1 .. 128`, `129 .. 256` and `257 .. n`; the storage
of the last block still holds the keys up to `385` that were erased from its end. -/
def stateC (n : Nat) : Container :=
  { head := some 0, m_size := n, block_size := 256,
    heap := [some (headHalf 1),
             some { m_max_key := 256, size := 128, capacity := 256, forward := linkAt0 (some 2),
                    prev := some 0, data := keysThen 129 256 [] },
             some { m_max_key := n, size := n - 256, capacity := 256, forward := linkAt0 none,
                    prev := some 1, data := keysThen 257 129 (blank 127) }] }

/-- State after the tail block underflowed and its predecessor was merged into it. -/
def stateD : Container :=
  { head := some 0, m_size := 370, block_size := 256,
    heap := [some (headHalf 2),
             none,
             some { m_max_key := 370, size := 242, capacity := 256, forward := linkAt0 none,
                    prev := some 0, data := keysThen 129 128 (⟨385, 385⟩ :: blank 127) }] }

/-- The failing scenario: insert the keys `1 .. 385` in ascending order, then erase the
keys `385, 384, ..., 371`. -/
def faultyOps : List Op := ascending 1 385 ++ descendingErase 385 15

/-- Reference map: the effect of one operation on the expected key-value mapping. -/
def refStep (m : Int → Option Int) : Op → (Int → Option Int)
  | .ins k v _ => fun x => if x = k then some v else m x
  | .del k => fun x => if x = k then none else m x

/-- Reference map after a sequence of operations on an empty container. -/
def refMap (ops : List Op) : Int → Option Int :=
  ops.foldl refStep (fun _ => none)

/-- No insert of the sequence uses a key that is stored at that moment; `stored` lists
the keys stored before the sequence. -/
def freshOps : List Int → List Op → Bool
  | _, [] => true
  | stored, .ins k _ _ :: ops => decide (k ∉ stored) && freshOps (k :: stored) ops
  | stored, .del k :: ops => freshOps (stored.filter (fun x => decide (x ≠ k))) ops

/-- Two consecutive calls `update(k, v1); update(k, v2)`. -/
def updateTwice (c : Container) (k v1 v2 : Int) (draw : Nat → Nat) :
    Except Fault Container := do
  let (c1, _) ← update c ⟨k, v1⟩ draw
  let (c2, _) ← update c1 ⟨k, v2⟩ draw
  return c2

/-- Live entries of the container: the first `size` entries of every block of the
level-0 chain, in chain order. -/
def liveEntries (c : Container) : Except Fault (List Entry) :=
  chainEntries c.heap (c.heap.length + 1) c.head

/-- The level-0 chain starting at pointer `p` visits exactly the live blocks `ns` and
then ends with a null pointer. -/
def isChain (h : Heap) : Option Nat → List Nat → Bool
  | p, [] => p.isNone
  | p, a :: as =>
    p == some a &&
      match h.load (some a) with
      | .ok n => isChain h (n.fwd 0) as
      | .error _ => false

/-- Size, level-0 links and number of forward pointers of a block. -/
structure Lk where
  size : Nat
  prev : Option Nat
  next : Option Nat
  nf : Nat
deriving DecidableEq

/-- Size and level-0 links of a block of the heap. -/
def Node.lk (n : Node) : Lk :=
  { size := n.size, prev := n.prev, next := n.fwd 0, nf := n.forward.length }

/-- Skeleton of a heap: for every slot the size and level-0 links of its block. -/
def skel (h : Heap) : List (Option Lk) := h.map (Option.map Node.lk)

/-- Structural invariant of the skeleton of a container with block capacity 256 whose
head block sits at address 0, relative to a ranking `r` of the addresses:

* the head block is live and has no predecessor;
* level-0 links and predecessor links of live blocks stay inside the heap;
* no live block holds more than 256 entries;
* a live block with fewer than 115 entries has neither predecessor nor successor;
* when `a` links forward to a live block `b`, the predecessor link of `b` is `a`;
* when the predecessor link of `b` is a live block `a`, then `a` links forward to `b`
  or to a freed block;
* two live blocks with the same live predecessor are equal;
* links go up in rank: a block ranks below its successor and above its predecessor;
* every live block has `SKIP_LIST_LEVELS` forward pointers. -/
structure InvR (r : Nat → ℚ) (s : List (Option Lk)) : Prop where
  head_live : ∃ k : Lk, s[0]? = some (some k) ∧ k.prev = none
  next_lt : ∀ (a : Nat) (k : Lk) (b : Nat), s[a]? = some (some k) → k.next = some b →
    b < s.length
  prev_lt : ∀ (a : Nat) (k : Lk) (b : Nat), s[a]? = some (some k) → k.prev = some b →
    b < s.length
  size_le : ∀ (a : Nat) (k : Lk), s[a]? = some (some k) → k.size ≤ 256
  lone : ∀ (a : Nat) (k : Lk), s[a]? = some (some k) → k.size < 115 →
    k.prev = none ∧ k.next = none
  next_prev : ∀ (a : Nat) (k : Lk) (b : Nat) (m : Lk), s[a]? = some (some k) →
    s[b]? = some (some m) → k.next = some b → m.prev = some a
  prev_next : ∀ (a : Nat) (k : Lk) (b : Nat) (m : Lk), s[a]? = some (some k) →
    s[b]? = some (some m) → m.prev = some a →
    k.next = some b ∨ ∃ x : Nat, k.next = some x ∧ s[x]? = some none
  prev_unique : ∀ (a : Nat) (k : Lk) (b : Nat) (m : Lk) (c : Nat) (j : Lk),
    s[a]? = some (some k) → s[b]? = some (some m) → s[c]? = some (some j) →
    m.prev = some a → j.prev = some a → b = c
  rank_next : ∀ (a : Nat) (k : Lk) (b : Nat), s[a]? = some (some k) → k.next = some b →
    r a < r b
  rank_prev : ∀ (a : Nat) (k : Lk) (b : Nat), s[a]? = some (some k) → k.prev = some b →
    r b < r a
  nf_eq : ∀ (a : Nat) (k : Lk), s[a]? = some (some k) → k.nf = SKIP_LIST_LEVELS

/-- Structural invariant of a skeleton: `InvR` for some ranking. -/
def InvS (s : List (Option Lk)) : Prop := ∃ r : Nat → ℚ, InvR r s

/-- Structural invariant of a heap. -/
def Inv (h : Heap) : Prop := InvS (skel h)

/-- Structural invariant of a container: head block at address 0, block capacity 256,
and the heap invariant. -/
def CInv (c : Container) : Prop := c.head = some 0 ∧ c.block_size = 256 ∧ Inv c.heap

/-- Heap whose skeleton is `s0`, which satisfies the invariant, except that the block
`t`, which has a link, holds 114 entries: the state between the removal of an entry and
the balancing step. -/
structure Dent (r : Nat → ℚ) (s0 : List (Option Lk)) (h : Heap) (t : Nat) (kt : Lk) :
    Prop where
  inv : InvR r s0
  ht : s0[t]? = some (some kt)
  hsk : skel h = s0.set t (some { kt with size := 114 })
  links : ¬ (kt.prev = none ∧ kt.next = none)

/-- Blocks of the level-0 chain starting at `cur`, in chain order: follow `forward[0]`
for at most `fuel` blocks, until the null pointer or a freed block. -/
def chainBlocks (h : Heap) : Nat → Option Nat → List Node
  | 0, _ => []
  | _ + 1, none => []
  | fuel + 1, some a =>
    match h[a]? with
    | some (some n) => n :: chainBlocks h fuel (n.fwd 0)
    | _ => []

/-- Entries held by the block at address `a`: the first `size` entries of its array. -/
def blockEntries (h : Heap) (a : Nat) : List Entry :=
  match h[a]? with
  | some (some n) => n.data.take n.size
  | _ => []

/-- The predecessor links starting at pointer `p` visit exactly the live blocks `ns` and
then end with a null pointer. -/
def isRevChain (h : Heap) : Option Nat → List Nat → Bool
  | p, [] => p.isNone
  | p, a :: as =>
    p == some a &&
      match h.load (some a) with
      | .ok n => isRevChain h n.prev as
      | .error _ => false

/-- Public operations of a test sequence: `insert`, `update` and `erase`. -/
inductive PubOp where
  | ins (key val : Int) (draw : Nat → Nat)
  | upd (key val : Int) (draw : Nat → Nat)
  | del (key : Int)

/-- Apply one public operation. -/
def stepPub (c : Container) : PubOp → Except Fault Container
  | .ins k v draw => do
    let (c1, _) ← insert c ⟨k, v⟩ draw
    return c1
  | .upd k v draw => do
    let (c1, _) ← update c ⟨k, v⟩ draw
    return c1
  | .del k => do
    let (c1, _) ← erase c k
    return c1

/-- Apply a sequence of public operations, left to right. -/
def runPub (c : Container) : List PubOp → Except Fault Container
  | [] => .ok c
  | op :: ops => do
    let c1 ← stepPub c op
    runPub c1 ops

/-- Live entries of a block: the first `size` entries of its array. -/
def Node.live (n : Node) : List Entry := n.data.take n.size

/-- The fault an evaluation ended with, if any. -/
def faultOf {α : Type} : Except Fault α → Option Fault
  | .ok _ => none
  | .error f => some f

/-- Newly constructed container with block capacity `B` whose entry count field starts
at 0. -/
def newCap (B : Nat) : Container :=
  { head := some 0, m_size := 0, block_size := B, heap := [some (Node.new B)] }

/-- Head block after `insert(-5, 1)` on a new container. -/
def negBlock : Node :=
  { m_max_key := 0, size := 1, capacity := 256, forward := linkAt0 none, prev := none,
    data := ⟨-5, 1⟩ :: blank 255 }

/-- Container after `insert(-5, 1)` on a new container. -/
def stateNeg : Container :=
  { head := some 0, m_size := 1, block_size := 256, heap := [some negBlock] }

/-- Block of capacity 4 that holds the three entries with keys `1, 2, 3`. -/
def oddBlock : Node :=
  { m_max_key := 3, size := 3, capacity := 4, forward := linkAt0 none, prev := none,
    data := [⟨1, 1⟩, ⟨2, 2⟩, ⟨3, 3⟩, ⟨0, 0⟩] }

/-- Head block of capacity 4 after the keys `1 .. 5` were inserted. -/
def cap4Head : Node :=
  { m_max_key := 2, size := 2, capacity := 4, forward := linkAt0 (some 1), prev := none,
    data := [⟨1, 1⟩, ⟨2, 2⟩, ⟨3, 3⟩, ⟨4, 4⟩] }

/-- Block created by the split of the head block of capacity 4. -/
def cap4New : Node :=
  { m_max_key := 5, size := 3, capacity := 256, forward := linkAt0 none, prev := some 0,
    data := ⟨3, 3⟩ :: ⟨4, 4⟩ :: ⟨5, 5⟩ :: blank 253 }

/-- Container of block capacity 4 after the keys `1 .. 5` were inserted. -/
def stateCap4 : Container :=
  { head := some 0, m_size := 5, block_size := 4, heap := [some cap4Head, some cap4New] }

/-- State `stateD` after the key 200 was erased from its tail block. -/
def stateE : Container :=
  { head := some 0, m_size := 369, block_size := 256,
    heap := [some (headHalf 2),
             none,
             some { m_max_key := 0, size := 241, capacity := 256, forward := linkAt0 none,
                    prev := some 0,
                    data := keysThen 129 71 (keysThen 201 56 (⟨385, 385⟩ :: blank 128)) }] }

/-- Container of block capacity 1 that holds the key 2. -/
def stateCap1 : Container :=
  { head := some 0, m_size := 1, block_size := 1,
    heap := [some { m_max_key := 2, size := 1, capacity := 1, forward := linkAt0 none,
                    prev := none, data := [⟨2, 2⟩] }] }

/-- Block with an array of `B` entries that holds the keys `lo, ..., lo + cnt - 1` and has
no successor. -/
def grown (B lo cnt : Nat) (prev : Option Nat) : Node :=
  { m_max_key := ((lo + cnt - 1 : Nat) : Int), size := cnt, capacity := B % U16,
    forward := List.replicate SKIP_LIST_LEVELS none, prev := prev,
    data := keysThen lo cnt (blank (B - cnt)) }

/-- Container of block capacity `B` whose single block holds the keys `1 .. n`. -/
def stateG (B n : Nat) : Container :=
  { head := some 0, m_size := n, block_size := B, heap := [some (grown B 1 n none)] }

/-- A block keeps its live entries inside its array, strictly ascending by key. -/
def Node.sorted (n : Node) : Prop :=
  n.size ≤ n.data.length ∧ n.live.Pairwise (fun x y => x.key < y.key)

/-- Every live block of the heap is sorted and holds keys of `K` only. -/
def SortedHeap (h : Heap) (K : List Int) : Prop :=
  ∀ (a : Nat) (n : Node), h[a]? = some (some n) → n.sorted ∧ ∀ x ∈ n.live, x.key ∈ K

/-- Head block after `insert(1, 1); insert(1, 2)` on a new container. -/
def dupBlock : Node :=
  { m_max_key := 1, size := 2, capacity := 256, forward := linkAt0 none, prev := none,
    data := ⟨1, 1⟩ :: ⟨1, 2⟩ :: blank 254 }

/-- Container after `insert(1, 1); insert(1, 2)` on a new container. -/
def stateDup : Container :=
  { head := some 0, m_size := 2, block_size := 256, heap := [some dupBlock] }

/-- Cached `max_key` of the block at address `a` (0 for a slot without block). -/
def maxKeyAt (h : Heap) (a : Nat) : Int :=
  match h[a]? with
  | some (some n) => n.m_max_key
  | _ => 0

/-- Every forward pointer, at every level, of a block of the chain `cs` is null or leads
to a block of the chain with a greater cached `max_key`: following `forward[l]` visits
blocks of the level-0 chain in strictly increasing `max_key` order. -/
def levelsOrdered (h : Heap) (cs : List Nat) : Prop :=
  ∀ (l : Nat), l < SKIP_LIST_LEVELS → ∀ b ∈ cs, ∀ n : Node, h[b]? = some (some n) →
    ∀ nx : Nat, n.fwd l = some nx → nx ∈ cs ∧ maxKeyAt h b < maxKeyAt h nx

/-- The live entries of every block of the chain `cs` are strictly ascending by key. -/
def blocksSorted (h : Heap) (cs : List Nat) : Prop :=
  ∀ b ∈ cs, (blockEntries h b).Pairwise (fun x y => x.key < y.key)

/-- The cached `max_key` of every block of the chain `cs` that holds an entry is the key
of its last live entry. -/
def maxKeyCorrect (h : Heap) (cs : List Nat) : Prop :=
  ∀ b ∈ cs, ∀ e : Entry, (blockEntries h b).getLast? = some e → maxKeyAt h b = e.key

/-- Block the search is meant to end at: the first block of the chain whose cached
`max_key` is at least `key`, or the last block of the chain when there is none. -/
def routeTarget (h : Heap) (key : Int) (cs : List Nat) : Option Nat :=
  match cs.find? (fun b => decide (key ≤ maxKeyAt h b)) with
  | some b => some b
  | none => cs.getLast?

/-- Heap with an empty head block followed by a block that holds the keys `-5` and `7`. -/
def heapSentinel : Heap :=
  [some { m_max_key := 0, size := 0, capacity := 4, forward := linkAt0 (some 1), prev := none,
          data := blank 4 },
   some { m_max_key := 7, size := 2, capacity := 4, forward := linkAt0 none, prev := some 0,
          data := [⟨-5, 1⟩, ⟨7, 2⟩, ⟨0, 0⟩, ⟨0, 0⟩] }]

/-- The live entries of the blocks `cs`, read in chain order. -/
def entriesOfBlocks (h : Heap) (cs : List Nat) : List Entry :=
  (cs.map (blockEntries h)).flatten

/-- Two linked blocks of capacity 4 with the keys 1, 3 and 5, 7. -/
def heapPair : Heap :=
  [some { m_max_key := 3, size := 2, capacity := 4, forward := linkAt0 (some 1), prev := none,
          data := [⟨1, 1⟩, ⟨3, 3⟩, ⟨0, 0⟩, ⟨0, 0⟩] },
   some { m_max_key := 7, size := 2, capacity := 4, forward := linkAt0 none, prev := some 0,
          data := [⟨5, 5⟩, ⟨7, 7⟩, ⟨0, 0⟩, ⟨0, 0⟩] }]

/-- Executable form of `levelsOrdered`. -/
def levelsOrderedB (h : Heap) (cs : List Nat) : Bool :=
  cs.all (fun b =>
    match h[b]? with
    | some (some n) =>
      (List.range SKIP_LIST_LEVELS).all (fun l =>
        match n.fwd l with
        | some nx => decide (nx ∈ cs) && decide (maxKeyAt h b < maxKeyAt h nx)
        | none => true)
    | _ => true)

/-- Executable form of `maxKeyCorrect`. -/
def maxKeyCorrectB (h : Heap) (cs : List Nat) : Bool :=
  cs.all (fun b =>
    match (blockEntries h b).getLast? with
    | some e => decide (maxKeyAt h b = e.key)
    | none => true)

/-- Head block of capacity 8 with the keys 1, 2, 3, followed by block 1. -/
def trioHead : Node :=
  { m_max_key := 3, size := 3, capacity := 8, forward := linkAt0 (some 1), prev := none,
    data := [⟨1, 1⟩, ⟨2, 2⟩, ⟨3, 3⟩, ⟨0, 0⟩, ⟨0, 0⟩, ⟨0, 0⟩, ⟨0, 0⟩, ⟨0, 0⟩] }

/-- Underfull interior block of capacity 8 with the keys 10, 11, between blocks 0
and 2. -/
def trioMid : Node :=
  { m_max_key := 11, size := 2, capacity := 8, forward := linkAt0 (some 2), prev := some 0,
    data := [⟨10, 10⟩, ⟨11, 11⟩, ⟨0, 0⟩, ⟨0, 0⟩, ⟨0, 0⟩, ⟨0, 0⟩, ⟨0, 0⟩, ⟨0, 0⟩] }

/-- Last block of capacity 8 with the keys 20, 21, 22, 23, behind block 1. -/
def trioTail : Node :=
  { m_max_key := 23, size := 4, capacity := 8, forward := linkAt0 none, prev := some 1,
    data := [⟨20, 20⟩, ⟨21, 21⟩, ⟨22, 22⟩, ⟨23, 23⟩, ⟨0, 0⟩, ⟨0, 0⟩, ⟨0, 0⟩, ⟨0, 0⟩] }

/-- Three linked blocks of capacity 8 whose middle block is underfull. -/
def heapTrio : Heap := [some trioHead, some trioMid, some trioTail]

/-- Three blocks after the keys `1 .. 385` were inserted and `385, 384` and
`256, 255, ..., 244` were erased: the head block holds 128 entries, the middle block
`129 .. 243` (115 entries) and the last block `257 .. 383` (127 entries). -/
def stateU : Container :=
  { head := some 0, m_size := 370, block_size := 256,
    heap := [some (headHalf 1),
             some { m_max_key := 243, size := 115, capacity := 256, forward := linkAt0 (some 2),
                    prev := some 0, data := keysThen 129 256 [] },
             some { m_max_key := 383, size := 127, capacity := 256, forward := linkAt0 none,
                    prev := some 1, data := keysThen 257 129 (blank 127) }] }

/-- Scenario of a direct underflow of an interior block: insert the keys `1 .. 385` in
ascending order, erase `385` and `384`, then erase `256, 255, ..., 243`. -/
def underflowOps : List Op :=
  ascending 1 385 ++ (descendingErase 385 2 ++ descendingErase 256 14)

/-- State after the scenario `danglingOps`: the head block still links to block 2, which
was freed; block 3 holds the entries that were merged into it. -/
def stateH : Container :=
  { head := some 0, m_size := 370, block_size := 256,
    heap := [some (headHalf 2), none, none,
             some { m_max_key := 1001, size := 242, capacity := 256, forward := linkAt0 none,
                    prev := some 0,
                    data := keysThen 131 126
                      (⟨385, 385⟩ :: ⟨0, 0⟩ :: ⟨1016, 1016⟩ :: blank 127) }] }

/-- Scenario that leaves a dangling link: the scenario `faultyOps`, then erase `129` and
`130`, insert `1000 .. 1016` in ascending order and erase `1016, 1015, ..., 1002`. -/
def danglingOps : List Op :=
  faultyOps ++ ([Op.del 129, Op.del 130] ++ (ascending 1000 17 ++ descendingErase 1016 15))

/-- Head block after the keys `1 .. k` were erased from its front: the keys
`k + 1 .. 128` are live, behind them the storage holds `k` copies of the entry 128 and
the keys `129 .. 256` of the former upper half. -/
def headFront (k next : Nat) : Node :=
  { m_max_key := 128, size := 128 - k, capacity := 256, forward := linkAt0 (some next),
    prev := none,
    data := keysThen (k + 1) (128 - k) (List.replicate k ⟨128, 128⟩ ++ keysThen 129 128 []) }

/-- Last block of `stateD`: the keys `129 .. 256` of the merged block, the stale entry 385
and default entries in its live range of 242 entries; cached `max_key` 370. -/
def tailD : Node :=
  { m_max_key := 370, size := 242, capacity := 256, forward := linkAt0 none,
    prev := some 0, data := keysThen 129 128 (⟨385, 385⟩ :: blank 127) }

/-- Heap of `stateF` after `Node::erase(14)` on the head block, before `balance_block`. -/
def heapF : Heap := [some (headFront 14 2), none, some tailD]

/-- Level `l` successor of the block at address `b` (null for a slot without block). -/
def fwdAt (h : Heap) (b l : Nat) : Option Nat :=
  match h[b]? with
  | some (some n) => n.fwd l
  | _ => none

/-- Keys held by the block at address `b`, in storage order. -/
def blockKeys (h : Heap) (b : Nat) : List Int := (blockEntries h b).map Entry.key

/-- Order between the blocks of the chain `cs`: every key of a later block is above the
cached `max_key` of every earlier block. -/
def blocksOrdered (h : Heap) (cs : List Nat) : Prop :=
  cs.Pairwise (fun b b2 => ∀ k ∈ blockKeys h b2, maxKeyAt h b < k)

/-- The cached `max_key` of every block of `cs` is the last key the block holds (so the
block holds a key). -/
def maxKeyExact (h : Heap) (cs : List Nat) : Prop :=
  ∀ b ∈ cs, (blockKeys h b).getLast? = some (maxKeyAt h b)

/-- Routing invariant of a heap whose level-0 chain from the head `s` is `cs`: the chain
is intact, the links of every level lead to later blocks of the chain, the keys of every
block ascend, later blocks hold greater keys, and, once the chain has more than one
block, every cached `max_key` is the last key of its block. -/
structure Routed (h : Heap) (s : Nat) (cs : List Nat) : Prop where
  chain : isChain h (some s) cs = true
  levels : levelsOrdered h cs
  exact : 1 < cs.length → maxKeyExact h cs
  order : blocksOrdered h cs
  sorted : ∀ b ∈ cs, (blockKeys h b).Pairwise (fun x y => x < y)

/-- No insert of the sequence gives a key that an earlier operation of the sequence
stored, and the sequence holds no removal; `stored` lists the keys stored before the
sequence. -/
def freshPub : List Int → List PubOp → Bool
  | _, [] => true
  | stored, .ins k _ _ :: ops => decide (k ∉ stored) && freshPub (k :: stored) ops
  | stored, .upd k _ _ :: ops => freshPub (k :: stored) ops
  | _, .del _ :: _ => false

/-- Level `l` links after the splicing loop of `insert` handled level `l` on the heap `g`:
below `height` the new block `nw` is linked in behind the recorded predecessor (or behind
`t` when the predecessor links to `t`), from `height` on the link of `nw` is null. -/
def spliceFwd (height t nw : Nat) (lb : List Nat) (g : Heap) (l b : Nat) : Option Nat :=
  if l < height then
    if fwdAt g (lb.getD l t) l ≠ some t then
      (if b = lb.getD l t then some nw
       else if b = nw then fwdAt g (lb.getD l t) l else fwdAt g b l)
    else (if b = t then some nw else if b = nw then fwdAt g t l else fwdAt g b l)
  else (if b = nw then none else fwdAt g b l)

/-- Head block after `insert(1, 1); update(2, 2); update(1, 7)` on a new container. -/
def updBlock : Node :=
  { m_max_key := 2, size := 2, capacity := 256, forward := linkAt0 none, prev := none,
    data := ⟨1, 7⟩ :: ⟨2, 2⟩ :: blank 254 }

/-- Container after `insert(1, 1); update(2, 2); update(1, 7)` on a new container. -/
def stateUpd : Container :=
  { head := some 0, m_size := 2, block_size := 256, heap := [some updBlock] }

/-! ## Theorems -/

/-- An evaluation that yields `some a` through `toOption` returned `a`. -/
theorem ok_of_toOption {α : Type} {e : Except Fault α} {a : α}
    (h : e.toOption = some a) : e = .ok a := by
  cases e with
  | error f => simp [Except.toOption] at h
  | ok b =>
    simp only [Except.toOption, Option.some.injEq] at h
    rw [h]

/-- Running two operation sequences one after the other. -/
theorem run_append (c : Container) (xs ys : List Op) :
    run c (xs ++ ys) = (run c xs).bind (fun c1 => run c1 ys) := by
  induction xs generalizing c with
  | nil => rfl
  | cons op ops ih =>
    simp only [List.cons_append, run]
    cases h : step c op with
    | error e => rfl
    | ok c1 => exact ih c1

/-- Chaining two evaluated runs. -/
theorem run_chain {c c1 c2 : Container} {xs ys : List Op}
    (h1 : run c xs = .ok c1) (h2 : run c1 ys = .ok c2) : run c (xs ++ ys) = .ok c2 := by
  rw [run_append, h1]
  exact h2

/-- The ascending insertions split at any point. -/
theorem ascending_add (lo n m : Nat) :
    ascending lo (n + m) = ascending lo n ++ ascending (lo + n) m := by
  induction n generalizing lo with
  | zero => simp [ascending]
  | succ n ih =>
    have h : n + 1 + m = (n + m) + 1 := by omega
    rw [h]
    simp only [ascending, List.cons_append]
    rw [ih (lo + 1)]
    have h2 : lo + 1 + n = lo + (n + 1) := by omega
    rw [h2]

/-- The descending removals split at any point. -/
theorem descendingErase_add (hi n m : Nat) :
    descendingErase hi (n + m) = descendingErase hi n ++ descendingErase (hi - n) m := by
  induction n generalizing hi with
  | zero => simp [descendingErase]
  | succ n ih =>
    have h : n + 1 + m = (n + m) + 1 := by omega
    rw [h]
    simp only [descendingErase, List.cons_append]
    rw [ih (hi - 1)]
    have h2 : hi - 1 - n = hi - (n + 1) := by omega
    rw [h2]

/-- Length of the generated storage. -/
theorem keysThen_length (lo n : Nat) (rest : List Entry) :
    (keysThen lo n rest).length = n + rest.length := by
  induction n generalizing lo with
  | zero => simp [keysThen]
  | succ n ih =>
    simp only [keysThen, List.length_cons, ih]
    omega

/-- Entries of the generated key range. -/
theorem keysThen_getElem? (lo n i : Nat) (rest : List Entry) (h : i < n) :
    (keysThen lo n rest)[i]? = some ⟨((lo + i : Nat) : Int), ((lo + i : Nat) : Int)⟩ := by
  induction n generalizing lo i with
  | zero => omega
  | succ n ih =>
    cases i with
    | zero => simp [keysThen]
    | succ i =>
      simp only [keysThen, List.getElem?_cons_succ]
      rw [ih (lo + 1) i (by omega)]
      have : lo + 1 + i = lo + (i + 1) := by omega
      rw [this]

/-- Writing the slot just behind the generated key range. -/
theorem keysThen_set (lo n : Nat) (x e : Entry) (rest : List Entry) :
    (keysThen lo n (x :: rest)).set n e = keysThen lo n (e :: rest) := by
  induction n generalizing lo with
  | zero => simp [keysThen]
  | succ n ih => simp only [keysThen, List.set_cons_succ, ih]

/-- Extending the generated key range by its next key. -/
theorem keysThen_snoc (lo n : Nat) (rest : List Entry) :
    keysThen lo n (⟨((lo + n : Nat) : Int), ((lo + n : Nat) : Int)⟩ :: rest)
      = keysThen lo (n + 1) rest := by
  induction n generalizing lo with
  | zero => simp [keysThen]
  | succ n ih =>
    have : lo + (n + 1) = lo + 1 + n := by omega
    rw [this]
    show _ :: keysThen (lo + 1) n _ = _ :: keysThen (lo + 1) (n + 1) rest
    rw [ih (lo + 1)]

/-- The search of `upper_bound` returns the end of a range whose keys are all at most
the key searched for. -/
theorem upperBound_all_le (data : List Entry) (key : Int) (fuel first len : Nat)
    (hf : len ≤ fuel)
    (h : ∀ i, first ≤ i → i < first + len → ∃ e, data[i]? = some e ∧ e.key ≤ key) :
    upperBound data key fuel first len = .ok (first + len) := by
  induction fuel generalizing first len with
  | zero =>
    have : len = 0 := by omega
    subst this
    rfl
  | succ fuel ih =>
    unfold upperBound
    by_cases hl : len = 0
    · simp [hl]
    · simp only [hl, if_false]
      obtain ⟨e, he, hk⟩ := h (first + len / 2) (by omega) (by omega)
      simp only [he]
      have hnot : ¬ key < e.key := not_lt.mpr hk
      simp only [hnot, if_false]
      rw [ih (first + len / 2 + 1) (len - len / 2 - 1) (by omega)]
      · congr 1
        omega
      · intro i h1 h2
        exact h i (by omega) (by omega)

/-- Appending the next key to a growing block. -/
theorem insert_growing (lo cnt : Nat) (prev : Option Nat) (hlo : 1 ≤ lo) (hc : cnt < 256) :
    (growing lo cnt prev).insert ⟨((lo + cnt : Nat) : Int), ((lo + cnt : Nat) : Int)⟩
      = .ok (growing lo (cnt + 1) prev, cnt) := by
  have hub : upperBound (keysThen lo cnt (blank (256 - cnt))) ((lo + cnt : Nat) : Int) cnt 0 cnt
      = .ok cnt := by
    have := upperBound_all_le (keysThen lo cnt (blank (256 - cnt))) ((lo + cnt : Nat) : Int)
      cnt 0 cnt (le_refl _) (by
        intro i _ h2
        refine ⟨_, keysThen_getElem? lo cnt i _ (by omega), ?_⟩
        simp only [Nat.cast_le]
        omega)
    simpa using this
  have hpad : blank (256 - cnt) = Entry.dflt :: blank (256 - (cnt + 1)) := by
    have : 256 - cnt = (256 - (cnt + 1)) + 1 := by omega
    rw [this]
    simp [blank, List.replicate_succ]
  have hmax : max ((lo + cnt - 1 : Nat) : Int) ((lo + cnt : Nat) : Int)
      = ((lo + (cnt + 1) - 1 : Nat) : Int) := by
    have : lo + (cnt + 1) - 1 = lo + cnt := by omega
    rw [this, max_eq_right]
    simp only [Nat.cast_le]
    omega
  have hmod : (cnt + 1) % U16 = cnt + 1 := Nat.mod_eq_of_lt (by unfold U16; omega)
  unfold Node.insert
  simp only [growing, hub, slice, copyBackInto, le_refl, if_true, List.length_nil,
    bind, Except.bind, pure, Except.pure, keysThen_length, hmax, hmod]
  have hlen : ¬ (cnt + (blank (256 - cnt)).length ≤ cnt) := by
    simp [blank]
    omega
  simp only [hlen, if_false]
  rw [hpad, keysThen_set, keysThen_snoc]

/-- Links of a block that is linked at level 0 only. -/
theorem getD_linkAt0 (p : Option Nat) (l : Nat) :
    (linkAt0 p).getD l none = if l = 0 then p else none := by
  cases l with
  | zero => rfl
  | succ l =>
    rw [linkAt0, List.getD_cons_succ, List.getD_eq_getElem?_getD, List.getElem?_replicate]
    split <;> simp

/-- Links of a growing block. -/
theorem fwd_growing (lo cnt : Nat) (prev : Option Nat) (l : Nat) :
    (growing lo cnt prev).fwd l = none := by
  show (linkAt0 none).getD l none = none
  rw [getD_linkAt0]
  split <;> rfl

/-- Links of the split head block. -/
theorem fwd_headHalf (next l : Nat) :
    (headHalf next).fwd l = if l = 0 then some next else none := by
  show (linkAt0 (some next)).getD l none = _
  rw [getD_linkAt0]

/-- The search in a container with a single block ends at that block on every level. -/
theorem find_node_single (nd : Node) (key : Int) (h : ∀ l, nd.fwd l = none) :
    find_node [some nd] (some 0) key = .ok (0, [0, 0, 0, 0, 0, 0]) := by
  have hw : ∀ l, findNodeWalk [some nd] key l 2 0 = .ok 0 := by
    intro l
    simp [findNodeWalk, Heap.load, h, bind, Except.bind, pure, Except.pure]
  simp [find_node, findNodeLevels, SKIP_LIST_LEVELS, hw, Heap.load, h, bind, Except.bind,
    pure, Except.pure]

/-- Balancing a block that has neither predecessor nor successor changes nothing. -/
theorem balance_block_lone (head : Option Nat) (bs a : Nat) (h : Heap) (nd : Node)
    (hl : h.load (some a) = .ok nd) (hp : nd.prev = none) (hf : nd.fwd 0 = none) :
    balance_block head bs (some a) h = .ok h := by
  unfold balance_block
  simp only [hl, hp, hf, bind, Except.bind, pure, Except.pure]
  split <;> simp

/-- Balancing a block that is not below the threshold changes nothing. -/
theorem balance_block_full (head : Option Nat) (bs a : Nat) (h : Heap) (nd : Node)
    (hl : h.load (some a) = .ok nd) (hs : ¬ nd.size < get_node_lower_bound bs) :
    balance_block head bs (some a) h = .ok h := by
  unfold balance_block
  simp only [hl, hs, bind, Except.bind, pure, Except.pure, if_false]

/-- Insertion into a container that consists of one block with room left. -/
theorem insert_single (c : Container) (nd nd1 : Node) (e : Entry) (pos : Nat)
    (draw : Nat → Nat) (hh : c.heap = [some nd]) (hd : c.head = some 0)
    (hf : ∀ l, nd.fwd l = none) (hs : ¬ nd.size = c.block_size)
    (hi : nd.insert e = .ok (nd1, pos)) (hp1 : nd1.prev = none) (hf1 : nd1.fwd 0 = none) :
    insert c e draw = .ok ({ c with heap := [some nd1], m_size := (c.m_size + 1) % U64 },
      { node := some 0, index := pos, forward := true }) := by
  have hfind := find_node_single nd e.key hf
  have hbal : balance_block (some 0) c.block_size (some 0) [some nd1] = .ok [some nd1] :=
    balance_block_lone _ _ _ _ nd1 rfl hp1 hf1
  unfold insert
  rw [hh]
  show insertAux draw e 3 0 c = _
  unfold insertAux
  simp only [hh, hd, hfind, Heap.load, List.getElem?_cons_zero, hs, if_false, hi, Heap.store,
    List.set_cons_zero, hbal, bind, Except.bind, pure, Except.pure]

/-- One ascending insertion into the single block. -/
theorem step_stateA (n : Nat) (hn : n < 256) :
    step (stateA n) (Op.ins ((1 + n : Nat) : Int) ((1 + n : Nat) : Int) lowDraw)
      = .ok (stateA (n + 1)) := by
  have hins := insert_growing 1 n none (le_refl _) hn
  have hne : ¬ (growing 1 n none).size = (stateA n).block_size := by
    show ¬ n = 256
    omega
  have hmod : (n + 1) % U64 = n + 1 := Nat.mod_eq_of_lt (by unfold U64; omega)
  have h := insert_single (stateA n) (growing 1 n none) (growing 1 (n + 1) none) _ n lowDraw
    rfl rfl (fwd_growing 1 n none) hne hins rfl (fwd_growing _ _ _ _)
  simp only [step, h, bind, Except.bind, pure, Except.pure]
  congr 1
  show ({ head := some 0, m_size := (n + 1) % U64, block_size := 256,
          heap := [some (growing 1 (n + 1) none)] } : Container) = _
  rw [hmod]
  rfl

/-- Ascending insertions into the single block. -/
theorem run_stateA (k n : Nat) (h : n + k ≤ 256) :
    run (stateA n) (ascending (1 + n) k) = .ok (stateA (n + k)) := by
  induction k generalizing n with
  | zero => rfl
  | succ k ih =>
    have e : 1 + n + 1 = 1 + (n + 1) := by omega
    have e2 : n + (k + 1) = n + 1 + k := by omega
    simp only [ascending, run, step_stateA n (by omega), bind, Except.bind]
    rw [e, e2]
    exact ih (n + 1) (by omega)

/-- The search in a container of two blocks, for a key above the head block's maximum,
ends at the second block. -/
theorem find_node_two (hd tl : Node) (key : Int)
    (hh : ∀ l, hd.fwd l = if l = 0 then some 1 else none) (ht : tl.fwd 0 = none)
    (hk : hd.m_max_key < key) :
    find_node [some hd, some tl] (some 0) key = .ok (1, [0, 0, 0, 0, 0, 0]) := by
  have hw : ∀ l, findNodeWalk [some hd, some tl] key l 3 0 = .ok 0 := by
    intro l
    by_cases h0 : l = 0
    · subst h0
      simp [findNodeWalk, Heap.load, hh, ht, bind, Except.bind, pure, Except.pure]
    · simp [findNodeWalk, Heap.load, hh, h0, bind, Except.bind, pure, Except.pure]
  simp [find_node, findNodeLevels, SKIP_LIST_LEVELS, hw, Heap.load, hh, hk, bind, Except.bind,
    pure, Except.pure]

/-- Insertion into the second block of a two-block container when that block has room
and does not underflow. -/
theorem insert_second (c : Container) (hd tl tl1 : Node) (e : Entry) (pos : Nat)
    (draw : Nat → Nat) (hheap : c.heap = [some hd, some tl]) (hhead : c.head = some 0)
    (hh : ∀ l, hd.fwd l = if l = 0 then some 1 else none) (ht : tl.fwd 0 = none)
    (hk : hd.m_max_key < e.key) (hs : ¬ tl.size = c.block_size)
    (hi : tl.insert e = .ok (tl1, pos))
    (hb : ¬ tl1.size < get_node_lower_bound c.block_size) :
    insert c e draw = .ok ({ c with heap := [some hd, some tl1],
                                    m_size := (c.m_size + 1) % U64 },
      { node := some 1, index := pos, forward := true }) := by
  have hfind := find_node_two hd tl e.key hh ht hk
  have hbal : balance_block (some 0) c.block_size (some 1) [some hd, some tl1]
      = .ok [some hd, some tl1] :=
    balance_block_full _ _ _ _ tl1 rfl hb
  unfold insert
  rw [hheap]
  show insertAux draw e 4 0 c = _
  unfold insertAux
  simp only [hheap, hhead, hfind, Heap.load, List.getElem?_cons_succ, List.getElem?_cons_zero,
    hs, if_false, hi, Heap.store, List.set_cons_succ, List.set_cons_zero, hbal, bind,
    Except.bind, pure, Except.pure]

/-- One ascending insertion into the second block. -/
theorem step_stateB (cnt : Nat) (h1 : 128 ≤ cnt) (h2 : cnt < 256) :
    step (stateB cnt) (Op.ins ((129 + cnt : Nat) : Int) ((129 + cnt : Nat) : Int) lowDraw)
      = .ok (stateB (cnt + 1)) := by
  have hins := insert_growing 129 cnt (some 0) (by omega) h2
  have hne : ¬ (growing 129 cnt (some 0)).size = (stateB cnt).block_size := by
    show ¬ cnt = 256
    omega
  have hb : ¬ (growing 129 (cnt + 1) (some 0)).size
      < get_node_lower_bound (stateB cnt).block_size := by
    show ¬ cnt + 1 < 256 * 45 / 100
    omega
  have hk : (headHalf 1).m_max_key < (⟨((129 + cnt : Nat) : Int), ((129 + cnt : Nat) : Int)⟩
      : Entry).key := by
    show (128 : Int) < ((129 + cnt : Nat) : Int)
    push_cast
    omega
  have hmod : (128 + cnt + 1) % U64 = 128 + (cnt + 1) := by
    rw [Nat.mod_eq_of_lt (by unfold U64; omega)]
    omega
  have h := insert_second (stateB cnt) (headHalf 1) (growing 129 cnt (some 0))
    (growing 129 (cnt + 1) (some 0)) _ cnt lowDraw rfl rfl (fwd_headHalf 1)
    (fwd_growing _ _ _ _) hk hne hins hb
  simp only [step, h, bind, Except.bind, pure, Except.pure]
  congr 1
  show ({ head := some 0, m_size := (128 + cnt + 1) % U64, block_size := 256,
          heap := [some (headHalf 1), some (growing 129 (cnt + 1) (some 0))] } : Container) = _
  rw [hmod]
  rfl

/-- Ascending insertions into the second block. -/
theorem run_stateB (k cnt : Nat) (h1 : 128 ≤ cnt) (h : cnt + k ≤ 256) :
    run (stateB cnt) (ascending (129 + cnt) k) = .ok (stateB (cnt + k)) := by
  induction k generalizing cnt with
  | zero => rfl
  | succ k ih =>
    have e : 129 + cnt + 1 = 129 + (cnt + 1) := by omega
    have e2 : cnt + (k + 1) = cnt + 1 + k := by omega
    simp only [ascending, run, step_stateB cnt h1 (by omega), bind, Except.bind]
    rw [e, e2]
    exact ih (cnt + 1) (by omega) (by omega)

/-- Evaluation of the scenario, key 257: the head block splits. -/
theorem stage_split1 : run (stateA 256) (ascending 257 1) = .ok (stateB 129) :=
  ok_of_toOption (by decide!)

/-- Evaluation of the scenario, key 385: the second block splits. -/
theorem stage_split2 : run (stateB 256) (ascending 385 1) = .ok (stateC 385) :=
  ok_of_toOption (by decide!)

/-- Evaluation of the scenario, erasing 385 down to 372. -/
theorem stage_C2 : run (stateC 385) (descendingErase 385 14) = .ok (stateC 371) :=
  ok_of_toOption (by decide!)

/-- Evaluation of the scenario, erasing 371: the tail block underflows and merges. -/
theorem stage_D : run (stateC 371) (descendingErase 371 1) = .ok stateD :=
  ok_of_toOption (by decide!)

/-- The failing scenario runs without fault and ends in `stateD`. -/
theorem run_faultyOps : run (stateA 0) faultyOps = .ok stateD := by
  have e1 : ascending 1 385 =
      ascending 1 256 ++ (ascending 257 1 ++ (ascending 258 127 ++ ascending 385 1)) := by
    rw [← ascending_add 258 127 1, ← ascending_add 257 1 128, ← ascending_add 1 256 129]
  have e2 : descendingErase 385 15 = descendingErase 385 14 ++ descendingErase 371 1 :=
    descendingErase_add 385 14 1
  have hA : run (stateA 0) (ascending 1 385) = .ok (stateC 385) := by
    rw [e1]
    exact run_chain (run_stateA 256 0 (by omega)) (run_chain stage_split1
      (run_chain (run_stateB 127 129 (by omega) (by omega)) stage_split2))
  unfold faultyOps
  rw [e2]
  exact run_chain hA (run_chain stage_C2 stage_D)

/-- The constructor with block capacity 256 yields the single empty head block. -/
theorem construct_256 (m0 : Nat) :
    construct 256 m0 = some { stateA 0 with m_size := m0 } := by
  rfl

/-- Removals alone are always admissible. -/
theorem fresh_descendingErase (hi n : Nat) (stored : List Int) :
    freshOps stored (descendingErase hi n) = true := by
  induction n generalizing hi stored with
  | zero => rfl
  | succ n ih =>
    simp only [descendingErase, freshOps]
    exact ih _ _

/-- Ascending insertions above every stored key, followed by removals, are admissible. -/
theorem fresh_ascending (lo n hi m : Nat) (stored : List Int)
    (h : ∀ s ∈ stored, s < (lo : Int)) :
    freshOps stored (ascending lo n ++ descendingErase hi m) = true := by
  induction n generalizing lo stored with
  | zero => exact fresh_descendingErase hi m stored
  | succ n ih =>
    simp only [ascending, List.cons_append, freshOps, Bool.and_eq_true, decide_eq_true_eq]
    refine ⟨fun hmem => lt_irrefl _ (h _ hmem), ih (lo + 1) _ ?_⟩
    intro s hs
    rcases List.mem_cons.mp hs with rfl | hs
    · push_cast
      omega
    · have := h s hs
      push_cast
      omega

/-- No insert of the failing scenario uses a key that is stored at that moment. -/
theorem fresh_faultyOps : freshOps [] faultyOps = true :=
  fresh_ascending 1 385 385 15 [] (by simp)

/-- Forward traversal does not depend on the entry count field. -/
theorem forwardEntries_new (m0 : Nat) :
    forwardEntries { stateA 0 with m_size := m0 } = .ok [Entry.dflt] := by
  have h : forwardEntries { stateA 0 with m_size := m0 } = forwardEntries (stateA 0) := rfl
  rw [h]
  exact ok_of_toOption (by decide!)

/-- In the failing scenario the key 257 is inserted with value 257 and never erased. -/
theorem refMap_faultyOps_257 : refMap faultyOps 257 = some 257 := by decide!

/-- Forward traversal of `stateD`. -/
theorem forwardEntries_stateD :
    forwardEntries stateD =
      .ok (keysThen 1 128 (keysThen 129 128 (⟨385, 385⟩ :: blank 113))) :=
  ok_of_toOption (by decide!)

/-- A pairwise relation on `keysThen lo n rest` holds on `rest`. -/
theorem pairwise_rest_of_keysThen (R : Entry → Entry → Prop) (lo n : Nat) (rest : List Entry)
    (h : (keysThen lo n rest).Pairwise R) : rest.Pairwise R := by
  induction n generalizing lo with
  | zero => exact h
  | succ n ih =>
    simp only [keysThen] at h
    exact ih (lo + 1) (List.Pairwise.of_cons h)

/-- C1 (code defect). After inserting the fresh keys 1..385 in ascending order and erasing
385 down to 371 on a new container of block capacity 256, the traversal from `begin()` to
`end()` is not strictly ascending: it yields 1..256, then 385, then 113 entries with key 0. -/
theorem C1_forward_traversal_not_ascending :
    ∃ c0 c xs, construct 256 0 = some c0 ∧ freshOps [] faultyOps = true ∧
      run c0 faultyOps = .ok c ∧ forwardEntries c = .ok xs ∧
      ¬ xs.Pairwise (fun a b => a.key < b.key) := by
  refine ⟨stateA 0, stateD, _, construct_256 0, fresh_faultyOps, run_faultyOps,
    forwardEntries_stateD, ?_⟩
  intro h
  have h1 := pairwise_rest_of_keysThen _ _ _ _ (pairwise_rest_of_keysThen _ _ _ _ h)
  have h2 : (385 : Int) < Entry.dflt.key := List.rel_of_pairwise_cons h1 (by simp [blank])
  simp [Entry.dflt] at h2

/-- C2 (code defect). In the same scenario the key 257 was inserted with value 257 and
never erased, so the reference map holds it, yet `find(257)` returns `end()`. -/
theorem C2_find_misses_stored_key :
    ∃ c0 c, construct 256 0 = some c0 ∧ freshOps [] faultyOps = true ∧
      run c0 faultyOps = .ok c ∧ refMap faultyOps 257 = some 257 ∧
      find c 257 = .ok Container.end_ :=
  ⟨stateA 0, stateD, construct_256 0, fresh_faultyOps, run_faultyOps, refMap_faultyOps_257,
    ok_of_toOption (by decide!)⟩

/-- C3 (code defect). In the same scenario the key 257 is stored according to the
operations performed, yet `erase(257)` returns none and changes nothing. -/
theorem C3_erase_misses_stored_key :
    ∃ c0 c, construct 256 0 = some c0 ∧ freshOps [] faultyOps = true ∧
      run c0 faultyOps = .ok c ∧ refMap faultyOps 257 = some 257 ∧
      erase c 257 = .ok (c, none) :=
  ⟨stateA 0, stateD, construct_256 0, fresh_faultyOps, run_faultyOps, refMap_faultyOps_257,
    ok_of_toOption (by decide!)⟩

/-- C4 (code defect). Whatever value the uninitialised entry count starts with, some
container reached from construction has a count different from the number of entries a
full traversal produces: the new container itself (its traversal yields the default
entry of the empty head block), or the container after one insert. -/
theorem C4_count_differs_from_traversal (m0 : Nat) :
    ∃ ops c0 c xs, construct 256 m0 = some c0 ∧ run c0 ops = .ok c ∧
      forwardEntries c = .ok xs ∧ xs.length ≠ c.m_size := by
  by_cases h : m0 = 1
  · subst h
    refine ⟨[Op.ins 5 5 lowDraw], _, { stateA 1 with
        heap := [some { m_max_key := 5, size := 1, capacity := 256, forward := linkAt0 none,
                        prev := none, data := ⟨5, 5⟩ :: blank 255 }], m_size := 2 },
      [⟨5, 5⟩], construct_256 1, ok_of_toOption (by decide!), ok_of_toOption (by decide!),
      by decide⟩
  · refine ⟨[], _, _, [Entry.dflt], construct_256 m0, rfl, ?_, ?_⟩
    · exact forwardEntries_new m0
    · simpa using fun h' => h h'.symm

/-- C5 (code defect). The constructor accepts block capacity 0, which is not a power
of two. -/
theorem C5_zero_capacity_accepted (m0 : Nat) :
    (∃ c, construct 0 m0 = some c) ∧ ¬ ∃ k : Nat, 0 = 2 ^ k := by
  refine ⟨⟨_, rfl⟩, ?_⟩
  rintro ⟨k, hk⟩
  exact absurd hk.symm (by positivity)

/-- C6 (code defect). In the state reached by the failing scenario, `update(385, 7)`
followed by `update(385, 9)` succeeds and leaves two entries with key 385 in the
traversal from `begin()` to `end()`. -/
theorem C6_update_twice_two_entries :
    ∃ c0 c, construct 256 0 = some c0 ∧ freshOps [] faultyOps = true ∧
      run c0 faultyOps = .ok c ∧
      ((updateTwice c 385 7 9 lowDraw).bind forwardEntries).map
          (fun (xs : List Entry) => xs.filter (fun e => decide (e.key = 385)))
        = .ok [⟨385, 385⟩, ⟨385, 9⟩] :=
  ⟨stateA 0, stateD, construct_256 0, fresh_faultyOps, run_faultyOps,
    ok_of_toOption (by decide!)⟩

/-- Reading a slot of a heap after freeing address `a`. -/
theorem free_getElem? (h : Heap) (a b : Nat) :
    (h.free a)[b]? = if a = b then (if b < h.length then some none else none) else h[b]? := by
  unfold Heap.free
  rw [List.getElem?_set]
  by_cases hab : a = b
  · subst hab
    simp
  · simp [hab]

/-- Loading an address other than the freed one. -/
theorem load_free_ne (h : Heap) (a b : Nat) (hab : a ≠ b) :
    (h.free a).load (some b) = h.load (some b) := by
  simp [Heap.load, free_getElem?, hab]

/-- A chain that avoids `a` is still a chain after `a` is freed. -/
theorem isChain_free (h : Heap) (a : Nat) (ns : List Nat) (p : Option Nat)
    (ha : a ∉ ns) (hc : isChain h p ns = true) : isChain (h.free a) p ns = true := by
  induction ns generalizing p with
  | nil => exact hc
  | cons b bs ih =>
    have hab : a ≠ b := fun e => ha (e ▸ List.mem_cons_self _ _)
    have hbs : a ∉ bs := fun e => ha (List.mem_cons_of_mem _ e)
    simp only [isChain, Bool.and_eq_true] at hc ⊢
    refine ⟨hc.1, ?_⟩
    rw [load_free_ne h a b hab]
    cases hl : h.load (some b) with
    | error e => simp [hl] at hc
    | ok n =>
      simp only [hl] at hc
      exact ih _ hbs hc.2

/-- A loaded address lies inside the heap. -/
theorem lt_length_of_load {h : Heap} {a : Nat} {n : Node} (hl : h.load (some a) = .ok n) :
    a < h.length := by
  unfold Heap.load at hl
  by_contra hlt
  have hnone : h[a]? = none := List.getElem?_eq_none (by omega)
  simp [hnone] at hl

/-- Freeing an intact chain succeeds with enough fuel, empties exactly the slots of the
chain and keeps all others. -/
theorem freeChain_of_isChain (ns : List Nat) (h : Heap) (p : Option Nat) (fuel : Nat)
    (hc : isChain h p ns = true) (hn : ns.Nodup) (hf : ns.length < fuel) :
    ∃ h1, freeChain fuel p h = .ok h1 ∧ h1.length = h.length ∧
      (∀ a ∈ ns, h1[a]? = some none) ∧ (∀ a, a ∉ ns → h1[a]? = h[a]?) := by
  induction ns generalizing h p fuel with
  | nil =>
    cases fuel with
    | zero => simp at hf
    | succ fuel =>
      cases p with
      | some a => simp [isChain] at hc
      | none => exact ⟨h, rfl, rfl, by simp, fun _ _ => rfl⟩
  | cons b bs ih =>
    cases fuel with
    | zero => simp at hf
    | succ fuel =>
      simp only [isChain, Bool.and_eq_true, beq_iff_eq] at hc
      obtain ⟨hp, hrest⟩ := hc
      subst hp
      cases hl : h.load (some b) with
      | error e => simp [hl] at hrest
      | ok n =>
        simp only [hl] at hrest
        have hb : b ∉ bs := (List.nodup_cons.mp hn).1
        have hbs : bs.Nodup := (List.nodup_cons.mp hn).2
        have hlen : bs.length < fuel := by
          simp only [List.length_cons] at hf
          omega
        obtain ⟨h1, e1, l1, f1, k1⟩ :=
          ih (h.free b) (n.fwd 0) fuel (isChain_free h b bs _ hb hrest) hbs hlen
        refine ⟨h1, ?_, ?_, ?_, ?_⟩
        · simp only [freeChain, hl]
          exact e1
        · rw [l1]
          simp [Heap.free]
        · intro a ha
          rcases List.mem_cons.mp ha with rfl | ha
          · rw [k1 a hb, free_getElem?]
            simp [lt_length_of_load hl]
          · exact f1 a ha
        · intro a ha
          have hab : b ≠ a := fun e => ha (e ▸ List.mem_cons_self _ _)
          have ha2 : a ∉ bs := fun e => ha (List.mem_cons_of_mem _ e)
          rw [k1 a ha2, free_getElem?]
          simp [hab]

/-- Every block of a chain lies inside the heap. -/
theorem isChain_lt_length (ns : List Nat) (h : Heap) (p : Option Nat)
    (hc : isChain h p ns = true) : ∀ a ∈ ns, a < h.length := by
  induction ns generalizing p with
  | nil => simp
  | cons b bs ih =>
    simp only [isChain, Bool.and_eq_true] at hc
    cases hl : h.load (some b) with
    | error e => simp [hl] at hc
    | ok n =>
      simp only [hl] at hc
      intro a ha
      rcases List.mem_cons.mp ha with rfl | ha
      · exact lt_length_of_load hl
      · exact ih _ hc.2 a ha

/-- A chain without repetition is no longer than the heap. -/
theorem isChain_length_le (ns : List Nat) (h : Heap) (p : Option Nat)
    (hc : isChain h p ns = true) (hn : ns.Nodup) : ns.length ≤ h.length := by
  have hsub : ns ⊆ List.range h.length := by
    intro a ha
    exact List.mem_range.mpr (isChain_lt_length ns h p hc a ha)
  have := (List.subperm_of_subset hn hsub).length_le
  simpa using this

/-- C7 (counterexample). Clearing a newly constructed container does not give the state
of a newly constructed container: the head pointer is null and the head block is freed. -/
theorem C7_clear_differs_from_new :
    ∃ c0 c1, construct 256 0 = some c0 ∧ clear c0 = .ok c1 ∧ c1 ≠ c0 ∧ c1.head = none ∧
      c1.heap.load (some 0) = .error Fault.useAfterFree := by
  refine ⟨stateA 0, { stateA 0 with head := none, heap := [none] }, construct_256 0,
    ok_of_toOption (by decide), ?_, rfl, rfl⟩
  intro h
  have := congrArg Container.head h
  simp [stateA] at this

/-- C7 (amended). For every container whose level-0 chain is intact, `clear()` returns;
afterwards the head pointer is null, every block of the chain is freed, all other heap
slots are unchanged, the entry count is 0, a traversal from `begin()` to `end()` visits
nothing and `find` returns `end()` for every key. -/
theorem C7_clear_frees_chain (c : Container) (ns : List Nat)
    (hc : isChain c.heap c.head ns = true) (hn : ns.Nodup) :
    ∃ c1, clear c = .ok c1 ∧ c1.head = none ∧ c1.m_size = 0 ∧
      c1.block_size = c.block_size ∧
      (∀ a ∈ ns, c1.heap[a]? = some none) ∧ (∀ a, a ∉ ns → c1.heap[a]? = c.heap[a]?) ∧
      forwardEntries c1 = .ok [] ∧ ∀ k, find c1 k = .ok Container.end_ := by
  have hlen : ns.length < c.heap.length + 1 := by
    have := isChain_length_le ns c.heap c.head hc hn
    omega
  obtain ⟨h1, e1, _, f1, k1⟩ := freeChain_of_isChain ns c.heap c.head _ hc hn hlen
  refine ⟨{ c with head := none, m_size := 0, heap := h1 }, ?_, rfl, rfl, rfl, f1, k1, ?_, ?_⟩
  · simp only [clear, e1]
    rfl
  · simp [forwardEntries, travFuel, collect, Container.begin_, Container.end_, Iterator.same]
  · intro k
    rfl

/-- C7 (witness): the amended statement applied to the newly constructed container. -/
theorem C7_clear_frees_chain_witness :
    isChain (stateA 0).heap (stateA 0).head [0] = true ∧ [0].Nodup ∧
    ∃ c1, clear (stateA 0) = .ok c1 ∧ c1.head = none ∧ c1.m_size = 0 ∧
      c1.block_size = (stateA 0).block_size ∧
      (∀ a ∈ [0], c1.heap[a]? = some none) ∧
      (∀ a, a ∉ [0] → c1.heap[a]? = (stateA 0).heap[a]?) ∧
      forwardEntries c1 = .ok [] ∧ ∀ k, find c1 k = .ok Container.end_ :=
  ⟨by decide, by decide, C7_clear_frees_chain (stateA 0) [0] (by decide) (by decide)⟩

/-- C8 (code defect). Merging a newly constructed, empty container `b` into a container
`a` that holds the single entry `(1, 1)` leaves `a` with two entries: the default entry
`(0, 0)` of the empty head block of `b` is inserted as well. -/
theorem C8_merge_empty_adds_entry :
    ∃ a0 a b a1 b1, construct 256 0 = some a0 ∧ run a0 [Op.ins 1 1 lowDraw] = .ok a ∧
      construct 256 0 = some b ∧ liveEntries a = .ok [⟨1, 1⟩] ∧ liveEntries b = .ok [] ∧
      merge a b (fun _ => lowDraw) = .ok (a1, b1) ∧
      liveEntries a1 = .ok [⟨0, 0⟩, ⟨1, 1⟩] ∧ liveEntries b1 = .ok [] := by
  refine ⟨stateA 0, stateA 1, stateA 0,
    { stateA 2 with heap := [some (growing 0 2 none)] },
    { stateA 0 with head := none, heap := [none] },
    construct_256 0, ok_of_toOption (by decide!), construct_256 0,
    ok_of_toOption (by decide!), ok_of_toOption (by decide!), ok_of_toOption (by decide!),
    ok_of_toOption (by decide!), ok_of_toOption (by decide!)⟩

/-- A slot that can be read lies inside the list. -/
theorem lt_of_getElem? {α : Type} {s : List α} {a : Nat} {x : α} (hl : s[a]? = some x) :
    a < s.length := by
  by_contra hlt
  have hnone : s[a]? = none := List.getElem?_eq_none (by omega)
  simp [hnone] at hl

/-- Reading a list after writing a slot inside it. -/
theorem set_getElem? {α : Type} (s : List α) (a b : Nat) (x : α) (ha : a < s.length) :
    (s.set a x)[b]? = if a = b then some x else s[b]? := by
  rw [List.getElem?_set]
  by_cases hab : a = b
  · subst hab
    simp [ha]
  · simp [hab]

/-- Loading a live block. -/
theorem load_eq_ok {h : Heap} {a : Nat} {n : Node} :
    h.load (some a) = .ok n ↔ h[a]? = some (some n) := by
  unfold Heap.load
  constructor
  · intro hl
    cases hx : h[a]? with
    | none => simp [hx] at hl
    | some x =>
      cases x with
      | none => simp [hx] at hl
      | some m =>
        simp only [hx, Except.ok.injEq] at hl
        rw [hl]
  · intro hl
    simp [hl]

/-- Changing the size of a live block keeps the invariant when the new size is
admissible. -/
theorem InvR.resize {r : Nat → ℚ} {s : List (Option Lk)} (hi : InvR r s) {a : Nat} {k : Lk}
    (n : Nat) (hl : s[a]? = some (some k)) (hs : n ≤ 256)
    (hu : n < 115 → k.prev = none ∧ k.next = none) :
    InvR r (s.set a (some { k with size := n })) := by
  have ha : a < s.length := lt_of_getElem? hl
  have hdead : ∀ x : Nat, s[x]? = some none →
      (s.set a (some { k with size := n }))[x]? = some none := by
    intro x hx
    rw [set_getElem? s a x _ ha]
    split
    · rename_i e
      subst e
      rw [hl] at hx
      simp at hx
    · exact hx
  have hget : ∀ (b : Nat) (m : Lk), (s.set a (some { k with size := n }))[b]? = some (some m) →
      ∃ m0 : Lk, s[b]? = some (some m0) ∧ m.prev = m0.prev ∧ m.next = m0.next ∧
        (m.size = m0.size ∨ (b = a ∧ m.size = n ∧ m0 = k)) ∧ m.nf = m0.nf := by
    intro b m hb
    rw [set_getElem? s a b _ ha] at hb
    split at hb
    · rename_i e
      subst e
      simp only [Option.some.injEq] at hb
      subst hb
      exact ⟨k, hl, rfl, rfl, Or.inr ⟨rfl, rfl, rfl⟩, rfl⟩
    · exact ⟨m, hb, rfl, rfl, Or.inl rfl, rfl⟩
  constructor
  · obtain ⟨k0, h0, hp0⟩ := hi.head_live
    rw [set_getElem? s a 0 _ ha]
    by_cases ha0 : a = 0
    · subst ha0
      rw [hl] at h0
      simp only [Option.some.injEq] at h0
      subst h0
      exact ⟨{ k with size := n }, by simp, hp0⟩
    · exact ⟨k0, by simp [ha0, h0], hp0⟩
  · intro b m c hb hc
    obtain ⟨m0, h0, _, hn, _⟩ := hget b m hb
    rw [List.length_set]
    exact hi.next_lt b m0 c h0 (hn ▸ hc)
  · intro b m c hb hc
    obtain ⟨m0, h0, hp, _, _⟩ := hget b m hb
    rw [List.length_set]
    exact hi.prev_lt b m0 c h0 (hp ▸ hc)
  · intro b m hb
    obtain ⟨m0, h0, _, _, hsz, _⟩ := hget b m hb
    rcases hsz with hsz | ⟨_, hsz, _⟩
    · rw [hsz]
      exact hi.size_le b m0 h0
    · rw [hsz]
      exact hs
  · intro b m hb hlt
    obtain ⟨m0, h0, hp, hn, hsz, _⟩ := hget b m hb
    rw [hp, hn]
    rcases hsz with hsz | ⟨_, hsz, hk⟩
    · exact hi.lone b m0 h0 (hsz ▸ hlt)
    · subst hk
      exact hu (hsz ▸ hlt)
  · intro b m c j hb hc hbc
    obtain ⟨m0, h0, _, hn, _⟩ := hget b m hb
    obtain ⟨j0, h1, hp, _, _⟩ := hget c j hc
    rw [hp]
    exact hi.next_prev b m0 c j0 h0 h1 (hn ▸ hbc)
  · intro b m c j hb hc hcb
    obtain ⟨m0, h0, _, hn, _⟩ := hget b m hb
    obtain ⟨j0, h1, hp, _, _⟩ := hget c j hc
    rw [hn]
    rcases hi.prev_next b m0 c j0 h0 h1 (hp ▸ hcb) with h4 | ⟨x, h4, h5⟩
    · exact Or.inl h4
    · exact Or.inr ⟨x, h4, hdead x h5⟩
  · intro b m c j d i hb hc hd hcb hdb
    obtain ⟨m0, h0, _, _, _⟩ := hget b m hb
    obtain ⟨j0, h1, hp, _, _⟩ := hget c j hc
    obtain ⟨i0, h2, hp2, _, _⟩ := hget d i hd
    exact hi.prev_unique b m0 c j0 d i0 h0 h1 h2 (hp ▸ hcb) (hp2 ▸ hdb)
  · intro b m c hb hc
    obtain ⟨m0, h0, _, hn, _⟩ := hget b m hb
    exact hi.rank_next b m0 c h0 (hn ▸ hc)
  · intro b m c hb hc
    obtain ⟨m0, h0, hp, _, _⟩ := hget b m hb
    exact hi.rank_prev b m0 c h0 (hp ▸ hc)
  · intro b m hb
    obtain ⟨m0, h0, _, _, _, hnf⟩ := hget b m hb
    rw [hnf]
    exact hi.nf_eq b m0 h0

/-- Removing an interior block `x` from the level-0 chain: its successor `n` gets the
predecessor `p` of `x`, the block `p` is either relinked to `n` or keeps its link, and
`x` is freed. -/
theorem InvR.remove {r : Nat → ℚ} {s s1 : List (Option Lk)} (hi : InvR r s)
    {x p n : Nat} {kx kp kn : Lk}
    (hx : s[x]? = some (some kx)) (hp : s[p]? = some (some kp))
    (hn : s[n]? = some (some kn)) (hxp : kx.prev = some p) (hxn : kx.next = some n)
    (np : Option Nat) (hnp : np = some n ∨ np = kp.next)
    (hlen : s1.length = s.length)
    (h1x : s1[x]? = some none)
    (h1p : s1[p]? = some (some { kp with next := np }))
    (h1n : s1[n]? = some (some { kn with prev := some p }))
    (hoth : ∀ b : Nat, b ≠ x → b ≠ p → b ≠ n → s1[b]? = s[b]?) :
    InvR r s1 := by
  have rpx : r p < r x := hi.rank_prev x kx p hx hxp
  have rxn : r x < r n := hi.rank_next x kx n hx hxn
  have hpx : p ≠ x := fun e => by rw [e] at rpx; exact lt_irrefl _ rpx
  have hxn' : x ≠ n := fun e => by rw [e] at rxn; exact lt_irrefl _ rxn
  have hpn : p ≠ n := fun e => by rw [e] at rpx; exact lt_irrefl _ (lt_trans rpx rxn)
  have hknp : kn.prev = some x := hi.next_prev x kx n kn hx hn hxn
  have hkpn : kp.next = some x ∨ ∃ y : Nat, kp.next = some y ∧ s[y]? = some none :=
    hi.prev_next p kp x kx hp hx hxp
  have hdead : ∀ y : Nat, s[y]? = some none → s1[y]? = some none := by
    intro y hy
    by_cases e1 : y = x
    · rw [e1]; exact h1x
    · by_cases e2 : y = p
      · rw [e2, hp] at hy; simp at hy
      · by_cases e3 : y = n
        · rw [e3, hn] at hy; simp at hy
        · rw [hoth y e1 e2 e3]; exact hy
  have hget : ∀ (b : Nat) (m : Lk), s1[b]? = some (some m) →
      b ≠ x ∧ ∃ m0 : Lk, s[b]? = some (some m0) ∧ m.size = m0.size ∧
        ((b = n ∧ m.prev = some p) ∨ (b ≠ n ∧ m.prev = m0.prev)) ∧
        ((b = p ∧ m.next = np) ∨ (b ≠ p ∧ m.next = m0.next)) ∧ m.nf = m0.nf := by
    intro b m hb
    by_cases e1 : b = x
    · rw [e1, h1x] at hb; simp at hb
    · refine ⟨e1, ?_⟩
      by_cases e2 : b = p
      · subst e2
        rw [h1p] at hb
        simp only [Option.some.injEq] at hb
        subst hb
        exact ⟨kp, hp, rfl, Or.inr ⟨hpn, rfl⟩, Or.inl ⟨rfl, rfl⟩, rfl⟩
      · by_cases e3 : b = n
        · subst e3
          rw [h1n] at hb
          simp only [Option.some.injEq] at hb
          subst hb
          exact ⟨kn, hn, rfl, Or.inl ⟨rfl, rfl⟩, Or.inr ⟨e2, rfl⟩, rfl⟩
        · rw [hoth b e1 e2 e3] at hb
          exact ⟨m, hb, rfl, Or.inr ⟨e3, rfl⟩, Or.inr ⟨e2, rfl⟩, rfl⟩
  have hnplt : ∀ c : Nat, np = some c → c < s.length := by
    intro c hc
    rcases hnp with h | h
    · rw [h] at hc
      simp only [Option.some.injEq] at hc
      subst hc
      exact lt_of_getElem? hn
    · rw [h] at hc
      exact hi.next_lt p kp c hp hc
  constructor
  · obtain ⟨k0, h0, hp0⟩ := hi.head_live
    have e1 : (0 : Nat) ≠ x := by
      intro e
      rw [← e, h0] at hx
      simp only [Option.some.injEq] at hx
      rw [hx] at hp0
      rw [hp0] at hxp
      simp at hxp
    have e3 : (0 : Nat) ≠ n := by
      intro e
      rw [← e, h0] at hn
      simp only [Option.some.injEq] at hn
      rw [hn] at hp0
      rw [hp0] at hknp
      simp at hknp
    by_cases e2 : 0 = p
    · rw [← e2, h0] at hp
      simp only [Option.some.injEq] at hp
      subst hp
      refine ⟨{ k0 with next := np }, ?_, hp0⟩
      rw [e2]
      exact h1p
    · exact ⟨k0, by rw [hoth 0 e1 e2 e3]; exact h0, hp0⟩
  · intro b m c hb hc
    obtain ⟨_, m0, h0, _, _, hnx, _⟩ := hget b m hb
    rw [hlen]
    rcases hnx with ⟨_, hnx⟩ | ⟨_, hnx⟩
    · exact hnplt c (hnx ▸ hc)
    · exact hi.next_lt b m0 c h0 (hnx ▸ hc)
  · intro b m c hb hc
    obtain ⟨_, m0, h0, _, hpv, _, _⟩ := hget b m hb
    rw [hlen]
    rcases hpv with ⟨_, hpv⟩ | ⟨_, hpv⟩
    · rw [hpv] at hc
      simp only [Option.some.injEq] at hc
      subst hc
      exact lt_of_getElem? hp
    · exact hi.prev_lt b m0 c h0 (hpv ▸ hc)
  · intro b m hb
    obtain ⟨_, m0, h0, hsz, _, _, _⟩ := hget b m hb
    rw [hsz]
    exact hi.size_le b m0 h0
  · intro b m hb hlt
    obtain ⟨_, m0, h0, hsz, hpv, hnx, _⟩ := hget b m hb
    have hl0 := hi.lone b m0 h0 (hsz ▸ hlt)
    rcases hpv with ⟨e, _⟩ | ⟨_, hpv⟩
    · subst e
      rw [hn] at h0
      simp only [Option.some.injEq] at h0
      subst h0
      rw [hl0.1] at hknp
      simp at hknp
    · rcases hnx with ⟨e, _⟩ | ⟨_, hnx⟩
      · subst e
        rw [hp] at h0
        simp only [Option.some.injEq] at h0
        subst h0
        rcases hkpn with h | ⟨y, h, _⟩ <;> rw [hl0.2] at h <;> simp at h
      · rw [hpv, hnx]
        exact hl0
  · intro b m c j hb hc hbc
    obtain ⟨hbx, m0, h0, _, _, hnx, _⟩ := hget b m hb
    obtain ⟨hcx, j0, h1, _, hpv, _, _⟩ := hget c j hc
    rcases hnx with ⟨e, hnx⟩ | ⟨eb, hnx⟩
    · subst e
      rw [hp] at h0
      simp only [Option.some.injEq] at h0
      subst h0
      rw [hnx] at hbc
      rcases hnp with h | h
      · rw [h] at hbc
        simp only [Option.some.injEq] at hbc
        subst hbc
        rcases hpv with ⟨_, hpv⟩ | ⟨e, _⟩
        · exact hpv
        · exact absurd rfl e
      · rw [h] at hbc
        have := hi.next_prev b kp c j0 hp h1 hbc
        rcases hpv with ⟨_, hpv⟩ | ⟨_, hpv⟩
        · exact hpv
        · rw [hpv]; exact this
    · rw [hnx] at hbc
      have := hi.next_prev b m0 c j0 h0 h1 hbc
      rcases hpv with ⟨e, _⟩ | ⟨_, hpv⟩
      · subst e
        rw [hn] at h1
        simp only [Option.some.injEq] at h1
        subst h1
        rw [hknp] at this
        simp only [Option.some.injEq] at this
        exact absurd this.symm hbx
      · rw [hpv]; exact this
  · intro b m c j hb hc hcb
    obtain ⟨hbx, m0, h0, _, _, hnx, _⟩ := hget b m hb
    obtain ⟨hcx, j0, h1, _, hpv, _, _⟩ := hget c j hc
    rcases hpv with ⟨e, hpv⟩ | ⟨ec, hpv⟩
    · subst e
      rw [hpv] at hcb
      simp only [Option.some.injEq] at hcb
      subst hcb
      rw [hp] at h0
      simp only [Option.some.injEq] at h0
      subst h0
      rcases hnx with ⟨_, hnx⟩ | ⟨e, _⟩
      · rw [hnx]
        rcases hnp with h | h
        · exact Or.inl h
        · rw [h]
          rcases hkpn with h2 | ⟨y, h2, h3⟩
          · exact Or.inr ⟨x, h2, h1x⟩
          · exact Or.inr ⟨y, h2, hdead y h3⟩
      · exact absurd rfl e
    · rw [hpv] at hcb
      have hbefore := hi.prev_next b m0 c j0 h0 h1 hcb
      rcases hnx with ⟨e, _⟩ | ⟨_, hnx⟩
      · subst e
        rw [hp] at h0
        simp only [Option.some.injEq] at h0
        subst h0
        have := hi.prev_unique b kp c j0 x kx hp h1 hx hcb hxp
        exact absurd this hcx
      · rw [hnx]
        rcases hbefore with h | ⟨y, h, h3⟩
        · exact Or.inl h
        · exact Or.inr ⟨y, h, hdead y h3⟩
  · intro a k b m c j ha hb hc hba hca
    obtain ⟨hax, k0, h0, _, _, _, _⟩ := hget a k ha
    obtain ⟨hbx, m0, h1, _, hpb, _, _⟩ := hget b m hb
    obtain ⟨hcx, j0, h2, _, hpc, _, _⟩ := hget c j hc
    rcases hpb with ⟨eb, hpb⟩ | ⟨eb, hpb⟩ <;> rcases hpc with ⟨ec, hpc⟩ | ⟨ec, hpc⟩
    · rw [eb, ec]
    · rw [hpb] at hba
      simp only [Option.some.injEq] at hba
      subst hba
      rw [hpc] at hca
      exact absurd (hi.prev_unique _ kp c j0 x kx hp h2 hx hca hxp) hcx
    · rw [hpc] at hca
      simp only [Option.some.injEq] at hca
      subst hca
      rw [hpb] at hba
      exact absurd (hi.prev_unique _ kp b m0 x kx hp h1 hx hba hxp) hbx
    · rw [hpb] at hba
      rw [hpc] at hca
      exact hi.prev_unique a k0 b m0 c j0 h0 h1 h2 hba hca
  · intro b m c hb hc
    obtain ⟨_, m0, h0, _, _, hnx, _⟩ := hget b m hb
    rcases hnx with ⟨e, hnx⟩ | ⟨_, hnx⟩
    · subst e
      rw [hnx] at hc
      rcases hnp with h | h
      · rw [h] at hc
        simp only [Option.some.injEq] at hc
        subst hc
        exact lt_trans rpx rxn
      · rw [h] at hc
        exact hi.rank_next _ kp c hp hc
    · exact hi.rank_next b m0 c h0 (hnx ▸ hc)
  · intro b m c hb hc
    obtain ⟨_, m0, h0, _, hpv, _, _⟩ := hget b m hb
    rcases hpv with ⟨e, hpv⟩ | ⟨_, hpv⟩
    · subst e
      rw [hpv] at hc
      simp only [Option.some.injEq] at hc
      subst hc
      exact lt_trans rpx rxn
    · exact hi.rank_prev b m0 c h0 (hpv ▸ hc)
  · intro b m hb
    obtain ⟨_, m0, h0, _, _, _, hnf⟩ := hget b m hb
    rw [hnf]
    exact hi.nf_eq b m0 h0

/-- Absorbing a block `t` whose predecessor is the head block: the head block loses all
its links and gets a new size, `t` is freed. -/
theorem InvR.absorb_tail {r : Nat → ℚ} {s s1 : List (Option Lk)} (hi : InvR r s)
    {t : Nat} {kt k0 : Lk} (sz : Nat)
    (ht : s[t]? = some (some kt)) (h0 : s[0]? = some (some k0))
    (htp : kt.prev = some 0) (hsz : sz ≤ 256)
    (hlen : s1.length = s.length)
    (h1t : s1[t]? = some none)
    (h10 : s1[0]? = some (some { k0 with size := sz, next := none }))
    (hoth : ∀ b : Nat, b ≠ t → b ≠ 0 → s1[b]? = s[b]?) :
    InvR r s1 := by
  have hk0 : k0.prev = none := by
    obtain ⟨k, hk, hkp⟩ := hi.head_live
    rw [h0] at hk
    simp only [Option.some.injEq] at hk
    rw [hk]
    exact hkp
  have hdead : ∀ y : Nat, s[y]? = some none → s1[y]? = some none := by
    intro y hy
    by_cases e1 : y = t
    · rw [e1]; exact h1t
    · by_cases e2 : y = 0
      · rw [e2, h0] at hy; simp at hy
      · rw [hoth y e1 e2]; exact hy
  have hget : ∀ (b : Nat) (m : Lk), s1[b]? = some (some m) →
      b ≠ t ∧ ∃ m0 : Lk, s[b]? = some (some m0) ∧
        ((b = 0 ∧ m = { k0 with size := sz, next := none }) ∨ (b ≠ 0 ∧ m = m0)) := by
    intro b m hb
    by_cases e1 : b = t
    · rw [e1, h1t] at hb; simp at hb
    · refine ⟨e1, ?_⟩
      by_cases e2 : b = 0
      · subst e2
        rw [h10] at hb
        simp only [Option.some.injEq] at hb
        exact ⟨k0, h0, Or.inl ⟨rfl, hb.symm⟩⟩
      · rw [hoth b e1 e2] at hb
        exact ⟨m, hb, Or.inr ⟨e2, rfl⟩⟩
  constructor
  · exact ⟨_, h10, hk0⟩
  · intro b m c hb hc
    obtain ⟨_, m0, hm0, hcase⟩ := hget b m hb
    rw [hlen]
    rcases hcase with ⟨_, e⟩ | ⟨_, e⟩
    · rw [e] at hc; simp at hc
    · exact hi.next_lt b m0 c hm0 (e ▸ hc)
  · intro b m c hb hc
    obtain ⟨_, m0, hm0, hcase⟩ := hget b m hb
    rw [hlen]
    rcases hcase with ⟨_, e⟩ | ⟨_, e⟩
    · rw [e] at hc; simp [hk0] at hc
    · exact hi.prev_lt b m0 c hm0 (e ▸ hc)
  · intro b m hb
    obtain ⟨_, m0, hm0, hcase⟩ := hget b m hb
    rcases hcase with ⟨_, e⟩ | ⟨_, e⟩
    · rw [e]; exact hsz
    · rw [e]; exact hi.size_le b m0 hm0
  · intro b m hb hlt
    obtain ⟨_, m0, hm0, hcase⟩ := hget b m hb
    rcases hcase with ⟨_, e⟩ | ⟨_, e⟩
    · rw [e]; exact ⟨hk0, rfl⟩
    · rw [e] at hlt ⊢; exact hi.lone b m0 hm0 hlt
  · intro b m c j hb hc hbc
    obtain ⟨_, m0, hm0, hcase⟩ := hget b m hb
    obtain ⟨_, j0, hj0, hcase2⟩ := hget c j hc
    rcases hcase with ⟨_, e⟩ | ⟨_, e⟩
    · rw [e] at hbc; simp at hbc
    · rw [e] at hbc
      have := hi.next_prev b m0 c j0 hm0 hj0 hbc
      rcases hcase2 with ⟨e0, _⟩ | ⟨_, e2⟩
      · subst e0
        rw [h0] at hj0
        simp only [Option.some.injEq] at hj0
        rw [← hj0, hk0] at this
        simp at this
      · rw [e2]; exact this
  · intro b m c j hb hc hcb
    obtain ⟨_, m0, hm0, hcase⟩ := hget b m hb
    obtain ⟨hct, j0, hj0, hcase2⟩ := hget c j hc
    rcases hcase2 with ⟨_, e2⟩ | ⟨_, e2⟩
    · rw [e2] at hcb; simp [hk0] at hcb
    · rw [e2] at hcb
      rcases hcase with ⟨e0, _⟩ | ⟨_, e⟩
      · subst e0
        exact absurd (hi.prev_unique 0 k0 c j0 t kt h0 hj0 ht hcb htp) hct
      · rw [e]
        rcases hi.prev_next b m0 c j0 hm0 hj0 hcb with h | ⟨y, h, h3⟩
        · exact Or.inl h
        · exact Or.inr ⟨y, h, hdead y h3⟩
  · intro a k b m c j ha hb hc hba hca
    obtain ⟨_, k1, hk1, _⟩ := hget a k ha
    obtain ⟨_, m0, hm0, hcase⟩ := hget b m hb
    obtain ⟨_, j0, hj0, hcase2⟩ := hget c j hc
    rcases hcase with ⟨_, e⟩ | ⟨_, e⟩
    · rw [e] at hba; simp [hk0] at hba
    · rcases hcase2 with ⟨_, e2⟩ | ⟨_, e2⟩
      · rw [e2] at hca; simp [hk0] at hca
      · rw [e] at hba
        rw [e2] at hca
        exact hi.prev_unique a k1 b m0 c j0 hk1 hm0 hj0 hba hca
  · intro b m c hb hc
    obtain ⟨_, m0, hm0, hcase⟩ := hget b m hb
    rcases hcase with ⟨_, e⟩ | ⟨_, e⟩
    · rw [e] at hc; simp at hc
    · exact hi.rank_next b m0 c hm0 (e ▸ hc)
  · intro b m c hb hc
    obtain ⟨_, m0, hm0, hcase⟩ := hget b m hb
    rcases hcase with ⟨_, e⟩ | ⟨_, e⟩
    · rw [e] at hc; simp [hk0] at hc
    · exact hi.rank_prev b m0 c hm0 (e ▸ hc)
  · intro b m hb
    obtain ⟨_, m0, hm0, hcase⟩ := hget b m hb
    rcases hcase with ⟨e0, e⟩ | ⟨_, e⟩
    · subst e0
      rw [h0] at hm0
      simp only [Option.some.injEq] at hm0
      rw [e]
      exact hi.nf_eq 0 k0 h0
    · rw [e]; exact hi.nf_eq b m0 hm0

/-- Splitting block `t`: a new block is appended to the heap and linked behind `t`. -/
theorem InvR.split {r : Nat → ℚ} {s s1 : List (Option Lk)} (hi : InvR r s)
    {t : Nat} {kt : Lk} (sa sb : Nat)
    (ht : s[t]? = some (some kt))
    (hsa : 115 ≤ sa ∧ sa ≤ 256) (hsb : 115 ≤ sb ∧ sb ≤ 256)
    (hlen : s1.length = s.length + 1)
    (h1t : s1[t]? = some (some { kt with size := sa, next := some s.length }))
    (h1w : s1[s.length]? = some (some ⟨sb, some t, kt.next, SKIP_LIST_LEVELS⟩))
    (hnx : ∀ nx : Nat, kt.next = some nx → ∃ kx : Lk, s[nx]? = some (some kx) ∧
      s1[nx]? = some (some { kx with prev := some s.length }))
    (hoth : ∀ b : Nat, b ≠ t → b ≠ s.length → kt.next ≠ some b → s1[b]? = s[b]?) :
    ∃ r1 : Nat → ℚ, InvR r1 s1 := by
  have htlt : t < s.length := lt_of_getElem? ht
  have htw : t ≠ s.length := Nat.ne_of_lt htlt
  have hnxt : ∀ nx : Nat, kt.next = some nx → nx ≠ t ∧ nx ≠ s.length := by
    intro nx h
    have h1 := hi.rank_next t kt nx ht h
    have h2 := hi.next_lt t kt nx ht h
    exact ⟨fun e => by rw [e] at h1; exact lt_irrefl _ h1, Nat.ne_of_lt h2⟩
  -- the rank of the new block lies between `t` and its old successor
  obtain ⟨v, hv1, hv2⟩ : ∃ v : ℚ, r t < v ∧ ∀ nx : Nat, kt.next = some nx → v < r nx := by
    cases hk : kt.next with
    | none => exact ⟨r t + 1, by linarith, fun nx h => by simp at h⟩
    | some nx =>
      have h1 := hi.rank_next t kt nx ht hk
      refine ⟨(r t + r nx) / 2, by linarith, fun y h => ?_⟩
      simp only [Option.some.injEq] at h
      subst h
      linarith
  refine ⟨fun a => if a = s.length then v else r a, ?_⟩
  have hr : ∀ a : Nat, a < s.length → (if a = s.length then v else r a) = r a := by
    intro a ha
    rw [if_neg (Nat.ne_of_lt ha)]
  have hrw : (if s.length = s.length then v else r s.length) = v := if_pos rfl
  have hdead : ∀ y : Nat, s[y]? = some none → s1[y]? = some none := by
    intro y hy
    have e1 : y ≠ t := fun e => by rw [e, ht] at hy; simp at hy
    have e2 : y ≠ s.length := Nat.ne_of_lt (lt_of_getElem? hy)
    have e3 : kt.next ≠ some y := by
      intro e
      obtain ⟨kx, hkx, _⟩ := hnx y e
      rw [hkx] at hy
      simp at hy
    rw [hoth y e1 e2 e3]
    exact hy
  have hget : ∀ (b : Nat) (m : Lk), s1[b]? = some (some m) → b ≠ s.length →
      ∃ m0 : Lk, s[b]? = some (some m0) ∧
        ((b = t ∧ m.size = sa) ∨ m.size = m0.size) ∧
        ((kt.next = some b ∧ m.prev = some s.length) ∨
          (kt.next ≠ some b ∧ m.prev = m0.prev)) ∧
        ((b = t ∧ m.next = some s.length) ∨ (b ≠ t ∧ m.next = m0.next)) ∧
        m.nf = m0.nf := by
    intro b m hb hbw
    by_cases e1 : b = t
    · subst e1
      rw [h1t] at hb
      simp only [Option.some.injEq] at hb
      subst hb
      refine ⟨kt, ht, Or.inl ⟨rfl, rfl⟩, Or.inr ⟨fun e => (hnxt b e).1 rfl, rfl⟩,
        Or.inl ⟨rfl, rfl⟩, rfl⟩
    · by_cases e3 : kt.next = some b
      · obtain ⟨kx, hkx, hkx1⟩ := hnx b e3
        rw [hkx1] at hb
        simp only [Option.some.injEq] at hb
        subst hb
        exact ⟨kx, hkx, Or.inr rfl, Or.inl ⟨e3, rfl⟩, Or.inr ⟨e1, rfl⟩, rfl⟩
      · rw [hoth b e1 hbw e3] at hb
        exact ⟨m, hb, Or.inr rfl, Or.inr ⟨e3, rfl⟩, Or.inr ⟨e1, rfl⟩, rfl⟩
  have hw : ∀ m : Lk, s1[s.length]? = some (some m) →
      m = ⟨sb, some t, kt.next, SKIP_LIST_LEVELS⟩ := by
    intro m hm
    rw [h1w] at hm
    simp only [Option.some.injEq] at hm
    exact hm.symm
  constructor
  · obtain ⟨k0, h0, hp0⟩ := hi.head_live
    by_cases e1 : 0 = t
    · subst e1
      rw [ht] at h0
      simp only [Option.some.injEq] at h0
      subst h0
      exact ⟨_, h1t, hp0⟩
    · have e2 : (0 : Nat) ≠ s.length := by omega
      have e3 : kt.next ≠ some 0 := by
        intro e
        have := hi.next_prev t kt 0 k0 ht h0 e
        rw [hp0] at this
        simp at this
      exact ⟨k0, by rw [hoth 0 e1 e2 e3]; exact h0, hp0⟩
  · intro b m c hb hc
    rw [hlen]
    by_cases ebw : b = s.length
    · subst ebw
      rw [hw m hb] at hc
      have := hi.next_lt t kt c ht hc
      omega
    · obtain ⟨m0, h0, _, _, hnx', _⟩ := hget b m hb ebw
      rcases hnx' with ⟨_, e⟩ | ⟨_, e⟩
      · rw [e] at hc
        simp only [Option.some.injEq] at hc
        omega
      · have := hi.next_lt b m0 c h0 (e ▸ hc)
        omega
  · intro b m c hb hc
    rw [hlen]
    by_cases ebw : b = s.length
    · subst ebw
      rw [hw m hb] at hc
      simp only [Option.some.injEq] at hc
      omega
    · obtain ⟨m0, h0, _, hpv, _, _⟩ := hget b m hb ebw
      rcases hpv with ⟨_, e⟩ | ⟨_, e⟩
      · rw [e] at hc
        simp only [Option.some.injEq] at hc
        omega
      · have := hi.prev_lt b m0 c h0 (e ▸ hc)
        omega
  · intro b m hb
    by_cases ebw : b = s.length
    · subst ebw
      rw [hw m hb]
      exact hsb.2
    · obtain ⟨m0, h0, hsz, _, _, _⟩ := hget b m hb ebw
      rcases hsz with ⟨_, e⟩ | e
      · rw [e]; exact hsa.2
      · rw [e]; exact hi.size_le b m0 h0
  · intro b m hb hlt
    by_cases ebw : b = s.length
    · subst ebw
      rw [hw m hb] at hlt
      simp only at hlt
      omega
    · by_cases ebt : b = t
      · subst ebt
        rw [h1t] at hb
        simp only [Option.some.injEq] at hb
        subst hb
        simp only at hlt
        omega
      · obtain ⟨m0, h0, hsz, hpv, hnx', _⟩ := hget b m hb ebw
        rcases hsz with ⟨e, _⟩ | e
        · exact absurd e ebt
        · have hl0 := hi.lone b m0 h0 (e ▸ hlt)
          rcases hpv with ⟨e3, _⟩ | ⟨_, e2⟩
          · have := hi.next_prev t kt b m0 ht h0 e3
            rw [hl0.1] at this
            simp at this
          · rcases hnx' with ⟨e4, _⟩ | ⟨_, e5⟩
            · exact absurd e4 ebt
            · rw [e2, e5]; exact hl0
  · intro a k b m ha hb hab
    by_cases eaw : a = s.length
    · subst eaw
      rw [hw k ha] at hab
      simp only at hab
      have ebw : b ≠ s.length := (hnxt b hab).2
      obtain ⟨m0, h0, _, hpv, _, _⟩ := hget b m hb ebw
      rcases hpv with ⟨_, e⟩ | ⟨e, _⟩
      · exact e
      · exact absurd hab e
    · obtain ⟨k0, hk0, _, _, hnx', _⟩ := hget a k ha eaw
      rcases hnx' with ⟨e, e2⟩ | ⟨e, e2⟩
      · rw [e2] at hab
        simp only [Option.some.injEq] at hab
        subst hab
        rw [hw m hb, e]
      · rw [e2] at hab
        have ebw : b ≠ s.length := Nat.ne_of_lt (hi.next_lt a k0 b hk0 hab)
        obtain ⟨m0, h0, _, hpv, _, _⟩ := hget b m hb ebw
        have := hi.next_prev a k0 b m0 hk0 h0 hab
        rcases hpv with ⟨e3, _⟩ | ⟨_, e4⟩
        · have h2 := hi.next_prev t kt b m0 ht h0 e3
          rw [h2] at this
          simp only [Option.some.injEq] at this
          exact absurd this.symm e
        · rw [e4]; exact this
  · intro a k b m ha hb hba
    by_cases ebw : b = s.length
    · subst ebw
      rw [hw m hb] at hba
      simp only [Option.some.injEq] at hba
      subst hba
      rw [h1t] at ha
      simp only [Option.some.injEq] at ha
      subst ha
      exact Or.inl rfl
    · obtain ⟨m0, h0, _, hpv, _, _⟩ := hget b m hb ebw
      rcases hpv with ⟨e3, e⟩ | ⟨e3, e⟩
      · rw [e] at hba
        simp only [Option.some.injEq] at hba
        subst hba
        rw [hw k ha]
        exact Or.inl e3
      · rw [e] at hba
        have eaw : a ≠ s.length := Nat.ne_of_lt (hi.prev_lt b m0 a h0 hba)
        obtain ⟨k0, hk0, _, _, hnx', _⟩ := hget a k ha eaw
        have hbefore := hi.prev_next a k0 b m0 hk0 h0 hba
        rcases hnx' with ⟨e4, _⟩ | ⟨_, e5⟩
        · subst e4
          rw [ht] at hk0
          simp only [Option.some.injEq] at hk0
          subst hk0
          rcases hbefore with h | ⟨y, h, h3⟩
          · exact absurd h e3
          · obtain ⟨kx, hkx, _⟩ := hnx y h
            rw [hkx] at h3
            simp at h3
        · rw [e5]
          rcases hbefore with h | ⟨y, h, h3⟩
          · exact Or.inl h
          · exact Or.inr ⟨y, h, hdead y h3⟩
  · intro a k b m c j ha hb hc hba hca
    -- the predecessor link of a live block of `s1`, in terms of `s`
    have hprev : ∀ (d : Nat) (i : Lk), s1[d]? = some (some i) → i.prev = some a →
        (d = s.length ∧ a = t) ∨ (d ≠ s.length ∧ kt.next = some d ∧ a = s.length) ∨
        (d ≠ s.length ∧ a ≠ s.length ∧ a ≠ t ∧ ∃ i0 : Lk, s[d]? = some (some i0) ∧
          i0.prev = some a) := by
      intro d i hd hda
      by_cases edw : d = s.length
      · subst edw
        rw [hw i hd] at hda
        simp only [Option.some.injEq] at hda
        exact Or.inl ⟨rfl, hda.symm⟩
      · obtain ⟨i0, hi0, _, hpv, _, _⟩ := hget d i hd edw
        rcases hpv with ⟨e3, e⟩ | ⟨e3, e⟩
        · rw [e] at hda
          simp only [Option.some.injEq] at hda
          exact Or.inr (Or.inl ⟨edw, e3, hda.symm⟩)
        · rw [e] at hda
          have eaw : a ≠ s.length := Nat.ne_of_lt (hi.prev_lt d i0 a hi0 hda)
          refine Or.inr (Or.inr ⟨edw, eaw, ?_, i0, hi0, hda⟩)
          intro eat
          subst eat
          rcases hi.prev_next a kt d i0 ht hi0 hda with h | ⟨y, h, h3⟩
          · exact e3 h
          · obtain ⟨kx, hkx, _⟩ := hnx y h
            rw [hkx] at h3
            simp at h3
    rcases hprev b m hb hba with ⟨e1, e2⟩ | ⟨e1, e2, e3⟩ | ⟨e1, e2, e3, m0, hm0, hm0p⟩ <;>
      rcases hprev c j hc hca with ⟨f1, f2⟩ | ⟨f1, f2, f3⟩ | ⟨f1, f2, f3, j0, hj0, hj0p⟩
    · rw [e1, f1]
    · omega
    · exact absurd e2 f3
    · omega
    · rw [e2] at f2
      simp only [Option.some.injEq] at f2
      exact f2
    · exact absurd e3 f2
    · exact absurd f2 e3
    · exact absurd f3 e2
    · obtain ⟨k0, hk0, _, _⟩ := hget a k ha e2
      exact hi.prev_unique a k0 b m0 c j0 hk0 hm0 hj0 hm0p hj0p
  · intro a k b ha hab
    by_cases eaw : a = s.length
    · subst eaw
      rw [hw k ha] at hab
      simp only at hab
      rw [hrw, hr b (hi.next_lt t kt b ht hab)]
      exact hv2 b hab
    · obtain ⟨k0, hk0, _, _, hnx', _⟩ := hget a k ha eaw
      have halt : a < s.length := lt_of_getElem? hk0
      rcases hnx' with ⟨e, e2⟩ | ⟨e, e2⟩
      · rw [e2] at hab
        simp only [Option.some.injEq] at hab
        subst hab
        rw [hrw, hr a halt, e]
        exact hv1
      · rw [e2] at hab
        rw [hr a halt, hr b (hi.next_lt a k0 b hk0 hab)]
        exact hi.rank_next a k0 b hk0 hab
  · intro a k b ha hab
    by_cases eaw : a = s.length
    · subst eaw
      rw [hw k ha] at hab
      simp only [Option.some.injEq] at hab
      subst hab
      rw [hrw, hr _ htlt]
      exact hv1
    · obtain ⟨k0, hk0, _, hpv, _, _⟩ := hget a k ha eaw
      have halt : a < s.length := lt_of_getElem? hk0
      rcases hpv with ⟨e3, e⟩ | ⟨e3, e⟩
      · rw [e] at hab
        simp only [Option.some.injEq] at hab
        subst hab
        rw [hrw, hr a halt]
        exact hv2 a e3
      · rw [e] at hab
        rw [hr a halt, hr b (hi.prev_lt a k0 b hk0 hab)]
        exact hi.rank_prev a k0 b hk0 hab
  · intro b m hb
    by_cases ebw : b = s.length
    · subst ebw
      rw [hw m hb]
    · obtain ⟨m0, h0, _, _, _, hnf⟩ := hget b m hb ebw
      rw [hnf]
      exact hi.nf_eq b m0 h0

/-- Slots of the skeleton. -/
theorem skel_getElem? (h : Heap) (a : Nat) :
    (skel h)[a]? = (h[a]?).map (Option.map Node.lk) := by
  simp [skel]

/-- Length of the skeleton. -/
theorem skel_length (h : Heap) : (skel h).length = h.length := by
  simp [skel]

/-- Skeleton slot of a live block. -/
theorem skel_live {h : Heap} {a : Nat} {n : Node} (hl : h[a]? = some (some n)) :
    (skel h)[a]? = some (some n.lk) := by
  rw [skel_getElem?, hl]
  rfl

/-- Skeleton slot of a freed block. -/
theorem skel_dead {h : Heap} {a : Nat} (hl : h[a]? = some none) :
    (skel h)[a]? = some none := by
  rw [skel_getElem?, hl]
  rfl

/-- A live skeleton slot comes from a live block. -/
theorem live_of_skel {h : Heap} {a : Nat} {k : Lk} (hl : (skel h)[a]? = some (some k)) :
    ∃ n : Node, h[a]? = some (some n) ∧ n.lk = k := by
  rw [skel_getElem?] at hl
  cases hx : h[a]? with
  | none => simp [hx] at hl
  | some x =>
    cases x with
    | none => simp [hx] at hl
    | some n =>
      simp only [hx, Option.map_some', Option.some.injEq] at hl
      exact ⟨n, rfl, hl⟩

/-- Skeleton after a store. -/
theorem skel_store (h : Heap) (a : Nat) (n : Node) :
    skel (h.store a n) = (skel h).set a (some n.lk) := by
  simp [skel, Heap.store, List.map_set]

/-- Skeleton after a release. -/
theorem skel_free (h : Heap) (a : Nat) : skel (h.free a) = (skel h).set a none := by
  simp [skel, Heap.free, List.map_set]

/-- Skeleton after an allocation. -/
theorem skel_append (h : Heap) (n : Node) : skel (h ++ [some n]) = skel h ++ [some n.lk] := by
  simp [skel]

/-- A store that keeps size, level-0 links and pointer count keeps the skeleton. -/
theorem skel_store_same {h : Heap} {a : Nat} {n n1 : Node} (hl : h[a]? = some (some n))
    (he : n1.lk = n.lk) : skel (h.store a n1) = skel h := by
  rw [skel_store, he]
  apply List.ext_getElem?
  intro b
  rw [set_getElem? _ _ _ _ (by rw [skel_length]; exact lt_of_getElem? hl)]
  split
  · rename_i e
    subst e
    exact (skel_live hl).symm
  · rfl

/-- Result of a successful `modify`. -/
theorem modify_ok {h h1 : Heap} {p : Option Nat} {f : Node → Node}
    (hm : h.modify p f = .ok h1) :
    ∃ (a : Nat) (n : Node), p = some a ∧ h[a]? = some (some n) ∧ h1 = h.store a (f n) := by
  unfold Heap.modify at hm
  cases hl : h.load p with
  | error e => simp [hl, bind, Except.bind] at hm
  | ok n =>
    cases p with
    | none => simp [Heap.load] at hl
    | some a =>
      simp only [hl, bind, Except.bind, pure, Except.pure, Except.ok.injEq] at hm
      exact ⟨a, n, rfl, load_eq_ok.mp hl, hm.symm⟩

/-- Setting a forward pointer above level 0 keeps the skeleton entry. -/
theorem setFwd_lk_pos (n : Node) (l : Nat) (p : Option Nat) (hl : 0 < l) :
    (n.setFwd l p).lk = n.lk := by
  have h1 : (n.forward.set l p).getD 0 none = n.forward.getD 0 none := by
    rw [List.getD_eq_getElem?_getD, List.getD_eq_getElem?_getD,
      List.getElem?_set_ne (by omega)]
  simp only [Node.lk, Node.setFwd, Node.fwd, h1, List.length_set]

/-- Setting the level-0 forward pointer changes the successor link. -/
theorem setFwd_lk_zero (n : Node) (p : Option Nat) (hl : 0 < n.forward.length) :
    (n.setFwd 0 p).lk = { n.lk with next := p } := by
  have h1 : (n.forward.set 0 p).getD 0 none = p := by
    rw [List.getD_eq_getElem?_getD, List.getElem?_set_self hl]
    rfl
  simp only [Node.lk, Node.setFwd, Node.fwd, h1, List.length_set]

/-- Clearing all forward pointers removes the successor link. -/
theorem clearForward_lk (n : Node) : (clearForward n).lk = { n.lk with next := none } := by
  have h1 : (n.forward.map (fun _ => (none : Option Nat))).getD 0 none = none := by
    rw [List.getD_eq_getElem?_getD, List.getElem?_map]
    cases n.forward[0]? <;> rfl
  simp only [Node.lk, clearForward, Node.fwd, h1, List.length_map]

/-- Reading a heap after a store into a slot inside the heap. -/
theorem store_getElem? (h : Heap) (a b : Nat) (n : Node) (ha : a < h.length) :
    (h.store a n)[b]? = if a = b then some (some n) else h[b]? :=
  set_getElem? h a b (some n) ha

/-- A bind that succeeds: both parts succeed. -/
theorem bind_eq_ok {ε α β : Type} {x : Except ε α} {f : α → Except ε β} {b : β} :
    (x >>= f) = .ok b ↔ ∃ a : α, x = .ok a ∧ f a = .ok b := by
  cases x with
  | error e => simp [bind, Except.bind]
  | ok a => simp [bind, Except.bind]

/-- A throw never succeeds. -/
theorem throw_bind_ne_ok {ε α β : Type} {e : ε} {f : α → Except ε β} {b : β} :
    ((throw e : Except ε α) >>= f) ≠ .ok b := by
  simp [throw, throwThe, MonadExceptOf.throw, bind, Except.bind]

/-- A pure step followed by a continuation. -/
theorem pure_bind_eq {ε α β : Type} (a : α) (f : α → Except ε β) :
    ((pure a : Except ε α) >>= f) = f a := rfl

/-- Effect of `Node::insert` on size and links. -/
theorem insert_lk {n n1 : Node} {e : Entry} {pos : Nat} (h : n.insert e = .ok (n1, pos)) :
    n1.lk = { n.lk with size := (n.size + 1) % U16 } := by
  unfold Node.insert at h
  simp only [bind_eq_ok] at h
  obtain ⟨a, _, a1, _, a2, _, h⟩ := h
  split at h
  · exact absurd h throw_bind_ne_ok
  · simp only [pure, Except.pure, bind, Except.bind, Except.ok.injEq, Prod.mk.injEq] at h
    rw [← h.1]
    rfl

/-- The search of `lower_bound` on an empty range returns its start. -/
theorem lowerBound_zero (data : List Entry) (key : Int) (first : Nat) :
    lowerBound data key 0 first 0 = .ok first := rfl

/-- Effect of `Node::erase` on size and links. -/
theorem erase_lk {n n1 : Node} {key : Int} {r : Option (Int × Int)}
    (h : n.erase key = .ok (n1, r)) :
    (r = none ∧ n1 = n) ∨
      (r ≠ none ∧ n.size ≠ 0 ∧ (n.size + U16 - 1) % U16 ≠ 0 ∧
        n1.lk = { n.lk with size := (n.size + U16 - 1) % U16 }) := by
  unfold Node.erase at h
  simp only [bind_eq_ok] at h
  obtain ⟨f, hf, h⟩ := h
  cases f with
  | none =>
    simp only [pure, Except.pure, Except.ok.injEq, Prod.mk.injEq] at h
    exact Or.inl ⟨h.2.symm, h.1.symm⟩
  | some pos =>
    simp only [bind_eq_ok] at h
    obtain ⟨e, _, tl, _, d1, _, last, hlast, h⟩ := h
    simp only [pure, Except.pure, Except.ok.injEq, Prod.mk.injEq] at h
    refine Or.inr ⟨by rw [← h.2]; simp, ?_, ?_, by rw [← h.1]; rfl⟩
    · intro h0
      unfold Node.find at hf
      rw [h0, lowerBound_zero] at hf
      simp [bind, Except.bind, pure, Except.pure] at hf
    · intro h0
      rw [h0] at hlast
      simp [readLast] at hlast

/-- Effect of `Node::split_into` on sizes and links. -/
theorem split_into_lk {n o n1 o1 : Node} (h : n.split_into o = .ok (n1, o1)) :
    n1.lk = { n.lk with size := n.size - n.size / 2 } ∧
      o1.lk = { o.lk with size := (o.size + n.size / 2) % U16 } := by
  unfold Node.split_into at h
  simp only [bind_eq_ok] at h
  obtain ⟨u, _, od, _, ol, _, l, _, h⟩ := h
  simp only [pure, Except.pure, Except.ok.injEq, Prod.mk.injEq] at h
  exact ⟨by rw [← h.1]; rfl, by rw [← h.2]; rfl⟩

/-- The level splicing of `insert` works above level 0 and keeps the skeleton. -/
theorem spliceLevels_skel (height target new_node : Nat) (lb : List Nat) (cnt l : Nat)
    (h h1 : Heap) (hl : 0 < l)
    (hs : spliceLevels height target new_node lb cnt l h = .ok h1) : skel h1 = skel h := by
  induction cnt generalizing l h with
  | zero =>
    simp only [spliceLevels, Except.ok.injEq] at hs
    rw [hs]
  | succ cnt ih =>
    unfold spliceLevels at hs
    have hmod : ∀ (g g1 : Heap) (p : Option Nat) (q : Option Nat),
        g.modify p (fun x => x.setFwd l q) = .ok g1 → skel g1 = skel g := by
      intro g g1 p q hm
      obtain ⟨a, n, _, hn, e⟩ := modify_ok hm
      rw [e]
      exact skel_store_same hn (setFwd_lk_pos n l q hl)
    split at hs
    · simp only [bind_eq_ok] at hs
      obtain ⟨pn, _, hs⟩ := hs
      split at hs
      · simp only [bind_eq_ok] at hs
        obtain ⟨g0, hg0, g, hg, hs⟩ := hs
        rw [ih (l + 1) g (by omega) hs, hmod _ _ _ _ hg, hmod _ _ _ _ hg0]
      · simp only [bind_eq_ok] at hs
        obtain ⟨tn, _, g0, hg0, g, hg, hs⟩ := hs
        rw [ih (l + 1) g (by omega) hs, hmod _ _ _ _ hg, hmod _ _ _ _ hg0]
    · simp only [bind_eq_ok] at hs
      obtain ⟨g, hg, hs⟩ := hs
      rw [ih (l + 1) g (by omega) hs, hmod _ _ _ _ hg]

/-- Above level 0 the relinking loop of `merge_node` keeps the skeleton. -/
theorem unlinkLevels_pos (node : Nat) (preds : List Nat) (cnt l : Nat) (h h1 : Heap)
    (hl : 0 < l) (hs : unlinkLevels node preds cnt l h = .ok h1) : skel h1 = skel h := by
  induction cnt generalizing l h with
  | zero =>
    simp only [unlinkLevels, Except.ok.injEq] at hs
    rw [hs]
  | succ cnt ih =>
    unfold unlinkLevels at hs
    simp only [bind_eq_ok] at hs
    obtain ⟨pn, _, hs⟩ := hs
    split at hs
    · simp only [pure, Except.pure, Except.ok.injEq] at hs
      rw [hs]
    · simp only [bind_eq_ok] at hs
      obtain ⟨_, _, n, _, g, hg, hs⟩ := hs
      obtain ⟨a, m, _, hm, e⟩ := modify_ok hg
      rw [ih (l + 1) g (by omega) hs, e]
      exact skel_store_same hm (setFwd_lk_pos m l _ hl)

/-- At level 0 the relinking loop of `merge_node` either leaves the skeleton alone or
redirects the successor link of one block that pointed at `node`. -/
theorem unlinkLevels_zero (node : Nat) (preds : List Nat) (cnt : Nat) (h h1 : Heap)
    (hnf : ∀ (a : Nat) (n : Node), h[a]? = some (some n) → 0 < n.forward.length)
    (hs : unlinkLevels node preds (cnt + 1) 0 h = .ok h1) :
    skel h1 = skel h ∨ ∃ (p : Nat) (pn n : Node), h[p]? = some (some pn) ∧
      pn.fwd 0 = some node ∧ h[node]? = some (some n) ∧
      skel h1 = (skel h).set p (some { pn.lk with next := n.fwd 0 }) := by
  unfold unlinkLevels at hs
  simp only [bind_eq_ok] at hs
  obtain ⟨pn, hpn, hs⟩ := hs
  split at hs
  · simp only [pure, Except.pure, Except.ok.injEq] at hs
    rw [hs]
    exact Or.inl rfl
  · rename_i hc
    simp only [ne_eq, not_not] at hc
    simp only [bind_eq_ok] at hs
    obtain ⟨_, _, n, hn, g, hg, hs⟩ := hs
    obtain ⟨a, m, ha, hm, e⟩ := modify_ok hg
    simp only [Option.some.injEq] at ha
    have hm2 := load_eq_ok.mp hpn
    rw [← ha] at hm
    rw [hm2] at hm
    simp only [Option.some.injEq] at hm
    subst hm
    refine Or.inr ⟨preds.getD 0 node, pn, n, hm2, hc, load_eq_ok.mp hn, ?_⟩
    rw [unlinkLevels_pos node preds cnt 1 g h1 (by omega) hs, e, ← ha, skel_store,
      setFwd_lk_zero pn _ (hnf _ pn hm2)]

/-- Merging the head block defers to its successor. -/
theorem merge_node_head (bs fuel nx : Nat) (h : Heap) (hd : Node)
    (h0 : h[0]? = some (some hd)) (hn : hd.fwd 0 = some nx) :
    merge_node (some 0) bs (fuel + 1) (some 0) h = merge_node (some 0) bs fuel (some nx) h := by
  rw [merge_node]
  simp only [load_eq_ok.mpr h0, bind, Except.bind, if_true, hn]

/-- Merging a head block without successor does nothing. -/
theorem merge_node_head_alone (bs fuel : Nat) (h : Heap) (hd : Node)
    (h0 : h[0]? = some (some hd)) (hn : hd.fwd 0 = none) :
    merge_node (some 0) bs (fuel + 1) (some 0) h = .ok h := by
  rw [merge_node]
  simp only [load_eq_ok.mpr h0, bind, Except.bind, if_true, hn, pure, Except.pure]

/-- Merging a tail block whose predecessor is not the head defers to the predecessor. -/
theorem merge_node_tail (bs fuel t p : Nat) (h : Heap) (nd : Node)
    (ht : h[t]? = some (some nd)) (ht0 : t ≠ 0) (hn : nd.fwd 0 = none)
    (hp : nd.prev = some p) (hp0 : p ≠ 0) :
    merge_node (some 0) bs (fuel + 1) (some t) h = merge_node (some 0) bs fuel (some p) h := by
  rw [merge_node]
  have e1 : ¬ (some t = some 0) := by simpa using ht0
  have e2 : ¬ (some p = some 0) := by simpa using hp0
  simp only [load_eq_ok.mpr ht, bind, Except.bind, e1, if_false, hn, if_true, hp, e2]

/-- A successful first step followed by a continuation. -/
theorem ok_bind {ε α β : Type} (a : α) (f : α → Except ε β) :
    ((Except.ok a : Except ε α) >>= f) = f a := rfl

/-- Merging a tail block whose predecessor is the head: the head absorbs the entries,
loses its links, and the tail block is freed. -/
theorem merge_node_tail_head (bs fuel t : Nat) (h h1 : Heap) (nd : Node)
    (ht : h[t]? = some (some nd)) (ht0 : t ≠ 0) (hn : nd.fwd 0 = none)
    (hp : nd.prev = some 0)
    (hm : merge_node (some 0) bs (fuel + 2) (some t) h = .ok h1) :
    ∃ hd : Node, h[0]? = some (some hd) ∧
      skel h1 = ((skel h).set 0
        (some { hd.lk with size := (hd.size + nd.size) % U16, next := none })).set t none := by
  rw [merge_node] at hm
  have e1 : ¬ (some t = some 0) := by simpa using ht0
  simp only [load_eq_ok.mpr ht, ok_bind, e1, if_false, hn, if_true, hp, bind_eq_ok] at hm
  obtain ⟨hd, hhd, src, _, pd, _, last, _, g1, hg1, g2, hg2, hm⟩ := hm
  have hhd' := load_eq_ok.mp hhd
  obtain ⟨a1, m1, ea1, hm1, eg1⟩ := modify_ok hg1
  simp only [Option.some.injEq] at ea1
  subst ea1
  rw [hhd'] at hm1
  simp only [Option.some.injEq] at hm1
  subst hm1
  obtain ⟨a2, m2, ea2, hm2, eg2⟩ := modify_ok hg2
  simp only [Option.some.injEq] at ea2
  subst ea2
  have h0lt : 0 < h.length := lt_of_getElem? hhd'
  rw [eg1, store_getElem? h 0 0 _ h0lt] at hm2
  simp only [if_true, Option.some.injEq] at hm2
  have hg2h : (g2.free t)[0]? = some (some (clearForward m2)) := by
    rw [free_getElem?, if_neg ht0, eg2, store_getElem? g1 0 0 _ (by rw [eg1]; simpa [Heap.store] using h0lt)]
    simp
  have hcf : (clearForward m2).fwd 0 = none := by
    have := clearForward_lk m2
    have h2 : (clearForward m2).lk.next = none := by rw [this]
    exact h2
  rw [merge_node_head_alone bs fuel (g2.free t) _ hg2h hcf] at hm
  simp only [Except.ok.injEq] at hm
  refine ⟨hd, hhd', ?_⟩
  rw [← hm, skel_free, eg2, skel_store, eg1, skel_store, List.set_set, clearForward_lk, ← hm2]
  rfl

/-- Length of a successfully read prefix. -/
theorem slice_zero_length {d l : List Entry} {b : Nat} (h : slice d 0 b = .ok l) :
    l.length = b := by
  unfold slice at h
  split at h
  · simp only [Except.ok.injEq] at h
    rw [← h]
    simp
    omega
  · split at h
    · simp only [Except.ok.injEq] at h
      rw [← h]
      simp
      omega
    · cases h

/-- A successful `move_backward` has room in front of its destination end. -/
theorem copyBackInto_ok {dst src d1 : List Entry} {d_last : Nat}
    (h : copyBackInto dst d_last src = .ok d1) : src.length = 0 ∨ src.length ≤ d_last := by
  unfold copyBackInto at h
  split at h
  · rename_i e
    exact Or.inl e
  · split at h
    · cases h
    · rename_i e
      exact Or.inr (by omega)

/-- Merging an interior block `x`: one neighbour absorbs its entries, the relinking loop
runs, the successor gets the predecessor of `x`, and `x` is freed. -/
theorem merge_node_interior (bs fuel x n' : Nat) (h h1 : Heap) (nd : Node)
    (hx : h[x]? = some (some nd)) (hx0 : x ≠ 0) (hn : nd.fwd 0 = some n')
    (hm : merge_node (some 0) bs (fuel + 1) (some x) h = .ok h1) :
    ∃ (p : Nat) (nn pv : Node) (q : Nat) (kq kq1 : Node) (preds : List Nat) (g2 : Heap)
      (n2 : Node),
      nd.prev = some p ∧ h[n']? = some (some nn) ∧ h[p]? = some (some pv) ∧
      ((nn.size < pv.size ∧ q = n' ∧ kq = nn ∧ (nn.size = 0 ∨ nn.size ≤ nd.size)) ∨
        (¬ nn.size < pv.size ∧ q = p ∧ kq = pv)) ∧
      kq.size + nd.size ≤ bs ∧
      kq1.lk = { kq.lk with size := (kq.size + nd.size) % U16 } ∧
      unlinkLevels x preds SKIP_LIST_LEVELS 0 (h.store q kq1) = .ok g2 ∧
      g2[n']? = some (some n2) ∧
      skel h1 = ((skel g2).set n' (some { n2.lk with prev := some p })).set x none := by
  rw [merge_node] at hm
  have e1 : ¬ (some x = some 0) := by simpa using hx0
  have e2 : ¬ (some n' = (none : Option Nat)) := by simp
  simp only [load_eq_ok.mpr hx, ok_bind, e1, if_false, hn, e2, bind_eq_ok] at hm
  obtain ⟨first, _, fr, _, nn, hnn, pv, hpv, hm⟩ := hm
  cases hp : nd.prev with
  | none =>
    rw [hp] at hpv
    simp [Heap.load] at hpv
  | some p =>
    rw [hp] at hpv hm
    have hnn' := load_eq_ok.mp hnn
    have hpv' := load_eq_ok.mp hpv
    split at hm
    · rename_i hlt
      split at hm
      · exact absurd hm throw_bind_ne_ok
      · rename_i hfit
        simp only [not_not] at hfit
        simp only [bind_eq_ok] at hm
        obtain ⟨_, _, own, hown, d1, hd1, src, _, d2, _, g, hg, g2, hg2, g3, hg3, hm⟩ := hm
        obtain ⟨a1, m1, ea1, hm1, eg1⟩ := modify_ok hg
        simp only [Option.some.injEq] at ea1
        subst ea1
        rw [hnn'] at hm1
        simp only [Option.some.injEq] at hm1
        subst hm1
        obtain ⟨a3, m3, ea3, hm3, eg3⟩ := modify_ok hg3
        simp only [Option.some.injEq] at ea3
        subst ea3
        simp only [pure, Except.pure, Except.ok.injEq] at hm
        refine ⟨p, nn, pv, _, nn, { nn with data := d2, size := (nn.size + nd.size) % U16 },
          fr.2, g2, m3, rfl, hnn', hpv',
          Or.inl ⟨hlt, rfl, rfl, ?_⟩, hfit, rfl, by rw [← eg1]; exact hg2, hm3, ?_⟩
        · have := copyBackInto_ok hd1
          rw [slice_zero_length hown] at this
          exact this
        · rw [← hm, skel_free, eg3, skel_store]
          rfl
    · rename_i hlt
      split at hm
      · exact absurd hm throw_bind_ne_ok
      · rename_i hfit
        simp only [not_not] at hfit
        simp only [bind_eq_ok] at hm
        obtain ⟨_, _, src, _, pd, _, last, _, g, hg, g2, hg2, g3, hg3, hm⟩ := hm
        obtain ⟨a1, m1, ea1, hm1, eg1⟩ := modify_ok hg
        simp only [Option.some.injEq] at ea1
        subst ea1
        rw [hpv'] at hm1
        simp only [Option.some.injEq] at hm1
        subst hm1
        obtain ⟨a3, m3, ea3, hm3, eg3⟩ := modify_ok hg3
        simp only [Option.some.injEq] at ea3
        subst ea3
        simp only [pure, Except.pure, Except.ok.injEq] at hm
        refine ⟨_, nn, pv, _, pv,
          { pv with m_max_key := last.key, data := pd, size := (pv.size + nd.size) % U16 },
          fr.2, g2, m3, rfl, hnn', hpv',
          Or.inr ⟨hlt, rfl, rfl⟩, hfit, rfl, by rw [← eg1]; exact hg2, hm3, ?_⟩
        rw [← hm, skel_free, eg3, skel_store]
        rfl

/-- Removing an interior block `x` after one of its neighbours `q` absorbed entries and
reached the size `ns`. -/
theorem InvR.absorb_remove {r : Nat → ℚ} {s sf : List (Option Lk)} (hi : InvR r s)
    {x p n q : Nat} {kx kp kn : Lk} (ns : Nat)
    (hx : s[x]? = some (some kx)) (hp : s[p]? = some (some kp))
    (hn : s[n]? = some (some kn)) (hxp : kx.prev = some p) (hxn : kx.next = some n)
    (hq : q = p ∨ q = n) (hns : 115 ≤ ns ∧ ns ≤ 256)
    (np : Option Nat) (hnp : np = some n ∨ np = kp.next)
    (hlen : sf.length = s.length)
    (hfx : sf[x]? = some none)
    (hfp : sf[p]? = some (some { kp with size := if p = q then ns else kp.size,
                                         next := np }))
    (hfn : sf[n]? = some (some { kn with size := if n = q then ns else kn.size,
                                         prev := some p }))
    (hoth : ∀ b : Nat, b ≠ x → b ≠ p → b ≠ n → sf[b]? = s[b]?) :
    InvR r sf := by
  have rpx : r p < r x := hi.rank_prev x kx p hx hxp
  have rxn : r x < r n := hi.rank_next x kx n hx hxn
  have hpx : p ≠ x := fun e => by rw [e] at rpx; exact lt_irrefl _ rpx
  have hxn' : x ≠ n := fun e => by rw [e] at rxn; exact lt_irrefl _ rxn
  have hpn : p ≠ n := fun e => by rw [e] at rpx; exact lt_irrefl _ (lt_trans rpx rxn)
  have hqx : q ≠ x := by
    rcases hq with e | e
    · rw [e]; exact hpx
    · rw [e]; exact fun e' => hxn' e'.symm
  obtain ⟨kq, hkq⟩ : ∃ kq : Lk, s[q]? = some (some kq) := by
    rcases hq with e | e
    · exact ⟨kp, e ▸ hp⟩
    · exact ⟨kn, e ▸ hn⟩
  have hqlt : q < s.length := lt_of_getElem? hkq
  have hi1 : InvR r (s.set q (some { kq with size := ns })) :=
    hi.resize ns hkq hns.2 (fun h => by omega)
  have hget1 : ∀ b : Nat, (s.set q (some { kq with size := ns }))[b]? =
      if q = b then some (some { kq with size := ns }) else s[b]? :=
    fun b => set_getElem? s q b _ hqlt
  refine @InvR.remove _ _ _ hi1 x p n kx { kp with size := if p = q then ns else kp.size }
    { kn with size := if n = q then ns else kn.size } ?_ ?_ ?_ hxp hxn np hnp ?_
    hfx hfp hfn ?_
  · rw [hget1, if_neg hqx]
    exact hx
  · rw [hget1]
    by_cases e : q = p
    · subst e
      rw [hp] at hkq
      simp only [Option.some.injEq] at hkq
      subst hkq
      simp
    · rw [if_neg e, hp, if_neg (fun e' => e e'.symm)]
  · rw [hget1]
    by_cases e : q = n
    · subst e
      rw [hn] at hkq
      simp only [Option.some.injEq] at hkq
      subst hkq
      simp
    · rw [if_neg e, hn, if_neg (fun e' => e e'.symm)]
  · rw [hlen]
    simp
  · intro b h1 h2 h3
    rw [hoth b h1 h2 h3, hget1, if_neg]
    rcases hq with e | e
    · rw [e]; exact fun e' => h2 e'.symm
    · rw [e]; exact fun e' => h3 e'.symm

/-- Slots of the skeleton of a dented heap. -/
theorem Dent.skel_get {r : Nat → ℚ} {s0 : List (Option Lk)} {h : Heap} {t : Nat} {kt : Lk}
    (hd : Dent r s0 h t kt) (b : Nat) :
    (skel h)[b]? = if t = b then some (some { kt with size := 114 }) else s0[b]? := by
  rw [hd.hsk]
  exact set_getElem? s0 t b _ (lt_of_getElem? hd.ht)

/-- A live block of a dented heap, seen in the intact skeleton. -/
theorem Dent.get {r : Nat → ℚ} {s0 : List (Option Lk)} {h : Heap} {t : Nat} {kt : Lk}
    (hd : Dent r s0 h t kt) {b : Nat} {n : Node} (hb : h[b]? = some (some n)) :
    ∃ k0 : Lk, s0[b]? = some (some k0) ∧ n.prev = k0.prev ∧ n.fwd 0 = k0.next ∧
      n.forward.length = k0.nf ∧
      ((b ≠ t ∧ n.size = k0.size) ∨ (b = t ∧ k0 = kt ∧ n.size = 114)) := by
  have h1 := skel_live hb
  rw [hd.skel_get] at h1
  by_cases e : t = b
  · subst e
    rw [if_pos rfl] at h1
    simp only [Option.some.injEq] at h1
    refine ⟨kt, hd.ht, ?_, ?_, ?_, Or.inr ⟨rfl, rfl, ?_⟩⟩
    · exact (congrArg Lk.prev h1.symm : n.prev = kt.prev)
    · exact (congrArg Lk.next h1.symm : n.fwd 0 = kt.next)
    · exact (congrArg Lk.nf h1.symm : n.forward.length = kt.nf)
    · exact (congrArg Lk.size h1.symm : n.size = 114)
  · rw [if_neg e] at h1
    exact ⟨n.lk, h1, rfl, rfl, rfl, Or.inl ⟨fun e' => e e'.symm, rfl⟩⟩

/-- Freed blocks of a dented heap are freed in the intact skeleton. -/
theorem Dent.dead {r : Nat → ℚ} {s0 : List (Option Lk)} {h : Heap} {t : Nat} {kt : Lk}
    (hd : Dent r s0 h t kt) {b : Nat} (hb : h[b]? = some none) : s0[b]? = some none := by
  have h1 := skel_dead hb
  rw [hd.skel_get] at h1
  by_cases e : t = b
  · rw [if_pos e] at h1
    simp at h1
  · rw [if_neg e] at h1
    exact h1

/-- The dented block has at least 115 entries in the intact skeleton. -/
theorem Dent.size_t {r : Nat → ℚ} {s0 : List (Option Lk)} {h : Heap} {t : Nat} {kt : Lk}
    (hd : Dent r s0 h t kt) : 115 ≤ kt.size := by
  by_contra hlt
  exact hd.links (hd.inv.lone t kt hd.ht (by omega))

/-- A block with a link has at least 115 entries. -/
theorem InvR.size_ge {r : Nat → ℚ} {s : List (Option Lk)} (hi : InvR r s) {a : Nat} {k : Lk}
    (ha : s[a]? = some (some k)) (hl : k.prev ≠ none ∨ k.next ≠ none) : 115 ≤ k.size := by
  by_contra hlt
  have := hi.lone a k ha (by omega)
  rcases hl with h | h
  · exact h this.1
  · exact h this.2

/-- Merging an interior block of a dented heap restores the invariant, when the dented
block is the merged block or one of its two neighbours. -/
theorem merge_interior_inv {r : Nat → ℚ} {s0 : List (Option Lk)} {h h1 : Heap} {t : Nat}
    {kt : Lk} (hd : Dent r s0 h t kt) {x n' fuel : Nat} {nd : Node}
    (hx : h[x]? = some (some nd)) (hx0 : x ≠ 0) (hn : nd.fwd 0 = some n')
    (hctx : x = t ∨ n' = t ∨ nd.prev = some t)
    (hm : merge_node (some 0) 256 (fuel + 1) (some x) h = .ok h1) : InvR r (skel h1) := by
  obtain ⟨p, nn, pv, q, kq, kq1, preds, g2, n2, hprev, hnn, hpv, hbr, hfit, hkq1, hun, hn2,
    hfin⟩ := merge_node_interior 256 fuel x n' h h1 nd hx hx0 hn hm
  obtain ⟨kx, hkx, hxp, hxn, hxnf, hxs⟩ := hd.get hx
  obtain ⟨kp, hkp, hpp, hpn, hpnf, hps⟩ := hd.get hpv
  obtain ⟨kn, hkn, hnp, hnn2, hnnf, hns⟩ := hd.get hnn
  have hi := hd.inv
  have kxp : kx.prev = some p := by rw [← hxp, hprev]
  have kxn : kx.next = some n' := by rw [← hxn, hn]
  have rpx := hi.rank_prev x kx p hkx kxp
  have rxn := hi.rank_next x kx n' hkx kxn
  have hpx : p ≠ x := fun e => by rw [e] at rpx; exact lt_irrefl _ rpx
  have hxn' : x ≠ n' := fun e => by rw [e] at rxn; exact lt_irrefl _ rxn
  have hpn' : p ≠ n' := fun e => by rw [e] at rpx; exact lt_irrefl _ (lt_trans rpx rxn)
  have hkn_prev : kn.prev = some x := hi.next_prev x kx n' kn hkx hkn kxn
  have hkp_next : kp.next ≠ none := by
    rcases hi.prev_next p kp x kx hkp hkx kxp with e | ⟨y, e, _⟩ <;> simp [e]
  have hkp115 : 115 ≤ kp.size := hi.size_ge hkp (Or.inr hkp_next)
  have hkn115 : 115 ≤ kn.size := hi.size_ge hkn (Or.inl (by simp [hkn_prev]))
  have hkx115 : 115 ≤ kx.size := hi.size_ge hkx (Or.inl (by simp [kxp]))
  have hq : q = p ∨ q = n' := by
    rcases hbr with ⟨_, e, _, _⟩ | ⟨_, e, _⟩
    · exact Or.inr e
    · exact Or.inl e
  have hqx : q ≠ x := by
    rcases hq with e | e
    · rw [e]; exact hpx
    · rw [e]; exact fun e' => hxn' e'.symm
  -- the dented block is the freed block or the absorber
  have htq : x = t ∨ q = t := by
    rcases hctx with e | e | e
    · exact Or.inl e
    · right
      rcases hbr with ⟨_, eq, _, _⟩ | ⟨hlt, _, _⟩
      · rw [eq, e]
      · exfalso
        have h1 : nn.size = 114 := by
          rcases hns with ⟨h1, _⟩ | ⟨_, _, h3⟩
          · exact absurd e h1
          · exact h3
        have h2 : pv.size = kp.size := by
          rcases hps with ⟨_, h2⟩ | ⟨h1, _, _⟩
          · exact h2
          · exact absurd (h1.trans e.symm) hpn'
        omega
    · have ept : p = t := by
        rw [hprev] at e
        simpa using e
      right
      rcases hbr with ⟨hlt, _, _, _⟩ | ⟨_, eq, _⟩
      · exfalso
        have h1 : pv.size = 114 := by
          rcases hps with ⟨h1, _⟩ | ⟨_, _, h3⟩
          · exact absurd ept h1
          · exact h3
        have h2 : nn.size = kn.size := by
          rcases hns with ⟨_, h2⟩ | ⟨h1, _, _⟩
          · exact h2
          · exact absurd (ept.trans h1.symm) hpn'
        omega
      · rw [eq, ept]
  -- the absorber in the heap and in the intact skeleton
  have hkqlive : h[q]? = some (some kq) := by
    rcases hbr with ⟨_, e1, e2, _⟩ | ⟨_, e1, e2⟩
    · rw [e1, e2]; exact hnn
    · rw [e1, e2]; exact hpv
  obtain ⟨kq0, hkq0, hqp, hqn, hqnf, hqs⟩ := hd.get hkqlive
  have hqlt : q < h.length := lt_of_getElem? hkqlive
  have hsum : 115 ≤ kq.size + nd.size := by
    rcases hxs with ⟨_, h2⟩ | ⟨ext, _, _⟩
    · omega
    · rcases hqs with ⟨_, h4⟩ | ⟨h3, _, _⟩
      · have : 115 ≤ kq0.size := by
          rcases hq with e | e
          · subst e
            rw [hkp] at hkq0
            simp only [Option.some.injEq] at hkq0
            rw [← hkq0]
            exact hkp115
          · subst e
            rw [hkn] at hkq0
            simp only [Option.some.injEq] at hkq0
            rw [← hkq0]
            exact hkn115
        omega
      · exact absurd (h3.trans ext.symm) hqx
  have hmod : (kq.size + nd.size) % U16 = kq.size + nd.size :=
    Nat.mod_eq_of_lt (by unfold U16; omega)
  rw [hmod] at hkq1
  -- skeleton of the heap after the absorption
  have hG : ∀ b : Nat, (skel (h.store q kq1))[b]? =
      if q = b then some (some { kq0 with size := kq.size + nd.size })
      else if t = b then some (some { kt with size := 114 }) else s0[b]? := by
    intro b
    rw [skel_store, set_getElem? _ _ _ _ (by rw [skel_length]; exact hqlt), hkq1, hd.skel_get]
    by_cases e : q = b
    · rw [if_pos e, if_pos e]
      simp only [Node.lk, Option.some.injEq, Lk.mk.injEq, true_and]
      exact ⟨hqp, hqn, hqnf⟩
    · rw [if_neg e, if_neg e]
  have hGnf : ∀ (b : Nat) (m : Node), (h.store q kq1)[b]? = some (some m) →
      ∃ k0 : Lk, s0[b]? = some (some k0) ∧ m.fwd 0 = k0.next ∧ 0 < m.forward.length := by
    intro b m hb
    have h2 := skel_live hb
    rw [hG] at h2
    have hpos : ∀ k0 : Lk, s0[b]? = some (some k0) → 0 < k0.nf := by
      intro k0 hk0
      rw [hi.nf_eq b k0 hk0]
      unfold SKIP_LIST_LEVELS
      omega
    by_cases e1 : q = b
    · subst e1
      rw [if_pos rfl] at h2
      simp only [Option.some.injEq] at h2
      refine ⟨kq0, hkq0, (congrArg Lk.next h2.symm : m.fwd 0 = kq0.next), ?_⟩
      have : m.forward.length = kq0.nf := congrArg Lk.nf h2.symm
      rw [this]
      exact hpos kq0 hkq0
    · rw [if_neg e1] at h2
      by_cases e2 : t = b
      · subst e2
        rw [if_pos rfl] at h2
        simp only [Option.some.injEq] at h2
        refine ⟨kt, hd.ht, (congrArg Lk.next h2.symm : m.fwd 0 = kt.next), ?_⟩
        have : m.forward.length = kt.nf := congrArg Lk.nf h2.symm
        rw [this]
        exact hpos kt hd.ht
      · rw [if_neg e2] at h2
        refine ⟨m.lk, h2, rfl, ?_⟩
        exact hpos m.lk h2
  have hGp : (skel (h.store q kq1))[p]? =
      some (some { kp with size := if p = q then kq.size + nd.size else kp.size }) := by
    rw [hG]
    by_cases e : q = p
    · subst e
      rw [hkp] at hkq0
      simp only [Option.some.injEq] at hkq0
      subst hkq0
      simp
    · have hpt : t ≠ p := by
        rcases htq with e1 | e1
        · rw [← e1]; exact fun e' => hpx e'.symm
        · rw [← e1]; exact e
      rw [if_neg e, if_neg hpt, hkp, if_neg (fun e' => e e'.symm)]
  have hGn : (skel (h.store q kq1))[n']? =
      some (some { kn with size := if n' = q then kq.size + nd.size else kn.size }) := by
    rw [hG]
    by_cases e : q = n'
    · subst e
      rw [hkn] at hkq0
      simp only [Option.some.injEq] at hkq0
      subst hkq0
      simp
    · have hnt : t ≠ n' := by
        rcases htq with e1 | e1
        · rw [← e1]; exact hxn'
        · rw [← e1]; exact e
      rw [if_neg e, if_neg hnt, hkn, if_neg (fun e' => e e'.symm)]
  have hGoth : ∀ b : Nat, b ≠ x → b ≠ p → b ≠ n' → (skel (h.store q kq1))[b]? = s0[b]? := by
    intro b h1 h2 h3
    have hbq : q ≠ b := by
      rcases hq with e | e
      · rw [e]; exact fun e' => h2 e'.symm
      · rw [e]; exact fun e' => h3 e'.symm
    have hbt : t ≠ b := by
      rcases htq with e1 | e1
      · rw [← e1]; exact fun e' => h1 e'.symm
      · rw [← e1]; exact hbq
    rw [hG, if_neg hbq, if_neg hbt]
  have hglen : (skel (h.store q kq1)).length = s0.length := by
    rw [skel_store, List.length_set, hd.hsk, List.length_set]
  -- the relinking loop
  obtain ⟨np, hnp', hg2p, hg2oth, hg2len⟩ : ∃ np : Option Nat,
      (np = some n' ∨ np = kp.next) ∧
      (skel g2)[p]? = some (some
        { kp with size := if p = q then kq.size + nd.size else kp.size, next := np }) ∧
      (∀ b : Nat, b ≠ p → (skel g2)[b]? = (skel (h.store q kq1))[b]?) ∧
      (skel g2).length = s0.length := by
    rcases unlinkLevels_zero x preds 5 (h.store q kq1) g2
        (fun a m hm => by obtain ⟨_, _, _, hpos⟩ := hGnf a m hm; exact hpos) hun with e | ⟨q', qn, xn, hq', hqx', hxn2, e⟩
    · exact ⟨kp.next, Or.inr rfl, by rw [e, hGp], fun b _ => by rw [e], by rw [e, hglen]⟩
    · obtain ⟨k', hk', hk'n, _⟩ := hGnf q' qn hq'
      have hq'p : q' = p := by
        have := hi.next_prev q' k' x kx hk' hkx (by rw [← hk'n, hqx'])
        rw [kxp] at this
        simpa using this.symm
      subst hq'p
      have hxn3 : xn.fwd 0 = some n' := by
        rw [store_getElem? h q x _ hqlt, if_neg hqx, hx] at hxn2
        simp only [Option.some.injEq] at hxn2
        rw [← hxn2]
        exact hn
      have hqnlk := skel_live hq'
      rw [hGp] at hqnlk
      simp only [Option.some.injEq] at hqnlk
      have hplt : q' < (skel (h.store q kq1)).length := by
        rw [hglen]; exact lt_of_getElem? hkp
      refine ⟨some n', Or.inl rfl, ?_, ?_, ?_⟩
      · rw [e, set_getElem? _ _ _ _ hplt, if_pos rfl, ← hqnlk, hxn3]
      · intro b hb
        rw [e, set_getElem? _ _ _ _ hplt, if_neg (fun e' => hb e'.symm)]
      · rw [e, List.length_set, hglen]
  -- the successor gets its new predecessor and the merged block is freed
  have hn2lk : n2.lk = { kn with size := if n' = q then kq.size + nd.size else kn.size } := by
    have := skel_live hn2
    rw [hg2oth n' (fun e => hpn' e.symm), hGn] at this
    simp only [Option.some.injEq] at this
    exact this.symm
  have hn'lt : n' < (skel g2).length := by rw [hg2len]; exact lt_of_getElem? hkn
  have hxlt : x < ((skel g2).set n' (some { n2.lk with prev := some p })).length := by
    rw [List.length_set, hg2len]; exact lt_of_getElem? hkx
  have hF : ∀ b : Nat, (skel h1)[b]? =
      if x = b then some none
      else if n' = b then some (some { n2.lk with prev := some p }) else (skel g2)[b]? := by
    intro b
    rw [hfin, set_getElem? _ _ _ _ hxlt, set_getElem? _ _ _ _ hn'lt]
  refine @InvR.absorb_remove _ _ _ hi x p n' q _ _ _ (kq.size + nd.size)
    hkx hkp hkn kxp kxn hq ⟨hsum, hfit⟩ np hnp' ?_ ?_ ?_ ?_ ?_
  · rw [hfin, List.length_set, List.length_set, hg2len]
  · rw [hF, if_pos rfl]
  · rw [hF, if_neg (fun e => hpx e.symm), if_neg (fun e => hpn' e.symm), hg2p]
  · rw [hF, if_neg hxn', if_pos rfl, hn2lk]
  · intro b h1 h2 h3
    rw [hF, if_neg (fun e => h1 e.symm), if_neg (fun e => h3 e.symm), hg2oth b h2,
      hGoth b h1 h2 h3]

/-- Merging a tail block into the head block of a dented heap restores the invariant,
when the dented block is one of the two. -/
theorem merge_tail_head_inv {r : Nat → ℚ} {s0 : List (Option Lk)} {h h1 : Heap} {t : Nat}
    {kt : Lk} (hd : Dent r s0 h t kt) {x fuel : Nat} {nd hd0 : Node}
    (hx : h[x]? = some (some nd)) (hx0 : x ≠ 0) (hn : nd.fwd 0 = none)
    (hp : nd.prev = some 0) (h0 : h[0]? = some (some hd0))
    (hctx : x = t ∨ t = 0) (hfit : hd0.size + nd.size ≤ 256)
    (hm : merge_node (some 0) 256 (fuel + 2) (some x) h = .ok h1) : InvR r (skel h1) := by
  obtain ⟨hd1, h01, hfin⟩ := merge_node_tail_head 256 fuel x h h1 nd hx hx0 hn hp hm
  rw [h0] at h01
  simp only [Option.some.injEq] at h01
  subst h01
  obtain ⟨kx, hkx, hxp, _, _, _⟩ := hd.get hx
  obtain ⟨k0, hk0, h0p, h0n, h0nf, _⟩ := hd.get h0
  have hmod : (hd0.size + nd.size) % U16 = hd0.size + nd.size :=
    Nat.mod_eq_of_lt (by unfold U16; omega)
  rw [hmod] at hfin
  have h0lt : 0 < (skel h).length := by rw [skel_length]; exact lt_of_getElem? h0
  have hxlt : x < ((skel h).set 0
      (some { hd0.lk with size := hd0.size + nd.size, next := none })).length := by
    rw [List.length_set, skel_length]; exact lt_of_getElem? hx
  have hF : ∀ b : Nat, (skel h1)[b]? =
      if x = b then some none
      else if 0 = b then some (some { hd0.lk with size := hd0.size + nd.size, next := none })
      else (skel h)[b]? := by
    intro b
    rw [hfin, set_getElem? _ _ _ _ hxlt, set_getElem? _ _ _ _ h0lt]
  refine @InvR.absorb_tail _ _ _ hd.inv x kx k0 (hd0.size + nd.size) hkx hk0
    (by rw [← hxp, hp]) hfit ?_ ?_ ?_ ?_
  · rw [hfin, List.length_set, List.length_set, hd.hsk, List.length_set]
  · rw [hF, if_pos rfl]
  · rw [hF, if_neg hx0, if_pos rfl]
    simp only [Node.lk, Option.some.injEq, Lk.mk.injEq, true_and, and_true]
    exact ⟨h0p, h0nf⟩
  · intro b h1 h2
    have hbt : t ≠ b := by
      rcases hctx with e | e
      · rw [← e]; exact fun e' => h1 e'.symm
      · rw [e]; exact fun e' => h2 e'.symm
    rw [hF, if_neg (fun e => h1 e.symm), if_neg (fun e => h2 e.symm), hd.skel_get,
      if_neg hbt]

/-- Moving entries from a neighbour `a` into the dented block restores the invariant. -/
theorem redistribute_inv {r : Nat → ℚ} {s0 : List (Option Lk)} {h : Heap} {t : Nat}
    {kt : Lk} (hd : Dent r s0 h t kt) {a : Nat} {n an n1 a1 : Node} (nsize asize : Nat)
    (ht : h[t]? = some (some n)) (ha : h[a]? = some (some an)) (hat : a ≠ t)
    (hn1 : n1.lk = { n.lk with size := nsize }) (ha1 : a1.lk = { an.lk with size := asize })
    (hns : 115 ≤ nsize ∧ nsize ≤ 256) (has : 115 ≤ asize ∧ asize ≤ 256) :
    InvR r (skel ((h.store t n1).store a a1)) := by
  obtain ⟨ka, hka, _, _, _, hsa⟩ := hd.get ha
  have hst : s0.set t (some { kt with size := nsize }) = skel (h.store t n1) := by
    rw [skel_store, hd.hsk, List.set_set, hn1]
    have := skel_live ht
    rw [hd.skel_get, if_pos rfl] at this
    simp only [Option.some.injEq] at this
    rw [← this]
  have hi1 : InvR r (s0.set t (some { kt with size := nsize })) :=
    hd.inv.resize nsize hd.ht hns.2 (fun h => by omega)
  have hka1 : (s0.set t (some { kt with size := nsize }))[a]? = some (some an.lk) := by
    rw [set_getElem? _ _ _ _ (lt_of_getElem? hd.ht), if_neg (fun e => hat e.symm)]
    have := skel_live ha
    rw [hd.skel_get, if_neg (fun e => hat e.symm)] at this
    exact this
  have hi2 := hi1.resize asize hka1 has.2 (fun h => by omega)
  rw [skel_store, ← hst, ha1]
  exact hi2

/-- The underflow threshold for block capacity 256. -/
theorem lower_bound_256 : get_node_lower_bound 256 = 115 := by
  unfold get_node_lower_bound
  norm_num

/-- The neighbour chosen by `balance_block` is the predecessor or the successor, and a
neighbour that is absent is never chosen when the other one exists. -/
theorem pickNeighbour_spec {h : Heap} {pv nx a : Option Nat}
    (hp : pickNeighbour h pv nx = .ok a) :
    (a = pv ∨ a = nx) ∧ (pv = none → a = nx) ∧ (nx = none → a = pv) := by
  unfold pickNeighbour at hp
  split at hp
  · simp only [pure, Except.pure, Except.ok.injEq] at hp
    exact ⟨Or.inr hp.symm, fun _ => hp.symm, fun e => by rw [← hp, e]⟩
  · simp only [pure, Except.pure, Except.ok.injEq] at hp
    exact ⟨Or.inl hp.symm, fun e => by simp at e, fun _ => hp.symm⟩
  · simp only [bind_eq_ok] at hp
    obtain ⟨_, _, _, _, hp⟩ := hp
    simp only [pure, Except.pure, Except.ok.injEq] at hp
    refine ⟨?_, fun e => by simp at e, fun e => by simp at e⟩
    split at hp
    · exact Or.inl hp.symm
    · exact Or.inr hp.symm

/-- Result of the redistribution branch of `balance_block`: the two blocks get their new
sizes, nothing else changes in the skeleton. -/
theorem redistribute_spec {h h1 : Heap} {t a : Nat} {nx : Option Nat} {n an : Node}
    (hr : redistribute h (some t) (some a) nx n an = .ok h1) :
    ∃ (nt n1 a0 a1 : Node), h[t]? = some (some nt) ∧
      n1.lk = { nt.lk with size := (n.size + (an.size - (an.size + n.size) / 2)) % U16 } ∧
      (h.store t n1)[a]? = some (some a0) ∧
      a1.lk = { a0.lk with
        size := (an.size + U16 - (an.size - (an.size + n.size) / 2)) % U16 } ∧
      h1 = (h.store t n1).store a a1 ∧ ¬ an.size < (an.size + n.size) / 2 := by
  unfold redistribute at hr
  dsimp only at hr
  by_cases hge : an.size < (an.size + n.size) / 2
  · rw [if_pos hge] at hr
    exact absurd hr throw_bind_ne_ok
  · rw [if_neg hge, pure_bind_eq] at hr
    split at hr
    · simp only [bind_eq_ok] at hr
      obtain ⟨moved, _, nd, _, rest, _, ad, _, last, _, g, hg, hr⟩ := hr
      obtain ⟨t1, nt, et, hnt, eg⟩ := modify_ok hg
      simp only [Option.some.injEq] at et
      subst et
      obtain ⟨a2, a0, ea, ha0, eh⟩ := modify_ok hr
      simp only [Option.some.injEq] at ea
      subst ea
      rw [eg] at ha0 eh
      refine ⟨nt, _, a0, _, hnt, ?_, ha0, ?_, eh, hge⟩ <;> rfl
    · simp only [bind_eq_ok] at hr
      obtain ⟨own, _, d1, _, moved, _, nd, _, last, _, g, hg, hr⟩ := hr
      obtain ⟨t1, nt, et, hnt, eg⟩ := modify_ok hg
      simp only [Option.some.injEq] at et
      subst et
      obtain ⟨a2, a0, ea, ha0, eh⟩ := modify_ok hr
      simp only [Option.some.injEq] at ea
      subst ea
      rw [eg] at ha0 eh
      refine ⟨nt, _, a0, _, hnt, ?_, ha0, ?_, eh, hge⟩ <;> rfl

/-- A successful `merge_node` starts from a live block. -/
theorem merge_node_load {bs fuel x : Nat} {h h1 : Heap}
    (hm : merge_node (some 0) bs fuel (some x) h = .ok h1) :
    ∃ nd : Node, h[x]? = some (some nd) := by
  cases fuel with
  | zero => simp [merge_node] at hm
  | succ f =>
    rw [merge_node] at hm
    obtain ⟨nd, hnd, _⟩ := bind_eq_ok.mp hm
    exact ⟨nd, load_eq_ok.mp hnd⟩

/-- The balancing step after a removal re-establishes the invariant. -/
theorem balance_dent_inv {r : Nat → ℚ} {s0 : List (Option Lk)} {h h1 : Heap} {t : Nat}
    {kt : Lk} (hd : Dent r s0 h t kt)
    (hm : balance_block (some 0) 256 (some t) h = .ok h1) : InvR r (skel h1) := by
  obtain ⟨n, hn⟩ : ∃ n : Node, h[t]? = some (some n) := by
    have := hd.skel_get t
    rw [if_pos rfl] at this
    obtain ⟨n, hn, _⟩ := live_of_skel this
    exact ⟨n, hn⟩
  obtain ⟨k0, hk0, hnp, hnn, hnnf, hns⟩ := hd.get hn
  obtain ⟨ekt, hsz⟩ : k0 = kt ∧ n.size = 114 := by
    rcases hns with ⟨e, _⟩ | ⟨_, e1, e2⟩
    · exact absurd rfl e
    · exact ⟨e1, e2⟩
  subst ekt
  have hi := hd.inv
  obtain ⟨kh, hkh, hkhp⟩ := hi.head_live
  obtain ⟨hd0, hhd0⟩ : ∃ n0 : Node, h[0]? = some (some n0) := by
    have := hd.skel_get 0
    by_cases e : t = 0
    · subst e
      exact ⟨n, hn⟩
    · rw [if_neg e, hkh] at this
      obtain ⟨n0, h0, _⟩ := live_of_skel this
      exact ⟨n0, h0⟩
  have hlen : 1 ≤ h.length := by
    have := lt_of_getElem? hhd0
    omega
  have hlinks : ¬ (n.prev = none ∧ n.fwd 0 = none) := by
    rw [hnp, hnn]
    exact hd.links
  unfold balance_block at hm
  simp only [load_eq_ok.mpr hn, ok_bind, lower_bound_256, hsz, show (114 : Nat) < 115 by omega,
    if_true, if_neg hlinks, pure_bind_eq, bind_eq_ok] at hm
  obtain ⟨another, hpick, an, han, hm⟩ := hm
  obtain ⟨hor, hpn, hnx⟩ := pickNeighbour_spec hpick
  obtain ⟨a, ea⟩ : ∃ a : Nat, another = some a := by
    cases another with
    | none => simp [Heap.load] at han
    | some a => exact ⟨a, rfl⟩
  subst ea
  have han := load_eq_ok.mp han
  obtain ⟨ka, hka, hap, hanx, hanf, has⟩ := hd.get han
  have hat : a ≠ t := by
    intro e
    subst e
    rcases hor with e | e
    · have := hi.rank_prev a k0 a hk0 (by rw [← hnp, ← e])
      exact lt_irrefl _ this
    · have := hi.rank_next a k0 a hk0 (by rw [← hnn, ← e])
      exact lt_irrefl _ this
  have hasz : an.size = ka.size := by
    rcases has with ⟨_, e⟩ | ⟨e, _⟩
    · exact e
    · exact absurd e hat
  have hale := hi.size_le a ka hka
  split at hm
  · rename_i hfit
    cases hnx0 : n.fwd 0 with
    | some n' =>
      by_cases ht0 : t = 0
      · subst ht0
        rw [merge_node_head 256 (h.length + 1) n' h n hn hnx0] at hm
        obtain ⟨nd, hnd⟩ := merge_node_load hm
        obtain ⟨kn, hkn, hndp, hndn, _, hnds⟩ := hd.get hnd
        have kxn : k0.next = some n' := by rw [← hnn, hnx0]
        have hr := hi.rank_next 0 k0 n' hk0 kxn
        have hn0 : n' ≠ 0 := by
          intro e
          rw [e] at hr
          exact lt_irrefl _ hr
        have hprev : nd.prev = some 0 := by
          rw [hndp]
          exact hi.next_prev 0 k0 n' kn hk0 hkn kxn
        have hkp : n.prev = none := by
          rw [hkh] at hk0
          simp only [Option.some.injEq] at hk0
          rw [hnp, ← hk0]
          exact hkhp
        have ea : some a = some n' := by
          rw [← hnx0]
          exact hpn hkp
        simp only [Option.some.injEq] at ea
        subst ea
        rw [hnd] at han
        simp only [Option.some.injEq] at han
        subst han
        cases hndn0 : nd.fwd 0 with
        | none =>
          have e2 : h.length + 1 = (h.length - 1) + 2 := by omega
          rw [e2] at hm
          refine merge_tail_head_inv hd hnd hn0 hndn0 hprev hn (Or.inr rfl) ?_ hm
          omega
        | some n2 =>
          exact merge_interior_inv hd hnd hn0 hndn0 (Or.inr (Or.inr hprev)) hm
      · exact merge_interior_inv hd hn ht0 hnx0 (Or.inl rfl) hm
    | none =>
      obtain ⟨p, hp⟩ : ∃ p, n.prev = some p := by
        cases hp : n.prev with
        | none => exact absurd ⟨hp, hnx0⟩ hlinks
        | some p => exact ⟨p, rfl⟩
      have ht0 : t ≠ 0 := by
        intro e
        subst e
        rw [hkh] at hk0
        simp only [Option.some.injEq] at hk0
        rw [hnp, ← hk0, hkhp] at hp
        simp at hp
      by_cases hp0 : p = 0
      · subst hp0
        have ea : some a = some 0 := by
          rw [← hp]
          exact hnx hnx0
        simp only [Option.some.injEq] at ea
        subst ea
        rw [hhd0] at han
        simp only [Option.some.injEq] at han
        subst han
        refine merge_tail_head_inv hd hn ht0 hnx0 hp hhd0 (Or.inl rfl) ?_ hm
        omega
      · rw [merge_node_tail 256 (h.length + 1) t p h n hn ht0 hnx0 hp hp0] at hm
        obtain ⟨pd, hpd⟩ := merge_node_load hm
        obtain ⟨kp, hkp, hpdp, hpdn, _, _⟩ := hd.get hpd
        have hpn2 := hi.prev_next p kp t k0 hkp hk0 (by rw [← hnp, hp])
        rcases hpn2 with e | ⟨x, e, hx⟩
        · exact merge_interior_inv hd hpd hp0 (by rw [hpdn, e]) (Or.inr (Or.inl rfl)) hm
        · have hpx : pd.fwd 0 = some x := by rw [hpdn, e]
          obtain ⟨_, nn, _, _, _, _, _, _, _, _, hnn2, _⟩ :=
            merge_node_interior 256 h.length p x h h1 pd hpd hp0 hpx hm
          obtain ⟨kx, hkx, _⟩ := hd.get hnn2
          rw [hx] at hkx
          simp at hkx
  · rename_i hfit
    obtain ⟨nt, n1, a0, a1, hnt, hn1, ha0, ha1, eh, hge⟩ := redistribute_spec hm
    rw [hn] at hnt
    simp only [Option.some.injEq] at hnt
    subst hnt
    rw [store_getElem? _ _ _ _ (lt_of_getElem? hn), if_neg (Ne.symm hat), han] at ha0
    simp only [Option.some.injEq] at ha0
    subst ha0
    rw [eh]
    refine redistribute_inv hd _ _ hn han hat hn1 ha1 ?_ ?_
    · unfold U16
      omega
    · unfold U16
      omega

/-- The invariant holds for a heap that consists of one block without links. -/
theorem InvR.single (r : Nat → ℚ) (sz : Nat) (hsz : sz ≤ 256) :
    InvR r [some ⟨sz, none, none, SKIP_LIST_LEVELS⟩] := by
  have key : ∀ (a : Nat) (k : Lk),
      ([some ⟨sz, none, none, SKIP_LIST_LEVELS⟩] : List (Option Lk))[a]? = some (some k) →
      k = ⟨sz, none, none, SKIP_LIST_LEVELS⟩ := by
    intro a k h
    cases a with
    | zero =>
      simp only [List.getElem?_cons_zero, Option.some.injEq] at h
      exact h.symm
    | succ a => simp at h
  refine ⟨⟨_, rfl, rfl⟩, ?_, ?_, ?_, ?_, ?_, ?_, ?_, ?_, ?_, ?_⟩
  · intro a k b h e
    rw [key a k h] at e
    simp at e
  · intro a k b h e
    rw [key a k h] at e
    simp at e
  · intro a k h
    rw [key a k h]
    exact hsz
  · intro a k h _
    rw [key a k h]
    exact ⟨rfl, rfl⟩
  · intro a k b m h _ e
    rw [key a k h] at e
    simp at e
  · intro a k b m _ h e
    rw [key b m h] at e
    simp at e
  · intro a k b m c j _ h _ e _
    rw [key b m h] at e
    simp at e
  · intro a k b h e
    rw [key a k h] at e
    simp at e
  · intro a k b h e
    rw [key a k h] at e
    simp at e
  · intro a k h
    rw [key a k h]

/-- A newly constructed container with block capacity 256 satisfies the invariant. -/
theorem construct_CInv {m0 : Nat} {c0 : Container} (hc : construct 256 m0 = some c0) :
    CInv c0 := by
  unfold construct at hc
  split at hc
  · simp at hc
  · simp only [Option.some.injEq] at hc
    subst hc
    refine ⟨rfl, rfl, fun _ => 0, ?_⟩
    have : skel [some (Node.new 256)] = [some ⟨0, none, none, SKIP_LIST_LEVELS⟩] := rfl
    show InvR _ (skel [some (Node.new 256)])
    rw [this]
    exact InvR.single _ 0 (by omega)

/-- On a heap that satisfies the invariant the balancing step changes nothing. -/
theorem balance_inv_id {r : Nat → ℚ} {h h1 : Heap} {t : Nat} (hi : InvR r (skel h))
    (hm : balance_block (some 0) 256 (some t) h = .ok h1) : h1 = h := by
  unfold balance_block at hm
  obtain ⟨n, hn, hm⟩ := bind_eq_ok.mp hm
  have hn := load_eq_ok.mp hn
  rw [lower_bound_256] at hm
  split at hm
  · rename_i hlt
    have hl := hi.lone t n.lk (skel_live hn) hlt
    have hl2 : n.prev = none ∧ n.fwd 0 = none := hl
    rw [if_pos hl2] at hm
    simp only [pure, Except.pure, Except.ok.injEq] at hm
    exact hm.symm
  · simp only [pure, Except.pure, Except.ok.injEq] at hm
    exact hm.symm

/-- A removal keeps the invariant. -/
theorem erase_CInv {c c1 : Container} {key : Int} {e : Option (Int × Int)} (hc : CInv c)
    (he : erase c key = .ok (c1, e)) : CInv c1 := by
  obtain ⟨hh, hb, r, hi⟩ := hc
  unfold erase at he
  simp only [bind_eq_ok] at he
  obtain ⟨⟨t, preds⟩, _, tn, htn, ⟨tn1, en⟩, her, he⟩ := he
  have htn := load_eq_ok.mp htn
  cases en with
  | none =>
    simp only [pure, Except.pure, Except.ok.injEq, Prod.mk.injEq] at he
    rw [← he.1]
    exact ⟨hh, hb, r, hi⟩
  | some v =>
    simp only [bind_eq_ok, hh, hb] at he
    obtain ⟨h2, hbal, he⟩ := he
    simp only [pure, Except.pure, Except.ok.injEq, Prod.mk.injEq] at he
    rw [← he.1]
    refine ⟨rfl, rfl, r, ?_⟩
    show InvR r (skel h2)
    rcases erase_lk her with ⟨e1, _⟩ | ⟨_, hs0, hs1, hlk⟩
    · simp at e1
    · have hk := skel_live htn
      have hle := hi.size_le t tn.lk hk
      have hsz : tn.lk.size = tn.size := rfl
      have hmod : (tn.size + U16 - 1) % U16 = tn.size - 1 := by
        unfold U16
        omega
      rw [hmod] at hlk
      have hsk : skel (c.heap.store t tn1) = (skel c.heap).set t (some { tn.lk with size := tn.size - 1 }) := by
        rw [skel_store, hlk]
      by_cases hgood : tn.size - 1 < 115 → tn.lk.prev = none ∧ tn.lk.next = none
      · have hi1 := hi.resize (tn.size - 1) hk (by omega) hgood
        rw [← hsk] at hi1
        rw [balance_inv_id hi1 hbal]
        exact hi1
      · have hlt : tn.size - 1 < 115 := by
          by_contra hx
          exact hgood (fun h => absurd h hx)
        have hlinks : ¬ (tn.lk.prev = none ∧ tn.lk.next = none) := fun h => hgood (fun _ => h)
        have hge : 115 ≤ tn.lk.size := by
          by_contra hx
          exact hlinks (hi.lone t tn.lk hk (by omega))
        have h114 : tn.size - 1 = 114 := by omega
        rw [h114] at hsk
        exact balance_dent_inv ⟨hi, hk, hsk, hlinks⟩ hbal

/-- Reading a list after one element was appended. -/
theorem snoc_getElem? {α : Type} (s : List α) (x : α) (b : Nat) :
    (s ++ [x])[b]? = if b = s.length then some x else s[b]? := by
  by_cases hb : b = s.length
  · subst hb
    simp
  · rw [if_neg hb]
    by_cases hlt : b < s.length
    · exact List.getElem?_append_left hlt
    · have h1 : (s ++ [x])[b]? = none := List.getElem?_eq_none (by simp; omega)
      have h2 : s[b]? = none := List.getElem?_eq_none (by omega)
      rw [h1, h2]

/-- The relinking that follows a block split re-establishes the invariant: the upper half
of the full block `t` moves to a new block at the end of the heap, which is linked in
between `t` and the former successor of `t`. -/
theorem split_step_inv {r : Nat → ℚ} {h h2 h3 h4 : Heap} {t : Nat} {tn tn1 nn1 : Node}
    (hi : InvR r (skel h)) (ht : h[t]? = some (some tn)) (hfull : tn.size = 256)
    (hs : tn.split_into (Node.new 256) = .ok (tn1, nn1))
    (e2 : (h.store t tn1 ++ [some nn1]).modify (some h.length)
      (fun x => { x.setFwd 0 (tn1.fwd 0) with prev := some t }) = .ok h2)
    (e3 : (match tn1.fwd 0 with
      | some nx => h2.modify (some nx) (fun x => { x with prev := some h.length })
      | none => pure h2) = .ok h3)
    (e4 : h3.modify (some t) (fun x => x.setFwd 0 (some h.length)) = .ok h4) :
    ∃ r1 : Nat → ℚ, InvR r1 (skel h4) := by
  obtain ⟨hl1, hl2⟩ := split_into_lk hs
  have hk := skel_live ht
  have htlt : t < h.length := lt_of_getElem? ht
  have hnf : tn.forward.length = SKIP_LIST_LEVELS := hi.nf_eq t tn.lk hk
  have hnext : tn1.fwd 0 = tn.fwd 0 := by
    have := congrArg Lk.next hl1
    exact this
  have hnf1 : tn1.forward.length = SKIP_LIST_LEVELS := by
    have := congrArg Lk.nf hl1
    exact this.trans hnf
  have hsz1 : tn1.size = 128 := by
    have := congrArg Lk.size hl1
    simp only [Node.lk, hfull] at this
    exact this
  have hprev1 : tn1.prev = tn.prev := congrArg Lk.prev hl1
  have hsz2 : nn1.size = 128 := by
    have := congrArg Lk.size hl2
    simp only [Node.lk, hfull] at this
    exact this
  have hnf2 : nn1.forward.length = SKIP_LIST_LEVELS := by
    have := congrArg Lk.nf hl2
    exact this
  have hlen1 : (h.store t tn1 ++ [some nn1]).length = h.length + 1 := by
    simp [Heap.store]
  have hg1 : ∀ b : Nat, (h.store t tn1 ++ [some nn1])[b]? =
      if b = h.length then some (some nn1)
      else if t = b then some (some tn1) else h[b]? := by
    intro b
    rw [snoc_getElem?, store_getElem? _ _ _ _ htlt]
    simp [Heap.store]
  obtain ⟨a2, m2, ea2, hm2, eh2⟩ := modify_ok e2
  simp only [Option.some.injEq] at ea2
  subst ea2
  rw [hg1, if_pos rfl] at hm2
  simp only [Option.some.injEq] at hm2
  subst hm2
  obtain ⟨nn2, hnn2⟩ : ∃ nn2 : Node,
      nn2 = ({ nn1.setFwd 0 (tn1.fwd 0) with prev := some t } : Node) := ⟨_, rfl⟩
  rw [← hnn2] at eh2
  have hh2 : ∀ b : Nat, h2[b]? =
      if b = h.length then some (some nn2)
      else if t = b then some (some tn1) else h[b]? := by
    intro b
    rw [eh2, store_getElem? _ _ _ _ (by rw [hlen1]; omega), hg1]
    by_cases hb : b = h.length
    · simp only [if_pos hb.symm, if_pos hb]
    · simp only [if_neg (Ne.symm hb), if_neg hb]
  have hlen2 : h2.length = h.length + 1 := by
    rw [eh2]
    simp [Heap.store]
  have hnew : nn2.lk = ⟨128, some t, tn.lk.next, SKIP_LIST_LEVELS⟩ := by
    have := setFwd_lk_zero nn1 (tn1.fwd 0) (by rw [hnf2]; unfold SKIP_LIST_LEVELS; omega)
    have e1 : (nn1.setFwd 0 (tn1.fwd 0)).fwd 0 = tn1.fwd 0 := congrArg Lk.next this
    have e3 : (nn1.setFwd 0 (tn1.fwd 0)).forward.length = nn1.forward.length :=
      congrArg Lk.nf this
    have f1 : nn2.fwd 0 = (nn1.setFwd 0 (tn1.fwd 0)).fwd 0 := by rw [hnn2]; rfl
    have f2 : nn2.forward.length = (nn1.setFwd 0 (tn1.fwd 0)).forward.length := by
      rw [hnn2]
    have f3 : nn2.size = nn1.size := by rw [hnn2]; rfl
    have f4 : nn2.prev = some t := by rw [hnn2]
    show (⟨nn2.size, nn2.prev, nn2.fwd 0, nn2.forward.length⟩ : Lk) = _
    rw [f1, f2, f3, f4, e1, e3, hnf2, hnext, hsz2]
    rfl
  have hkn : tn.lk.next = tn1.fwd 0 := hnext.symm
  have hh3 : h3.length = h.length + 1 ∧ h3[t]? = some (some tn1) ∧
      h3[h.length]? = some (some nn2) ∧
      (∀ nx : Nat, tn.lk.next = some nx → ∃ x : Node, h[nx]? = some (some x) ∧
        ∃ x1 : Node, h3[nx]? = some (some x1) ∧ x1.lk = { x.lk with prev := some h.length }) ∧
      (∀ b : Nat, b ≠ t → b ≠ h.length → tn.lk.next ≠ some b → h3[b]? = h[b]?) := by
    cases hfx : tn1.fwd 0 with
    | none =>
      rw [hfx] at e3 hkn
      simp only [pure, Except.pure, Except.ok.injEq] at e3
      subst e3
      refine ⟨hlen2, ?_, ?_, ?_, ?_⟩
      · rw [hh2, if_neg (Nat.ne_of_lt htlt), if_pos rfl]
      · rw [hh2, if_pos rfl]
      · intro nx e
        rw [hkn] at e
        simp at e
      · intro b b1 b2 _
        rw [hh2, if_neg b2, if_neg (Ne.symm b1)]
    | some nx =>
      rw [hfx] at e3 hkn
      obtain ⟨a3, x, ea3, hx, eh3⟩ := modify_ok e3
      simp only [Option.some.injEq] at ea3
      subst ea3
      have hnxlt : nx < h.length := by
        have := hi.next_lt t tn.lk nx hk hkn
        rw [skel_length] at this
        exact this
      have hnxt : nx ≠ t := by
        intro e
        have := hi.rank_next t tn.lk nx hk hkn
        rw [e] at this
        exact lt_irrefl _ this
      rw [hh2, if_neg (Nat.ne_of_lt hnxlt), if_neg (Ne.symm hnxt)] at hx
      have hget : ∀ b : Nat, h3[b]? =
          if nx = b then some (some { x with prev := some h.length }) else h2[b]? := by
        intro b
        rw [eh3]
        exact store_getElem? _ _ _ _ (by rw [hlen2]; omega)
      refine ⟨?_, ?_, ?_, ?_, ?_⟩
      · rw [eh3]
        simp [Heap.store, hlen2]
      · rw [hget, if_neg hnxt, hh2, if_neg (Nat.ne_of_lt htlt), if_pos rfl]
      · rw [hget, if_neg (Nat.ne_of_lt hnxlt), hh2, if_pos rfl]
      · intro y e
        rw [hkn] at e
        simp only [Option.some.injEq] at e
        subst e
        refine ⟨x, hx, { x with prev := some h.length }, ?_, rfl⟩
        rw [hget, if_pos rfl]
      · intro b b1 b2 b3
        have b4 : nx ≠ b := by
          intro e
          rw [hkn, e] at b3
          exact b3 rfl
        rw [hget, if_neg b4, hh2, if_neg b2, if_neg (Ne.symm b1)]
  obtain ⟨hlen3, h3t, h3w, h3n, h3o⟩ := hh3
  obtain ⟨a4, m4, ea4, hm4, eh4⟩ := modify_ok e4
  simp only [Option.some.injEq] at ea4
  subst ea4
  rw [h3t] at hm4
  simp only [Option.some.injEq] at hm4
  subst hm4
  have hget4 : ∀ b : Nat, h4[b]? =
      if t = b then some (some (tn1.setFwd 0 (some h.length))) else h3[b]? := by
    intro b
    rw [eh4]
    exact store_getElem? _ _ _ _ (by rw [hlen3]; omega)
  have hlk4 : (tn1.setFwd 0 (some h.length)).lk =
      { tn.lk with size := 128, next := some h.length } := by
    rw [setFwd_lk_zero tn1 _ (by rw [hnf1]; unfold SKIP_LIST_LEVELS; omega), hl1, hfull]
  have hw : t ≠ h.length := Nat.ne_of_lt htlt
  refine hi.split 128 128 hk (by omega) (by omega) ?_ ?_ ?_ ?_ ?_
  · rw [skel_length, skel_length, eh4]
    simp [Heap.store, hlen3]
  · rw [skel_length, skel_getElem?, hget4, if_pos rfl, ← hlk4]
    rfl
  · rw [skel_length, skel_getElem?, hget4, if_neg hw, h3w, ← hnew]
    rfl
  · intro nx e
    obtain ⟨x, hx, x1, hx1, hlx⟩ := h3n nx e
    have hnxt : t ≠ nx := by
      intro e1
      have := hi.rank_next t tn.lk nx hk e
      rw [e1] at this
      exact lt_irrefl _ this
    refine ⟨x.lk, skel_live hx, ?_⟩
    rw [skel_length, skel_getElem?, hget4, if_neg hnxt, hx1, ← hlx]
    rfl
  · intro b b1 b2 b3
    rw [skel_length] at b2
    rw [skel_getElem?, skel_getElem?, hget4, if_neg (Ne.symm b1), h3o b b1 b2 b3]

/-- An insertion keeps the invariant, whatever the number of block splits on the way. -/
theorem insertAux_CInv (draw : Nat → Nat) (entry : Entry) (fuel k : Nat) {c c1 : Container}
    {it : Iterator} (hc : CInv c) (hins : insertAux draw entry fuel k c = .ok (c1, it)) :
    CInv c1 := by
  induction fuel generalizing k c with
  | zero => simp [insertAux] at hins
  | succ fuel ih =>
    obtain ⟨hh, hb, r, hi⟩ := hc
    rw [insertAux] at hins
    simp only [bind_eq_ok] at hins
    obtain ⟨⟨t, lb⟩, _, tn, htn, hins⟩ := hins
    have htn := load_eq_ok.mp htn
    have hk := skel_live htn
    rw [hb] at hins
    split at hins
    · rename_i hfull
      simp only [bind_eq_ok] at hins
      obtain ⟨⟨tn1, nn1⟩, hs, h2, e2, hins⟩ := hins
      dsimp only at hins e2
      have key : ∃ h3 h4 h5 : Heap,
          (match tn1.fwd 0 with
            | some nx => h2.modify (some nx) (fun x => { x with prev := some c.heap.length })
            | none => pure h2) = .ok h3 ∧
          h3.modify (some t) (fun x => x.setFwd 0 (some c.heap.length)) = .ok h4 ∧
          spliceLevels (draw k) t c.heap.length lb (SKIP_LIST_LEVELS - 1) 1 h4 = .ok h5 ∧
          insertAux draw entry fuel (k + 1) { c with heap := h5 } = .ok (c1, it) := by
        cases hfx : tn1.fwd 0 with
        | none =>
          rw [hfx] at hins
          simp only [bind_eq_ok] at hins
          obtain ⟨h3, e3, h4, e4, h5, e5, hins⟩ := hins
          rw [hb]
          exact ⟨h3, h4, h5, e3, e4, e5, hins⟩
        | some nx =>
          rw [hfx] at hins
          simp only [bind_eq_ok] at hins
          obtain ⟨h3, e3, h4, e4, h5, e5, hins⟩ := hins
          rw [hb]
          exact ⟨h3, h4, h5, e3, e4, e5, hins⟩
      obtain ⟨h3, h4, h5, e3, e4, e5, hins⟩ := key
      obtain ⟨r1, hi1⟩ := split_step_inv hi htn hfull hs e2 e3 e4
      have hsk := spliceLevels_skel _ _ _ _ _ _ _ _ (by omega) e5
      have hc5 : CInv { c with heap := h5 } := by
        refine ⟨hh, hb, r1, ?_⟩
        show InvR r1 (skel h5)
        rw [hsk]
        exact hi1
      exact ih (k + 1) hc5 hins
    · rename_i hfull
      simp only [bind_eq_ok] at hins
      obtain ⟨⟨tn1, pos⟩, hn1, h2, hbal, hins⟩ := hins
      simp only [pure, Except.pure, Except.ok.injEq, Prod.mk.injEq] at hins
      rw [← hins.1]
      refine ⟨hh, rfl, r, ?_⟩
      show InvR r (skel h2)
      have hle := hi.size_le t tn.lk hk
      have hsz : tn.lk.size = tn.size := rfl
      have hlk := insert_lk hn1
      have hmod : (tn.size + 1) % U16 = tn.size + 1 := by
        unfold U16
        omega
      rw [hmod] at hlk
      have hi1 := hi.resize (tn.size + 1) hk (by omega)
        (fun hlt => hi.lone t tn.lk hk (by omega))
      rw [← hlk, ← skel_store] at hi1
      rw [hh] at hbal
      rw [balance_inv_id hi1 hbal]
      exact hi1

/-- One operation keeps the invariant. -/
theorem step_CInv {c c1 : Container} (op : Op) (hc : CInv c) (hs : step c op = .ok c1) :
    CInv c1 := by
  cases op with
  | ins key val draw =>
    simp only [step, insert, bind_eq_ok] at hs
    obtain ⟨⟨c2, it⟩, hins, hs⟩ := hs
    simp only [pure, Except.pure, Except.ok.injEq] at hs
    rw [← hs]
    exact insertAux_CInv _ _ _ _ hc hins
  | del key =>
    simp only [step, bind_eq_ok] at hs
    obtain ⟨⟨c2, e⟩, he, hs⟩ := hs
    simp only [pure, Except.pure, Except.ok.injEq] at hs
    rw [← hs]
    exact erase_CInv hc he

/-- A sequence of operations keeps the invariant. -/
theorem run_CInv (ops : List Op) {c c1 : Container} (hc : CInv c)
    (hr : run c ops = .ok c1) : CInv c1 := by
  induction ops generalizing c with
  | nil =>
    simp only [run, Except.ok.injEq] at hr
    rw [← hr]
    exact hc
  | cons op ops ih =>
    simp only [run, bind_eq_ok] at hr
    obtain ⟨c2, hs, hr⟩ := hr
    exact ih (step_CInv op hc hs) hr

/-- Every block of a chain that starts at a block with a predecessor link holds at least
115 entries. -/
theorem chainBlocks_linked {r : Nat → ℚ} {h : Heap} (hi : InvR r (skel h)) (fuel : Nat)
    (a : Nat) (n : Node) (ha : h[a]? = some (some n)) (hp : n.prev ≠ none) :
    ∀ m ∈ chainBlocks h fuel (some a), 115 ≤ m.size := by
  induction fuel generalizing a n with
  | zero => simp [chainBlocks]
  | succ fuel ih =>
    intro m hm
    simp only [chainBlocks, ha, List.mem_cons] at hm
    rcases hm with e | hm
    · rw [e]
      exact hi.size_ge (skel_live ha) (Or.inl hp)
    · cases hnx : n.fwd 0 with
      | none =>
        rw [hnx] at hm
        cases fuel <;> simp [chainBlocks] at hm
      | some b =>
        rw [hnx] at hm
        cases hb : h[b]? with
        | none =>
          cases fuel <;> simp [chainBlocks, hb] at hm
        | some x =>
          cases x with
          | none => cases fuel <;> simp [chainBlocks, hb] at hm
          | some nb =>
            have hpb : nb.prev = some a :=
              hi.next_prev a n.lk b nb.lk (skel_live ha) (skel_live hb) hnx
            exact ih b nb hb (by rw [hpb]; simp) m hm

/-- In a container that satisfies the invariant, the chain from the head is a single
block or consists of blocks with at least 115 entries. -/
theorem chainBlocks_sizes {c : Container} (hc : CInv c) (fuel : Nat) :
    (chainBlocks c.heap fuel c.head).length ≤ 1 ∨
      ∀ m ∈ chainBlocks c.heap fuel c.head, 115 ≤ m.size := by
  obtain ⟨hh, _, r, hi⟩ := hc
  rw [hh]
  cases fuel with
  | zero => exact Or.inl (by simp [chainBlocks])
  | succ fuel =>
    obtain ⟨k0, hk0, _⟩ := hi.head_live
    obtain ⟨n0, h0, _⟩ := live_of_skel hk0
    cases hnx : n0.fwd 0 with
    | none =>
      left
      simp only [chainBlocks, h0, hnx]
      cases fuel <;> simp [chainBlocks]
    | some b =>
      right
      intro m hm
      simp only [chainBlocks, h0, hnx, List.mem_cons] at hm
      rcases hm with e | hm
      · rw [e]
        exact hi.size_ge (skel_live h0) (Or.inr (by show n0.fwd 0 ≠ none; rw [hnx]; simp))
      · cases hb : c.heap[b]? with
        | none => cases fuel <;> simp [chainBlocks, hb] at hm
        | some x =>
          cases x with
          | none => cases fuel <;> simp [chainBlocks, hb] at hm
          | some nb =>
            have hpb : nb.prev = some 0 :=
              hi.next_prev 0 n0.lk b nb.lk (skel_live h0) (skel_live hb) hnx
            exact chainBlocks_linked hi fuel b nb hb (by rw [hpb]; simp) m hm

/-- Block sizes after a run without fault: after any sequence of insertions and removals
on a newly constructed container with block capacity 256 that runs without fault, at most
one block of the level-0 chain holds fewer than `get_node_lower_bound 256 = 115` entries;
moreover, when the chain has more than one block, none does. -/
theorem underfull_blocks_of_run (m0 : Nat) (ops : List Op) (c0 c : Container)
    (fuel : Nat) (hc : construct 256 m0 = some c0) (hr : run c0 ops = .ok c) :
    ((chainBlocks c.heap fuel c.head).filter
        (fun n => decide (n.size < get_node_lower_bound 256))).length ≤ 1 ∧
      (1 < (chainBlocks c.heap fuel c.head).length →
        ∀ n ∈ chainBlocks c.heap fuel c.head, get_node_lower_bound 256 ≤ n.size) := by
  have hinv := run_CInv ops (construct_CInv hc) hr
  rw [lower_bound_256]
  rcases chainBlocks_sizes hinv fuel with h1 | h2
  · exact ⟨le_trans (List.length_filter_le _ _) h1, fun h => absurd h1 (by omega)⟩
  · refine ⟨?_, fun _ => h2⟩
    have : (chainBlocks c.heap fuel c.head).filter (fun n => decide (n.size < 115)) = [] := by
      rw [List.filter_eq_nil_iff]
      intro n hn
      have := h2 n hn
      simp only [decide_eq_true_eq]
      omega
    rw [this]
    exact Nat.zero_le _

/-- The bound on the block sizes applied to the container after the keys `1 .. 385` were
inserted and the keys `385, ..., 371` were removed. -/
theorem underfull_blocks_of_run_stateD :
    construct 256 0 = some (stateA 0) ∧ run (stateA 0) faultyOps = .ok stateD ∧
    ((chainBlocks stateD.heap 5 stateD.head).filter
        (fun n => decide (n.size < get_node_lower_bound 256))).length ≤ 1 ∧
      (1 < (chainBlocks stateD.heap 5 stateD.head).length →
        ∀ n ∈ chainBlocks stateD.heap 5 stateD.head, get_node_lower_bound 256 ≤ n.size) :=
  ⟨rfl, run_faultyOps,
    underfull_blocks_of_run 0 faultyOps (stateA 0) stateD 5 rfl run_faultyOps⟩

/-- One step of a forward traversal that returns: the entry under the cursor is read, and
the traversal goes on at the next index of the block or at the start of its successor. -/
theorem collect_fwd_step {h : Heap} {fuel a i : Nat} {n : Node} {xs : List Entry}
    (ha : h[a]? = some (some n)) (hi : i + 1 < U64)
    (hc : collect h Container.end_ (fuel + 1) ⟨some a, i, true⟩ = .ok xs) :
    ∃ (e : Entry) (rest : List Entry), n.data[i]? = some e ∧ xs = e :: rest ∧
      collect h Container.end_ fuel
        (if n.size ≤ i + 1 then ⟨n.fwd 0, 0, true⟩ else ⟨some a, i + 1, true⟩) = .ok rest := by
  rw [collect] at hc
  have hs : Iterator.same ⟨some a, i, true⟩ Container.end_ = false := by
    simp [Iterator.same, Container.end_]
  rw [hs] at hc
  simp only [Bool.false_eq_true, if_false, bind_eq_ok, deref, Iterator.next,
    load_eq_ok.mpr ha, ok_bind] at hc
  obtain ⟨e, he, it1, hit, rest, hrest, hxs⟩ := hc
  have hmod : (i + 1) % U64 = i + 1 := Nat.mod_eq_of_lt hi
  rw [hmod] at hit
  simp only [pure, Except.pure, Except.ok.injEq] at hxs
  refine ⟨e, rest, ?_, hxs.symm, ?_⟩
  · unfold readAt at he
    cases hd : n.data[i]? with
    | none => simp [hd] at he
    | some x =>
      simp only [hd, Except.ok.injEq] at he
      rw [he]
  · by_cases hle : n.size ≤ i + 1
    · rw [if_pos hle]
      simp only [if_true, ge_iff_le, hle, pure, Except.pure, Except.ok.injEq] at hit
      rw [hit]
      exact hrest
    · rw [if_neg hle]
      simp only [if_true, ge_iff_le, hle, if_false, pure, Except.pure, Except.ok.injEq] at hit
      rw [hit]
      exact hrest

/-- Splitting off the entry at index `i` of a block prefix. -/
theorem drop_take_cons {data : List Entry} {i s : Nat} {e : Entry}
    (he : data[i]? = some e) (hs : i < s) :
    (data.take s).drop i = e :: (data.take s).drop (i + 1) := by
  have hl : i < data.length := lt_of_getElem? he
  have hlt : i < (data.take s).length := by
    rw [List.length_take]
    omega
  rw [List.drop_eq_getElem_cons hlt, List.getElem_take]
  have : data[i] = e := by
    rw [List.getElem?_eq_getElem hl] at he
    exact Option.some.inj he
  rw [this]

/-- A traversal that returns from a cursor on a block found that block live. -/
theorem collect_live {h : Heap} {stop : Iterator} {fuel b j : Nat} {fw : Bool}
    {xs : List Entry} (hstop : stop.node = none)
    (hc : collect h stop fuel ⟨some b, j, fw⟩ = .ok xs) :
    ∃ nb : Node, h[b]? = some (some nb) := by
  cases fuel with
  | zero => simp [collect] at hc
  | succ f =>
    rw [collect] at hc
    have hs : Iterator.same ⟨some b, j, fw⟩ stop = false := by
      simp [Iterator.same, hstop]
    rw [hs] at hc
    simp only [Bool.false_eq_true, if_false, bind_eq_ok, deref] at hc
    obtain ⟨e, ⟨nb, hnb, _⟩, _⟩ := hc
    exact ⟨nb, load_eq_ok.mp hnb⟩

/-- A traversal that starts at the null pointer visits nothing. -/
theorem collect_null {h : Heap} {fuel : Nat} {fw : Bool} {xs : List Entry}
    (hc : collect h ⟨none, 0, fw⟩ fuel ⟨none, 0, fw⟩ = .ok xs) : xs = [] := by
  cases fuel with
  | zero => simp [collect] at hc
  | succ f =>
    rw [collect] at hc
    simp only [Iterator.same, beq_self_eq_true, Bool.and_self, if_true, Except.ok.injEq] at hc
    exact hc.symm

/-- A forward traversal that returns, started inside a block: the successors of the block
form an intact chain, every block read keeps its entries inside its array, and the
entries visited are the remaining entries of the block followed by the entries of the
chain. -/
theorem collect_fwd_chain {r : Nat → ℚ} {h : Heap} (hi : InvR r (skel h)) (fuel : Nat) :
    ∀ (a i : Nat) (n : Node) (xs : List Entry), h[a]? = some (some n) → i < n.size →
      collect h Container.end_ fuel ⟨some a, i, true⟩ = .ok xs →
      ∃ ns : List Nat, isChain h (n.fwd 0) ns = true ∧ n.size ≤ n.data.length ∧
        xs = (n.data.take n.size).drop i ++ (ns.map (blockEntries h)).flatten ∧
        ∀ b ∈ ns, ∀ m : Node, h[b]? = some (some m) → m.size ≤ m.data.length := by
  induction fuel with
  | zero =>
    intro a i n xs _ _ hc
    simp [collect] at hc
  | succ fuel ih =>
    intro a i n xs ha hlt hc
    have hle256 := hi.size_le a n.lk (skel_live ha)
    have hsz : n.lk.size = n.size := rfl
    have hU : i + 1 < U64 := by
      unfold U64
      omega
    obtain ⟨e, rest, he, hxs, hrest⟩ := collect_fwd_step ha hU hc
    have hil : i < n.data.length := lt_of_getElem? he
    by_cases hle : n.size ≤ i + 1
    · rw [if_pos hle] at hrest
      have hsi : n.size = i + 1 := by omega
      have hone : (n.data.take n.size).drop i = [e] := by
        rw [drop_take_cons he hlt, hsi]
        simp
      cases hnx : n.fwd 0 with
      | none =>
        rw [hnx] at hrest
        have := collect_null hrest
        subst this
        refine ⟨[], rfl, by omega, ?_, ?_⟩
        · rw [hxs, hone]
          rfl
        · intro b hb
          simp at hb
      | some b =>
        rw [hnx] at hrest
        obtain ⟨nb, hb⟩ := collect_live rfl hrest
        have hpb : nb.prev = some a :=
          hi.next_prev a n.lk b nb.lk (skel_live ha) (skel_live hb) hnx
        have hge : 115 ≤ nb.lk.size :=
          hi.size_ge (skel_live hb) (Or.inl (by show nb.prev ≠ none; rw [hpb]; simp))
        have hsb : nb.lk.size = nb.size := rfl
        obtain ⟨ns, hch, hdl, hr, hall⟩ := ih b 0 nb rest hb (by omega) hrest
        refine ⟨b :: ns, ?_, by omega, ?_, ?_⟩
        · simp only [isChain, beq_self_eq_true, Bool.true_and, load_eq_ok.mpr hb]
          exact hch
        · rw [hxs, hone, hr]
          simp only [List.drop_zero, List.map_cons, List.flatten_cons, blockEntries, hb]
          rfl
        · intro c hc2 m hm
          rcases List.mem_cons.mp hc2 with e1 | e1
          · subst e1
            rw [hb] at hm
            simp only [Option.some.injEq] at hm
            rw [← hm]
            exact hdl
          · exact hall c e1 m hm
    · rw [if_neg hle] at hrest
      obtain ⟨ns, hch, hdl, hr, hall⟩ := ih a (i + 1) n rest ha (by omega) hrest
      refine ⟨ns, hch, hdl, ?_, hall⟩
      rw [hxs, hr, drop_take_cons he hlt]
      rfl

/-- Unfolding of `isChain` at a non-empty list. -/
theorem isChain_cons {h : Heap} {p : Option Nat} {a : Nat} {as : List Nat} :
    isChain h p (a :: as) = true ↔
      p = some a ∧ ∃ n : Node, h[a]? = some (some n) ∧ isChain h (n.fwd 0) as = true := by
  simp only [isChain, Bool.and_eq_true, beq_iff_eq]
  constructor
  · rintro ⟨hp, hm⟩
    cases hl : h.load (some a) with
    | error e => simp [hl] at hm
    | ok n =>
      rw [hl] at hm
      exact ⟨hp, n, load_eq_ok.mp hl, hm⟩
  · rintro ⟨hp, n, hn, hc⟩
    rw [load_eq_ok.mpr hn]
    exact ⟨hp, hc⟩

/-- Unfolding of `isRevChain` at a non-empty list. -/
theorem isRevChain_cons {h : Heap} {p : Option Nat} {a : Nat} {as : List Nat} :
    isRevChain h p (a :: as) = true ↔
      p = some a ∧ ∃ n : Node, h[a]? = some (some n) ∧ isRevChain h n.prev as = true := by
  simp only [isRevChain, Bool.and_eq_true, beq_iff_eq]
  constructor
  · rintro ⟨hp, hm⟩
    cases hl : h.load (some a) with
    | error e => simp [hl] at hm
    | ok n =>
      rw [hl] at hm
      exact ⟨hp, n, load_eq_ok.mp hl, hm⟩
  · rintro ⟨hp, n, hn, hc⟩
    rw [load_eq_ok.mpr hn]
    exact ⟨hp, hc⟩

/-- Along an intact chain the rank goes up. -/
theorem isChain_rank {r : Nat → ℚ} {h : Heap} (hi : InvR r (skel h)) (ns : List Nat) :
    ∀ a : Nat, isChain h (some a) (a :: ns) = true → ∀ b ∈ ns, r a < r b := by
  induction ns with
  | nil =>
    intro a _ b hb
    simp at hb
  | cons c cs ih =>
    intro a hc b hb
    obtain ⟨_, n, hn, hc1⟩ := isChain_cons.mp hc
    have hnx : n.fwd 0 = some c := (isChain_cons.mp hc1).1
    have hac : r a < r c := hi.rank_next a n.lk c (skel_live hn) hnx
    rw [hnx] at hc1
    rcases List.mem_cons.mp hb with e | e
    · rw [e]
      exact hac
    · exact lt_trans hac (ih c hc1 b e)

/-- An intact chain visits no block twice. -/
theorem isChain_nodup {r : Nat → ℚ} {h : Heap} (hi : InvR r (skel h)) (ns : List Nat) :
    ∀ p : Option Nat, isChain h p ns = true → ns.Nodup := by
  induction ns with
  | nil =>
    intro p _
    exact List.nodup_nil
  | cons a as ih =>
    intro p hc
    obtain ⟨hp, n, hn, hc1⟩ := isChain_cons.mp hc
    rw [hp] at hc
    refine List.nodup_cons.mpr ⟨?_, ih _ hc1⟩
    intro hmem
    exact lt_irrefl _ (isChain_rank hi as a hc a hmem)

/-- The loop of `rbegin()` returns the last block of an intact chain. -/
theorem lastBlock_of_isChain {h : Heap} (ns : List Nat) :
    ∀ (a fuel : Nat), isChain h (some a) (a :: ns) = true → ns.length < fuel →
      lastBlock h fuel (some a) = .ok ((a :: ns).getLast?) := by
  induction ns with
  | nil =>
    intro a fuel hc hf
    obtain ⟨_, n, hn, hc1⟩ := isChain_cons.mp hc
    have hnx : n.fwd 0 = none := by simpa [isChain] using hc1
    cases fuel with
    | zero => simp at hf
    | succ f =>
      rw [lastBlock]
      simp only [load_eq_ok.mpr hn, ok_bind, hnx]
      rfl
  | cons b bs ih =>
    intro a fuel hc hf
    obtain ⟨_, n, hn, hc1⟩ := isChain_cons.mp hc
    have hnx : n.fwd 0 = some b := (isChain_cons.mp hc1).1
    rw [hnx] at hc1
    cases fuel with
    | zero => simp at hf
    | succ f =>
      rw [lastBlock]
      simp only [load_eq_ok.mpr hn, ok_bind, hnx]
      rw [ih b f hc1 (by simpa using hf)]
      simp [List.getLast?_cons_cons]

/-- Read backwards, an intact chain is an intact chain of predecessor links. -/
theorem isRevChain_of_isChain {r : Nat → ℚ} {h : Heap} (hi : InvR r (skel h))
    (ns : List Nat) :
    ∀ (a : Nat) (pre : List Nat), isChain h (some a) (a :: ns) = true →
      isRevChain h (some a) (a :: pre) = true →
      isRevChain h ((a :: ns).getLast?) ((a :: ns).reverse ++ pre) = true := by
  induction ns with
  | nil =>
    intro a pre _ hr
    exact hr
  | cons b bs ih =>
    intro a pre hc hr
    obtain ⟨_, n, hn, hc1⟩ := isChain_cons.mp hc
    obtain ⟨hnx, nb, hb, hc2⟩ := isChain_cons.mp hc1
    rw [hnx] at hc1
    have hpb : nb.prev = some a :=
      hi.next_prev a n.lk b nb.lk (skel_live hn) (skel_live hb) hnx
    have hr1 : isRevChain h (some b) (b :: a :: pre) = true := by
      refine isRevChain_cons.mpr ⟨rfl, nb, hb, ?_⟩
      rw [hpb]
      exact hr
    have := ih b (a :: pre) hc1 hr1
    rw [List.getLast?_cons_cons]
    simpa using this

/-- One step of a backward traversal from a cursor on a readable entry. -/
theorem collect_bwd_step {h : Heap} {fuel a i : Nat} {n : Node} {e : Entry}
    (ha : h[a]? = some (some n)) (he : n.data[i]? = some e) :
    collect h Container.rend (fuel + 1) ⟨some a, i, false⟩ =
      (do
        let it1 ← Iterator.next h ⟨some a, i, false⟩
        let rest ← collect h Container.rend fuel it1
        pure (e :: rest)) := by
  rw [collect]
  have hs : Iterator.same ⟨some a, i, false⟩ Container.rend = false := by
    simp [Iterator.same, Container.rend]
  have hr : readAt n.data i = .ok e := by
    unfold readAt
    rw [he]
  rw [hs]
  simp only [Bool.false_eq_true, if_false, deref, load_eq_ok.mpr ha, ok_bind, hr]

/-- Backward step inside a block. -/
theorem next_bwd_inside {h : Heap} {a i : Nat} {n : Node} (ha : h[a]? = some (some n)) :
    Iterator.next h ⟨some a, i + 1, false⟩ = .ok ⟨some a, i, false⟩ := by
  simp [Iterator.next, load_eq_ok.mpr ha, ok_bind, pure, Except.pure]

/-- Backward step from the first entry of a block without predecessor. -/
theorem next_bwd_first {h : Heap} {a : Nat} {n : Node} (ha : h[a]? = some (some n))
    (hp : n.prev = none) :
    Iterator.next h ⟨some a, 0, false⟩ = .ok ⟨none, 0, false⟩ := by
  simp [Iterator.next, load_eq_ok.mpr ha, ok_bind, pure, Except.pure, hp]

/-- Backward step from the first entry of a block to the last entry of its
predecessor. -/
theorem next_bwd_prev {h : Heap} {a p : Nat} {n pn : Node} (ha : h[a]? = some (some n))
    (hp : n.prev = some p) (hpn : h[p]? = some (some pn)) :
    Iterator.next h ⟨some a, 0, false⟩ = .ok ⟨some p, lastIndex pn.size, false⟩ := by
  simp [Iterator.next, load_eq_ok.mpr ha, ok_bind, pure, Except.pure, hp,
    load_eq_ok.mpr hpn]

/-- Extending a block prefix by the entry that follows it. -/
theorem take_succ_reverse {data : List Entry} {i : Nat} {e : Entry}
    (he : data[i]? = some e) :
    (data.take (i + 1)).reverse = e :: (data.take i).reverse := by
  rw [List.take_succ, he]
  simp

/-- A backward traversal started inside the last block of an intact chain of predecessor
links returns, given enough fuel, the entries up to the cursor in reverse order followed
by the reversed entries of the preceding blocks. -/
theorem collect_bwd_chain {h : Heap} (rs : List Nat) :
    ∀ (a : Nat) (n : Node) (i fuel : Nat), h[a]? = some (some n) →
      isRevChain h n.prev rs = true → i < n.size →
      (∀ b ∈ a :: rs, ∀ m : Node, h[b]? = some (some m) →
        1 ≤ m.size ∧ m.size ≤ 256 ∧ m.size ≤ m.data.length) →
      i + 2 + rs.length * 256 ≤ fuel →
      collect h Container.rend fuel ⟨some a, i, false⟩ =
        .ok ((n.data.take (i + 1)).reverse ++
          (rs.map (fun b => (blockEntries h b).reverse)).flatten) := by
  induction rs with
  | nil =>
    intro a n i
    induction i with
    | zero =>
      intro fuel ha hr _ hb hf
      obtain ⟨f, rfl⟩ : ∃ f, fuel = f + 1 := ⟨fuel - 1, by omega⟩
      obtain ⟨f2, rfl⟩ : ∃ f2, f = f2 + 1 := ⟨f - 1, by omega⟩
      have hbn := hb a (List.mem_cons_self _ _) n ha
      obtain ⟨e, he⟩ : ∃ e, n.data[0]? = some e :=
        ⟨n.data[0], List.getElem?_eq_getElem (by omega)⟩
      have hp : n.prev = none := by simpa [isRevChain] using hr
      rw [collect_bwd_step ha he, next_bwd_first ha hp, ok_bind, collect]
      simp only [Iterator.same, Container.rend, beq_self_eq_true, Bool.and_self, if_true,
        ok_bind, List.map_nil, List.flatten_nil, List.append_nil]
      rw [take_succ_reverse he]
      rfl
    | succ i ih =>
      intro fuel ha hr hlt hb hf
      obtain ⟨f, rfl⟩ : ∃ f, fuel = f + 1 := ⟨fuel - 1, by omega⟩
      have hbn := hb a (List.mem_cons_self _ _) n ha
      obtain ⟨e, he⟩ : ∃ e, n.data[i + 1]? = some e :=
        ⟨n.data[i + 1], List.getElem?_eq_getElem (by omega)⟩
      rw [collect_bwd_step ha he, next_bwd_inside ha, ok_bind,
        ih f ha hr (by omega) hb (by omega), ok_bind, take_succ_reverse he]
      rfl
  | cons p ps ihp =>
    intro a n i
    induction i with
    | zero =>
      intro fuel ha hr _ hb hf
      obtain ⟨f, rfl⟩ : ∃ f, fuel = f + 1 := ⟨fuel - 1, by omega⟩
      have hbn := hb a (List.mem_cons_self _ _) n ha
      obtain ⟨e, he⟩ : ∃ e, n.data[0]? = some e :=
        ⟨n.data[0], List.getElem?_eq_getElem (by omega)⟩
      obtain ⟨hp, pn, hpn, hrp⟩ := isRevChain_cons.mp hr
      have hbp := hb p (List.mem_cons_of_mem _ (List.mem_cons_self _ _)) pn hpn
      have hlast : lastIndex pn.size = pn.size - 1 := by
        unfold lastIndex U64
        omega
      have hlen : (p :: ps).length = ps.length + 1 := rfl
      rw [hlen] at hf
      rw [collect_bwd_step ha he, next_bwd_prev ha hp hpn, ok_bind, hlast,
        ihp p pn (pn.size - 1) f hpn hrp (by omega)
          (fun b hb2 => hb b (List.mem_cons_of_mem _ hb2)) (by omega),
        ok_bind, take_succ_reverse he]
      have h1 : pn.size - 1 + 1 = pn.size := by omega
      simp only [h1, List.map_cons, List.flatten_cons, blockEntries, hpn, List.take_zero,
        List.reverse_nil]
      rfl
    | succ i ih =>
      intro fuel ha hr hlt hb hf
      obtain ⟨f, rfl⟩ : ∃ f, fuel = f + 1 := ⟨fuel - 1, by omega⟩
      have hbn := hb a (List.mem_cons_self _ _) n ha
      obtain ⟨e, he⟩ : ∃ e, n.data[i + 1]? = some e :=
        ⟨n.data[i + 1], List.getElem?_eq_getElem (by omega)⟩
      rw [collect_bwd_step ha he, next_bwd_inside ha, ok_bind,
        ih f ha hr (by omega) hb (by omega), ok_bind, take_succ_reverse he]
      rfl

/-- Every block that follows another one in an intact chain holds at least 115
entries. -/
theorem isChain_sizes {r : Nat → ℚ} {h : Heap} (hi : InvR r (skel h)) (ns : List Nat) :
    ∀ a : Nat, isChain h (some a) (a :: ns) = true →
      ∀ b ∈ ns, ∀ m : Node, h[b]? = some (some m) → 115 ≤ m.size := by
  induction ns with
  | nil =>
    intro a _ b hb
    simp at hb
  | cons c cs ih =>
    intro a hc b hb m hm
    obtain ⟨_, n, hn, hc1⟩ := isChain_cons.mp hc
    obtain ⟨hnx, nc, hnc, _⟩ := isChain_cons.mp hc1
    rw [hnx] at hc1
    rcases List.mem_cons.mp hb with e | e
    · subst e
      rw [hnc] at hm
      simp only [Option.some.injEq] at hm
      subst hm
      have hp : nc.prev = some a :=
        hi.next_prev a n.lk b nc.lk (skel_live hn) (skel_live hnc) hnx
      exact hi.size_ge (skel_live hnc) (Or.inl (by show nc.prev ≠ none; rw [hp]; simp))
    · exact ih c hc1 b e m hm

/-- In a container that satisfies the invariant and holds an entry in some block of its
chain, the head block holds an entry. -/
theorem head_nonempty {c : Container} (hc : CInv c) {fuel : Nat}
    (hne : ∃ n ∈ chainBlocks c.heap fuel c.head, n.size ≠ 0) {n0 : Node}
    (h0 : c.heap[0]? = some (some n0)) : n0.size ≠ 0 := by
  obtain ⟨n, hn, hsz⟩ := hne
  have hs := chainBlocks_sizes hc fuel
  obtain ⟨hh, _, r, hi⟩ := hc
  rw [hh] at hn hs
  cases fuel with
  | zero => simp [chainBlocks] at hn
  | succ f =>
    simp only [chainBlocks, h0] at hn hs
    rcases hs with h1 | h2
    · have hnil : chainBlocks c.heap f (n0.fwd 0) = [] := by
        apply List.eq_nil_of_length_eq_zero
        simp only [List.length_cons] at h1
        omega
      rw [hnil] at hn
      simp only [List.mem_singleton] at hn
      rw [← hn]
      exact hsz
    · have := h2 n0 (List.mem_cons_self _ _)
      omega

/-- A successful loop of `rbegin()` ran along an intact chain and returns its last
block. -/
theorem isChain_of_lastBlock {h : Heap} (fuel : Nat) :
    ∀ (a : Nat) (l : Option Nat), lastBlock h fuel (some a) = .ok l →
      ∃ ns : List Nat, isChain h (some a) (a :: ns) = true ∧ l = (a :: ns).getLast? := by
  induction fuel with
  | zero =>
    intro a l hl
    simp [lastBlock] at hl
  | succ f ih =>
    intro a l hl
    rw [lastBlock] at hl
    obtain ⟨n, hn, hl⟩ := bind_eq_ok.mp hl
    have hn := load_eq_ok.mp hn
    cases hnx : n.fwd 0 with
    | none =>
      rw [hnx] at hl
      simp only [pure, Except.pure, Except.ok.injEq] at hl
      refine ⟨[], isChain_cons.mpr ⟨rfl, n, hn, ?_⟩, ?_⟩
      · rw [hnx]
        rfl
      · rw [← hl]
        rfl
    | some b =>
      rw [hnx] at hl
      obtain ⟨ns, hc, hlast⟩ := ih b l hl
      refine ⟨b :: ns, isChain_cons.mpr ⟨rfl, n, hn, ?_⟩, ?_⟩
      · rw [hnx]
        exact hc
      · rw [hlast, List.getLast?_cons_cons]

/-- One step of a backward traversal that returns: the entry under the cursor is read,
the cursor moves, and the traversal goes on from there. -/
theorem collect_bwd_ok_step {h : Heap} {fuel a i : Nat} {n : Node} {ys : List Entry}
    (ha : h[a]? = some (some n))
    (hc : collect h Container.rend (fuel + 1) ⟨some a, i, false⟩ = .ok ys) :
    ∃ (e : Entry) (it1 : Iterator) (rest : List Entry), n.data[i]? = some e ∧
      Iterator.next h ⟨some a, i, false⟩ = .ok it1 ∧
      collect h Container.rend fuel it1 = .ok rest ∧ ys = e :: rest := by
  rw [collect] at hc
  have hs : Iterator.same ⟨some a, i, false⟩ Container.rend = false := by
    simp [Iterator.same, Container.rend]
  rw [hs] at hc
  simp only [Bool.false_eq_true, if_false, bind_eq_ok, deref, load_eq_ok.mpr ha, ok_bind]
    at hc
  obtain ⟨e, he, it1, hit, rest, hrest, hys⟩ := hc
  simp only [pure, Except.pure, Except.ok.injEq] at hys
  refine ⟨e, it1, rest, ?_, hit, hrest, hys.symm⟩
  unfold readAt at he
  cases hd : n.data[i]? with
  | none => simp [hd] at he
  | some x =>
    simp only [hd, Except.ok.injEq] at he
    rw [he]

/-- A backward traversal that returns read every entry it passed: the cursor lies inside
the array of its block, and every preceding block keeps its entries inside its array. -/
theorem collect_bwd_bounds {h : Heap} (fuel : Nat) :
    ∀ (a i : Nat) (n : Node) (ys : List Entry) (rs : List Nat), h[a]? = some (some n) →
      isRevChain h n.prev rs = true →
      (∀ b ∈ rs, ∀ m : Node, h[b]? = some (some m) → 1 ≤ m.size ∧ m.size ≤ 256) →
      collect h Container.rend fuel ⟨some a, i, false⟩ = .ok ys →
      i < n.data.length ∧
        ∀ b ∈ rs, ∀ m : Node, h[b]? = some (some m) → m.size ≤ m.data.length := by
  induction fuel with
  | zero =>
    intro a i n ys rs _ _ _ hc
    simp [collect] at hc
  | succ f ih =>
    intro a i n ys rs ha hr hb hc
    obtain ⟨e, it1, rest, he, hit, hrest, _⟩ := collect_bwd_ok_step ha hc
    refine ⟨lt_of_getElem? he, ?_⟩
    cases i with
    | succ j =>
      rw [next_bwd_inside ha] at hit
      simp only [Except.ok.injEq] at hit
      rw [← hit] at hrest
      exact (ih a j n rest rs ha hr hb hrest).2
    | zero =>
      cases rs with
      | nil =>
        intro b hb2
        simp at hb2
      | cons p ps =>
        obtain ⟨hp, pn, hpn, hrp⟩ := isRevChain_cons.mp hr
        have hbp := hb p (List.mem_cons_self _ _) pn hpn
        have hlast : lastIndex pn.size = pn.size - 1 := by
          unfold lastIndex U64
          omega
        rw [next_bwd_prev ha hp hpn, hlast] at hit
        simp only [Except.ok.injEq] at hit
        rw [← hit] at hrest
        obtain ⟨h1, h2⟩ := ih p (pn.size - 1) pn rest ps hpn hrp
          (fun b hb2 => hb b (List.mem_cons_of_mem _ hb2)) hrest
        intro b hb2 m hm
        rcases List.mem_cons.mp hb2 with e1 | e1
        · subst e1
          rw [hpn] at hm
          simp only [Option.some.injEq] at hm
          subst hm
          omega
        · exact h2 b e1 m hm

/-- One step of a forward traversal from a cursor on a readable entry. -/
theorem collect_fwd_step_eq {h : Heap} {fuel a i : Nat} {n : Node} {e : Entry}
    (ha : h[a]? = some (some n)) (he : n.data[i]? = some e) (hi : i + 1 < U64) :
    collect h Container.end_ (fuel + 1) ⟨some a, i, true⟩ =
      (do
        let rest ← collect h Container.end_ fuel
          (if n.size ≤ i + 1 then ⟨n.fwd 0, 0, true⟩ else ⟨some a, i + 1, true⟩)
        pure (e :: rest)) := by
  rw [collect]
  have hs : Iterator.same ⟨some a, i, true⟩ Container.end_ = false := by
    simp [Iterator.same, Container.end_]
  have hr : readAt n.data i = .ok e := by
    unfold readAt
    rw [he]
  have hmod : (i + 1) % U64 = i + 1 := Nat.mod_eq_of_lt hi
  rw [hs]
  simp only [Bool.false_eq_true, if_false, deref, load_eq_ok.mpr ha, ok_bind, hr,
    Iterator.next, if_true, hmod, ge_iff_le]
  by_cases hle : n.size ≤ i + 1
  · simp only [if_pos hle, pure_bind_eq]
  · simp only [if_neg hle, pure_bind_eq]

/-- A forward traversal started inside the first block of an intact chain returns, given
enough fuel, the remaining entries of that block followed by the entries of the blocks
after it. -/
theorem collect_fwd_ok {h : Heap} (ns : List Nat) :
    ∀ (a : Nat) (n : Node), h[a]? = some (some n) → isChain h (n.fwd 0) ns = true →
      (∀ b ∈ a :: ns, ∀ m : Node, h[b]? = some (some m) →
        1 ≤ m.size ∧ m.size ≤ 256 ∧ m.size ≤ m.data.length) →
      ∀ (k i fuel : Nat), n.size - i = k → i < n.size → k + 1 + ns.length * 256 ≤ fuel →
        collect h Container.end_ fuel ⟨some a, i, true⟩ =
          .ok ((n.data.take n.size).drop i ++ (ns.map (blockEntries h)).flatten) := by
  induction ns with
  | nil =>
    intro a n ha hc hb k
    have hbn := hb a (List.mem_cons_self _ _) n ha
    have hnx : n.fwd 0 = none := by simpa [isChain] using hc
    induction k with
    | zero =>
      intro i fuel hk hlt _
      omega
    | succ k ih =>
      intro i fuel hk hlt hf
      obtain ⟨f, rfl⟩ : ∃ f, fuel = f + 1 := ⟨fuel - 1, by omega⟩
      obtain ⟨e, he⟩ : ∃ e, n.data[i]? = some e :=
        ⟨n.data[i], List.getElem?_eq_getElem (by omega)⟩
      have hU : i + 1 < U64 := by
        unfold U64
        omega
      rw [collect_fwd_step_eq ha he hU, drop_take_cons he hlt]
      by_cases hle : n.size ≤ i + 1
      · obtain ⟨f2, rfl⟩ : ∃ f2, f = f2 + 1 := ⟨f - 1, by omega⟩
        have hsi : n.size = i + 1 := by omega
        rw [if_pos hle, hnx, collect]
        simp only [Iterator.same, Container.end_, beq_self_eq_true, Bool.and_self, if_true,
          ok_bind, hsi, List.drop_take, Nat.sub_self, List.take_zero]
        rfl
      · rw [if_neg hle, ih (i + 1) f (by omega) (by omega) (by omega), ok_bind]
        rfl
  | cons b bs ihb =>
    intro a n ha hc hb k
    have hbn := hb a (List.mem_cons_self _ _) n ha
    obtain ⟨hnx, nb, hnb, hcb⟩ := isChain_cons.mp hc
    have hbb := hb b (List.mem_cons_of_mem _ (List.mem_cons_self _ _)) nb hnb
    induction k with
    | zero =>
      intro i fuel hk hlt _
      omega
    | succ k ih =>
      intro i fuel hk hlt hf
      obtain ⟨f, rfl⟩ : ∃ f, fuel = f + 1 := ⟨fuel - 1, by omega⟩
      obtain ⟨e, he⟩ : ∃ e, n.data[i]? = some e :=
        ⟨n.data[i], List.getElem?_eq_getElem (by omega)⟩
      have hU : i + 1 < U64 := by
        unfold U64
        omega
      have hlen : (b :: bs).length = bs.length + 1 := rfl
      rw [hlen] at hf
      rw [collect_fwd_step_eq ha he hU, drop_take_cons he hlt]
      by_cases hle : n.size ≤ i + 1
      · have hsi : n.size = i + 1 := by omega
        rw [if_pos hle, hnx,
          ihb b nb hnb hcb (fun c hc2 => hb c (List.mem_cons_of_mem _ hc2)) nb.size 0 f
            (by omega) (by omega) (by omega), ok_bind]
        simp only [hsi, List.drop_take, Nat.sub_self, List.take_zero, List.drop_zero,
          List.map_cons, List.flatten_cons, blockEntries, hnb]
        rfl
      · rw [if_neg hle, ih (i + 1) f (by omega) (by omega) (by omega), ok_bind]
        rfl

/-- Both traversals of a container whose chain from the head is intact, whose head block
holds an entry and whose blocks keep their entries inside their arrays: the forward
traversal returns the entries of the chain, the backward traversal their reverse. -/
theorem traversals_of_chain {c : Container} {r : Nat → ℚ} (hh : c.head = some 0)
    (hi : InvR r (skel c.heap)) {n0 : Node} (h0 : c.heap[0]? = some (some n0))
    (hsz0 : n0.size ≠ 0) (ns : List Nat)
    (hchain : isChain c.heap (some 0) (0 :: ns) = true)
    (hdata : ∀ b ∈ 0 :: ns, ∀ m : Node, c.heap[b]? = some (some m) →
      m.size ≤ m.data.length) :
    forwardEntries c = .ok ((0 :: ns).map (blockEntries c.heap)).flatten ∧
      backwardEntries c = .ok (((0 :: ns).map (blockEntries c.heap)).flatten).reverse := by
  obtain ⟨k0, hk0, hk0p⟩ := hi.head_live
  have hp0 : n0.prev = none := by
    rw [skel_live h0] at hk0
    simp only [Option.some.injEq] at hk0
    rw [← hk0] at hk0p
    exact hk0p
  obtain ⟨_, n0b, h0b, hch⟩ := isChain_cons.mp hchain
  rw [h0] at h0b
  simp only [Option.some.injEq] at h0b
  subst h0b
  have hnd := isChain_nodup hi _ _ hchain
  have hlen := isChain_length_le _ _ _ hchain hnd
  simp only [List.length_cons] at hlen
  have hbounds : ∀ b ∈ 0 :: ns, ∀ m : Node, c.heap[b]? = some (some m) →
      1 ≤ m.size ∧ m.size ≤ 256 ∧ m.size ≤ m.data.length := by
    intro b hb m hm
    have h256 : m.size ≤ 256 := hi.size_le b m.lk (skel_live hm)
    refine ⟨?_, h256, hdata b hb m hm⟩
    rcases List.mem_cons.mp hb with e | e
    · subst e
      rw [h0] at hm
      simp only [Option.some.injEq] at hm
      subst hm
      omega
    · have := isChain_sizes hi ns 0 hchain b e m hm
      omega
  have hb0 := hbounds 0 (List.mem_cons_self _ _) n0 h0
  have hbe0 : blockEntries c.heap 0 = n0.data.take n0.size := by
    simp only [blockEntries, h0]
  constructor
  · unfold forwardEntries Container.begin_
    rw [hh, collect_fwd_ok ns 0 n0 h0 hch hbounds n0.size 0 (travFuel c.heap) rfl (by omega)
      (by unfold travFuel U16; omega)]
    rw [List.drop_zero, List.map_cons, List.flatten_cons, hbe0]
  · have hrev0 : isRevChain c.heap (some 0) (0 :: []) = true := by
      refine isRevChain_cons.mpr ⟨rfl, n0, h0, ?_⟩
      rw [hp0]
      rfl
    have hrev := isRevChain_of_isChain hi ns 0 [] hchain hrev0
    rw [List.append_nil] at hrev
    obtain ⟨l, rs, hlr⟩ : ∃ l rs, (0 :: ns).reverse = l :: rs := by
      cases hq : (0 :: ns).reverse with
      | nil => simp at hq
      | cons l rs => exact ⟨l, rs, rfl⟩
    have hlast : (0 :: ns).getLast? = some l := by
      rw [← List.head?_reverse, hlr]
      rfl
    rw [hlast, hlr] at hrev
    obtain ⟨_, nl, hnl, hrl⟩ := isRevChain_cons.mp hrev
    have hbl := hbounds l (List.mem_reverse.mp (by rw [hlr]; exact List.mem_cons_self _ _))
      nl hnl
    have hrslen : rs.length = ns.length := by
      have := congrArg List.length hlr
      simp only [List.length_reverse, List.length_cons] at this
      omega
    have hli : lastIndex nl.size = nl.size - 1 := by
      unfold lastIndex U64
      omega
    have hbw := collect_bwd_chain rs l nl (nl.size - 1) (travFuel c.heap) hnl hrl (by omega)
      (fun b hb => hbounds b (List.mem_reverse.mp (by rw [hlr]; exact hb)))
      (by unfold travFuel U16; omega)
    unfold backwardEntries rbegin
    rw [hh, lastBlock_of_isChain ns 0 _ hchain (by omega), hlast]
    simp only [ok_bind, load_eq_ok.mpr hnl, pure_bind_eq, hli]
    rw [hbw]
    have h1 : nl.size - 1 + 1 = nl.size := by omega
    have hbl2 : blockEntries c.heap l = nl.data.take nl.size := by
      simp only [blockEntries, hnl]
    have e2 : (nl.data.take (nl.size - 1 + 1)).reverse ++
        (rs.map (fun b => (blockEntries c.heap b).reverse)).flatten =
        ((l :: rs).map (fun b => (blockEntries c.heap b).reverse)).flatten := by
      rw [h1, List.map_cons, List.flatten_cons, hbl2]
    rw [e2, ← hlr, List.reverse_flatten, List.map_reverse, List.map_map]
    rfl

/-- Agreement of the two traversals when they return: for every container reached from a
newly constructed container with block capacity 256 by insertions and removals that run
without fault and that holds an entry in some block of its level-0 chain, the traversal
from `begin()` to `end()` returns the sequence `xs` exactly when the traversal from
`rbegin()` to `rend()` returns the reverse of `xs`.  Whether they return is not stated:
when a link of the chain dangles, neither does. -/
theorem traversals_agree_of_run (m0 : Nat) (ops : List Op) (c0 c : Container)
    (fuel : Nat) (xs : List Entry) (hc : construct 256 m0 = some c0)
    (hr : run c0 ops = .ok c)
    (hne : ∃ n ∈ chainBlocks c.heap fuel c.head, n.size ≠ 0) :
    forwardEntries c = .ok xs ↔ backwardEntries c = .ok xs.reverse := by
  have hinv := run_CInv ops (construct_CInv hc) hr
  obtain ⟨hh, _, r, hi⟩ := id hinv
  obtain ⟨k0, hk0, _⟩ := hi.head_live
  obtain ⟨n0, h0, _⟩ := live_of_skel hk0
  have hsz0 : n0.size ≠ 0 := head_nonempty hinv hne h0
  have hs0 : n0.size ≤ 256 := hi.size_le 0 n0.lk (skel_live h0)
  constructor
  · intro hf
    have hf2 := hf
    unfold forwardEntries Container.begin_ at hf2
    rw [hh] at hf2
    obtain ⟨ns, hch, hdl, _, hall⟩ := collect_fwd_chain hi _ 0 0 n0 xs h0 (by omega) hf2
    have hchain : isChain c.heap (some 0) (0 :: ns) = true :=
      isChain_cons.mpr ⟨rfl, n0, h0, hch⟩
    have hdata : ∀ b ∈ 0 :: ns, ∀ m : Node, c.heap[b]? = some (some m) →
        m.size ≤ m.data.length := by
      intro b hb m hm
      rcases List.mem_cons.mp hb with e | e
      · subst e
        rw [h0] at hm
        simp only [Option.some.injEq] at hm
        subst hm
        exact hdl
      · exact hall b e m hm
    obtain ⟨t1, t2⟩ := traversals_of_chain hh hi h0 hsz0 ns hchain hdata
    rw [hf] at t1
    simp only [Except.ok.injEq] at t1
    rw [t2, t1]
  · intro hb
    have hb2 := hb
    unfold backwardEntries rbegin at hb2
    rw [hh] at hb2
    simp only [bind_eq_ok] at hb2
    obtain ⟨it, ⟨l, hl, nl, hnl, hit⟩, hcol⟩ := hb2
    obtain ⟨ns, hchain, hlast⟩ := isChain_of_lastBlock _ 0 l hl
    simp only [pure, Except.pure, Except.ok.injEq] at hit
    rw [← hit] at hcol
    have hrev0 : isRevChain c.heap (some 0) (0 :: []) = true := by
      have hp0 : n0.prev = none := by
        obtain ⟨k1, hk1, hk1p⟩ := hi.head_live
        rw [skel_live h0] at hk1
        simp only [Option.some.injEq] at hk1
        rw [← hk1] at hk1p
        exact hk1p
      refine isRevChain_cons.mpr ⟨rfl, n0, h0, ?_⟩
      rw [hp0]
      rfl
    have hrev := isRevChain_of_isChain hi ns 0 [] hchain hrev0
    rw [List.append_nil, ← hlast] at hrev
    obtain ⟨a, rs, hlr⟩ : ∃ a rs, (0 :: ns).reverse = a :: rs := by
      cases hq : (0 :: ns).reverse with
      | nil => simp at hq
      | cons a rs => exact ⟨a, rs, rfl⟩
    rw [hlr] at hrev
    obtain ⟨hla, na, hna, hra⟩ := isRevChain_cons.mp hrev
    subst hla
    have hnl := load_eq_ok.mp hnl
    rw [hna] at hnl
    simp only [Option.some.injEq] at hnl
    subst hnl
    have hsizes : ∀ b ∈ 0 :: ns, ∀ m : Node, c.heap[b]? = some (some m) →
        1 ≤ m.size ∧ m.size ≤ 256 := by
      intro b hb3 m hm
      have h256 : m.size ≤ 256 := hi.size_le b m.lk (skel_live hm)
      refine ⟨?_, h256⟩
      rcases List.mem_cons.mp hb3 with e | e
      · subst e
        rw [h0] at hm
        simp only [Option.some.injEq] at hm
        subst hm
        omega
      · have := isChain_sizes hi ns 0 hchain b e m hm
        omega
    have hmemrev : ∀ b, b ∈ a :: rs → b ∈ 0 :: ns := by
      intro b hb3
      rw [← hlr] at hb3
      exact List.mem_reverse.mp hb3
    have hsa := hsizes a (hmemrev a (List.mem_cons_self _ _)) na hna
    have hli : lastIndex na.size = na.size - 1 := by
      unfold lastIndex U64
      omega
    rw [hli] at hcol
    obtain ⟨hda, hdrs⟩ := collect_bwd_bounds _ a (na.size - 1) na _ rs hna hra
      (fun b hb3 => hsizes b (hmemrev b (List.mem_cons_of_mem _ hb3))) hcol
    have hdata : ∀ b ∈ 0 :: ns, ∀ m : Node, c.heap[b]? = some (some m) →
        m.size ≤ m.data.length := by
      intro b hb3 m hm
      have : b ∈ a :: rs := by
        rw [← hlr]
        exact List.mem_reverse.mpr hb3
      rcases List.mem_cons.mp this with e | e
      · subst e
        rw [hna] at hm
        simp only [Option.some.injEq] at hm
        subst hm
        omega
      · exact hdrs b e m hm
    obtain ⟨t1, t2⟩ := traversals_of_chain hh hi h0 hsz0 ns hchain hdata
    rw [hb] at t2
    simp only [Except.ok.injEq] at t2
    rw [t1, List.reverse_injective t2]

/-- The agreement of the traversals applied to the container after the keys `1 .. 385`
were inserted and the keys `385, ..., 371` were removed. -/
theorem traversals_agree_of_run_stateD :
    construct 256 0 = some (stateA 0) ∧ run (stateA 0) faultyOps = .ok stateD ∧
    (∃ n ∈ chainBlocks stateD.heap 1 stateD.head, n.size ≠ 0) ∧
    (forwardEntries stateD =
        .ok (keysThen 1 128 (keysThen 129 128 (⟨385, 385⟩ :: blank 113))) ↔
      backwardEntries stateD =
        .ok (keysThen 1 128 (keysThen 129 128 (⟨385, 385⟩ :: blank 113))).reverse) :=
  ⟨rfl, run_faultyOps, ⟨headHalf 2, List.mem_cons_self _ _, by decide⟩,
    traversals_agree_of_run 0 faultyOps (stateA 0) stateD 1 _ rfl run_faultyOps
      ⟨headHalf 2, List.mem_cons_self _ _, by decide⟩⟩

/-- An evaluation whose fault is `f` ended with that fault. -/
theorem error_of_faultOf {α : Type} {e : Except Fault α} {f : Fault}
    (h : faultOf e = some f) : e = .error f := by
  cases e with
  | ok a => simp [faultOf] at h
  | error g =>
    simp only [faultOf, Option.some.injEq] at h
    rw [h]

/-- An `update` keeps the invariant. -/
theorem update_CInv {c c1 : Container} {e : Entry} {draw : Nat → Nat} {it : Iterator}
    (hc : CInv c) (hu : update c e draw = .ok (c1, it)) : CInv c1 := by
  unfold update at hu
  obtain ⟨iter, _, hu⟩ := bind_eq_ok.mp hu
  split at hu
  · obtain ⟨n, hn, hu⟩ := bind_eq_ok.mp hu
    split at hu
    · exact absurd hu throw_bind_ne_ok
    · rw [pure_bind_eq] at hu
      simp only [bind_eq_ok] at hu
      obtain ⟨e0, _, h1, hm, hu⟩ := hu
      simp only [pure, Except.pure, Except.ok.injEq, Prod.mk.injEq] at hu
      obtain ⟨a, m, _, hm1, eh⟩ := modify_ok hm
      obtain ⟨hh, hb, r, hi⟩ := hc
      rw [← hu.1]
      refine ⟨hh, hb, r, ?_⟩
      show InvR r (skel h1)
      rw [eh]
      have hs := @skel_store_same c.heap a m
        { m with data := m.data.set iter.index { e0 with val := e.val } } hm1 rfl
      rw [hs]
      exact hi
  · exact insertAux_CInv _ _ _ _ hc hu

/-- One public operation keeps the invariant. -/
theorem stepPub_CInv {c c1 : Container} (op : PubOp) (hc : CInv c)
    (hs : stepPub c op = .ok c1) : CInv c1 := by
  cases op with
  | ins key val draw =>
    simp only [stepPub, insert, bind_eq_ok] at hs
    obtain ⟨⟨c2, it⟩, hins, hs⟩ := hs
    simp only [pure, Except.pure, Except.ok.injEq] at hs
    rw [← hs]
    exact insertAux_CInv _ _ _ _ hc hins
  | upd key val draw =>
    simp only [stepPub, bind_eq_ok] at hs
    obtain ⟨⟨c2, it⟩, hu, hs⟩ := hs
    simp only [pure, Except.pure, Except.ok.injEq] at hs
    rw [← hs]
    exact update_CInv hc hu
  | del key =>
    simp only [stepPub, bind_eq_ok] at hs
    obtain ⟨⟨c2, e⟩, he, hs⟩ := hs
    simp only [pure, Except.pure, Except.ok.injEq] at hs
    rw [← hs]
    exact erase_CInv hc he

/-- A sequence of public operations keeps the invariant. -/
theorem runPub_CInv (ops : List PubOp) {c c1 : Container} (hc : CInv c)
    (hr : runPub c ops = .ok c1) : CInv c1 := by
  induction ops generalizing c with
  | nil =>
    simp only [runPub, Except.ok.injEq] at hr
    rw [← hr]
    exact hc
  | cons op ops ih =>
    simp only [runPub, bind_eq_ok] at hr
    obtain ⟨c2, hs, hr⟩ := hr
    exact ih (stepPub_CInv op hc hs) hr

/-- The first insertion into a new container stores its entry in the head block. -/
theorem runPub_first_insert :
    runPub (stateA 0) [PubOp.ins 1 1 lowDraw] = .ok (stateA 1) := by
  have h := step_stateA 0 (by omega)
  simp only [step, bind_eq_ok] at h
  obtain ⟨⟨c1, it⟩, hins, hc1⟩ := h
  simp only [pure, Except.pure, Except.ok.injEq] at hc1
  subst hc1
  have hins2 : insert (stateA 0) ⟨1, 1⟩ lowDraw = .ok (stateA 1, it) := hins
  simp only [runPub, stepPub, hins2, ok_bind]
  rfl

/-- C11 (counterexample). After one `insert` on a newly constructed container the head
block holds the inserted entry: its size is 1, not 0. -/
theorem C11_head_holds_first_entry :
    ∃ c0 c n0, construct 256 0 = some c0 ∧ runPub c0 [PubOp.ins 1 1 lowDraw] = .ok c ∧
      c.heap.load c.head = .ok n0 ∧ n0.size = 1 ∧ n0.live = [⟨1, 1⟩] :=
  ⟨stateA 0, stateA 1, growing 1 1 none, rfl, runPub_first_insert, rfl, rfl, rfl⟩

/-- C11 (amended). After every sequence of `insert`, `update` and `erase` that runs
without fault on a newly constructed container with block capacity 256, the head block
is live, has no predecessor and holds at most 256 entries; it is a data block like the
others: whenever some block of the level-0 chain holds an entry, the head block holds
one. -/
theorem C11_head_is_data_block (m0 : Nat) (ops : List PubOp) (c0 c : Container)
    (hc : construct 256 m0 = some c0) (hr : runPub c0 ops = .ok c) :
    ∃ n0 : Node, c.heap.load c.head = .ok n0 ∧ n0.prev = none ∧ n0.size ≤ 256 ∧
      ∀ fuel : Nat, (∃ n ∈ chainBlocks c.heap fuel c.head, n.size ≠ 0) → n0.size ≠ 0 := by
  have hinv := runPub_CInv ops (construct_CInv hc) hr
  obtain ⟨hh, _, r, hi⟩ := id hinv
  obtain ⟨k0, hk0, hk0p⟩ := hi.head_live
  obtain ⟨n0, h0, hlk⟩ := live_of_skel hk0
  refine ⟨n0, ?_, ?_, hi.size_le 0 n0.lk (skel_live h0), ?_⟩
  · rw [hh]
    exact load_eq_ok.mpr h0
  · rw [← hlk] at hk0p
    exact hk0p
  · intro fuel hne
    exact head_nonempty hinv hne h0

/-- C11 (witness): the amended statement applied to the container after one insertion. -/
theorem C11_head_is_data_block_witness :
    construct 256 0 = some (stateA 0) ∧
    runPub (stateA 0) [PubOp.ins 1 1 lowDraw] = .ok (stateA 1) ∧
    ∃ n0 : Node, (stateA 1).heap.load (stateA 1).head = .ok n0 ∧ n0.prev = none ∧
      n0.size ≤ 256 ∧
      ∀ fuel : Nat, (∃ n ∈ chainBlocks (stateA 1).heap fuel (stateA 1).head, n.size ≠ 0) →
        n0.size ≠ 0 :=
  ⟨rfl, runPub_first_insert,
    C11_head_is_data_block 0 [PubOp.ins 1 1 lowDraw] (stateA 0) (stateA 1) rfl
      runPub_first_insert⟩

/-- Evaluation of `insert(-5, 1)` on a new container. -/
theorem runPub_stateNeg : runPub (stateA 0) [PubOp.ins (-5) 1 lowDraw] = .ok stateNeg :=
  ok_of_toOption (by decide!)

/-- C12 (code defect). After `insert(-5, 1)` on a newly constructed container the head
block holds one entry, its last live entry has key `-5`, and its cached `max_key` is 0:
`Node::insert` takes the maximum with the initial value 0 of the field. -/
theorem C12_max_key_stale_for_negative_key :
    ∃ c0 c n0 e, construct 256 0 = some c0 ∧
      runPub c0 [PubOp.ins (-5) 1 lowDraw] = .ok c ∧ c.heap.load c.head = .ok n0 ∧
      n0.size = 1 ∧ readLast n0.data n0.size = .ok e ∧ e.key = -5 ∧ n0.m_max_key = 0 ∧
      n0.m_max_key ≠ e.key :=
  by
  refine ⟨stateA 0, stateNeg, negBlock, ⟨-5, 1⟩, rfl, runPub_stateNeg, rfl, rfl, ?_, rfl, rfl,
    by decide⟩
  simp [readLast, readAt, negBlock]

/-- C13 (code defect). `split_into` on a block with the three sorted entries `1, 2, 3` and
an empty block `other`: this block keeps `1, 2`, but `other` ends with the single live
entry `2` instead of `3`; the entry `3` is lost from the live ranges and `2` is held
twice. -/
theorem C13_split_odd_loses_last_entry :
    ∃ n1 o1, oddBlock.split_into (Node.new 4) = .ok (n1, o1) ∧
      oddBlock.live = [⟨1, 1⟩, ⟨2, 2⟩, ⟨3, 3⟩] ∧ (Node.new 4).size = 0 ∧
      n1.live = [⟨1, 1⟩, ⟨2, 2⟩] ∧ o1.live = [⟨2, 2⟩] ∧
      o1.live ≠ oddBlock.live.drop (oddBlock.size - oddBlock.size / 2) ∧
      n1.live ++ o1.live ≠ oddBlock.live :=
  ⟨{ oddBlock with size := 2, m_max_key := 2 },
    { Node.new 4 with data := [⟨2, 2⟩, ⟨3, 3⟩, ⟨0, 0⟩, ⟨0, 0⟩], size := 1, m_max_key := 2 },
    ok_of_toOption (by decide), by decide, by decide, by decide, by decide, by decide,
    by decide⟩

/-- Evaluation of five ascending insertions at block capacity 4. -/
theorem run_stateCap4 : run (newCap 4) (ascending 1 5) = .ok stateCap4 :=
  ok_of_toOption (by decide!)

/-- C14 (code defect). On a container constructed with block capacity 4, the insertion of
the keys `1 .. 5` splits the head block; the block created by the split has capacity 256,
the default of `Node()`, not 4. -/
theorem C14_split_block_has_default_capacity :
    ∃ c0 c hd nw, construct 4 0 = some c0 ∧ run c0 (ascending 1 5) = .ok c ∧
      c.block_size = 4 ∧ c.heap.load c.head = .ok hd ∧ hd.capacity = 4 ∧
      hd.fwd 0 = some 1 ∧ c.heap.load (some 1) = .ok nw ∧ nw.capacity = 256 ∧
      nw.data.length = 256 :=
  by
  refine ⟨newCap 4, stateCap4, cap4Head, cap4New, rfl, run_stateCap4, rfl, rfl, rfl, rfl, rfl,
    rfl, ?_⟩
  simp only [cap4New, blank, List.length_cons, List.length_replicate]

/-- Evaluation of `erase(200)` after the failing scenario. -/
theorem stage_E : run stateD [Op.del 200] = .ok stateE :=
  ok_of_toOption (by decide!)

/-- A removal appended to an admissible sequence keeps it admissible. -/
theorem freshOps_snoc_del (ops : List Op) (k : Int) :
    ∀ s : List Int, freshOps s ops = true → freshOps s (ops ++ [Op.del k]) = true := by
  induction ops with
  | nil =>
    intro s _
    rfl
  | cons op ops ih =>
    intro s h
    cases op with
    | ins key val draw =>
      simp only [List.cons_append, freshOps, Bool.and_eq_true] at h ⊢
      exact ⟨h.1, ih _ h.2⟩
    | del key =>
      simp only [List.cons_append, freshOps] at h ⊢
      exact ih _ h

/-- C19 (code defect). Insert the fresh keys `1 .. 385` in ascending order, erase
`385, ..., 371` and then erase `200`, with block capacity 256: the run ends without fault,
the level-0 chain consists of the head block and the block at address 2, and the cached
`max_key` of the head block is 128 while that of its successor is 0, so the chain through
`forward[0]` does not visit the blocks in strictly increasing `max_key` order. -/
theorem C19_max_key_order_broken :
    ∃ c0 c hd tl, construct 256 0 = some c0 ∧
      freshOps [] (faultyOps ++ [Op.del 200]) = true ∧
      run c0 (faultyOps ++ [Op.del 200]) = .ok c ∧
      c.heap.load c.head = .ok hd ∧ hd.fwd 0 = some 2 ∧ c.heap.load (some 2) = .ok tl ∧
      tl.fwd 0 = none ∧ hd.m_max_key = 128 ∧ tl.m_max_key = 0 ∧
      ¬ hd.m_max_key < tl.m_max_key :=
  ⟨stateA 0, stateE, _, _, rfl, freshOps_snoc_del _ _ _ fresh_faultyOps,
    run_chain run_faultyOps stage_E, rfl, rfl, rfl, rfl, rfl, rfl, by decide⟩

/-- Evaluation of the first insertion at block capacity 1. -/
theorem run_stateCap1 : run (newCap 1) [Op.ins 2 2 lowDraw] = .ok stateCap1 :=
  ok_of_toOption (by decide!)

/-- C20 (code defect). On a container constructed with block capacity 1 that holds the
key 2, the insertion of the key 1 and the insertion of the key 3 both fault: the full
block is split with `half = 0`, so it stays full, and `split_into` reads
`other->data[other->size - 1]` with `other->size = 0`.  The insertion does not end with
the entry stored after one split. -/
theorem C20_insert_faults_at_capacity_one :
    ∃ c0 c, construct 1 0 = some c0 ∧ run c0 [Op.ins 2 2 lowDraw] = .ok c ∧
      (∃ n, c.heap = [some n] ∧ n.size = c.block_size) ∧
      insert c ⟨1, 1⟩ lowDraw = .error .outOfBounds ∧
      insert c ⟨3, 3⟩ lowDraw = .error .outOfBounds :=
  ⟨newCap 1, stateCap1, rfl, run_stateCap1, ⟨_, rfl, rfl⟩, error_of_faultOf (by decide!),
    error_of_faultOf (by decide!)⟩

/-- Appending the next key to a block with an array of `B` entries. -/
theorem insert_grown (B lo cnt : Nat) (prev : Option Nat) (hlo : 1 ≤ lo) (hc : cnt < B)
    (hB : B ≤ 32768) :
    (grown B lo cnt prev).insert ⟨((lo + cnt : Nat) : Int), ((lo + cnt : Nat) : Int)⟩
      = .ok (grown B lo (cnt + 1) prev, cnt) := by
  have hub : upperBound (keysThen lo cnt (blank (B - cnt))) ((lo + cnt : Nat) : Int) cnt 0 cnt
      = .ok cnt := by
    have := upperBound_all_le (keysThen lo cnt (blank (B - cnt))) ((lo + cnt : Nat) : Int)
      cnt 0 cnt (le_refl _) (by
        intro i _ h2
        refine ⟨_, keysThen_getElem? lo cnt i _ (by omega), ?_⟩
        simp only [Nat.cast_le]
        omega)
    simpa using this
  have hpad : blank (B - cnt) = Entry.dflt :: blank (B - (cnt + 1)) := by
    have : B - cnt = (B - (cnt + 1)) + 1 := by omega
    rw [this]
    simp [blank, List.replicate_succ]
  have hmax : max ((lo + cnt - 1 : Nat) : Int) ((lo + cnt : Nat) : Int)
      = ((lo + (cnt + 1) - 1 : Nat) : Int) := by
    have : lo + (cnt + 1) - 1 = lo + cnt := by omega
    rw [this, max_eq_right]
    simp only [Nat.cast_le]
    omega
  have hmod : (cnt + 1) % U16 = cnt + 1 := Nat.mod_eq_of_lt (by unfold U16; omega)
  unfold Node.insert
  simp only [grown, hub, slice, copyBackInto, le_refl, if_true, List.length_nil,
    bind, Except.bind, pure, Except.pure, keysThen_length, hmax, hmod]
  have hlen : ¬ (cnt + (blank (B - cnt)).length ≤ cnt) := by
    simp [blank]
    omega
  simp only [hlen, if_false]
  rw [hpad, keysThen_set, keysThen_snoc]

/-- Links of a block without successors. -/
theorem fwd_grown (B lo cnt : Nat) (prev : Option Nat) (l : Nat) :
    (grown B lo cnt prev).fwd l = none := by
  show (List.replicate SKIP_LIST_LEVELS (none : Option Nat)).getD l none = none
  rw [List.getD_eq_getElem?_getD, List.getElem?_replicate]
  split <;> rfl

/-- Inserting the next key into the single block of a container of capacity `B`. -/
theorem step_stateG (B n : Nat) (hn : n < B) (hB : B ≤ 32768) :
    step (stateG B n) (Op.ins ((1 + n : Nat) : Int) ((1 + n : Nat) : Int) lowDraw)
      = .ok (stateG B (n + 1)) := by
  have hins := insert_grown B 1 n none (le_refl _) hn hB
  have hne : ¬ (grown B 1 n none).size = (stateG B n).block_size := by
    show ¬ n = B
    omega
  have hmod : (n + 1) % U64 = n + 1 := Nat.mod_eq_of_lt (by unfold U64; omega)
  have h := insert_single (stateG B n) (grown B 1 n none) (grown B 1 (n + 1) none) _ n lowDraw
    rfl rfl (fwd_grown B 1 n none) hne hins rfl (fwd_grown B 1 (n + 1) none 0)
  simp only [step, h, bind, Except.bind, pure, Except.pure]
  congr 1
  show ({ head := some 0, m_size := (n + 1) % U64, block_size := B,
          heap := [some (grown B 1 (n + 1) none)] } : Container) = _
  rw [hmod]
  rfl

/-- Filling the single block of a container of capacity `B` with ascending keys. -/
theorem run_stateG (B k n : Nat) (h : n + k ≤ B) (hB : B ≤ 32768) :
    run (stateG B n) (ascending (1 + n) k) = .ok (stateG B (n + k)) := by
  induction k generalizing n with
  | zero => rfl
  | succ k ih =>
    have e : 1 + n + 1 = 1 + (n + 1) := by omega
    have e2 : n + (k + 1) = n + 1 + k := by omega
    simp only [ascending, run, step_stateG B n (by omega) hB, bind, Except.bind]
    rw [e, e2]
    exact ih (n + 1) (by omega)

/-- A newly constructed container of capacity 512. -/
theorem construct_512 : construct 512 0 = some (stateG 512 0) := rfl

/-- The insertion of the key 513 into the full single block of capacity 512 faults. -/
theorem insert_full_512 :
    insert (stateG 512 512) ⟨513, 513⟩ lowDraw = .error .outOfBounds :=
  error_of_faultOf (by decide!)

/-- C16 (code defect). Construct a container with block capacity 512 and insert the keys
`1 .. 512`: its single block is full.  The insertion of the greater key 513 then faults
instead of producing two blocks of sizes 256 and 257: the block created by the split has
an array of 256 entries, which the moved upper half fills, and the retried insertion
writes the new entry at index 256 of that array. -/
theorem C16_split_overflows_at_capacity_512 :
    ∃ c0 c n, construct 512 0 = some c0 ∧ run c0 (ascending 1 512) = .ok c ∧
      c.block_size = 512 ∧ c.heap = [some n] ∧ n.size = 512 ∧
      n.live = keysThen 1 512 [] ∧
      insert c ⟨513, 513⟩ lowDraw = .error .outOfBounds := by
  refine ⟨stateG 512 0, stateG 512 512, grown 512 1 512 none, construct_512,
    run_stateG 512 512 0 (by omega) (by omega), rfl, rfl, rfl, ?_, insert_full_512⟩
  show (keysThen 1 512 (blank (512 - 512))).take 512 = keysThen 1 512 []
  have h : blank (512 - 512) = [] := rfl
  rw [h]
  exact List.take_of_length_le (by rw [keysThen_length]; simp)

/-- A range that lies inside the array is read as `drop` and `take`. -/
theorem slice_eq (data : List Entry) (a b : Nat) (hb : b ≤ data.length) :
    slice data a b = .ok ((data.drop a).take (b - a)) := by
  unfold slice
  by_cases h : b ≤ a
  · rw [if_pos h]
    have : b - a = 0 := by omega
    rw [this, List.take_zero]
  · rw [if_neg h, if_pos hb]

/-- A write that fits into the array replaces the entries it covers. -/
theorem copyInto_eq (dst src : List Entry) (pos : Nat) (h : pos + src.length ≤ dst.length) :
    copyInto dst pos src = .ok (dst.take pos ++ src ++ dst.drop (pos + src.length)) := by
  unfold copyInto
  by_cases h0 : src.length = 0
  · rw [if_pos h0]
    have : src = [] := List.eq_nil_of_length_eq_zero h0
    subst this
    simp
  · rw [if_neg h0, if_pos h]

/-- A backward move that fits into the array replaces the entries in front of its
destination end. -/
theorem copyBackInto_eq (dst src : List Entry) (d_last : Nat) (h1 : src.length ≤ d_last)
    (h2 : d_last ≤ dst.length) :
    copyBackInto dst d_last src =
      .ok (dst.take (d_last - src.length) ++ src ++ dst.drop d_last) := by
  unfold copyBackInto
  by_cases h0 : src.length = 0
  · rw [if_pos h0]
    have : src = [] := List.eq_nil_of_length_eq_zero h0
    subst this
    simp
  · rw [if_neg h0, if_neg (by omega), copyInto_eq _ _ _ (by omega)]
    have : d_last - src.length + src.length = d_last := by omega
    rw [this]

/-- Reading the last of the first `k` entries of an array. -/
theorem readLast_eq (data : List Entry) (k : Nat) (e : Entry) :
    readLast data k = .ok e ↔ k ≠ 0 ∧ data[k - 1]? = some e := by
  unfold readLast readAt
  by_cases h0 : k = 0
  · simp [h0]
  · rw [if_neg h0]
    cases hd : data[k - 1]? with
    | none => simp [h0]
    | some x => simp [h0]

/-- The entry `data[k - 1]` that `readLast` returns is the last of the first `k`
entries. -/
theorem readLast_getLast (d : List Entry) (k : Nat) (hk : 1 ≤ k) (hl : k ≤ d.length) :
    ∃ e : Entry, readLast d k = .ok e ∧ (d.take k).getLast? = some e := by
  have hlt : k - 1 < d.length := by omega
  refine ⟨d[k - 1], (readLast_eq d k _).mpr ⟨by omega, List.getElem?_eq_getElem hlt⟩, ?_⟩
  rw [List.getLast?_eq_getElem?, List.length_take, Nat.min_eq_left hl,
    List.getElem?_take_of_lt (by omega), List.getElem?_eq_getElem hlt]

/-- The search of `upper_bound` on an ascending range: a successful search returns a
position inside the range such that the keys before it are at most the key searched for
and the keys from it on are greater. -/
theorem upperBound_spec (data : List Entry) (key : Int) (hi : Nat)
    (hs : ∀ (i j : Nat) (ei ej : Entry), i < j → j < hi → data[i]? = some ei →
      data[j]? = some ej → ei.key < ej.key) (fuel : Nat) :
    ∀ (first len p : Nat), first + len ≤ hi → upperBound data key fuel first len = .ok p →
      first ≤ p ∧ p ≤ first + len ∧ (len ≤ fuel →
        (∀ (i : Nat) (e : Entry), first ≤ i → i < p → data[i]? = some e → e.key ≤ key) ∧
        (∀ (i : Nat) (e : Entry), p ≤ i → i < first + len → data[i]? = some e →
          key < e.key)) := by
  induction fuel with
  | zero =>
    intro first len p _ h
    simp only [upperBound, Except.ok.injEq] at h
    subst h
    refine ⟨le_refl _, by omega, fun hl => ⟨fun i e h1 h2 => by omega, fun i e h1 h2 => by omega⟩⟩
  | succ fuel ih =>
    intro first len p hle h
    unfold upperBound at h
    by_cases hl0 : len = 0
    · simp only [hl0, if_true, Except.ok.injEq] at h
      subst h
      exact ⟨le_refl _, by omega, fun _ => ⟨fun i e h1 h2 => by omega, fun i e h1 h2 => by omega⟩⟩
    · simp only [hl0, if_false] at h
      cases hd : data[first + len / 2]? with
      | none => simp [hd] at h
      | some e0 =>
        simp only [hd] at h
        by_cases hk : key < e0.key
        · rw [if_pos hk] at h
          obtain ⟨a1, a2, a3⟩ := ih first (len / 2) p (by omega) h
          refine ⟨a1, by omega, fun hf => ?_⟩
          obtain ⟨b1, b2⟩ := a3 (by omega)
          refine ⟨b1, fun i e h1 h2 he => ?_⟩
          by_cases hlt : i < first + len / 2
          · exact b2 i e h1 hlt he
          · by_cases heq : i = first + len / 2
            · subst heq
              rw [hd] at he
              simp only [Option.some.injEq] at he
              rw [← he]
              exact hk
            · have := hs (first + len / 2) i e0 e (by omega) (by omega) hd he
              omega
        · rw [if_neg hk] at h
          obtain ⟨a1, a2, a3⟩ := ih (first + len / 2 + 1) (len - len / 2 - 1) p (by omega) h
          refine ⟨by omega, by omega, fun hf => ?_⟩
          obtain ⟨b1, b2⟩ := a3 (by omega)
          refine ⟨fun i e h1 h2 he => ?_, fun i e h1 h2 he => b2 i e h1 (by omega) he⟩
          by_cases hgt : first + len / 2 + 1 ≤ i
          · exact b1 i e hgt h2 he
          · by_cases heq : i = first + len / 2
            · subst heq
              rw [hd] at he
              simp only [Option.some.injEq] at he
              rw [← he]
              omega
            · have := hs i (first + len / 2) e e0 (by omega) (by omega) he hd
              omega

/-- Entries of a strictly ascending prefix, by index. -/
theorem sorted_index {d : List Entry} {s : Nat}
    (hp : (d.take s).Pairwise (fun x y => x.key < y.key)) :
    ∀ (i j : Nat) (ei ej : Entry), i < j → j < s → d[i]? = some ei → d[j]? = some ej →
      ei.key < ej.key := by
  intro i j ei ej hij hjs hi hj
  have hjl : j < d.length := lt_of_getElem? hj
  have hl : (d.take s).length = min s d.length := List.length_take s d
  have h1 : (d.take s)[i]? = some ei := by
    rw [List.getElem?_take_of_lt (by omega)]
    exact hi
  have h2 : (d.take s)[j]? = some ej := by
    rw [List.getElem?_take_of_lt hjs]
    exact hj
  have hil : i < (d.take s).length := lt_of_getElem? h1
  have hjl2 : j < (d.take s).length := lt_of_getElem? h2
  have := List.pairwise_iff_getElem.mp hp i j hil hjl2 hij
  rw [List.getElem?_eq_getElem hil] at h1
  rw [List.getElem?_eq_getElem hjl2] at h2
  simp only [Option.some.injEq] at h1 h2
  rw [h1, h2] at this
  exact this

/-- A successful search of `upper_bound` returns a position inside the range. -/
theorem upperBound_bounds (data : List Entry) (key : Int) (fuel : Nat) :
    ∀ (first len p : Nat), upperBound data key fuel first len = .ok p →
      first ≤ p ∧ p ≤ first + len := by
  induction fuel with
  | zero =>
    intro first len p h
    simp only [upperBound, Except.ok.injEq] at h
    omega
  | succ fuel ih =>
    intro first len p h
    unfold upperBound at h
    by_cases hl0 : len = 0
    · simp only [hl0, if_true, Except.ok.injEq] at h
      omega
    · simp only [hl0, if_false] at h
      cases hd : data[first + len / 2]? with
      | none => simp [hd] at h
      | some e0 =>
        simp only [hd] at h
        by_cases hk : key < e0.key
        · rw [if_pos hk] at h
          have := ih first (len / 2) p h
          omega
        · rw [if_neg hk] at h
          have := ih (first + len / 2 + 1) (len - len / 2 - 1) p h
          omega

/-- Effect of `Node::insert` on the live entries: the new entry is put at the position
found, between the entries before and the entries from that position on. -/
theorem insert_live {n n1 : Node} {e : Entry} {pos : Nat} (hsz : n.size ≤ n.data.length)
    (hU : n.size + 1 < U16) (h : n.insert e = .ok (n1, pos)) :
    pos ≤ n.size ∧ n1.size = n.size + 1 ∧ n1.size ≤ n1.data.length ∧
      n1.live = n.live.take pos ++ e :: n.live.drop pos ∧
      upperBound n.data e.key n.size 0 n.size = .ok pos := by
  unfold Node.insert at h
  simp only [bind_eq_ok] at h
  obtain ⟨p, hub, tail, htail, d1, hd1, h⟩ := h
  split at h
  · exact absurd h throw_bind_ne_ok
  · rename_i hlen
    simp only [pure, Except.pure, bind, Except.bind, Except.ok.injEq, Prod.mk.injEq] at h
    obtain ⟨hn1, hp⟩ := h
    subst hp
    have hpb := upperBound_bounds n.data e.key n.size 0 n.size p hub
    have hps : p ≤ n.size := by omega
    rw [slice_eq _ _ _ hsz] at htail
    simp only [Except.ok.injEq] at htail
    have htl : tail.length = n.size - p := by
      rw [← htail, List.length_take, List.length_drop]
      omega
    have hroom : n.size + 1 ≤ n.data.length := by
      by_cases hps2 : p = n.size
      · have : tail = [] := List.eq_nil_of_length_eq_zero (by rw [htl]; omega)
        subst this
        simp only [copyBackInto, List.length_nil, if_true, Except.ok.injEq] at hd1
        subst hd1
        omega
      · unfold copyBackInto at hd1
        rw [if_neg (by rw [htl]; omega), if_neg (by rw [htl]; omega)] at hd1
        unfold copyInto at hd1
        rw [if_neg (by rw [htl]; omega)] at hd1
        split at hd1
        · rename_i hfit
          rw [htl] at hfit
          omega
        · cases hd1
    rw [copyBackInto_eq _ _ _ (by rw [htl]; omega) hroom, htl] at hd1
    simp only [Except.ok.injEq] at hd1
    have hsub : n.size + 1 - (n.size - p) = p + 1 := by omega
    rw [hsub] at hd1
    have hmod : (n.size + 1) % U16 = n.size + 1 := Nat.mod_eq_of_lt hU
    rw [hmod] at hn1
    have hd1len : d1.length = n.data.length := by
      rw [← hd1, List.length_append, List.length_append, List.length_take, htl,
        List.length_drop]
      omega
    have hset : d1.set p e = n.data.take p ++ e :: tail ++ n.data.drop (n.size + 1) := by
      rw [← hd1, List.take_succ, List.getElem?_eq_getElem (by omega)]
      simp only [Option.toList, List.append_assoc, List.singleton_append]
      rw [List.set_append_right _ _ (by rw [List.length_take]; omega)]
      have : p - (n.data.take p).length = 0 := by
        rw [List.length_take]
        omega
      rw [this]
      rfl
    refine ⟨hps, by rw [← hn1], ?_, ?_, hub⟩
    · rw [← hn1]
      show n.size + 1 ≤ (d1.set p e).length
      rw [List.length_set, hd1len]
      exact hroom
    · rw [← hn1]
      show (d1.set p e).take (n.size + 1) = (n.data.take n.size).take p ++
        e :: (n.data.take n.size).drop p
      rw [hset, List.take_take, Nat.min_eq_left hps, List.drop_take, htail]
      have hl : (n.data.take p ++ e :: tail).length = n.size + 1 := by
        rw [List.length_append, List.length_cons, List.length_take, htl]
        omega
      exact List.take_left' hl

/-- Entries of a prefix, by index. -/
theorem mem_take_index {d : List Entry} {k : Nat} {x : Entry} (hx : x ∈ d.take k) :
    ∃ i : Nat, i < k ∧ d[i]? = some x := by
  obtain ⟨i, hi, he⟩ := List.mem_iff_getElem.mp hx
  have hik : i < k := by
    rw [List.length_take] at hi
    omega
  refine ⟨i, hik, ?_⟩
  rw [← List.getElem?_take_of_lt hik, List.getElem?_eq_getElem hi, he]

/-- Entries behind a prefix, by index. -/
theorem mem_drop_take_index {d : List Entry} {p s : Nat} {x : Entry}
    (hx : x ∈ (d.take s).drop p) : ∃ i : Nat, p ≤ i ∧ i < s ∧ d[i]? = some x := by
  obtain ⟨i, hi, he⟩ := List.mem_iff_getElem.mp hx
  rw [List.length_drop, List.length_take] at hi
  refine ⟨p + i, by omega, by omega, ?_⟩
  rw [← List.getElem?_take_of_lt (show p + i < s by omega), ← List.getElem?_drop,
    List.getElem?_eq_getElem (by rw [List.length_drop, List.length_take]; omega), he]

/-- `Node::insert` of a key that the block does not hold keeps the block sorted; the
live entries afterwards are the new entry and the old ones. -/
theorem insert_sorted {n n1 : Node} {e : Entry} {pos : Nat} (hs : n.sorted)
    (hU : n.size + 1 < U16) (hfresh : ∀ x ∈ n.live, x.key ≠ e.key)
    (h : n.insert e = .ok (n1, pos)) :
    n1.sorted ∧ ∀ x ∈ n1.live, x = e ∨ x ∈ n.live := by
  obtain ⟨hsz, hp⟩ := hs
  obtain ⟨hps, hsize, hroom, hlive, hub⟩ := insert_live hsz hU h
  obtain ⟨_, _, hsp⟩ := upperBound_spec n.data e.key n.size (sorted_index hp) n.size 0 n.size
    pos (by omega) hub
  obtain ⟨hbefore, hafter⟩ := hsp (le_refl _)
  have hsplit : n.live = n.live.take pos ++ n.live.drop pos := (List.take_append_drop _ _).symm
  have hp2 := hp
  rw [hsplit, List.pairwise_append] at hp2
  obtain ⟨p1, p2, p3⟩ := hp2
  have hlt : ∀ x ∈ n.live.take pos, x.key < e.key := by
    intro x hx
    have hx1 : x ∈ n.data.take pos := by
      have : n.live.take pos = n.data.take pos := by
        show (n.data.take n.size).take pos = _
        rw [List.take_take, Nat.min_eq_left hps]
      rw [← this]
      exact hx
    obtain ⟨i, hi, he⟩ := mem_take_index hx1
    have h1 := hbefore i x (Nat.zero_le _) hi he
    have h2 := hfresh x (List.mem_of_mem_take hx)
    omega
  have hgt : ∀ y ∈ n.live.drop pos, e.key < y.key := by
    intro y hy
    obtain ⟨i, hi1, hi2, he⟩ := mem_drop_take_index hy
    exact hafter i y hi1 (by omega) he
  refine ⟨⟨hroom, ?_⟩, ?_⟩
  · rw [hlive, List.pairwise_append]
    refine ⟨p1, List.pairwise_cons.mpr ⟨hgt, p2⟩, ?_⟩
    intro x hx y hy
    rcases List.mem_cons.mp hy with e1 | e1
    · rw [e1]
      exact hlt x hx
    · exact p3 x hx y e1
  · intro x hx
    rw [hlive] at hx
    rcases List.mem_append.mp hx with h1 | h1
    · exact Or.inr (List.mem_of_mem_take h1)
    · rcases List.mem_cons.mp h1 with h2 | h2
      · exact Or.inl h2
      · exact Or.inr (List.mem_of_mem_drop h2)

/-- Splitting a sorted full block of 256 entries: this block keeps the first 128 live
entries, the new block holds the other 128, and both are sorted. -/
theorem split_sorted {tn tn1 nn1 : Node} (hs : tn.sorted) (hfull : tn.size = 256)
    (h : tn.split_into (Node.new 256) = .ok (tn1, nn1)) :
    tn1.sorted ∧ nn1.sorted ∧ tn1.live = tn.live.take 128 ∧ nn1.live = tn.live.drop 128 := by
  obtain ⟨hsz, hp⟩ := hs
  unfold Node.split_into at h
  simp only [bind_eq_ok] at h
  obtain ⟨upper, hup, od, hod, ol, _, l, _, h⟩ := h
  simp only [pure, Except.pure, Except.ok.injEq, Prod.mk.injEq] at h
  obtain ⟨h1, h2⟩ := h
  rw [slice_eq _ _ _ hsz, hfull] at hup
  simp only [Except.ok.injEq] at hup
  have hup2 : (tn.data.drop 128).take 128 = upper := hup
  have hnew : (Node.new 256).data.length = 256 := by
    simp only [Node.new, List.length_replicate]
  have hul : upper.length = 128 := by
    rw [← hup2, List.length_take, List.length_drop]
    omega
  rw [copyInto_eq _ _ _ (by rw [hul, hnew]; omega), hul] at hod
  simp only [Except.ok.injEq, List.take_zero, List.nil_append] at hod
  have hl1 : tn1.live = tn.live.take 128 := by
    rw [← h1]
    show tn.data.take (tn.size - tn.size / 2) = (tn.data.take tn.size).take 128
    rw [hfull, List.take_take]
    rfl
  have hl2 : nn1.live = tn.live.drop 128 := by
    rw [← h2]
    show od.take (((Node.new 256).size + tn.size / 2) % U16) = (tn.data.take tn.size).drop 128
    rw [hfull, ← hod, List.drop_take]
    show (upper ++ _).take 128 = (tn.data.drop 128).take 128
    rw [hup2]
    exact List.take_left' hul
  refine ⟨⟨?_, ?_⟩, ⟨?_, ?_⟩, hl1, hl2⟩
  · rw [← h1]
    show tn.size - tn.size / 2 ≤ tn.data.length
    omega
  · rw [hl1]
    exact hp.sublist (List.take_sublist _ _)
  · rw [← h2]
    show ((Node.new 256).size + tn.size / 2) % U16 ≤ od.length
    rw [← hod, List.length_append, hul, hfull]
    show (0 + 256 / 2) % U16 ≤ _
    unfold U16
    omega
  · rw [hl2]
    exact hp.sublist (List.drop_sublist _ _)

/-- A sorted heap stays sorted when more keys are admitted. -/
theorem SortedHeap.mono {h : Heap} {K K1 : List Int} (hs : SortedHeap h K)
    (hk : ∀ k ∈ K, k ∈ K1) : SortedHeap h K1 := by
  intro a n ha
  obtain ⟨h1, h2⟩ := hs a n ha
  exact ⟨h1, fun x hx => hk _ (h2 x hx)⟩

/-- Storing a sorted block keeps the heap sorted. -/
theorem SortedHeap.store {h : Heap} {K : List Int} (hs : SortedHeap h K) {a : Nat}
    {n1 : Node} (ha : a < h.length) (h1 : n1.sorted) (h2 : ∀ x ∈ n1.live, x.key ∈ K) :
    SortedHeap (h.store a n1) K := by
  intro b n hb
  rw [store_getElem? _ _ _ _ ha] at hb
  by_cases e : a = b
  · rw [if_pos e] at hb
    simp only [Option.some.injEq] at hb
    rw [← hb]
    exact ⟨h1, h2⟩
  · rw [if_neg e] at hb
    exact hs b n hb

/-- Appending a sorted block keeps the heap sorted. -/
theorem SortedHeap.snoc {h : Heap} {K : List Int} (hs : SortedHeap h K) {n1 : Node}
    (h1 : n1.sorted) (h2 : ∀ x ∈ n1.live, x.key ∈ K) : SortedHeap (h ++ [some n1]) K := by
  intro b n hb
  rw [snoc_getElem?] at hb
  by_cases e : b = h.length
  · rw [if_pos e] at hb
    simp only [Option.some.injEq] at hb
    rw [← hb]
    exact ⟨h1, h2⟩
  · rw [if_neg e] at hb
    exact hs b n hb

/-- A modification that leaves size and array alone keeps the heap sorted. -/
theorem SortedHeap.modify {h h1 : Heap} {K : List Int} (hs : SortedHeap h K)
    {p : Option Nat} {f : Node → Node} (hm : h.modify p f = .ok h1)
    (hf : ∀ n : Node, (f n).data = n.data ∧ (f n).size = n.size) : SortedHeap h1 K := by
  obtain ⟨a, n, _, hn, eh⟩ := modify_ok hm
  rw [eh]
  obtain ⟨s1, s2⟩ := hs a n hn
  obtain ⟨f1, f2⟩ := hf n
  have hl : (f n).live = n.live := by
    show (f n).data.take (f n).size = n.data.take n.size
    rw [f1, f2]
  refine hs.store (lt_of_getElem? hn) ⟨?_, ?_⟩ ?_
  · rw [f1, f2]
    exact s1.1
  · rw [hl]
    exact s1.2
  · rw [hl]
    exact s2

/-- The level splicing of `insert` keeps the heap sorted. -/
theorem spliceLevels_sorted (height target new_node : Nat) (lb : List Nat) (K : List Int)
    (cnt : Nat) : ∀ (l : Nat) (h h1 : Heap), SortedHeap h K →
      spliceLevels height target new_node lb cnt l h = .ok h1 → SortedHeap h1 K := by
  induction cnt with
  | zero =>
    intro l h h1 hs hsp
    simp only [spliceLevels, Except.ok.injEq] at hsp
    rw [← hsp]
    exact hs
  | succ cnt ih =>
    intro l h h1 hs hsp
    unfold spliceLevels at hsp
    have hset : ∀ (l : Nat) (q : Option Nat) (n : Node),
        (n.setFwd l q).data = n.data ∧ (n.setFwd l q).size = n.size :=
      fun _ _ _ => ⟨rfl, rfl⟩
    split at hsp
    · simp only [bind_eq_ok] at hsp
      obtain ⟨pn, _, hsp⟩ := hsp
      split at hsp
      · simp only [bind_eq_ok] at hsp
        obtain ⟨g0, hg0, g, hg, hsp⟩ := hsp
        exact ih _ g h1 ((hs.modify hg0 (hset _ _)).modify hg (hset _ _)) hsp
      · simp only [bind_eq_ok] at hsp
        obtain ⟨tn, _, g0, hg0, g, hg, hsp⟩ := hsp
        exact ih _ g h1 ((hs.modify hg0 (hset _ _)).modify hg (hset _ _)) hsp
    · simp only [bind_eq_ok] at hsp
      obtain ⟨g, hg, hsp⟩ := hsp
      exact ih _ g h1 (hs.modify hg (hset _ _)) hsp

/-- Evaluation of two insertions of the key 1. -/
theorem runPub_stateDup :
    runPub (stateA 0) [PubOp.ins 1 1 lowDraw, PubOp.ins 1 2 lowDraw] = .ok stateDup :=
  ok_of_toOption (by decide!)

/-- C15 (counterexample). After `insert(1, 1); insert(1, 2)` on a newly constructed
container the head block holds both entries, so its live entries are not strictly
ascending by key. -/
theorem C15_duplicate_insert_kept_twice :
    ∃ c0 c n0, construct 256 0 = some c0 ∧
      runPub c0 [PubOp.ins 1 1 lowDraw, PubOp.ins 1 2 lowDraw] = .ok c ∧
      c.heap.load c.head = .ok n0 ∧ n0.live = [⟨1, 1⟩, ⟨1, 2⟩] ∧
      ¬ n0.live.Pairwise (fun x y => x.key < y.key) :=
  ⟨stateA 0, stateDup, dupBlock, rfl, runPub_stateDup, rfl, rfl, by decide⟩

/-- Every block of an intact chain is live. -/
theorem isChain_live {h : Heap} (cs : List Nat) :
    ∀ p : Option Nat, isChain h p cs = true → ∀ b ∈ cs, ∃ n : Node, h[b]? = some (some n) := by
  induction cs with
  | nil =>
    intro p _ b hb
    simp at hb
  | cons a as ih =>
    intro p hc b hb
    obtain ⟨_, n, hn, hc1⟩ := isChain_cons.mp hc
    rcases List.mem_cons.mp hb with e | e
    · rw [e]
      exact ⟨n, hn⟩
    · exact ih _ hc1 b e

/-- An intact chain is intact from each of its blocks on. -/
theorem isChain_suffix {h : Heap} (cs : List Nat) :
    ∀ p : Option Nat, isChain h p cs = true → ∀ b ∈ cs,
      ∃ pre post : List Nat, cs = pre ++ b :: post ∧ isChain h (some b) (b :: post) = true := by
  induction cs with
  | nil =>
    intro p _ b hb
    simp at hb
  | cons a as ih =>
    intro p hc b hb
    obtain ⟨hp, n, hn, hc1⟩ := isChain_cons.mp hc
    rcases List.mem_cons.mp hb with e | e
    · subst e
      rw [hp] at hc
      exact ⟨[], as, rfl, hc⟩
    · obtain ⟨pre, post, e1, e2⟩ := ih _ hc1 b e
      exact ⟨a :: pre, post, by rw [e1]; rfl, e2⟩

/-- Along an intact chain whose level-0 links lead to greater cached keys, the cached
keys are strictly ascending. -/
theorem chain_max_pairwise {h : Heap} (cs : List Nat) :
    ∀ p : Option Nat, isChain h p cs = true →
      (∀ b ∈ cs, ∀ n : Node, h[b]? = some (some n) → ∀ nx : Nat, n.fwd 0 = some nx →
        maxKeyAt h b < maxKeyAt h nx) →
      (cs.map (maxKeyAt h)).Pairwise (fun x y => x < y) := by
  induction cs with
  | nil =>
    intro p _ _
    exact List.Pairwise.nil
  | cons a as ih =>
    intro p hc hlt
    obtain ⟨_, n, hn, hc1⟩ := isChain_cons.mp hc
    have hrest := ih _ hc1 (fun b hb => hlt b (List.mem_cons_of_mem _ hb))
    rw [List.map_cons, List.pairwise_cons]
    refine ⟨?_, hrest⟩
    cases as with
    | nil =>
      intro y hy
      simp at hy
    | cons a2 as2 =>
      have hnx : n.fwd 0 = some a2 := (isChain_cons.mp hc1).1
      have h1 := hlt a (List.mem_cons_self _ _) n hn a2 hnx
      intro y hy
      rw [List.map_cons] at hy hrest
      rcases List.mem_cons.mp hy with e | e
      · rw [e]
        exact h1
      · exact lt_trans h1 (List.rel_of_pairwise_cons hrest e)

/-- In a chain with ascending cached keys, a block with a greater cached key comes
later. -/
theorem later_of_max_lt {h : Heap} {cs pre post : List Nat} {cur nx : Nat}
    (hcs : cs = pre ++ cur :: post)
    (hpw : (cs.map (maxKeyAt h)).Pairwise (fun x y => x < y)) (hnx : nx ∈ cs)
    (hlt : maxKeyAt h cur < maxKeyAt h nx) : nx ∈ post := by
  rw [hcs, List.map_append, List.map_cons, List.pairwise_append] at hpw
  obtain ⟨_, _, h3⟩ := hpw
  rw [hcs] at hnx
  rcases List.mem_append.mp hnx with e | e
  · have := h3 _ (List.mem_map_of_mem _ e) _ (List.mem_cons_self _ _)
    omega
  · rcases List.mem_cons.mp e with e1 | e1
    · rw [e1] at hlt
      exact absurd hlt (lt_irrefl _)
    · exact e1

/-- In a chain with ascending cached keys, the blocks in front of a block have smaller
cached keys. -/
theorem before_max_lt {h : Heap} {cs pre post : List Nat} {cur : Nat}
    (hcs : cs = pre ++ cur :: post)
    (hpw : (cs.map (maxKeyAt h)).Pairwise (fun x y => x < y)) :
    ∀ b ∈ pre, maxKeyAt h b < maxKeyAt h cur := by
  rw [hcs, List.map_append, List.map_cons, List.pairwise_append] at hpw
  intro b hb
  exact hpw.2.2 _ (List.mem_map_of_mem _ hb) _ (List.mem_cons_self _ _)

/-- The inner loop of `find_node` at level `l`, started at a block of the chain: with fuel
for the blocks behind the start it returns a block of the chain, which is the start or
has a cached key below `key`, and whose level-`l` successor does not let the loop go
on. -/
theorem findNodeWalk_spec {h : Heap} {cs : List Nat} {p : Option Nat} (key : Int) (l : Nat)
    (hl : l < SKIP_LIST_LEVELS) (hc : isChain h p cs = true)
    (hpw : (cs.map (maxKeyAt h)).Pairwise (fun x y => x < y)) (hlv : levelsOrdered h cs)
    (fuel : Nat) :
    ∀ (pre : List Nat) (cur : Nat) (post : List Nat), cs = pre ++ cur :: post →
      post.length < fuel →
      ∃ w : Nat, findNodeWalk h key l fuel cur = .ok w ∧ w ∈ cs ∧
        (w = cur ∨ maxKeyAt h w < key) ∧
        ∀ nw : Node, h[w]? = some (some nw) → ∀ nx : Nat, nw.fwd l = some nx →
          ∀ m : Node, h[nx]? = some (some m) → ¬ (m.m_max_key < key ∧ (m.fwd 0).isSome) := by
  induction fuel with
  | zero =>
    intro pre cur post _ hf
    omega
  | succ f ih =>
    intro pre cur post hcs hf
    have hcur : cur ∈ cs := by
      rw [hcs]
      exact List.mem_append_right _ (List.mem_cons_self _ _)
    obtain ⟨nc, hnc⟩ := isChain_live cs p hc cur hcur
    rw [findNodeWalk]
    simp only [load_eq_ok.mpr hnc, ok_bind]
    cases hfx : nc.fwd l with
    | none =>
      refine ⟨cur, rfl, hcur, Or.inl rfl, ?_⟩
      intro nw hnw nx hnx
      rw [hnc] at hnw
      simp only [Option.some.injEq] at hnw
      rw [← hnw, hfx] at hnx
      simp at hnx
    | some nx =>
      obtain ⟨hnxm, hlt⟩ := hlv l hl cur hcur nc hnc nx hfx
      obtain ⟨m, hm⟩ := isChain_live cs p hc nx hnxm
      simp only [load_eq_ok.mpr hm, ok_bind]
      by_cases hcond : m.m_max_key < key ∧ (m.fwd 0).isSome = true
      · rw [if_pos hcond]
        have hpost := later_of_max_lt hcs hpw hnxm hlt
        obtain ⟨p1, p2, hp12⟩ := List.append_of_mem hpost
        have hcs2 : cs = (pre ++ cur :: p1) ++ nx :: p2 := by
          rw [hcs, hp12]
          simp
        have hlen : p2.length < f := by
          rw [hp12, List.length_append, List.length_cons] at hf
          omega
        obtain ⟨w, hw, hwm, hwc, hstop⟩ := ih _ nx p2 hcs2 hlen
        refine ⟨w, hw, hwm, Or.inr ?_, hstop⟩
        rcases hwc with e | e
        · rw [e]
          show maxKeyAt h nx < key
          simp only [maxKeyAt, hm]
          exact hcond.1
        · exact e
      · rw [if_neg hcond]
        refine ⟨cur, rfl, hcur, Or.inl rfl, ?_⟩
        intro nw hnw nx2 hnx2 m2 hm2
        rw [hnc] at hnw
        simp only [Option.some.injEq] at hnw
        rw [← hnw, hfx] at hnx2
        simp only [Option.some.injEq] at hnx2
        rw [← hnx2, hm] at hm2
        simp only [Option.some.injEq] at hm2
        rw [← hm2]
        exact hcond

/-- The first block of a list that satisfies a test, when the blocks in front of it do
not. -/
theorem find?_split {q : Nat → Bool} {cs pre post : List Nat} {b : Nat}
    (hcs : cs = pre ++ b :: post) (hpre : ∀ x ∈ pre, q x = false) (hb : q b = true) :
    cs.find? q = some b := by
  subst hcs
  induction pre with
  | nil => simp [List.find?, hb]
  | cons a as ih =>
    have ha : q a = false := hpre a (List.mem_cons_self _ _)
    simp only [List.cons_append, List.find?, ha]
    exact ih (fun x hx => hpre x (List.mem_cons_of_mem _ hx))

/-- The head of an intact chain is its first block. -/
theorem isChain_head {h : Heap} {s : Nat} {cs : List Nat} (hc : isChain h (some s) cs = true) :
    ∃ rest : List Nat, cs = s :: rest := by
  cases cs with
  | nil => simp [isChain] at hc
  | cons a as =>
    have := (isChain_cons.mp hc).1
    simp only [Option.some.injEq] at this
    exact ⟨as, by rw [this]⟩

/-- The level-0 successor of a block of an intact chain is the block behind it. -/
theorem isChain_next {h : Heap} {cs pre post : List Nat} {p : Option Nat} {b : Nat} {n : Node}
    (hc : isChain h p cs = true) (hcs : cs = pre ++ b :: post) (hn : h[b]? = some (some n)) :
    n.fwd 0 = post.head? := by
  subst hcs
  induction pre generalizing p with
  | nil =>
    obtain ⟨_, n1, hn1, hrest⟩ := isChain_cons.mp hc
    rw [hn] at hn1
    simp only [Option.some.injEq] at hn1
    subst hn1
    cases post with
    | nil => simpa [isChain] using hrest
    | cons c cs2 =>
      have := (isChain_cons.mp hrest).1
      simpa using this
  | cons a as ih =>
    obtain ⟨_, n1, _, hrest⟩ := isChain_cons.mp hc
    exact ih hrest

/-- The outer loop of `find_node`, started at a block of the chain that is the head or has
a cached key below `key`: it returns a predecessor list whose first entry is a block of
the chain, which is the head or has a cached key below `key`, and whose level-0
successor does not let the inner loop go on. -/
theorem findNodeLevels_spec {h : Heap} {cs : List Nat} {p : Option Nat} (key : Int) (s : Nat)
    (hc : isChain h p cs = true)
    (hpw : (cs.map (maxKeyAt h)).Pairwise (fun x y => x < y)) (hlv : levelsOrdered h cs)
    (fuel : Nat) (hfuel : cs.length ≤ fuel) :
    ∀ (L : Nat), L ≤ SKIP_LIST_LEVELS → 0 < L → ∀ (cur : Nat) (acc : List Nat), cur ∈ cs →
      (cur = s ∨ maxKeyAt h cur < key) →
      ∃ (p0 : Nat) (rest : List Nat),
        findNodeLevels h key fuel L cur acc = .ok (p0 :: rest) ∧ p0 ∈ cs ∧
        (p0 = s ∨ maxKeyAt h p0 < key) ∧
        ∀ nw : Node, h[p0]? = some (some nw) → ∀ nx : Nat, nw.fwd 0 = some nx →
          ∀ m : Node, h[nx]? = some (some m) → ¬ (m.m_max_key < key ∧ (m.fwd 0).isSome) := by
  intro L
  induction L with
  | zero =>
    intro _ h0
    omega
  | succ l ih =>
    intro hL _ cur acc hcur hP
    obtain ⟨pre, post, hcs⟩ := List.append_of_mem hcur
    have hlen : post.length < fuel := by
      have : cs.length = pre.length + (post.length + 1) := by
        rw [hcs, List.length_append, List.length_cons]
      omega
    obtain ⟨w, hw, hwm, hwc, hstop⟩ :=
      findNodeWalk_spec key l (by omega) hc hpw hlv fuel pre cur post hcs hlen
    have hPw : w = s ∨ maxKeyAt h w < key := by
      rcases hwc with e | e
      · rw [e]
        exact hP
      · exact Or.inr e
    rw [findNodeLevels]
    simp only [hw, ok_bind]
    cases l with
    | zero => exact ⟨w, acc, rfl, hwm, hPw, hstop⟩
    | succ l2 => exact ih (by omega) (by omega) w (w :: acc) hwm hPw

/-- Routing of `find_node` by cached keys: on an intact chain whose links at every level
lead to chain blocks with greater cached keys, the search from the head returns the first
block whose cached key is at least `key`, or the last block when there is none. -/
theorem find_node_route {h : Heap} {cs : List Nat} (s : Nat) (key : Int)
    (hc : isChain h (some s) cs = true) (hlv : levelsOrdered h cs) :
    ∃ (tgt : Nat) (lb : List Nat),
      find_node h (some s) key = .ok (tgt, lb) ∧ routeTarget h key cs = some tgt := by
  have hpw : (cs.map (maxKeyAt h)).Pairwise (fun x y => x < y) := by
    apply chain_max_pairwise cs (some s) hc
    intro b hb n hn nx hnx
    exact (hlv 0 (by decide) b hb n hn nx hnx).2
  have hnd : cs.Nodup := by
    have h1 : (cs.map (maxKeyAt h)).Nodup := hpw.imp (fun hlt => ne_of_lt hlt)
    exact List.Nodup.of_map _ h1
  have hlen : cs.length ≤ h.length := isChain_length_le cs h (some s) hc hnd
  obtain ⟨rest0, hrest0⟩ := isChain_head hc
  have hs : s ∈ cs := by
    rw [hrest0]
    exact List.mem_cons_self _ _
  obtain ⟨p0, rest, hlv0, hp0m, hP, hstop⟩ :=
    findNodeLevels_spec key s hc hpw hlv (h.length + 1) (by omega) SKIP_LIST_LEVELS
      (le_refl _) (by decide) s [] hs (Or.inl rfl)
  obtain ⟨n0, hn0⟩ := isChain_live cs (some s) hc p0 hp0m
  obtain ⟨pre, post, hcs⟩ := List.append_of_mem hp0m
  have hbefore := before_max_lt hcs hpw
  have hmax0 : maxKeyAt h p0 = n0.m_max_key := by simp only [maxKeyAt, hn0]
  have hnext := isChain_next hc hcs hn0
  -- when `p0` is the head, nothing is in front of it
  have hpre_s : p0 = s → pre = [] := by
    intro e
    cases pre with
    | nil => rfl
    | cons a as =>
      exfalso
      rw [hcs, List.cons_append] at hrest0
      have e1 : a = s := (List.cons.inj hrest0).1
      rw [hcs, List.cons_append, e1, ← e] at hnd
      have := (List.nodup_cons.mp hnd).1
      exact this (List.mem_append_right _ (List.mem_cons_self _ _))
  have hfn : find_node h (some s) key =
      (match n0.fwd 0 with
        | some nx => if n0.m_max_key < key then .ok (nx, p0 :: rest) else .ok (p0, p0 :: rest)
        | none => .ok (p0, p0 :: rest)) := by
    simp only [find_node, hlv0, ok_bind, List.getD_cons_zero, load_eq_ok.mpr hn0]
    rfl
  rw [hfn]
  cases hfx : n0.fwd 0 with
  | none =>
    refine ⟨p0, p0 :: rest, rfl, ?_⟩
    rw [hfx] at hnext
    have hpost : post = [] := by
      cases post with
      | nil => rfl
      | cons a as => simp at hnext
    rw [hpost] at hcs
    rcases hP with e | e
    · have hcs1 : cs = [p0] := by rw [hcs, hpre_s e]; rfl
      rw [hcs1]
      simp only [routeTarget, List.find?]
      by_cases hk : key ≤ maxKeyAt h p0
      · simp [hk]
      · simp [hk]
    · have hnone : cs.find? (fun b => decide (key ≤ maxKeyAt h b)) = none := by
        rw [List.find?_eq_none]
        intro x hx
        rw [hcs] at hx
        have hxle : maxKeyAt h x ≤ maxKeyAt h p0 := by
          rcases List.mem_append.mp hx with e1 | e1
          · exact le_of_lt (hbefore x e1)
          · simp only [List.mem_singleton] at e1
            rw [e1]
        simp only [decide_eq_true_eq, not_le]
        omega
      simp only [routeTarget, hnone]
      rw [hcs]
      simp
  | some nx =>
    rw [hfx] at hnext
    obtain ⟨post2, hpost⟩ : ∃ post2, post = nx :: post2 := by
      cases post with
      | nil => simp at hnext
      | cons a as =>
        simp only [List.head?_cons, Option.some.injEq] at hnext
        exact ⟨as, by rw [hnext]⟩
    by_cases hlt : n0.m_max_key < key
    · simp only [if_pos hlt]
      refine ⟨nx, p0 :: rest, rfl, ?_⟩
      have hcs2 : cs = (pre ++ [p0]) ++ nx :: post2 := by
        rw [hcs, hpost]
        simp
      have hnxm : nx ∈ cs := by
        rw [hcs2]
        exact List.mem_append_right _ (List.mem_cons_self _ _)
      obtain ⟨m, hm⟩ := isChain_live cs (some s) hc nx hnxm
      have hmaxn : maxKeyAt h nx = m.m_max_key := by simp only [maxKeyAt, hm]
      have hsmall : ∀ x ∈ pre ++ [p0], maxKeyAt h x < key := by
        intro x hx
        rcases List.mem_append.mp hx with e1 | e1
        · have := hbefore x e1
          omega
        · simp only [List.mem_singleton] at e1
          rw [e1, hmax0]
          exact hlt
      by_cases hk : key ≤ m.m_max_key
      · have hfind : cs.find? (fun b => decide (key ≤ maxKeyAt h b)) = some nx := by
          apply find?_split hcs2
          · intro x hx
            have := hsmall x hx
            simp only [decide_eq_false_iff_not, not_le]
            exact this
          · simp only [decide_eq_true_eq, hmaxn]
            exact hk
        simp only [routeTarget, hfind]
      · have hnof : m.fwd 0 = none := by
          have := hstop n0 hn0 nx hfx m hm
          cases hmf : m.fwd 0 with
          | none => rfl
          | some z =>
            exfalso
            apply this
            rw [hmf]
            exact ⟨by omega, rfl⟩
        have hnext2 := isChain_next hc hcs2 hm
        rw [hnof] at hnext2
        have hpost2 : post2 = [] := by
          cases post2 with
          | nil => rfl
          | cons a as => simp at hnext2
        rw [hpost2] at hcs2
        have hnone : cs.find? (fun b => decide (key ≤ maxKeyAt h b)) = none := by
          rw [List.find?_eq_none]
          intro x hx
          rw [hcs2] at hx
          simp only [decide_eq_true_eq, not_le]
          rcases List.mem_append.mp hx with e1 | e1
          · exact hsmall x e1
          · simp only [List.mem_singleton] at e1
            rw [e1, hmaxn]
            omega
        simp only [routeTarget, hnone]
        rw [hcs2]
        simp
    · simp only [if_neg hlt]
      refine ⟨p0, p0 :: rest, rfl, ?_⟩
      rcases hP with e | e
      · have hfind : cs.find? (fun b => decide (key ≤ maxKeyAt h b)) = some p0 := by
          rw [hcs, hpre_s e]
          have : decide (key ≤ maxKeyAt h p0) = true := by
            simp only [decide_eq_true_eq, hmax0]
            omega
          simp only [List.nil_append, List.find?, this]
        simp only [routeTarget, hfind]
      · rw [hmax0] at e
        exact absurd e hlt

/-- On a chain of non-empty blocks with correct cached keys and globally ascending
entries, a key stored in a block is routed to that block. -/
theorem routeTarget_stored {h : Heap} {cs : List Nat} (key : Int)
    (hne : ∀ b ∈ cs, blockEntries h b ≠ []) (hmk : maxKeyCorrect h cs)
    (hso : (entriesOfBlocks h cs).Pairwise (fun x y => x.key < y.key))
    (b : Nat) (hb : b ∈ cs) (e : Entry) (he : e ∈ blockEntries h b) (hek : e.key = key) :
    routeTarget h key cs = some b := by
  obtain ⟨pre, post, hcs⟩ := List.append_of_mem hb
  rw [entriesOfBlocks, List.pairwise_flatten, List.pairwise_map] at hso
  obtain ⟨hin, hacross⟩ := hso
  have hlast : ∀ x ∈ cs, ∃ el : Entry, el ∈ blockEntries h x ∧ maxKeyAt h x = el.key ∧
      ∃ ys : List Entry, blockEntries h x = ys ++ [el] := by
    intro x hx
    have h1 := List.getLast?_eq_getLast _ (hne x hx)
    refine ⟨_, List.mem_of_getLast?_eq_some h1, hmk x hx _ h1, ?_⟩
    exact List.getLast?_eq_some_iff.mp h1
  have hfind : cs.find? (fun b => decide (key ≤ maxKeyAt h b)) = some b := by
    apply find?_split hcs
    · intro x hx
      have hxcs : x ∈ cs := by
        rw [hcs]
        exact List.mem_append_left _ hx
      obtain ⟨el, hel, hmax, _⟩ := hlast x hxcs
      rw [hcs, List.pairwise_append] at hacross
      have := hacross.2.2 x hx b (List.mem_cons_self _ _) el hel e he
      simp only [decide_eq_false_iff_not, not_le, hmax]
      omega
    · obtain ⟨el, hel, hmax, ys, hys⟩ := hlast b hb
      have hsb := hin _ (List.mem_map_of_mem _ hb)
      rw [hys, List.pairwise_append] at hsb
      rw [hys] at he
      simp only [decide_eq_true_eq, hmax]
      rcases List.mem_append.mp he with e1 | e1
      · have := hsb.2.2 e e1 el (List.mem_singleton_self _)
        omega
      · simp only [List.mem_singleton] at e1
        rw [← hek, e1]
  simp only [routeTarget, hfind]

/-- The executable check implies `levelsOrdered`. -/
theorem levelsOrdered_of_check {h : Heap} {cs : List Nat} (hb : levelsOrderedB h cs = true) :
    levelsOrdered h cs := by
  intro l hl b hbm n hn nx hnx
  simp only [levelsOrderedB, List.all_eq_true] at hb
  have h1 := hb b hbm
  simp only [hn, List.all_eq_true, List.mem_range] at h1
  have h2 := h1 l hl
  simp only [hnx, Bool.and_eq_true, decide_eq_true_eq] at h2
  exact h2

/-- The executable check implies `maxKeyCorrect`. -/
theorem maxKeyCorrect_of_check {h : Heap} {cs : List Nat} (hb : maxKeyCorrectB h cs = true) :
    maxKeyCorrect h cs := by
  intro b hbm e he
  simp only [maxKeyCorrectB, List.all_eq_true] at hb
  have h1 := hb b hbm
  simp only [he, decide_eq_true_eq] at h1
  exact h1

/-- Claim C18, as stated, fails on a chain with an empty head: the head (no entries,
cached key 0) is followed by a block with the keys -5 and 7 and cached key 7.  The chain
is intact, every block is sorted, the cached key of the non-empty block is its last key,
every level leads to greater cached keys and the entries are ascending along the chain.
`find_node(head, -5)` returns the head, the first block whose cached key is at least -5,
but -5 is stored in the second block and not in the head. -/
theorem C18_stored_key_not_in_returned_block :
    isChain heapSentinel (some 0) [0, 1] = true ∧
    blocksSorted heapSentinel [0, 1] ∧ maxKeyCorrect heapSentinel [0, 1] ∧
    levelsOrdered heapSentinel [0, 1] ∧
    (entriesOfBlocks heapSentinel [0, 1]).Pairwise (fun x y => x.key < y.key) ∧
    find_node heapSentinel (some 0) (-5) = .ok (0, [0, 0, 0, 0, 0, 0]) ∧
    routeTarget heapSentinel (-5) [0, 1] = some 0 ∧
    (⟨-5, 1⟩ : Entry) ∈ blockEntries heapSentinel 1 ∧
    blockEntries heapSentinel 0 = [] := by
  refine ⟨by decide, ?_, maxKeyCorrect_of_check (by decide), levelsOrdered_of_check (by decide),
    by decide, ok_of_toOption (by decide), by decide, by decide, by decide⟩
  intro b hb
  simp only [List.mem_cons, List.mem_singleton, List.not_mem_nil, or_false] at hb
  rcases hb with e | e <;> subst e <;> decide

/-- Claim C18, amended: on a container whose level-0 chain from the head is intact, whose
links at every level lead to chain blocks with a greater `max_key`, whose blocks (the
head included) each hold at least one entry and have `max_key` equal to the key of the
last entry, and whose entries are strictly ascending along the chain,
`find_node(head, key)` returns the first block of the chain whose `max_key` is at least
`key`, or the last block when every `max_key` is below `key`; hence a key stored in a
block of the chain is stored in the returned block. -/
theorem C18_find_node_returns_block_of_key (h : Heap) (s : Nat) (cs : List Nat) (key : Int)
    (hc : isChain h (some s) cs = true) (hlv : levelsOrdered h cs)
    (hne : ∀ b ∈ cs, blockEntries h b ≠ []) (hmk : maxKeyCorrect h cs)
    (hso : (entriesOfBlocks h cs).Pairwise (fun x y => x.key < y.key)) :
    ∃ (tgt : Nat) (lb : List Nat),
      find_node h (some s) key = .ok (tgt, lb) ∧ routeTarget h key cs = some tgt ∧
      ∀ b ∈ cs, ∀ e ∈ blockEntries h b, e.key = key → e ∈ blockEntries h tgt := by
  obtain ⟨tgt, lb, hf, hr⟩ := find_node_route s key hc hlv
  refine ⟨tgt, lb, hf, hr, ?_⟩
  intro b hb e he hek
  have := routeTarget_stored key hne hmk hso b hb e he hek
  rw [hr] at this
  simp only [Option.some.injEq] at this
  rw [this]
  exact he

/-- The amended claim C18 at two linked blocks with the keys 1, 3 and 5, 7: the search
for 5 returns the second block. -/
theorem C18_find_node_returns_block_of_key_witness :
    isChain heapPair (some 0) [0, 1] = true ∧
    find_node heapPair (some 0) 5 = .ok (1, [0, 0, 0, 0, 0, 0]) ∧
    ∃ (tgt : Nat) (lb : List Nat),
      find_node heapPair (some 0) 5 = .ok (tgt, lb) ∧ routeTarget heapPair 5 [0, 1] = some tgt ∧
      ∀ b ∈ [0, 1], ∀ e ∈ blockEntries heapPair b, e.key = 5 → e ∈ blockEntries heapPair tgt :=
  ⟨by decide, ok_of_toOption (by decide),
    C18_find_node_returns_block_of_key heapPair 0 [0, 1] 5 (by decide)
      (levelsOrdered_of_check (by decide))
      (by
        intro b hb
        simp only [List.mem_cons, List.mem_singleton, List.not_mem_nil, or_false] at hb
        rcases hb with e | e <;> subst e <;> decide)
      (maxKeyCorrect_of_check (by decide)) (by decide)⟩

/-- C21 (code defect). On a newly constructed container that holds the single key 1,
`erase(1)` finds the entry at index 0 of the head block, decrements `size` to 0 and then
recomputes `max_key` from `data[size - 1]`, which is index `-1`: the read lies outside the
block's storage `[0, capacity)` and indexes no live entry. -/
theorem C21_erase_only_entry_reads_outside_storage :
    ∃ c0 c n0, construct 256 0 = some c0 ∧ runPub c0 [PubOp.ins 1 1 lowDraw] = .ok c ∧
      c.heap.load c.head = .ok n0 ∧ n0.size = 1 ∧ n0.capacity = 256 ∧
      n0.find 1 = .ok (some 0) ∧ (n0.size + U16 - 1) % U16 = 0 ∧
      (∀ d : List Entry, readLast d ((n0.size + U16 - 1) % U16) = .error .outOfBounds) ∧
      n0.erase 1 = .error .outOfBounds ∧ erase c 1 = .error .outOfBounds ∧
      runPub c0 [PubOp.ins 1 1 lowDraw, PubOp.del 1] = .error .outOfBounds :=
  ⟨stateA 0, stateA 1, growing 1 1 none, rfl, runPub_first_insert, rfl, rfl, rfl,
    ok_of_toOption (by decide!), rfl, fun _ => rfl, error_of_faultOf (by decide!),
    error_of_faultOf (by decide!), error_of_faultOf (by decide!)⟩

/-- A bind whose parts do not fail an assertion does not fail an assertion. -/
theorem bind_ne_assertion {α β : Type} {x : Except Fault α} {f : α → Except Fault β}
    (hx : x ≠ .error .assertion) (hf : ∀ a : α, x = .ok a → f a ≠ .error .assertion) :
    (x >>= f) ≠ .error .assertion := by
  cases x with
  | error e =>
    intro hc
    apply hx
    simpa [bind, Except.bind] using hc
  | ok a => exact hf a rfl

/-- Dereferencing a pointer fails no assertion. -/
theorem load_ne_assertion (h : Heap) (p : Option Nat) : h.load p ≠ .error .assertion := by
  unfold Heap.load
  cases p with
  | none => simp
  | some a =>
    dsimp only
    split <;> simp

/-- Reading `data[i]` fails no assertion. -/
theorem readAt_ne_assertion (d : List Entry) (i : Nat) : readAt d i ≠ .error .assertion := by
  unfold readAt
  cases d[i]? <;> simp

/-- Reading `data[n - 1]` fails no assertion. -/
theorem readLast_ne_assertion (d : List Entry) (i : Nat) :
    readLast d i ≠ .error .assertion := by
  unfold readLast
  split
  · simp
  · exact readAt_ne_assertion _ _

/-- Reading a range fails no assertion. -/
theorem slice_ne_assertion (d : List Entry) (a b : Nat) : slice d a b ≠ .error .assertion := by
  unfold slice
  split
  · simp
  · split <;> simp

/-- Writing a range fails no assertion. -/
theorem copyInto_ne_assertion (d : List Entry) (pos : Nat) (src : List Entry) :
    copyInto d pos src ≠ .error .assertion := by
  unfold copyInto
  split
  · simp
  · split <;> simp

/-- Writing a range backwards fails no assertion. -/
theorem copyBackInto_ne_assertion (d : List Entry) (pos : Nat) (src : List Entry) :
    copyBackInto d pos src ≠ .error .assertion := by
  unfold copyBackInto
  split
  · simp
  · split
    · simp
    · exact copyInto_ne_assertion _ _ _

/-- Updating a block fails no assertion. -/
theorem modify_ne_assertion (h : Heap) (p : Option Nat) (f : Node → Node) :
    h.modify p f ≠ .error .assertion := by
  unfold Heap.modify
  apply bind_ne_assertion (load_ne_assertion _ _)
  intro n _
  cases p <;> simp [throw, throwThe, MonadExceptOf.throw, pure, Except.pure]

/-- The inner loop of `find_node` fails no assertion. -/
theorem findNodeWalk_ne_assertion (h : Heap) (key : Int) (l : Nat) :
    ∀ (fuel cur : Nat), findNodeWalk h key l fuel cur ≠ .error .assertion := by
  intro fuel
  induction fuel with
  | zero =>
    intro cur
    simp [findNodeWalk]
  | succ f ih =>
    intro cur
    rw [findNodeWalk]
    apply bind_ne_assertion (load_ne_assertion _ _)
    intro c _
    cases c.fwd l with
    | none => simp [pure, Except.pure]
    | some nx =>
      apply bind_ne_assertion (load_ne_assertion _ _)
      intro n _
      split
      · exact ih nx
      · simp [pure, Except.pure]

/-- The outer loop of `find_node` fails no assertion. -/
theorem findNodeLevels_ne_assertion (h : Heap) (key : Int) (fuel : Nat) :
    ∀ (l cur : Nat) (acc : List Nat), findNodeLevels h key fuel l cur acc ≠ .error .assertion := by
  intro l
  induction l with
  | zero =>
    intro cur acc
    simp [findNodeLevels]
  | succ l ih =>
    intro cur acc
    rw [findNodeLevels]
    apply bind_ne_assertion (findNodeWalk_ne_assertion _ _ _ _ _)
    intro c _
    exact ih _ _

/-- The search `find_node` fails no assertion. -/
theorem find_node_ne_assertion (h : Heap) (start : Option Nat) (key : Int) :
    find_node h start key ≠ .error .assertion := by
  unfold find_node
  cases start with
  | none => simp [throw, throwThe, MonadExceptOf.throw]
  | some s =>
    apply bind_ne_assertion (findNodeLevels_ne_assertion _ _ _ _ _ _)
    intro lb _
    apply bind_ne_assertion (load_ne_assertion _ _)
    intro n0 _
    cases n0.fwd 0 with
    | none => simp [pure, Except.pure]
    | some nx =>
      dsimp only
      split <;> simp [pure, Except.pure]

/-- The relinking loop of `merge_node` fails no assertion. -/
theorem unlinkLevels_ne_assertion (node : Nat) (preds : List Nat) :
    ∀ (cnt l : Nat) (h : Heap), unlinkLevels node preds cnt l h ≠ .error .assertion := by
  intro cnt
  induction cnt with
  | zero =>
    intro l h
    simp [unlinkLevels]
  | succ c ih =>
    intro l h
    rw [unlinkLevels]
    apply bind_ne_assertion (load_ne_assertion _ _)
    intro pn _
    split
    · simp [pure, Except.pure]
    · apply bind_ne_assertion (load_ne_assertion _ _)
      intro n _
      apply bind_ne_assertion (modify_ne_assertion _ _ _)
      intro h1 _
      exact ih _ _

/-- The neighbour chosen by `balance_block` is at least as large as each neighbour. -/
theorem pickNeighbour_dense {h : Heap} {pv nx a : Option Nat} {an : Node}
    (hp : pickNeighbour h pv nx = .ok a) (ha : h.load a = .ok an) :
    (∀ (p : Nat) (pn : Node), pv = some p → h[p]? = some (some pn) → pn.size ≤ an.size) ∧
    (∀ (x : Nat) (xn : Node), nx = some x → h[x]? = some (some xn) → xn.size ≤ an.size) := by
  unfold pickNeighbour at hp
  split at hp
  · simp only [pure, Except.pure, Except.ok.injEq] at hp
    subst hp
    refine ⟨fun p pn e _ => by simp at e, ?_⟩
    intro x xn e hx
    rw [e, load_eq_ok.mpr hx] at ha
    simp only [Except.ok.injEq] at ha
    rw [ha]
  · simp only [pure, Except.pure, Except.ok.injEq] at hp
    subst hp
    refine ⟨?_, fun x xn e _ => by simp at e⟩
    intro p pn e hx
    rw [e, load_eq_ok.mpr hx] at ha
    simp only [Except.ok.injEq] at ha
    rw [ha]
  · rename_i p0 x0
    simp only [bind_eq_ok] at hp
    obtain ⟨pvn, hpv, nxn, hnx, hp⟩ := hp
    simp only [pure, Except.pure, Except.ok.injEq] at hp
    have hpv := load_eq_ok.mp hpv
    have hnx := load_eq_ok.mp hnx
    by_cases hge : pvn.size ≥ nxn.size
    · rw [if_pos hge] at hp
      subst hp
      rw [load_eq_ok.mpr hpv] at ha
      simp only [Except.ok.injEq] at ha
      subst ha
      constructor
      · intro p pn e hx
        simp only [Option.some.injEq] at e
        subst e
        rw [hpv] at hx
        simp only [Option.some.injEq] at hx
        rw [hx]
      · intro x xn e hx
        simp only [Option.some.injEq] at e
        subst e
        rw [hnx] at hx
        simp only [Option.some.injEq] at hx
        rw [← hx]
        exact hge
    · rw [if_neg hge] at hp
      subst hp
      rw [load_eq_ok.mpr hnx] at ha
      simp only [Except.ok.injEq] at ha
      subst ha
      constructor
      · intro p pn e hx
        simp only [Option.some.injEq] at e
        subst e
        rw [hpv] at hx
        simp only [Option.some.injEq] at hx
        rw [← hx]
        omega
      · intro x xn e hx
        simp only [Option.some.injEq] at e
        subst e
        rw [hnx] at hx
        simp only [Option.some.injEq] at hx
        rw [hx]

/-- Merging an interior block fails no assertion when the smaller of its two neighbours
has room for its entries. -/
theorem merge_interior_ne_assertion {head : Option Nat} {B x y : Nat} {h : Heap} {xn : Node}
    (fuel : Nat) (hx : h[x]? = some (some xn)) (hne : some x ≠ head) (hfx : xn.fwd 0 = some y)
    (hroom : ∀ nx pv : Node, h.load (some y) = .ok nx → h.load xn.prev = .ok pv →
      (nx.size < pv.size → nx.size + xn.size ≤ B) ∧
      (¬ nx.size < pv.size → pv.size + xn.size ≤ B)) :
    merge_node head B (fuel + 1) (some x) h ≠ .error .assertion := by
  rw [merge_node]
  simp only [load_eq_ok.mpr hx, ok_bind, if_neg hne, hfx]
  rw [if_neg (by simp)]
  apply bind_ne_assertion (readAt_ne_assertion _ _)
  intro first _
  apply bind_ne_assertion (find_node_ne_assertion _ _ _)
  intro d _
  apply bind_ne_assertion (load_ne_assertion _ _)
  intro nx hnx
  apply bind_ne_assertion (load_ne_assertion _ _)
  intro pv hpv
  obtain ⟨hr1, hr2⟩ := hroom nx pv hnx hpv
  by_cases hlt : nx.size < pv.size
  · rw [if_pos hlt, if_neg (not_not.mpr (hr1 hlt))]
    apply bind_ne_assertion (by simp [pure, Except.pure])
    intro _ _
    apply bind_ne_assertion (slice_ne_assertion _ _ _)
    intro own _
    apply bind_ne_assertion (copyBackInto_ne_assertion _ _ _)
    intro d1 _
    apply bind_ne_assertion (slice_ne_assertion _ _ _)
    intro src _
    apply bind_ne_assertion (copyInto_ne_assertion _ _ _)
    intro d2 _
    apply bind_ne_assertion (modify_ne_assertion _ _ _)
    intro g _
    apply bind_ne_assertion (unlinkLevels_ne_assertion _ _ _ _ _)
    intro h2 _
    apply bind_ne_assertion (modify_ne_assertion _ _ _)
    intro h3 _
    simp [pure, Except.pure]
  · rw [if_neg hlt, if_neg (not_not.mpr (hr2 hlt))]
    apply bind_ne_assertion (by simp [pure, Except.pure])
    intro _ _
    apply bind_ne_assertion (slice_ne_assertion _ _ _)
    intro src _
    apply bind_ne_assertion (copyInto_ne_assertion _ _ _)
    intro pd _
    apply bind_ne_assertion (readLast_ne_assertion _ _)
    intro last _
    apply bind_ne_assertion (modify_ne_assertion _ _ _)
    intro g _
    apply bind_ne_assertion (unlinkLevels_ne_assertion _ _ _ _ _)
    intro h2 _
    apply bind_ne_assertion (modify_ne_assertion _ _ _)
    intro h3 _
    simp [pure, Except.pure]

/-- Merging the last block into the head fails no assertion: the entries move, the head
loses its links, and the recursive call on the head returns at once. -/
theorem merge_tail_head_ne_assertion {head : Option Nat} {B x : Nat} {h : Heap} {xn : Node}
    (fuel : Nat) (hx : h[x]? = some (some xn)) (hne : some x ≠ head) (hfx : xn.fwd 0 = none)
    (hp : xn.prev = head) :
    merge_node head B (fuel + 1) (some x) h ≠ .error .assertion := by
  rw [merge_node]
  simp only [load_eq_ok.mpr hx, ok_bind, if_neg hne, hfx, if_true, hp]
  apply bind_ne_assertion (load_ne_assertion _ _)
  intro p _
  apply bind_ne_assertion (slice_ne_assertion _ _ _)
  intro src _
  apply bind_ne_assertion (copyInto_ne_assertion _ _ _)
  intro pd _
  apply bind_ne_assertion (readLast_ne_assertion _ _)
  intro last _
  apply bind_ne_assertion (modify_ne_assertion _ _ _)
  intro h1 _
  apply bind_ne_assertion (modify_ne_assertion _ _ _)
  intro h2 hh2
  obtain ⟨a, m, ea, hm, eh2⟩ := modify_ok hh2
  cases fuel with
  | zero => simp [merge_node]
  | succ f =>
    rw [merge_node]
    apply bind_ne_assertion (load_ne_assertion _ _)
    intro n3 hn3
    rw [if_pos rfl]
    have hxa : x ≠ a := by
      intro e
      apply hne
      rw [ea, e]
    rw [ea] at hn3
    have hn3 := load_eq_ok.mp hn3
    rw [free_getElem?, if_neg hxa, eh2, store_getElem? _ _ _ _ (lt_of_getElem? hm),
      if_pos rfl] at hn3
    simp only [Option.some.injEq] at hn3
    have hnone : n3.fwd 0 = none := by
      have := clearForward_lk m
      rw [hn3] at this
      exact congrArg Lk.next this
    rw [hnone]
    simp [pure, Except.pure]

/-- A bind after a failed pointer dereference fails no assertion. -/
theorem load_error_bind_ne_assertion {β : Type} {h : Heap} {p : Option Nat} {e : Fault}
    {f : Node → Except Fault β} (hl : h.load p = .error e) :
    ((Except.error e : Except Fault Node) >>= f) ≠ .error .assertion := by
  have := load_ne_assertion h p
  rw [hl] at this
  simpa [bind, Except.bind] using this

/-- No call of `merge_node` on a block fails an assertion when each neighbour of the block
together with the block fits into one block, the successor points back at the block and
the predecessor points forward at the block or at a freed block. -/
theorem merge_node_ne_assertion {head : Option Nat} {B t : Nat} {h : Heap} {n : Node}
    (ht : h[t]? = some (some n))
    (hP : ∀ (p : Nat) (pn : Node), n.prev = some p → h[p]? = some (some pn) →
      pn.size + n.size ≤ B)
    (hN : ∀ (x : Nat) (xn : Node), n.fwd 0 = some x → h[x]? = some (some xn) →
      xn.size + n.size ≤ B)
    (hnext : ∀ (x : Nat) (xn : Node), n.fwd 0 = some x → h[x]? = some (some xn) →
      xn.prev = some t)
    (hprev : ∀ (p : Nat) (pn : Node), n.prev = some p → h[p]? = some (some pn) →
      pn.fwd 0 = some t ∨ ∃ x : Nat, pn.fwd 0 = some x ∧ h[x]? = some none) :
    ∀ fuel : Nat, merge_node head B fuel (some t) h ≠ .error .assertion := by
  intro fuel
  induction fuel with
  | zero => simp [merge_node]
  | succ f ih =>
    by_cases hh : some t = head
    · cases hfx : n.fwd 0 with
      | none =>
        rw [merge_node]
        simp only [load_eq_ok.mpr ht, ok_bind, if_pos hh, hfx]
        simp [pure, Except.pure]
      | some x =>
        have hstep : merge_node head B (f + 1) (some t) h = merge_node head B f (some x) h := by
          rw [merge_node]
          simp only [load_eq_ok.mpr ht, ok_bind, if_pos hh, hfx]
        rw [hstep]
        by_cases hxt : x = t
        · rw [hxt]
          exact ih
        · cases f with
          | zero => simp [merge_node]
          | succ f2 =>
            cases hl : h.load (some x) with
            | error e =>
              rw [merge_node, hl]
              exact load_error_bind_ne_assertion hl
            | ok xn =>
              have hxl := load_eq_ok.mp hl
              have hxp := hnext x xn hfx hxl
              have hne : some x ≠ head := by
                rw [← hh]
                simpa using hxt
              cases hfy : xn.fwd 0 with
              | none =>
                exact merge_tail_head_ne_assertion f2 hxl hne hfy (by rw [hxp, hh])
              | some y =>
                apply merge_interior_ne_assertion f2 hxl hne hfy
                intro nx pv _ hpv
                rw [hxp, load_eq_ok.mpr ht] at hpv
                simp only [Except.ok.injEq] at hpv
                subst hpv
                have := hN x xn hfx hxl
                constructor <;> intro _ <;> omega
    · cases hfx : n.fwd 0 with
      | some x =>
        apply merge_interior_ne_assertion f ht hh hfx
        intro nx pv hnx hpv
        have h1 := hN x nx hfx (load_eq_ok.mp hnx)
        cases hpr : n.prev with
        | none =>
          rw [hpr] at hpv
          simp [Heap.load] at hpv
        | some p =>
          rw [hpr] at hpv
          have h2 := hP p pv hpr (load_eq_ok.mp hpv)
          constructor <;> intro _ <;> omega
      | none =>
        by_cases hp : n.prev = head
        · exact merge_tail_head_ne_assertion f ht hh hfx hp
        · have hstep : merge_node head B (f + 1) (some t) h = merge_node head B f n.prev h := by
            rw [merge_node]
            simp only [load_eq_ok.mpr ht, ok_bind, if_neg hh, hfx, if_true, if_neg hp]
          rw [hstep]
          cases f with
          | zero => simp [merge_node]
          | succ f2 =>
            cases hl : h.load n.prev with
            | error e =>
              rw [merge_node, hl]
              exact load_error_bind_ne_assertion hl
            | ok pn =>
              cases hpr : n.prev with
              | none =>
                rw [hpr] at hl
                simp [Heap.load] at hl
              | some p =>
                rw [hpr] at hl hp
                have hpl := load_eq_ok.mp hl
                have hsz := hP p pn hpr hpl
                rcases hprev p pn hpr hpl with hft | ⟨x, hfx2, hfree⟩
                · apply merge_interior_ne_assertion f2 hpl hp hft
                  intro nx pv hnx _
                  rw [load_eq_ok.mpr ht] at hnx
                  simp only [Except.ok.injEq] at hnx
                  subst hnx
                  constructor <;> intro _ <;> omega
                · apply merge_interior_ne_assertion f2 hpl hp hfx2
                  intro nx pv hnx _
                  have := load_eq_ok.mp hnx
                  rw [hfree] at this
                  simp at this

/-- The loop of `std::lower_bound` fails no assertion. -/
theorem lowerBound_ne_assertion (d : List Entry) (key : Int) :
    ∀ (fuel first len : Nat), lowerBound d key fuel first len ≠ .error .assertion := by
  intro fuel
  induction fuel with
  | zero =>
    intro first len
    simp [lowerBound]
  | succ f ih =>
    intro first len
    rw [lowerBound]
    split
    · simp
    · dsimp only
      split
      · simp
      · split
        · exact ih _ _
        · exact ih _ _

/-- The lookup `Node::find` fails no assertion. -/
theorem Node.find_ne_assertion (n : Node) (key : Int) : n.find key ≠ .error .assertion := by
  unfold Node.find
  apply bind_ne_assertion (lowerBound_ne_assertion _ _ _ _ _)
  intro pos _
  split
  · simp [pure, Except.pure]
  · apply bind_ne_assertion (by simp [pure, Except.pure])
    intro _ _
    apply bind_ne_assertion (readAt_ne_assertion _ _)
    intro e _
    split <;> simp [pure, Except.pure, bind, Except.bind]

/-- The removal `Node::erase` fails no assertion. -/
theorem Node.erase_ne_assertion (n : Node) (key : Int) : n.erase key ≠ .error .assertion := by
  unfold Node.erase
  apply bind_ne_assertion (Node.find_ne_assertion _ _)
  intro f _
  cases f with
  | none => simp [pure, Except.pure]
  | some pos =>
    dsimp only
    apply bind_ne_assertion (readAt_ne_assertion _ _)
    intro e _
    apply bind_ne_assertion (slice_ne_assertion _ _ _)
    intro tail _
    apply bind_ne_assertion (copyInto_ne_assertion _ _ _)
    intro d1 _
    apply bind_ne_assertion (readLast_ne_assertion _ _)
    intro last _
    simp [pure, Except.pure]

/-- The choice of the neighbour fails no assertion. -/
theorem pickNeighbour_ne_assertion (h : Heap) (pv nx : Option Nat) :
    pickNeighbour h pv nx ≠ .error .assertion := by
  unfold pickNeighbour
  split
  · simp [pure, Except.pure]
  · simp [pure, Except.pure]
  · apply bind_ne_assertion (load_ne_assertion _ _)
    intro a _
    apply bind_ne_assertion (load_ne_assertion _ _)
    intro b _
    simp [pure, Except.pure]

/-- The redistribution branch of `balance_block` fails no assertion. -/
theorem redistribute_ne_assertion (h : Heap) (node another next_node : Option Nat)
    (n an : Node) : redistribute h node another next_node n an ≠ .error .assertion := by
  unfold redistribute
  dsimp only
  split
  · simp [throw, throwThe, MonadExceptOf.throw, bind, Except.bind]
  · apply bind_ne_assertion (by simp [pure, Except.pure])
    intro _ _
    split
    · apply bind_ne_assertion (slice_ne_assertion _ _ _)
      intro moved _
      apply bind_ne_assertion (copyInto_ne_assertion _ _ _)
      intro nd _
      apply bind_ne_assertion (slice_ne_assertion _ _ _)
      intro rest _
      apply bind_ne_assertion (copyInto_ne_assertion _ _ _)
      intro ad _
      apply bind_ne_assertion (readLast_ne_assertion _ _)
      intro last _
      apply bind_ne_assertion (modify_ne_assertion _ _ _)
      intro h1 _
      exact modify_ne_assertion _ _ _
    · apply bind_ne_assertion (slice_ne_assertion _ _ _)
      intro own _
      apply bind_ne_assertion (copyBackInto_ne_assertion _ _ _)
      intro d1 _
      apply bind_ne_assertion (slice_ne_assertion _ _ _)
      intro moved _
      apply bind_ne_assertion (copyInto_ne_assertion _ _ _)
      intro nd _
      apply bind_ne_assertion (readLast_ne_assertion _ _)
      intro last _
      apply bind_ne_assertion (modify_ne_assertion _ _ _)
      intro h1 _
      exact modify_ne_assertion _ _ _

/-- A freed slot of the skeleton is a freed slot of the heap. -/
theorem dead_of_skel {h : Heap} {a : Nat} (hl : (skel h)[a]? = some none) :
    h[a]? = some none := by
  rw [skel_getElem?] at hl
  cases hx : h[a]? with
  | none => simp [hx] at hl
  | some x =>
    cases x with
    | none => rfl
    | some n => simp [hx] at hl

/-- Links around the block under balance in a reachable state: its successor points back
at it, and its predecessor points forward at it or at a freed block. -/
theorem Dent.chain_links {r : Nat → ℚ} {s0 : List (Option Lk)} {h : Heap} {t : Nat} {kt : Lk}
    (hd : Dent r s0 h t kt) {n : Node} (hn : h[t]? = some (some n)) :
    (∀ (x : Nat) (xn : Node), n.fwd 0 = some x → h[x]? = some (some xn) →
      xn.prev = some t) ∧
    (∀ (p : Nat) (pn : Node), n.prev = some p → h[p]? = some (some pn) →
      pn.fwd 0 = some t ∨ ∃ x : Nat, pn.fwd 0 = some x ∧ h[x]? = some none) := by
  obtain ⟨k0, hk0, hnp, hnn, _, _⟩ := hd.get hn
  have hi := hd.inv
  constructor
  · intro x xn hfx hx
    obtain ⟨kx, hkx, hxp, _, _, _⟩ := hd.get hx
    rw [hxp]
    exact hi.next_prev t k0 x kx hk0 hkx (by rw [← hnn, hfx])
  · intro p pn hpr hp
    obtain ⟨kp, hkp, _, hpn, _, _⟩ := hd.get hp
    rcases hi.prev_next p kp t k0 hkp hk0 (by rw [← hnp, hpr]) with e | ⟨x, e, hdead⟩
    · exact Or.inl (by rw [hpn, e])
    · refine Or.inr ⟨x, by rw [hpn, e], ?_⟩
      apply dead_of_skel
      rw [hd.skel_get]
      have hne : t ≠ x := by
        intro e2
        rw [← e2, hd.ht] at hdead
        simp at hdead
      rw [if_neg hne]
      exact hdead

/-- Balancing a block of a heap that satisfies the invariant fails no assertion. -/
theorem balance_inv_ne_assertion {r : Nat → ℚ} {h : Heap} {t : Nat} (hi : InvR r (skel h)) :
    balance_block (some 0) 256 (some t) h ≠ .error .assertion := by
  unfold balance_block
  apply bind_ne_assertion (load_ne_assertion _ _)
  intro n hn
  have hn := load_eq_ok.mp hn
  rw [lower_bound_256]
  split
  · rename_i hlt
    have hl : n.prev = none ∧ n.fwd 0 = none := hi.lone t n.lk (skel_live hn) hlt
    rw [if_pos hl]
    simp [pure, Except.pure]
  · simp [pure, Except.pure]

/-- Balancing the block an entry was removed from, in a reachable state, fails no
assertion. -/
theorem balance_dent_ne_assertion {r : Nat → ℚ} {s0 : List (Option Lk)} {h : Heap} {t : Nat}
    {kt : Lk} (hd : Dent r s0 h t kt) :
    balance_block (some 0) 256 (some t) h ≠ .error .assertion := by
  unfold balance_block
  apply bind_ne_assertion (load_ne_assertion _ _)
  intro n hn
  have hn := load_eq_ok.mp hn
  obtain ⟨hnext, hprev⟩ := hd.chain_links hn
  split
  · dsimp only
    split
    · simp [pure, Except.pure]
    · apply bind_ne_assertion (by simp [pure, Except.pure])
      intro _ _
      apply bind_ne_assertion (pickNeighbour_ne_assertion _ _ _)
      intro another hpick
      apply bind_ne_assertion (load_ne_assertion _ _)
      intro an ha
      obtain ⟨hd1, hd2⟩ := pickNeighbour_dense hpick ha
      split
      · rename_i hsum
        apply merge_node_ne_assertion hn _ _ hnext hprev
        · intro p pn e hp
          have := hd1 p pn e hp
          omega
        · intro x xn e hx
          have := hd2 x xn e hx
          omega
      · exact redistribute_ne_assertion _ _ _ _ _ _
  · simp [pure, Except.pure]

/-- In every state that satisfies the invariant of reachable containers with block
capacity 256, `erase(key)` fails no assertion of `merge_node`. -/
theorem container_erase_ne_assertion {c : Container} (key : Int) (hc : CInv c) :
    erase c key ≠ .error .assertion := by
  obtain ⟨hh, hb, r, hi⟩ := hc
  unfold erase
  apply bind_ne_assertion (find_node_ne_assertion _ _ _)
  intro tp _
  obtain ⟨t, preds⟩ := tp
  dsimp only
  apply bind_ne_assertion (load_ne_assertion _ _)
  intro tn htn
  have htn := load_eq_ok.mp htn
  apply bind_ne_assertion (Node.erase_ne_assertion _ _)
  intro te her
  obtain ⟨tn1, en⟩ := te
  dsimp only
  cases en with
  | none => simp [pure, Except.pure]
  | some v =>
    dsimp only
    refine bind_ne_assertion ?_ (fun _ _ => by simp [pure, Except.pure])
    rw [hh, hb]
    rcases erase_lk her with ⟨e1, _⟩ | ⟨_, hs0, hs1, hlk⟩
    · simp at e1
    · have hk := skel_live htn
      have hle := hi.size_le t tn.lk hk
      have hsz : tn.lk.size = tn.size := rfl
      have hmod : (tn.size + U16 - 1) % U16 = tn.size - 1 := by
        unfold U16
        omega
      rw [hmod] at hlk
      have hsk : skel (c.heap.store t tn1)
          = (skel c.heap).set t (some { tn.lk with size := tn.size - 1 }) := by
        rw [skel_store, hlk]
      by_cases hgood : tn.size - 1 < 115 → tn.lk.prev = none ∧ tn.lk.next = none
      · have hi1 := hi.resize (tn.size - 1) hk (by omega) hgood
        rw [← hsk] at hi1
        exact balance_inv_ne_assertion hi1
      · have hlt : tn.size - 1 < 115 := by
          by_contra hx
          exact hgood (fun h => absurd h hx)
        have hlinks : ¬ (tn.lk.prev = none ∧ tn.lk.next = none) := fun h => hgood (fun _ => h)
        have hge : 115 ≤ tn.lk.size := by
          by_contra hx
          exact hlinks (hi.lone t tn.lk hk (by omega))
        have h114 : tn.size - 1 = 114 := by omega
        rw [h114] at hsk
        exact balance_dent_ne_assertion ⟨hi, hk, hsk, hlinks⟩

/-- After every sequence of insert, update and erase operations that runs without fault on
a newly constructed container with block capacity 256, `erase(key)` fails no assertion of
`merge_node`. -/
theorem reachable_erase_ne_assertion (m0 : Nat) (ops : List PubOp) (c0 c : Container)
    (key : Int) (hc : construct 256 m0 = some c0) (hr : runPub c0 ops = .ok c) :
    erase c key ≠ .error .assertion :=
  container_erase_ne_assertion key (runPub_CInv ops (construct_CInv hc) hr)

/-- Claim C22. Let `balance_block(node)` decide to merge: `node` holds fewer entries than
the lower bound, and its size plus the size of its denser neighbour is at most the block
capacity; let the links around `node` be those of a chain (the successor points back at
`node`; the predecessor points forward at `node`, or at a block already freed).  Then
each neighbour of `node` has room for the entries of `node` (this covers the move into the
head, which has no assertion), `balance_block` calls `merge_node(node)`, and no call of
`merge_node` that follows, the recursive ones included, fails one of its two assertions
`destination.size + source.size <= block_size`. -/
theorem C22_merge_destination_has_room (head another : Option Nat) (B t : Nat) (h : Heap)
    (n an : Node) (ht : h[t]? = some (some n))
    (hlow : n.size < get_node_lower_bound B)
    (hpick : pickNeighbour h n.prev (n.fwd 0) = .ok another)
    (ha : h.load another = .ok an) (hsum : an.size + n.size ≤ B)
    (hnext : ∀ (x : Nat) (xn : Node), n.fwd 0 = some x → h[x]? = some (some xn) →
      xn.prev = some t)
    (hprev : ∀ (p : Nat) (pn : Node), n.prev = some p → h[p]? = some (some pn) →
      pn.fwd 0 = some t ∨ ∃ x : Nat, pn.fwd 0 = some x ∧ h[x]? = some none) :
    (∀ (p : Nat) (pn : Node), n.prev = some p → h[p]? = some (some pn) →
      pn.size + n.size ≤ B) ∧
    (∀ (x : Nat) (xn : Node), n.fwd 0 = some x → h[x]? = some (some xn) →
      xn.size + n.size ≤ B) ∧
    balance_block head B (some t) h = merge_node head B (h.length + 2) (some t) h ∧
    (∀ fuel : Nat, merge_node head B fuel (some t) h ≠ .error .assertion) ∧
    balance_block head B (some t) h ≠ .error .assertion := by
  obtain ⟨hd1, hd2⟩ := pickNeighbour_dense hpick ha
  have hP : ∀ (p : Nat) (pn : Node), n.prev = some p → h[p]? = some (some pn) →
      pn.size + n.size ≤ B := by
    intro p pn e hp
    have := hd1 p pn e hp
    omega
  have hN : ∀ (x : Nat) (xn : Node), n.fwd 0 = some x → h[x]? = some (some xn) →
      xn.size + n.size ≤ B := by
    intro x xn e hx
    have := hd2 x xn e hx
    omega
  have hm := @merge_node_ne_assertion head B t h n ht hP hN hnext hprev
  have hlinks : ¬ (n.prev = none ∧ n.fwd 0 = none) := by
    rintro ⟨e1, e2⟩
    rw [e1, e2] at hpick
    simp only [pickNeighbour, pure, Except.pure, Except.ok.injEq] at hpick
    rw [← hpick] at ha
    simp [Heap.load] at ha
  have hbal : balance_block head B (some t) h = merge_node head B (h.length + 2) (some t) h := by
    unfold balance_block
    simp only [load_eq_ok.mpr ht, ok_bind, if_pos hlow, if_neg hlinks, hpick, ha, if_pos hsum]
    rfl
  refine ⟨hP, hN, hbal, hm, ?_⟩
  rw [hbal]
  exact hm _

/-- Claim C22 at three linked blocks of capacity 8 with 3, 2 and 4 entries: balancing the
middle block merges it into the head block, the assertion `3 + 2 <= 8` holds and the
call returns. -/
theorem C22_merge_destination_has_room_witness :
    heapTrio[1]? = some (some trioMid) ∧ trioMid.size < get_node_lower_bound 8 ∧
    pickNeighbour heapTrio trioMid.prev (trioMid.fwd 0) = .ok (some 2) ∧
    heapTrio.load (some 2) = .ok trioTail ∧ trioTail.size + trioMid.size ≤ 8 ∧
    (balance_block (some 0) 8 (some 1) heapTrio).toOption.isSome = true ∧
    ((∀ (p : Nat) (pn : Node), trioMid.prev = some p → heapTrio[p]? = some (some pn) →
        pn.size + trioMid.size ≤ 8) ∧
      (∀ (x : Nat) (xn : Node), trioMid.fwd 0 = some x → heapTrio[x]? = some (some xn) →
        xn.size + trioMid.size ≤ 8) ∧
      balance_block (some 0) 8 (some 1) heapTrio
        = merge_node (some 0) 8 (heapTrio.length + 2) (some 1) heapTrio ∧
      (∀ fuel : Nat, merge_node (some 0) 8 fuel (some 1) heapTrio ≠ .error .assertion) ∧
      balance_block (some 0) 8 (some 1) heapTrio ≠ .error .assertion) :=
  ⟨rfl, by decide, rfl, rfl, by decide, by decide,
    C22_merge_destination_has_room (some 0) (some 2) 8 1 heapTrio trioMid trioTail rfl
      (by decide) rfl rfl (by decide)
      (by
        intro x xn hx hxn
        have ex : x = 2 := by
          have : trioMid.fwd 0 = some 2 := rfl
          rw [this] at hx
          exact (Option.some.inj hx).symm
        subst ex
        have : heapTrio[2]? = some (some trioTail) := rfl
        rw [this] at hxn
        simp only [Option.some.injEq] at hxn
        rw [← hxn]
        rfl)
      (by
        intro p pn hp hpn
        have ep : p = 0 := by
          have : trioMid.prev = some 0 := rfl
          rw [this] at hp
          exact (Option.some.inj hp).symm
        subst ep
        have : heapTrio[0]? = some (some trioHead) := rfl
        rw [this] at hpn
        simp only [Option.some.injEq] at hpn
        rw [← hpn]
        exact Or.inl rfl)⟩

/-- Evaluation of the scenario `danglingOps` from the state `stateD` on. -/
theorem stage_H :
    run stateD ([Op.del 129, Op.del 130] ++ (ascending 1000 17 ++ descendingErase 1016 15))
      = .ok stateH :=
  ok_of_toOption (by decide!)

/-- Evaluation of the removals that precede the underflow of the interior block. -/
theorem stage_U :
    run (stateC 385) (descendingErase 385 2 ++ descendingErase 256 13) = .ok stateU :=
  ok_of_toOption (by decide!)

/-- Chaining an evaluated run with a run that faults. -/
theorem run_chain_error {c c1 : Container} {xs ys : List Op} {f : Fault}
    (h1 : run c xs = .ok c1) (h2 : run c1 ys = .error f) : run c (xs ++ ys) = .error f := by
  rw [run_append, h1]
  exact h2

/-- Removals appended to an admissible sequence keep it admissible. -/
theorem freshOps_append (ops ops2 : List Op) (hd : ∀ s : List Int, freshOps s ops2 = true) :
    ∀ s : List Int, freshOps s ops = true → freshOps s (ops ++ ops2) = true := by
  induction ops with
  | nil =>
    intro s _
    exact hd s
  | cons op ops ih =>
    intro s h
    cases op with
    | ins key val draw =>
      simp only [List.cons_append, freshOps, Bool.and_eq_true] at h ⊢
      exact ⟨h.1, ih _ h.2⟩
    | del key =>
      simp only [List.cons_append, freshOps] at h ⊢
      exact ih _ h

/-- The scenario `underflowOps` inserts fresh keys only. -/
theorem fresh_underflowOps : freshOps [] underflowOps = true := by
  unfold underflowOps
  rw [← List.append_assoc]
  exact freshOps_append _ _ (fresh_descendingErase 256 14) []
    (fresh_ascending 1 385 385 2 [] (by simp))

/-- C10 (code defect). Insert the keys `1 .. 385` in ascending order into a newly
constructed container with block capacity 256, erase `385` and `384`, then erase
`256, 255, ..., 244`: the three blocks hold 128, 115 and 127 entries.  The next call
`erase(243)` leaves the middle block with 114 entries, below the lower bound 115;
`balance_block` decides to merge, and `merge_node` takes the branch
`next_node->size < prev_node->size`, whose `std::move_backward` has the destination end
`next_node->data + node->size`: it writes the 127 entries of the successor to the indices
`-13 .. 113`, in front of the block's storage.  The operation has no defined outcome, so
after this sequence of insert and erase operations no state exists for which the bound on
the block sizes could hold. -/
theorem C10_interior_underflow_writes_before_storage :
    ∃ (c0 c : Container) (tn tn1 : Node) (r : Option (Int × Int)),
      construct 256 0 = some c0 ∧ freshOps [] underflowOps = true ∧
      run c0 (ascending 1 385 ++ (descendingErase 385 2 ++ descendingErase 256 13)) = .ok c ∧
      c.heap.map (Option.map Node.size) = [some 128, some 115, some 127] ∧
      c.heap.load (some 1) = .ok tn ∧ tn.erase 243 = .ok (tn1, r) ∧ tn1.size = 114 ∧
      tn1.size < get_node_lower_bound c.block_size ∧
      balance_block c.head c.block_size (some 1) (c.heap.store 1 tn1)
        = .error .outOfBounds ∧
      erase c 243 = .error .outOfBounds ∧
      run c0 underflowOps = .error .outOfBounds := by
  have hA : run (stateA 0) (ascending 1 385) = .ok (stateC 385) := by
    have e1 : ascending 1 385 =
        ascending 1 256 ++ (ascending 257 1 ++ (ascending 258 127 ++ ascending 385 1)) := by
      rw [← ascending_add 258 127 1, ← ascending_add 257 1 128, ← ascending_add 1 256 129]
    rw [e1]
    exact run_chain (run_stateA 256 0 (by omega)) (run_chain stage_split1
      (run_chain (run_stateB 127 129 (by omega) (by omega)) stage_split2))
  have hlast : run stateU (descendingErase 243 1) = .error .outOfBounds :=
    error_of_faultOf (by decide!)
  have e2 : descendingErase 385 2 ++ descendingErase 256 14
      = (descendingErase 385 2 ++ descendingErase 256 13) ++ descendingErase 243 1 := by
    rw [descendingErase_add 256 13 1, List.append_assoc]
  refine ⟨stateA 0, stateU,
    { m_max_key := 243, size := 115, capacity := 256, forward := linkAt0 (some 2),
      prev := some 0, data := keysThen 129 256 [] },
    { m_max_key := 242, size := 114, capacity := 256, forward := linkAt0 (some 2),
      prev := some 0, data := keysThen 129 256 [] }, some (243, 243),
    rfl, fresh_underflowOps, run_chain hA stage_U, rfl, rfl, ok_of_toOption (by decide!), rfl,
    by decide, error_of_faultOf (by decide!), error_of_faultOf (by decide!), ?_⟩
  unfold underflowOps
  rw [e2]
  exact run_chain_error hA (run_chain_error stage_U hlast)

/-- The scenario `danglingOps` inserts fresh keys only. -/
theorem fresh_danglingOps : freshOps [] danglingOps = true := by decide!

/-- C9 (code defect). Run the scenario `danglingOps` on a newly constructed container with
block capacity 256: fresh keys are inserted, stored keys are erased, and no operation
faults.  The last removal makes the last block underflow; `merge_node` recurses into its
predecessor, block 2, whose cached `max_key` is 0 (read from a default entry that the
faulty `std::move_backward` of an earlier merge left in its live range) and lies below its
first key 131.  So `find_node(head, 131)` ends on block 2 itself, the relinking loop
finds `predecessors[0]->forward[0] != node` and unlinks nothing, and block 2 is deleted
while `head->forward[0]` still points at it.  The container holds 370 entries, but both
the traversal from `begin()` and the one from `rbegin()` reach the freed block: neither
yields a sequence, so the backward sequence is not the reverse of the forward one. -/
theorem C9_traversals_reach_freed_block :
    ∃ (c0 c : Container) (hd : Node),
      construct 256 0 = some c0 ∧ freshOps [] danglingOps = true ∧
      run c0 danglingOps = .ok c ∧ c.m_size = 370 ∧
      c.heap.load c.head = .ok hd ∧ hd.size = 128 ∧ hd.fwd 0 = some 2 ∧
      c.heap[2]? = some none ∧
      forwardEntries c = .error .useAfterFree ∧
      backwardEntries c = .error .useAfterFree :=
  ⟨stateA 0, stateH, headHalf 2, rfl, fresh_danglingOps, run_chain run_faultyOps stage_H, rfl,
    rfl, rfl, rfl, rfl, error_of_faultOf (by decide!), error_of_faultOf (by decide!)⟩

/-- The views of a slot depend on the slot only. -/
theorem views_congr {h h1 : Heap} {b : Nat} (e : h1[b]? = h[b]?) :
    maxKeyAt h1 b = maxKeyAt h b ∧ blockEntries h1 b = blockEntries h b ∧
      blockKeys h1 b = blockKeys h b ∧ ∀ l : Nat, fwdAt h1 b l = fwdAt h b l := by
  simp only [maxKeyAt, blockEntries, blockKeys, fwdAt, e]
  exact ⟨trivial, trivial, trivial, fun _ => trivial⟩

/-- The views of a live slot. -/
theorem views_live {h : Heap} {b : Nat} {n : Node} (e : h[b]? = some (some n)) :
    maxKeyAt h b = n.m_max_key ∧ blockEntries h b = n.live ∧
      blockKeys h b = n.live.map Entry.key ∧ ∀ l : Nat, fwdAt h b l = n.fwd l := by
  simp only [maxKeyAt, blockEntries, blockKeys, fwdAt, e]
  exact ⟨trivial, rfl, rfl, fun _ => trivial⟩

/-- A slot with a level link holds a block. -/
theorem live_of_fwdAt {h : Heap} {b l nx : Nat} (e : fwdAt h b l = some nx) :
    ∃ n : Node, h[b]? = some (some n) ∧ n.fwd l = some nx := by
  unfold fwdAt at e
  split at e
  · rename_i n hn
    exact ⟨n, hn, e⟩
  · simp at e

/-- The ordering of the levels, stated with the views. -/
theorem levelsOrdered_iff {h : Heap} {cs : List Nat} :
    levelsOrdered h cs ↔
      ∀ (l : Nat), l < SKIP_LIST_LEVELS → ∀ b ∈ cs, ∀ nx : Nat, fwdAt h b l = some nx →
        nx ∈ cs ∧ maxKeyAt h b < maxKeyAt h nx := by
  constructor
  · intro hl l hlt b hb nx hf
    obtain ⟨n, hn, hfn⟩ := live_of_fwdAt hf
    exact hl l hlt b hb n hn nx hfn
  · intro hl l hlt b hb n hn nx hf
    exact hl l hlt b hb nx (by rw [(views_live hn).2.2.2 l]; exact hf)

/-- An intact chain stays intact when its blocks stay live and keep their level-0
links. -/
theorem isChain_congr {h h1 : Heap} (cs : List Nat)
    (hsame : ∀ a ∈ cs, ∀ n : Node, h[a]? = some (some n) →
      ∃ n1 : Node, h1[a]? = some (some n1) ∧ n1.fwd 0 = n.fwd 0) :
    ∀ p : Option Nat, isChain h p cs = true → isChain h1 p cs = true := by
  induction cs with
  | nil =>
    intro p hc
    exact hc
  | cons a as ih =>
    intro p hc
    obtain ⟨hp, n, hn, hrest⟩ := isChain_cons.mp hc
    obtain ⟨n1, hn1, hf⟩ := hsame a (List.mem_cons_self _ _) n hn
    refine isChain_cons.mpr ⟨hp, n1, hn1, ?_⟩
    rw [hf]
    exact ih (fun b hb m hm => hsame b (List.mem_cons_of_mem _ hb) m hm) _ hrest

/-- A block linked in behind the block `t` of an intact chain extends the chain. -/
theorem isChain_insert {h h1 : Heap} {t nw : Nat} {post : List Nat} (pre : List Nat)
    (hsame : ∀ a ∈ pre ++ post, ∀ n : Node, h[a]? = some (some n) →
      ∃ n1 : Node, h1[a]? = some (some n1) ∧ n1.fwd 0 = n.fwd 0)
    (ht : ∃ n1 : Node, h1[t]? = some (some n1) ∧ n1.fwd 0 = some nw)
    (hnw : ∃ n1 : Node, h1[nw]? = some (some n1) ∧ n1.fwd 0 = fwdAt h t 0) :
    ∀ p : Option Nat, isChain h p (pre ++ t :: post) = true →
      isChain h1 p (pre ++ t :: nw :: post) = true := by
  induction pre with
  | nil =>
    intro p hc
    obtain ⟨hp, n, hn, hrest⟩ := isChain_cons.mp hc
    obtain ⟨t1, ht1, hft⟩ := ht
    obtain ⟨w1, hw1, hfw⟩ := hnw
    refine isChain_cons.mpr ⟨hp, t1, ht1, ?_⟩
    rw [hft]
    refine isChain_cons.mpr ⟨rfl, w1, hw1, ?_⟩
    rw [hfw, (views_live hn).2.2.2 0]
    exact isChain_congr post (fun a ha m hm => hsame a (by simpa using ha) m hm) _ hrest
  | cons a as ih =>
    intro p hc
    obtain ⟨hp, n, hn, hrest⟩ := isChain_cons.mp hc
    obtain ⟨n1, hn1, hf⟩ := hsame a (by simp) n hn
    refine isChain_cons.mpr ⟨hp, n1, hn1, ?_⟩
    rw [hf]
    exact ih (fun b hb m hm => hsame b (by
      rcases List.mem_append.mp hb with e | e
      · exact List.mem_append_left _ (List.mem_cons_of_mem _ e)
      · exact List.mem_append_right _ e) m hm) _ hrest

/-- The predecessors `find_node` records: at every level a block of the chain that is the
head or has a cached key below `key`, and whose successor at that level does not let the
inner loop go on. -/
theorem findNodeLevels_preds {h : Heap} {cs : List Nat} {p : Option Nat} (key : Int) (s : Nat)
    (hc : isChain h p cs = true)
    (hpw : (cs.map (maxKeyAt h)).Pairwise (fun x y => x < y)) (hlv : levelsOrdered h cs)
    (fuel : Nat) (hfuel : cs.length ≤ fuel) :
    ∀ (L : Nat), L ≤ SKIP_LIST_LEVELS → ∀ (cur : Nat) (acc : List Nat), cur ∈ cs →
      (cur = s ∨ maxKeyAt h cur < key) →
      ∃ lb1 : List Nat,
        findNodeLevels h key fuel L cur acc = .ok (lb1 ++ acc) ∧ lb1.length = L ∧
        ∀ l : Nat, l < L → ∃ q : Nat, lb1[l]? = some q ∧ q ∈ cs ∧
          (q = s ∨ maxKeyAt h q < key) ∧
          ∀ nx : Nat, fwdAt h q l = some nx →
            ¬ (maxKeyAt h nx < key ∧ (fwdAt h nx 0).isSome = true) := by
  intro L
  induction L with
  | zero =>
    intro _ cur acc _ _
    exact ⟨[], rfl, rfl, fun l hl => absurd hl (Nat.not_lt_zero _)⟩
  | succ L ih =>
    intro hL cur acc hcur hP
    obtain ⟨pre, post, hcs⟩ := List.append_of_mem hcur
    have hlen : post.length < fuel := by
      have : cs.length = pre.length + (post.length + 1) := by
        rw [hcs, List.length_append, List.length_cons]
      omega
    obtain ⟨w, hw, hwm, hwc, hstop⟩ :=
      findNodeWalk_spec key L (by omega) hc hpw hlv fuel pre cur post hcs hlen
    have hPw : w = s ∨ maxKeyAt h w < key := by
      rcases hwc with e | e
      · rw [e]
        exact hP
      · exact Or.inr e
    obtain ⟨lb2, hlb2, hlen2, hprops⟩ := ih (by omega) w (w :: acc) hwm hPw
    refine ⟨lb2 ++ [w], ?_, by rw [List.length_append, hlen2]; rfl, ?_⟩
    · rw [findNodeLevels]
      simp only [hw, ok_bind]
      rw [hlb2, List.append_assoc]
      rfl
    · intro l hl
      by_cases hlL : l < L
      · obtain ⟨q, hq, hrest⟩ := hprops l hlL
        refine ⟨q, ?_, hrest⟩
        rw [List.getElem?_append_left (by omega)]
        exact hq
      · have hlE : l = L := by omega
        subst hlE
        refine ⟨w, ?_, hwm, hPw, ?_⟩
        · rw [List.getElem?_append_right (by omega), hlen2]
          simp
        · intro nx hf
          obtain ⟨nw, hnw, hfn⟩ := live_of_fwdAt hf
          obtain ⟨hnxm, _⟩ := hlv l (by omega) w hwm nw hnw nx hfn
          obtain ⟨m, hm⟩ := isChain_live cs p hc nx hnxm
          have := hstop nw hnw nx hfn m hm
          rw [(views_live hm).1, (views_live hm).2.2.2 0]
          exact this

/-- The result of `find_node` on a routed chain: the target the routing names, and the
recorded predecessors. -/
theorem find_node_preds {h : Heap} {cs : List Nat} {s t : Nat} {lb : List Nat} {key : Int}
    (hc : isChain h (some s) cs = true) (hlv : levelsOrdered h cs)
    (hf : find_node h (some s) key = .ok (t, lb)) :
    routeTarget h key cs = some t ∧ lb.length = SKIP_LIST_LEVELS ∧
    ∀ l : Nat, l < SKIP_LIST_LEVELS → ∃ q : Nat, lb[l]? = some q ∧ q ∈ cs ∧
      (q = s ∨ maxKeyAt h q < key) ∧
      ∀ nx : Nat, fwdAt h q l = some nx →
        ¬ (maxKeyAt h nx < key ∧ (fwdAt h nx 0).isSome = true) := by
  have hpw : (cs.map (maxKeyAt h)).Pairwise (fun x y => x < y) := by
    apply chain_max_pairwise cs (some s) hc
    intro b hb n hn nx hnx
    exact (hlv 0 (by decide) b hb n hn nx hnx).2
  have hnd : cs.Nodup := by
    have h1 : (cs.map (maxKeyAt h)).Nodup := hpw.imp (fun hlt => ne_of_lt hlt)
    exact List.Nodup.of_map _ h1
  have hlen : cs.length ≤ h.length := isChain_length_le cs h (some s) hc hnd
  obtain ⟨rest0, hrest0⟩ := isChain_head hc
  have hs : s ∈ cs := by
    rw [hrest0]
    exact List.mem_cons_self _ _
  obtain ⟨t2, lb2, hf2, hroute⟩ := find_node_route s key hc hlv
  rw [hf] at hf2
  simp only [Except.ok.injEq, Prod.mk.injEq] at hf2
  obtain ⟨lb1, hlb1, hlen1, hprops⟩ :=
    findNodeLevels_preds key s hc hpw hlv (h.length + 1) (by omega) SKIP_LIST_LEVELS
      (le_refl _) s [] hs (Or.inl rfl)
  have hlb : lb = lb1 := by
    unfold find_node at hf
    simp only [hlb1, List.append_nil, ok_bind, bind_eq_ok] at hf
    obtain ⟨n0, _, hf⟩ := hf
    split at hf
    · split at hf <;>
        · simp only [pure, Except.pure, Except.ok.injEq, Prod.mk.injEq] at hf
          exact hf.2.symm
    · simp only [pure, Except.pure, Except.ok.injEq, Prod.mk.injEq] at hf
      exact hf.2.symm
  rw [hlb, hf2.1]
  exact ⟨hroute, hlen1, hprops⟩

/-- The block the routing names: the blocks in front of it have cached keys below `key`,
and it has a cached key of at least `key` or is the last block. -/
theorem routeTarget_split {h : Heap} {cs : List Nat} {key : Int} {t : Nat}
    (hr : routeTarget h key cs = some t) :
    ∃ pre post : List Nat, cs = pre ++ t :: post ∧ (∀ b ∈ pre, maxKeyAt h b < key) ∧
      (key ≤ maxKeyAt h t ∨ (post = [] ∧ maxKeyAt h t < key)) := by
  unfold routeTarget at hr
  cases hf : cs.find? (fun b => decide (key ≤ maxKeyAt h b)) with
  | some b =>
    rw [hf] at hr
    simp only [Option.some.injEq] at hr
    subst hr
    obtain ⟨hb, pre, post, hcs, hpre⟩ := List.find?_eq_some.mp hf
    refine ⟨pre, post, hcs, ?_, Or.inl (by simpa using hb)⟩
    intro a ha
    have := hpre a ha
    simpa using this
  | none =>
    rw [hf] at hr
    dsimp only at hr
    obtain ⟨pre, hcs⟩ := List.getLast?_eq_some_iff.mp hr
    have hall := List.find?_eq_none.mp hf
    refine ⟨pre, [], hcs, ?_, Or.inr ⟨rfl, ?_⟩⟩
    · intro a ha
      have := hall a (by rw [hcs]; exact List.mem_append_left _ ha)
      simpa using this
    · have := hall t (by rw [hcs]; simp)
      simpa using this

/-- In a routed chain the cached keys ascend along the chain. -/
theorem Routed.max_pairwise {h : Heap} {s : Nat} {cs : List Nat} (hR : Routed h s cs) :
    (cs.map (maxKeyAt h)).Pairwise (fun x y => x < y) := by
  apply chain_max_pairwise cs (some s) hR.chain
  intro b hb n hn nx hnx
  exact (hR.levels 0 (by decide) b hb n hn nx hnx).2

/-- The blocks of a routed chain are pairwise distinct. -/
theorem Routed.nodup {h : Heap} {s : Nat} {cs : List Nat} (hR : Routed h s cs) : cs.Nodup := by
  have h1 : (cs.map (maxKeyAt h)).Nodup := hR.max_pairwise.imp (fun hlt => ne_of_lt hlt)
  exact List.Nodup.of_map _ h1

/-- The block `t` of a chain without repetition occurs at one place only. -/
theorem nodup_split {cs pre post : List Nat} {t : Nat} (hnd : cs.Nodup)
    (hcs : cs = pre ++ t :: post) : t ∉ pre ∧ t ∉ post ∧ ∀ a ∈ pre, a ∉ post := by
  rw [hcs, List.nodup_append, List.nodup_cons] at hnd
  obtain ⟨_, ⟨h2, _⟩, h3⟩ := hnd
  refine ⟨?_, h2, ?_⟩
  · intro ht
    exact h3 ht (List.mem_cons_self _ _)
  · intro a ha hp
    exact h3 ha (List.mem_cons_of_mem _ hp)

/-- Replacing the block `t` of a routed chain by a block with the same links keeps the
chain routed when the cached key does not decrease (and grows only in the last block),
the keys of the new block ascend and lie above the cached keys of the blocks in front of
`t`, and the new cached key is the last key (once the chain has more than one block). -/
theorem Routed.replace {h : Heap} {s : Nat} {cs pre post : List Nat} {t : Nat} {tn tn1 : Node}
    (hR : Routed h s cs) (hcs : cs = pre ++ t :: post) (ht : h[t]? = some (some tn))
    (hfw : tn1.forward = tn.forward) (hmax : tn.m_max_key ≤ tn1.m_max_key)
    (hmax2 : tn1.m_max_key ≠ tn.m_max_key → post = [])
    (hkeys : ∀ k ∈ tn1.live.map Entry.key, ∀ b ∈ pre, maxKeyAt h b < k)
    (hsorted : (tn1.live.map Entry.key).Pairwise (fun x y => x < y))
    (hexact : 1 < cs.length → (tn1.live.map Entry.key).getLast? = some tn1.m_max_key) :
    Routed (h.store t tn1) s cs := by
  have htl : t < h.length := lt_of_getElem? ht
  have hv1 : (h.store t tn1)[t]? = some (some tn1) := by
    rw [store_getElem? _ _ _ _ htl, if_pos rfl]
  have hvo : ∀ b : Nat, b ≠ t → (h.store t tn1)[b]? = h[b]? := by
    intro b hb
    rw [store_getElem? _ _ _ _ htl, if_neg (Ne.symm hb)]
  obtain ⟨m1, e1, k1, f1⟩ := views_live hv1
  obtain ⟨m0, e0, k0, f0⟩ := views_live ht
  have hfwd : ∀ b l : Nat, fwdAt (h.store t tn1) b l = fwdAt h b l := by
    intro b l
    by_cases hb : b = t
    · rw [hb, f1, f0]
      show tn1.forward.getD l none = tn.forward.getD l none
      rw [hfw]
    · exact (views_congr (hvo b hb)).2.2.2 l
  have hmx : ∀ b : Nat, b ≠ t → maxKeyAt (h.store t tn1) b = maxKeyAt h b :=
    fun b hb => (views_congr (hvo b hb)).1
  have hky : ∀ b : Nat, b ≠ t → blockKeys (h.store t tn1) b = blockKeys h b :=
    fun b hb => (views_congr (hvo b hb)).2.2.1
  have hpw := hR.max_pairwise
  obtain ⟨htpre, htpost, hdisj⟩ := nodup_split hR.nodup hcs
  have hle : ∀ b : Nat, maxKeyAt h b ≤ maxKeyAt (h.store t tn1) b := by
    intro b
    by_cases hb : b = t
    · rw [hb, m1, m0]
      exact hmax
    · rw [hmx b hb]
  refine ⟨?_, ?_, ?_, ?_, ?_⟩
  · apply isChain_congr cs _ _ hR.chain
    intro a _ n hn
    by_cases ha : a = t
    · subst ha
      rw [ht] at hn
      simp only [Option.some.injEq] at hn
      subst hn
      exact ⟨tn1, hv1, by show tn1.forward.getD 0 none = tn.forward.getD 0 none; rw [hfw]⟩
    · exact ⟨n, by rw [hvo a ha]; exact hn, rfl⟩
  · rw [levelsOrdered_iff]
    intro l hl b hb nx hf
    rw [hfwd] at hf
    obtain ⟨hnx, hlt⟩ := levelsOrdered_iff.mp hR.levels l hl b hb nx hf
    refine ⟨hnx, ?_⟩
    by_cases hbt : b = t
    · subst hbt
      have hnxp : nx ∈ post := later_of_max_lt hcs hpw hnx hlt
      have hne : nx ≠ b := fun e => htpost (e ▸ hnxp)
      have hsame : tn1.m_max_key = tn.m_max_key := by
        by_contra hc
        rw [hmax2 hc] at hnxp
        simp at hnxp
      rw [m1, hsame, ← m0, hmx nx hne]
      exact hlt
    · rw [hmx b hbt]
      exact lt_of_lt_of_le hlt (hle nx)
  · intro hlen b hb
    by_cases hbt : b = t
    · rw [hbt, k1, m1]
      exact hexact hlen
    · rw [hky b hbt, hmx b hbt]
      exact hR.exact hlen b hb
  · have ho := hR.order
    unfold blocksOrdered at ho ⊢
    rw [hcs, List.pairwise_append, List.pairwise_cons] at ho ⊢
    obtain ⟨o1, ⟨o2, o3⟩, o4⟩ := ho
    refine ⟨?_, ⟨?_, ?_⟩, ?_⟩
    · refine o1.imp_of_mem ?_
      intro a b ha hb hab k hk
      have hat : a ≠ t := fun e => htpre (e ▸ ha)
      have hbt : b ≠ t := fun e => htpre (e ▸ hb)
      rw [hky b hbt] at hk
      rw [hmx a hat]
      exact hab k hk
    · intro b hb k hk
      have hbt : b ≠ t := fun e => htpost (e ▸ hb)
      rw [hky b hbt] at hk
      have hsame : tn1.m_max_key = tn.m_max_key := by
        by_contra hc
        rw [hmax2 hc] at hb
        simp at hb
      rw [m1, hsame, ← m0]
      exact o2 b hb k hk
    · refine o3.imp_of_mem ?_
      intro a b ha hb hab k hk
      have hat : a ≠ t := fun e => htpost (e ▸ ha)
      have hbt : b ≠ t := fun e => htpost (e ▸ hb)
      rw [hky b hbt] at hk
      rw [hmx a hat]
      exact hab k hk
    · intro a ha b hb k hk
      have hat : a ≠ t := fun e => htpre (e ▸ ha)
      rw [hmx a hat]
      rcases List.mem_cons.mp hb with e | e
      · rw [e, k1] at hk
        exact hkeys k hk a ha
      · have hbt : b ≠ t := fun e2 => htpost (e2 ▸ e)
        rw [hky b hbt] at hk
        exact o4 a ha b hb k hk
  · intro b hb
    by_cases hbt : b = t
    · rw [hbt, k1]
      exact hsorted
    · rw [hky b hbt]
      exact hR.sorted b hb

/-- Reading a heap after a block was updated. -/
theorem modify_getElem? {h h1 : Heap} {a : Nat} {f : Node → Node}
    (hm : h.modify (some a) f = .ok h1) :
    ∃ n : Node, h[a]? = some (some n) ∧
      ∀ b : Nat, h1[b]? = if a = b then some (some (f n)) else h[b]? := by
  obtain ⟨a1, n, ea, hn, eh⟩ := modify_ok hm
  simp only [Option.some.injEq] at ea
  subst ea
  refine ⟨n, hn, ?_⟩
  intro b
  rw [eh, store_getElem? _ _ _ _ (lt_of_getElem? hn)]

/-- Level links of a block after one of them was assigned. -/
theorem setFwd_fwd (n : Node) (l l1 : Nat) (x : Option Nat) (hl : l < n.forward.length) :
    (n.setFwd l x).fwd l1 = if l1 = l then x else n.fwd l1 := by
  unfold Node.setFwd Node.fwd
  simp only [List.getD_eq_getElem?_getD]
  by_cases e : l1 = l
  · subst e
    rw [if_pos rfl, List.getElem?_set_self hl]
    rfl
  · rw [if_neg e, List.getElem?_set_ne (Ne.symm e)]

/-- Views of a heap after a level link of a block was assigned. -/
theorem modify_setFwd_views {h h1 : Heap} {a l : Nat} {x : Option Nat}
    (hnf : ∀ (b : Nat) (n : Node), h[b]? = some (some n) →
      n.forward.length = SKIP_LIST_LEVELS) (hl : l < SKIP_LIST_LEVELS)
    (hm : h.modify (some a) (fun n => n.setFwd l x) = .ok h1) :
    (∀ (b : Nat) (n : Node), h1[b]? = some (some n) → n.forward.length = SKIP_LIST_LEVELS) ∧
    (∀ b : Nat, maxKeyAt h1 b = maxKeyAt h b ∧ blockEntries h1 b = blockEntries h b ∧
      blockKeys h1 b = blockKeys h b ∧
      ((∃ n : Node, h1[b]? = some (some n)) ↔ ∃ n : Node, h[b]? = some (some n))) ∧
    (∀ b l1 : Nat, fwdAt h1 b l1 = if b = a ∧ l1 = l then x else fwdAt h b l1) := by
  obtain ⟨n, hn, hget⟩ := modify_getElem? hm
  have hnl := hnf a n hn
  have hva : h1[a]? = some (some (n.setFwd l x)) := by rw [hget a, if_pos rfl]
  have hvo : ∀ b : Nat, b ≠ a → h1[b]? = h[b]? := by
    intro b hb
    rw [hget b, if_neg (Ne.symm hb)]
  refine ⟨?_, ?_, ?_⟩
  · intro b m hm1
    by_cases hb : b = a
    · rw [hb, hva] at hm1
      simp only [Option.some.injEq] at hm1
      rw [← hm1]
      show (n.forward.set l x).length = _
      rw [List.length_set]
      exact hnl
    · rw [hvo b hb] at hm1
      exact hnf b m hm1
  · intro b
    by_cases hb : b = a
    · rw [hb]
      obtain ⟨m1, e1, k1, _⟩ := views_live hva
      obtain ⟨m0, e0, k0, _⟩ := views_live hn
      rw [m1, e1, k1, m0, e0, k0]
      exact ⟨rfl, rfl, rfl, ⟨fun _ => ⟨n, hn⟩, fun _ => ⟨_, hva⟩⟩⟩
    · obtain ⟨c1, c2, c3, _⟩ := views_congr (hvo b hb)
      refine ⟨c1, c2, c3, ?_⟩
      rw [hvo b hb]
  · intro b l1
    by_cases hb : b = a
    · rw [hb, (views_live hva).2.2.2 l1, (views_live hn).2.2.2 l1,
        setFwd_fwd n l l1 x (by rw [hnl]; exact hl)]
      by_cases e : l1 = l
      · rw [if_pos e, if_pos ⟨rfl, e⟩]
      · rw [if_neg e, if_neg (fun hc => e hc.2)]
    · rw [(views_congr (hvo b hb)).2.2.2 l1, if_neg (fun hc => hb hc.1)]

/-- The links the splicing loop produces at a level depend on the links of that level
only. -/
theorem spliceFwd_congr (height t nw : Nat) (lb : List Nat) {g g1 : Heap} {l : Nat}
    (hsame : ∀ b : Nat, fwdAt g1 b l = fwdAt g b l) (b : Nat) :
    spliceFwd height t nw lb g1 l b = spliceFwd height t nw lb g l b := by
  unfold spliceFwd
  simp only [hsame]

/-- Effect of the splicing loop of `insert` on the views of the heap: cached keys and
entries stay, and the links of the levels it handles are those of `spliceFwd`. -/
theorem spliceLevels_views (height t nw : Nat) (lb : List Nat) :
    ∀ (cnt l : Nat) (g g1 : Heap), l + cnt ≤ SKIP_LIST_LEVELS →
      (∀ (b : Nat) (n : Node), g[b]? = some (some n) →
        n.forward.length = SKIP_LIST_LEVELS) →
      spliceLevels height t nw lb cnt l g = .ok g1 →
      (∀ (b : Nat) (n : Node), g1[b]? = some (some n) →
        n.forward.length = SKIP_LIST_LEVELS) ∧
      (∀ b : Nat, maxKeyAt g1 b = maxKeyAt g b ∧ blockEntries g1 b = blockEntries g b ∧
        blockKeys g1 b = blockKeys g b ∧
        ((∃ n : Node, g1[b]? = some (some n)) ↔ ∃ n : Node, g[b]? = some (some n))) ∧
      (∀ b l1 : Nat, fwdAt g1 b l1 =
        if l ≤ l1 ∧ l1 < l + cnt then spliceFwd height t nw lb g l1 b else fwdAt g b l1) := by
  intro cnt
  induction cnt with
  | zero =>
    intro l g g1 _ hnf hs
    simp only [spliceLevels, Except.ok.injEq] at hs
    subst hs
    refine ⟨hnf, fun b => ⟨rfl, rfl, rfl, Iff.rfl⟩, ?_⟩
    intro b l1
    rw [if_neg (by omega)]
  | succ cnt ih =>
    intro l g g1 hl hnf hs
    have hl6 : l < SKIP_LIST_LEVELS := by omega
    -- one pass of the loop
    have step : ∃ g2 : Heap, spliceLevels height t nw lb cnt (l + 1) g2 = .ok g1 ∧
        (∀ (b : Nat) (n : Node), g2[b]? = some (some n) →
          n.forward.length = SKIP_LIST_LEVELS) ∧
        (∀ b : Nat, maxKeyAt g2 b = maxKeyAt g b ∧ blockEntries g2 b = blockEntries g b ∧
          blockKeys g2 b = blockKeys g b ∧
          ((∃ n : Node, g2[b]? = some (some n)) ↔ ∃ n : Node, g[b]? = some (some n))) ∧
        (∀ b l1 : Nat, fwdAt g2 b l1 =
          if l1 = l then spliceFwd height t nw lb g l b else fwdAt g b l1) := by
      unfold spliceLevels at hs
      split at hs
      · rename_i hlt
        simp only [bind_eq_ok] at hs
        obtain ⟨pn, hpn, hs⟩ := hs
        have hpn := load_eq_ok.mp hpn
        have hfp : fwdAt g (lb.getD l t) l = pn.fwd l := (views_live hpn).2.2.2 l
        split at hs
        · rename_i hbr
          simp only [bind_eq_ok] at hs
          obtain ⟨g0, hg0, g2, hg2, hs⟩ := hs
          obtain ⟨n0, v0, f0⟩ := modify_setFwd_views hnf hl6 hg0
          obtain ⟨n2, v2, f2⟩ := modify_setFwd_views n0 hl6 hg2
          refine ⟨g2, hs, n2, ?_, ?_⟩
          · intro b
            obtain ⟨a1, a2, a3, a4⟩ := v2 b
            obtain ⟨b1, b2, b3, b4⟩ := v0 b
            exact ⟨a1.trans b1, a2.trans b2, a3.trans b3, a4.trans b4⟩
          · intro b l1
            rw [f2, f0]
            unfold spliceFwd
            rw [if_pos hlt, hfp, if_pos hbr]
            by_cases e : l1 = l
            · subst e
              by_cases hb : b = lb.getD l1 t
              · rw [if_pos ⟨hb, rfl⟩, if_pos rfl, if_pos hb]
              · rw [if_neg (fun hc => hb hc.1), if_pos rfl, if_neg hb]
                by_cases hb2 : b = nw
                · rw [if_pos ⟨hb2, rfl⟩, if_pos hb2]
                · rw [if_neg (fun hc => hb2 hc.1), if_neg hb2]
            · rw [if_neg (fun hc => e hc.2), if_neg (fun hc => e hc.2), if_neg e]
        · rename_i hbr
          have hbr2 : pn.fwd l = some t := by
            by_contra hc
            exact hbr hc
          simp only [bind_eq_ok] at hs
          obtain ⟨tn, htn, g0, hg0, g2, hg2, hs⟩ := hs
          have htn := load_eq_ok.mp htn
          have hft : fwdAt g t l = tn.fwd l := (views_live htn).2.2.2 l
          obtain ⟨n0, v0, f0⟩ := modify_setFwd_views hnf hl6 hg0
          obtain ⟨n2, v2, f2⟩ := modify_setFwd_views n0 hl6 hg2
          refine ⟨g2, hs, n2, ?_, ?_⟩
          · intro b
            obtain ⟨a1, a2, a3, a4⟩ := v2 b
            obtain ⟨b1, b2, b3, b4⟩ := v0 b
            exact ⟨a1.trans b1, a2.trans b2, a3.trans b3, a4.trans b4⟩
          · intro b l1
            rw [f2, f0]
            unfold spliceFwd
            rw [if_pos hlt, hfp, if_neg (not_not.mpr hbr2), hft]
            by_cases e : l1 = l
            · subst e
              by_cases hb : b = t
              · rw [if_pos ⟨hb, rfl⟩, if_pos rfl, if_pos hb]
              · rw [if_neg (fun hc => hb hc.1), if_pos rfl, if_neg hb]
                by_cases hb2 : b = nw
                · rw [if_pos ⟨hb2, rfl⟩, if_pos hb2]
                · rw [if_neg (fun hc => hb2 hc.1), if_neg hb2]
            · rw [if_neg (fun hc => e hc.2), if_neg (fun hc => e hc.2), if_neg e]
      · rename_i hlt
        simp only [bind_eq_ok] at hs
        obtain ⟨g2, hg2, hs⟩ := hs
        obtain ⟨n2, v2, f2⟩ := modify_setFwd_views hnf hl6 hg2
        refine ⟨g2, hs, n2, v2, ?_⟩
        intro b l1
        rw [f2]
        unfold spliceFwd
        rw [if_neg hlt]
        by_cases e : l1 = l
        · subst e
          by_cases hb2 : b = nw
          · rw [if_pos ⟨hb2, rfl⟩, if_pos rfl, if_pos hb2]
          · rw [if_neg (fun hc => hb2 hc.1), if_pos rfl, if_neg hb2]
        · rw [if_neg (fun hc => e hc.2), if_neg e]
    obtain ⟨g2, hs2, n2, v2, f2⟩ := step
    obtain ⟨n1, v1, f1⟩ := ih (l + 1) g2 g1 (by omega) n2 hs2
    refine ⟨n1, ?_, ?_⟩
    · intro b
      obtain ⟨a1, a2, a3, a4⟩ := v1 b
      obtain ⟨b1, b2, b3, b4⟩ := v2 b
      exact ⟨a1.trans b1, a2.trans b2, a3.trans b3, a4.trans b4⟩
    · intro b l1
      rw [f1]
      by_cases hin : l + 1 ≤ l1 ∧ l1 < l + 1 + cnt
      · rw [if_pos hin, if_pos (by omega)]
        apply spliceFwd_congr
        intro b2
        rw [f2, if_neg (by omega)]
      · rw [if_neg hin, f2]
        by_cases e : l1 = l
        · rw [if_pos e, if_pos (by omega), e]
        · rw [if_neg e, if_neg (by omega)]

/-- Splitting a full block of 256 entries: both halves get the key of their last entry as
cached `max_key`; this block keeps its links, the new block has none. -/
theorem split_into_exact {tn tn1 nn1 : Node} (hs : tn.sorted) (hfull : tn.size = 256)
    (h : tn.split_into (Node.new 256) = .ok (tn1, nn1)) :
    tn1.forward = tn.forward ∧ nn1.forward = List.replicate SKIP_LIST_LEVELS none ∧
    (tn1.live.map Entry.key).getLast? = some tn1.m_max_key ∧
    (nn1.live.map Entry.key).getLast? = some nn1.m_max_key := by
  obtain ⟨_, _, l1, l2⟩ := split_sorted hs hfull h
  obtain ⟨hsz, hp⟩ := hs
  unfold Node.split_into at h
  simp only [bind_eq_ok] at h
  obtain ⟨upper, hup, od, hod, ol, hol, l, hl, h⟩ := h
  simp only [pure, Except.pure, Except.ok.injEq, Prod.mk.injEq] at h
  obtain ⟨h1, h2⟩ := h
  rw [slice_eq _ _ _ hsz, hfull] at hup
  simp only [Except.ok.injEq] at hup
  have hup2 : (tn.data.drop 128).take 128 = upper := hup
  have hnew : (Node.new 256).data.length = 256 := by
    simp only [Node.new, List.length_replicate]
  have hul : upper.length = 128 := by
    rw [← hup2, List.length_take, List.length_drop]
    omega
  rw [copyInto_eq _ _ _ (by rw [hul, hnew]; omega), hul] at hod
  simp only [Except.ok.injEq, List.take_zero, List.nil_append] at hod
  have hodl : 128 ≤ od.length := by
    rw [← hod, List.length_append, hul]
    omega
  have hs1 : tn.size - tn.size / 2 = 128 := by rw [hfull]
  have hs2 : ((Node.new 256).size + tn.size / 2) % U16 = 128 := by
    rw [hfull]
    rfl
  rw [hs1] at hl
  rw [hs2] at hol
  obtain ⟨e1, he1, hg1⟩ := readLast_getLast tn.data 128 (by omega) (by omega)
  obtain ⟨e2, he2, hg2⟩ := readLast_getLast od 128 (by omega) hodl
  rw [hl] at he1
  rw [hol] at he2
  simp only [Except.ok.injEq] at he1 he2
  subst he1 he2
  have hlive1 : tn1.live = tn.data.take 128 := by
    rw [← h1]
    show tn.data.take (tn.size - tn.size / 2) = _
    rw [hs1]
  have hlive2 : nn1.live = od.take 128 := by
    rw [← h2]
    show od.take (((Node.new 256).size + tn.size / 2) % U16) = _
    rw [hs2]
  refine ⟨by rw [← h1], by rw [← h2]; rfl, ?_, ?_⟩
  · rw [List.getLast?_map, hlive1, hg1, ← h1]
    rfl
  · rw [List.getLast?_map, hlive2, hg2, ← h2]
    rfl

/-- Views of a heap after an update of a block that keeps links, cached key, size and
storage (an update of `prev`). -/
theorem modify_frame_views {h h1 : Heap} {p : Option Nat} {f : Node → Node}
    (hf : ∀ n : Node, (f n).forward = n.forward ∧ (f n).m_max_key = n.m_max_key ∧
      (f n).size = n.size ∧ (f n).data = n.data)
    (hm : h.modify p f = .ok h1) :
    ∀ b : Nat,
      (∀ n1 : Node, h1[b]? = some (some n1) → ∃ n : Node, h[b]? = some (some n) ∧
        n1.forward = n.forward) ∧
      maxKeyAt h1 b = maxKeyAt h b ∧ blockEntries h1 b = blockEntries h b ∧
      blockKeys h1 b = blockKeys h b ∧
      ((∃ n : Node, h1[b]? = some (some n)) ↔ ∃ n : Node, h[b]? = some (some n)) ∧
      ∀ l : Nat, fwdAt h1 b l = fwdAt h b l := by
  obtain ⟨a, n, ea, hn, eh⟩ := modify_ok hm
  intro b
  obtain ⟨f1, f2, f3, f4⟩ := hf n
  by_cases hb : b = a
  · have hva : h1[b]? = some (some (f n)) := by
      rw [eh, hb, store_getElem? _ _ _ _ (lt_of_getElem? hn), if_pos rfl]
    rw [← hb] at hn
    obtain ⟨m1, e1, k1, g1⟩ := views_live hva
    obtain ⟨m0, e0, k0, g0⟩ := views_live hn
    have hlive : (f n).live = n.live := by
      show (f n).data.take (f n).size = n.data.take n.size
      rw [f3, f4]
    refine ⟨?_, ?_, ?_, ?_, ⟨fun _ => ⟨n, hn⟩, fun _ => ⟨_, hva⟩⟩, ?_⟩
    · intro n1 hn1
      rw [hva] at hn1
      simp only [Option.some.injEq] at hn1
      exact ⟨n, hn, by rw [← hn1, f1]⟩
    · rw [m1, m0, f2]
    · rw [e1, e0, hlive]
    · rw [k1, k0, hlive]
    · intro l
      rw [g1, g0]
      show (f n).forward.getD l none = n.forward.getD l none
      rw [f1]
  · have hvo : h1[b]? = h[b]? := by
      rw [eh, store_getElem? _ _ _ _ (lt_of_getElem? hn), if_neg (Ne.symm hb)]
    obtain ⟨c1, c2, c3, c4⟩ := views_congr hvo
    refine ⟨?_, c1, c2, c3, by rw [hvo], c4⟩
    intro n1 hn1
    rw [hvo] at hn1
    exact ⟨n1, hn1, rfl⟩

/-- Views of the heap after `insert` split the full block `t` and linked the new block in
behind it at level 0. -/
theorem split_relink_views {h h2 h3 h4 : Heap} {t : Nat} {tn tn1 nn1 : Node}
    (hnf : ∀ (b : Nat) (n : Node), h[b]? = some (some n) →
      n.forward.length = SKIP_LIST_LEVELS)
    (ht : h[t]? = some (some tn)) (hf1 : tn1.forward = tn.forward)
    (hf2 : nn1.forward = List.replicate SKIP_LIST_LEVELS none)
    (e2 : (h.store t tn1 ++ [some nn1]).modify (some h.length)
      (fun x => { x.setFwd 0 (tn1.fwd 0) with prev := some t }) = .ok h2)
    (e3 : (match tn1.fwd 0 with
      | some nx => h2.modify (some nx) (fun x => { x with prev := some h.length })
      | none => pure h2) = .ok h3)
    (e4 : h3.modify (some t) (fun x => x.setFwd 0 (some h.length)) = .ok h4) :
    (∀ (b : Nat) (n : Node), h4[b]? = some (some n) →
      n.forward.length = SKIP_LIST_LEVELS) ∧
    (∀ b : Nat, (∃ n : Node, h4[b]? = some (some n)) ↔
      (b = h.length ∨ ∃ n : Node, h[b]? = some (some n))) ∧
    (∀ b : Nat, maxKeyAt h4 b =
      if b = t then tn1.m_max_key else if b = h.length then nn1.m_max_key
      else maxKeyAt h b) ∧
    (∀ b : Nat, blockKeys h4 b =
      if b = t then tn1.live.map Entry.key
      else if b = h.length then nn1.live.map Entry.key else blockKeys h b) ∧
    (∀ b l : Nat, fwdAt h4 b l =
      if l = 0 then (if b = t then some h.length
        else if b = h.length then tn.fwd 0 else fwdAt h b 0)
      else (if b = h.length then none else fwdAt h b l)) := by
  have htl : t < h.length := lt_of_getElem? ht
  have htne : t ≠ h.length := by omega
  -- the heap after the split
  have g1 : ∀ b : Nat, (h.store t tn1 ++ [some nn1])[b]? =
      if b = h.length then some (some nn1) else if t = b then some (some tn1) else h[b]? := by
    intro b
    have hlen : (h.store t tn1).length = h.length := by
      simp only [Heap.store, List.length_set]
    rw [snoc_getElem?, hlen, store_getElem? _ _ _ _ htl]
  obtain ⟨n2, hn2, g2⟩ := modify_getElem? e2
  rw [g1, if_pos rfl] at hn2
  simp only [Option.some.injEq] at hn2
  rw [← hn2] at g2
  clear hn2 n2
  obtain ⟨nwB, hnwB⟩ : ∃ x : Node, x = { nn1.setFwd 0 (tn1.fwd 0) with prev := some t } :=
    ⟨_, rfl⟩
  -- the update of `prev` changes no view
  have v3 : ∀ b : Nat,
      (∀ n1 : Node, h3[b]? = some (some n1) → ∃ n : Node, h2[b]? = some (some n) ∧
        n1.forward = n.forward) ∧
      maxKeyAt h3 b = maxKeyAt h2 b ∧ blockEntries h3 b = blockEntries h2 b ∧
      blockKeys h3 b = blockKeys h2 b ∧
      ((∃ n : Node, h3[b]? = some (some n)) ↔ ∃ n : Node, h2[b]? = some (some n)) ∧
      ∀ l : Nat, fwdAt h3 b l = fwdAt h2 b l := by
    cases hfx : tn1.fwd 0 with
    | none =>
      rw [hfx] at e3
      simp only [pure, Except.pure, Except.ok.injEq] at e3
      subst e3
      intro b
      exact ⟨fun n1 hn1 => ⟨n1, hn1, rfl⟩, rfl, rfl, rfl, Iff.rfl, fun _ => rfl⟩
    | some nx =>
      rw [hfx] at e3
      dsimp only at e3
      exact @modify_frame_views h2 h3 (some nx) (fun x => { x with prev := some h.length })
        (fun n => ⟨rfl, rfl, rfl, rfl⟩) e3
  -- slots of `h2`
  have s2n : h2[h.length]? = some (some nwB) := by
    rw [g2, if_pos rfl, hnwB]
  have s2t : h2[t]? = some (some tn1) := by
    rw [g2, if_neg (Ne.symm htne), g1, if_neg htne, if_pos rfl]
  have s2o : ∀ b : Nat, b ≠ t → b ≠ h.length → h2[b]? = h[b]? := by
    intro b hb1 hb2
    rw [g2, if_neg (Ne.symm hb2), g1, if_neg hb2, if_neg (Ne.symm hb1)]
  have hnl : nn1.forward.length = SKIP_LIST_LEVELS := by
    rw [hf2, List.length_replicate]
  have hnf2 : ∀ (b : Nat) (n : Node), h2[b]? = some (some n) →
      n.forward.length = SKIP_LIST_LEVELS := by
    intro b n hn
    by_cases hb2 : b = h.length
    · rw [hb2, s2n] at hn
      simp only [Option.some.injEq] at hn
      rw [← hn, hnwB]
      show (nn1.forward.set 0 (tn1.fwd 0)).length = _
      rw [List.length_set, hnl]
    · by_cases hb1 : b = t
      · rw [hb1, s2t] at hn
        simp only [Option.some.injEq] at hn
        rw [← hn, hf1]
        exact hnf t tn ht
      · rw [s2o b hb1 hb2] at hn
        exact hnf b n hn
  have hnf3 : ∀ (b : Nat) (n : Node), h3[b]? = some (some n) →
      n.forward.length = SKIP_LIST_LEVELS := by
    intro b n hn
    obtain ⟨m, hm, hfm⟩ := (v3 b).1 n hn
    rw [hfm]
    exact hnf2 b m hm
  obtain ⟨hnf4, v4, f4⟩ := modify_setFwd_views hnf3 (by decide) e4
  have hnone : ∀ l : Nat, nn1.fwd l = none := by
    intro l
    show nn1.forward.getD l none = none
    rw [hf2, List.getD_eq_getElem?_getD]
    by_cases hl : l < SKIP_LIST_LEVELS
    · rw [List.getElem?_replicate, if_pos hl]
      rfl
    · rw [List.getElem?_eq_none (by rw [List.length_replicate]; omega)]
      rfl
  refine ⟨hnf4, ?_, ?_, ?_, ?_⟩
  · intro b
    rw [(v4 b).2.2.2, (v3 b).2.2.2.2.1]
    by_cases hb2 : b = h.length
    · rw [hb2]
      exact ⟨fun _ => Or.inl rfl, fun _ => ⟨_, s2n⟩⟩
    · by_cases hb1 : b = t
      · rw [hb1]
        exact ⟨fun _ => Or.inr ⟨tn, ht⟩, fun _ => ⟨_, s2t⟩⟩
      · rw [s2o b hb1 hb2]
        exact ⟨fun hx => Or.inr hx, fun hx => hx.resolve_left hb2⟩
  · intro b
    rw [(v4 b).1, (v3 b).2.1]
    by_cases hb1 : b = t
    · rw [if_pos hb1, hb1, (views_live s2t).1]
    · rw [if_neg hb1]
      by_cases hb2 : b = h.length
      · rw [if_pos hb2, hb2, (views_live s2n).1, hnwB]
        rfl
      · rw [if_neg hb2, (views_congr (s2o b hb1 hb2)).1]
  · intro b
    rw [(v4 b).2.2.1, (v3 b).2.2.2.1]
    by_cases hb1 : b = t
    · rw [if_pos hb1, hb1, (views_live s2t).2.2.1]
    · rw [if_neg hb1]
      by_cases hb2 : b = h.length
      · rw [if_pos hb2, hb2, (views_live s2n).2.2.1, hnwB]
        rfl
      · rw [if_neg hb2, (views_congr (s2o b hb1 hb2)).2.2.1]
  · intro b l
    rw [f4, (v3 b).2.2.2.2.2 l]
    by_cases hl : l = 0
    · subst hl
      rw [if_pos rfl]
      by_cases hb1 : b = t
      · rw [if_pos ⟨hb1, rfl⟩, if_pos hb1]
      · rw [if_neg (fun hc => hb1 hc.1), if_neg hb1]
        by_cases hb2 : b = h.length
        · rw [if_pos hb2, hb2, (views_live s2n).2.2.2 0, hnwB]
          show (nn1.setFwd 0 (tn1.fwd 0)).fwd 0 = tn.fwd 0
          rw [setFwd_fwd nn1 0 0 _ (by rw [hnl]; decide), if_pos rfl]
          show tn1.forward.getD 0 none = tn.forward.getD 0 none
          rw [hf1]
        · rw [if_neg hb2, (views_congr (s2o b hb1 hb2)).2.2.2 0]
    · rw [if_neg (fun hc => hl hc.2), if_neg hl]
      by_cases hb2 : b = h.length
      · rw [if_pos hb2, hb2, (views_live s2n).2.2.2 l, hnwB]
        show (nn1.setFwd 0 (tn1.fwd 0)).fwd l = none
        rw [setFwd_fwd nn1 0 l _ (by rw [hnl]; decide), if_neg hl]
        exact hnone l
      · rw [if_neg hb2]
        by_cases hb1 : b = t
        · rw [hb1, (views_live s2t).2.2.2 l, (views_live ht).2.2.2 l]
          show tn1.forward.getD l none = tn.forward.getD l none
          rw [hf1]
        · rw [(views_congr (s2o b hb1 hb2)).2.2.2 l]

/-- The split of a full block keeps the chain routed: after `insert` split the block `t`
that `find_node` returned, linked the new block in at level 0 and spliced it into the
upper levels behind the recorded predecessors, the chain with the new block behind `t`
is routed, and the blocks hold the keys they held before. -/
theorem split_routed {h h2 h3 h4 h5 : Heap} {s t : Nat} {cs lb : List Nat} {key : Int}
    {tn tn1 nn1 : Node} (height : Nat) (hR : Routed h s cs)
    (hnf : ∀ (b : Nat) (n : Node), h[b]? = some (some n) →
      n.forward.length = SKIP_LIST_LEVELS)
    (hfind : find_node h (some s) key = .ok (t, lb)) (ht : h[t]? = some (some tn))
    (hsort : tn.sorted) (hfull : tn.size = 256)
    (hsp : tn.split_into (Node.new 256) = .ok (tn1, nn1))
    (e2 : (h.store t tn1 ++ [some nn1]).modify (some h.length)
      (fun x => { x.setFwd 0 (tn1.fwd 0) with prev := some t }) = .ok h2)
    (e3 : (match tn1.fwd 0 with
      | some nx => h2.modify (some nx) (fun x => { x with prev := some h.length })
      | none => pure h2) = .ok h3)
    (e4 : h3.modify (some t) (fun x => x.setFwd 0 (some h.length)) = .ok h4)
    (e5 : spliceLevels height t h.length lb (SKIP_LIST_LEVELS - 1) 1 h4 = .ok h5) :
    ∃ cs5 : List Nat, Routed h5 s cs5 ∧
      ∀ b ∈ cs5, ∀ k ∈ blockKeys h5 b, ∃ b0 ∈ cs, k ∈ blockKeys h b0 := by
  obtain ⟨hroute, hlblen, hpreds⟩ := find_node_preds hR.chain hR.levels hfind
  obtain ⟨pre, post, hcs, hsmall, hbig⟩ := routeTarget_split hroute
  obtain ⟨hf1, hf2, hx1, hx2⟩ := split_into_exact hsort hfull hsp
  obtain ⟨_, _, l1, l2⟩ := split_sorted hsort hfull hsp
  obtain ⟨hnf4, live4, max4, keys4, fwd4⟩ := split_relink_views hnf ht hf1 hf2 e2 e3 e4
  obtain ⟨hnf5, v5, fwd5⟩ :=
    spliceLevels_views height t h.length lb (SKIP_LIST_LEVELS - 1) 1 h4 h5 (by decide) hnf4 e5
  have hpw := hR.max_pairwise
  have hnd := hR.nodup
  obtain ⟨htpre, htpost, hdisj⟩ := nodup_split hnd hcs
  have hlo := levelsOrdered_iff.mp hR.levels
  have htcs : t ∈ cs := by rw [hcs]; simp
  have hltlen : ∀ a ∈ cs, a ≠ h.length := by
    intro a ha e
    have := isChain_lt_length cs h (some s) hR.chain a ha
    omega
  have htnw : t ≠ h.length := hltlen t htcs
  obtain ⟨mt, _, kt, ft⟩ := views_live ht
  -- the keys of the two halves
  have hKs : (blockKeys h t).Pairwise (fun x y => x < y) := hR.sorted t htcs
  have hKsplit : blockKeys h t
      = (tn.live.take 128).map Entry.key ++ (tn.live.drop 128).map Entry.key := by
    rw [kt, ← List.map_append, List.take_append_drop]
  rw [l1] at hx1
  rw [l2] at hx2
  have hm1 : tn1.m_max_key ∈ (tn.live.take 128).map Entry.key :=
    List.mem_of_getLast?_eq_some hx1
  have hm2 : nn1.m_max_key ∈ (tn.live.drop 128).map Entry.key :=
    List.mem_of_getLast?_eq_some hx2
  have hcross : ∀ a ∈ (tn.live.take 128).map Entry.key,
      ∀ b ∈ (tn.live.drop 128).map Entry.key, a < b := by
    rw [hKsplit, List.pairwise_append] at hKs
    exact hKs.2.2
  have hlast1 : ∀ a ∈ (tn.live.take 128).map Entry.key, a ≤ tn1.m_max_key := by
    intro a ha
    obtain ⟨ys, hys⟩ := List.getLast?_eq_some_iff.mp hx1
    have hp1 : ((tn.live.take 128).map Entry.key).Pairwise (fun x y => x < y) := by
      rw [hKsplit, List.pairwise_append] at hKs
      exact hKs.1
    rw [hys] at ha hp1
    rw [List.pairwise_append] at hp1
    rcases List.mem_append.mp ha with e | e
    · exact le_of_lt (hp1.2.2 a e _ (List.mem_singleton_self _))
    · simp only [List.mem_singleton] at e
      rw [e]
  have hA : tn1.m_max_key < nn1.m_max_key := hcross _ hm1 _ hm2
  have hk1 : ∀ k ∈ (tn.live.take 128).map Entry.key, k ∈ blockKeys h t := by
    intro k hk
    rw [hKsplit]
    exact List.mem_append_left _ hk
  have hk2 : ∀ k ∈ (tn.live.drop 128).map Entry.key, k ∈ blockKeys h t := by
    intro k hk
    rw [hKsplit]
    exact List.mem_append_right _ hk
  -- the views of the final heap
  have hmax5 : ∀ b : Nat, maxKeyAt h5 b =
      if b = t then tn1.m_max_key else if b = h.length then nn1.m_max_key
      else maxKeyAt h b := by
    intro b
    rw [(v5 b).1, max4]
  have hkeys5 : ∀ b : Nat, blockKeys h5 b =
      if b = t then (tn.live.take 128).map Entry.key
      else if b = h.length then (tn.live.drop 128).map Entry.key else blockKeys h b := by
    intro b
    rw [(v5 b).2.2.1, keys4, l1, l2]
  have hmo : ∀ b : Nat, b ≠ t → b ≠ h.length → maxKeyAt h5 b = maxKeyAt h b := by
    intro b h1 h2
    rw [hmax5, if_neg h1, if_neg h2]
  have hmt : maxKeyAt h5 t = tn1.m_max_key := by rw [hmax5, if_pos rfl]
  have hmn : maxKeyAt h5 h.length = nn1.m_max_key := by
    rw [hmax5, if_neg (Ne.symm htnw), if_pos rfl]
  have hko : ∀ b : Nat, b ≠ t → b ≠ h.length → blockKeys h5 b = blockKeys h b := by
    intro b h1 h2
    rw [hkeys5, if_neg h1, if_neg h2]
  have hkt : blockKeys h5 t = (tn.live.take 128).map Entry.key := by rw [hkeys5, if_pos rfl]
  have hkn : blockKeys h5 h.length = (tn.live.drop 128).map Entry.key := by
    rw [hkeys5, if_neg (Ne.symm htnw), if_pos rfl]
  -- order facts of the old chain
  have ho := hR.order
  unfold blocksOrdered at ho
  rw [hcs, List.pairwise_append, List.pairwise_cons] at ho
  obtain ⟨o1, ⟨o2, o3⟩, o4⟩ := ho
  have hB : ∀ b ∈ pre, ∀ k ∈ blockKeys h t, maxKeyAt h b < k :=
    fun b hb k hk => o4 b hb t (List.mem_cons_self _ _) k hk
  have hpremax : ∀ b ∈ pre, maxKeyAt h b < maxKeyAt h t := before_max_lt hcs hpw
  have hpostmax : ∀ b ∈ post, maxKeyAt h t < maxKeyAt h b := by
    intro b hb
    have hp := hpw
    rw [hcs, List.map_append, List.map_cons, List.pairwise_append, List.pairwise_cons] at hp
    exact hp.2.1.1 _ (List.mem_map_of_mem _ hb)
  -- with a block behind `t` the cached key of `t` was exact
  have hC : post ≠ [] → nn1.m_max_key = maxKeyAt h t := by
    intro hpne
    have hlen : 1 < cs.length := by
      rw [hcs, List.length_append, List.length_cons]
      have : 0 < post.length := List.length_pos.mpr hpne
      omega
    have hex := hR.exact hlen t htcs
    have hne2 : (tn.live.drop 128).map Entry.key ≠ [] := by
      intro e
      rw [e] at hm2
      simp at hm2
    rw [hKsplit, List.getLast?_append_of_ne_nil _ hne2, hx2] at hex
    exact Option.some.inj hex
  have hmem5 : ∀ x : Nat, x ∈ pre ++ t :: h.length :: post ↔ (x = h.length ∨ x ∈ cs) := by
    intro x
    rw [hcs]
    simp only [List.mem_append, List.mem_cons]
    constructor
    · rintro (e | e | e | e)
      · exact Or.inr (Or.inl e)
      · exact Or.inr (Or.inr (Or.inl e))
      · exact Or.inl e
      · exact Or.inr (Or.inr (Or.inr e))
    · rintro (e | e | e | e)
      · exact Or.inr (Or.inr (Or.inl e))
      · exact Or.inl e
      · exact Or.inr (Or.inl e)
      · exact Or.inr (Or.inr (Or.inr e))
  -- a link of the old heap, seen in the new one
  have hold : ∀ (l : Nat), l < SKIP_LIST_LEVELS → ∀ b ∈ cs, ∀ nx : Nat,
      fwdAt h b l = some nx →
      nx ∈ pre ++ t :: h.length :: post ∧ maxKeyAt h5 b < maxKeyAt h5 nx := by
    intro l hl b hb nx hf
    obtain ⟨hnx, hlt⟩ := hlo l hl b hb nx hf
    refine ⟨(hmem5 nx).mpr (Or.inr hnx), ?_⟩
    have hnxn := hltlen nx hnx
    have hbn := hltlen b hb
    by_cases hbt : b = t
    · subst hbt
      have hnxp : nx ∈ post := later_of_max_lt hcs hpw hnx hlt
      have hpne : post ≠ [] := List.ne_nil_of_mem hnxp
      have hnxt : nx ≠ b := fun e => htpost (e ▸ hnxp)
      rw [hmt, hmo nx hnxt hnxn]
      have := hC hpne
      omega
    · rw [hmo b hbt hbn]
      by_cases hnxt : nx = t
      · subst hnxt
        have hbpre : b ∈ pre := by
          rw [hcs] at hb
          rcases List.mem_append.mp hb with e | e
          · exact e
          · rcases List.mem_cons.mp e with e1 | e1
            · exact absurd e1 hbt
            · have := hpostmax b e1
              omega
        rw [hmt]
        exact hB b hbpre _ (hk1 _ hm1)
      · rw [hmo nx hnxt hnxn]
        exact hlt
  -- the link `nw -> Z` for a block `Z` behind `t`
  have hnewlink : ∀ Z ∈ post, h.length ∈ pre ++ t :: h.length :: post ∧
      Z ∈ pre ++ t :: h.length :: post ∧ maxKeyAt h5 h.length < maxKeyAt h5 Z := by
    intro Z hZ
    have hZcs : Z ∈ cs := by rw [hcs]; simp [hZ]
    refine ⟨(hmem5 _).mpr (Or.inl rfl), (hmem5 Z).mpr (Or.inr hZcs), ?_⟩
    have hZt : Z ≠ t := fun e => htpost (e ▸ hZ)
    rw [hmn, hmo Z hZt (hltlen Z hZcs), hC (List.ne_nil_of_mem hZ)]
    exact hpostmax Z hZ
  refine ⟨pre ++ t :: h.length :: post, ⟨?_, ?_, ?_, ?_, ?_⟩, ?_⟩
  · -- chain
    have hlive5 : ∀ b : Nat, (∃ n : Node, h5[b]? = some (some n)) ↔
        (b = h.length ∨ ∃ n : Node, h[b]? = some (some n)) := by
      intro b
      rw [(v5 b).2.2.2, live4]
    have hf50 : ∀ b : Nat, fwdAt h5 b 0 = if b = t then some h.length
        else if b = h.length then tn.fwd 0 else fwdAt h b 0 := by
      intro b
      rw [fwd5, if_neg (by omega), fwd4, if_pos rfl]
    rw [hcs] at hR
    apply isChain_insert pre _ _ _ (some s) hR.chain
    · intro a ha n hn
      obtain ⟨n1, hn1⟩ := (hlive5 a).mpr (Or.inr ⟨n, hn⟩)
      refine ⟨n1, hn1, ?_⟩
      have hat : a ≠ t := by
        intro e
        rcases List.mem_append.mp ha with e1 | e1
        · exact htpre (e ▸ e1)
        · exact htpost (e ▸ e1)
      have han : a ≠ h.length := by
        have := lt_of_getElem? hn
        omega
      rw [← (views_live hn1).2.2.2 0, hf50, if_neg hat, if_neg han, (views_live hn).2.2.2 0]
    · obtain ⟨n1, hn1⟩ := (hlive5 t).mpr (Or.inr ⟨tn, ht⟩)
      refine ⟨n1, hn1, ?_⟩
      rw [← (views_live hn1).2.2.2 0, hf50, if_pos rfl]
    · obtain ⟨n1, hn1⟩ := (hlive5 h.length).mpr (Or.inl rfl)
      refine ⟨n1, hn1, ?_⟩
      rw [← (views_live hn1).2.2.2 0, hf50, if_neg (Ne.symm htnw), if_pos rfl, ft]
  · -- levels
    rw [levelsOrdered_iff]
    intro l hl b hb nx hf
    rw [fwd5] at hf
    by_cases hl0 : 1 ≤ l ∧ l < 1 + (SKIP_LIST_LEVELS - 1)
    · rw [if_pos hl0] at hf
      have hlne : l ≠ 0 := by omega
      have hF4 : ∀ x : Nat, fwdAt h4 x l = if x = h.length then none else fwdAt h x l := by
        intro x
        rw [fwd4, if_neg hlne]
      obtain ⟨q, hq, hqcs, hqP, hqstop⟩ := hpreds l hl
      have hgetD : lb.getD l t = q := by
        rw [List.getD_eq_getElem?_getD, hq]
        rfl
      have hqn : q ≠ h.length := hltlen q hqcs
      -- the predecessor is `t` or stands in front of it
      have hqpre : q ≠ t → q ∈ pre := by
        intro hqt
        rw [hcs] at hqcs
        rcases List.mem_append.mp hqcs with e | e
        · exact e
        · rcases List.mem_cons.mp e with e1 | e1
          · exact absurd e1 hqt
          · exfalso
            rcases hqP with e2 | e2
            · obtain ⟨rest0, hrest0⟩ := isChain_head hR.chain
              cases pre with
              | nil =>
                rw [hcs] at hrest0
                have : t = s := (List.cons.inj hrest0).1
                exact hqt (e2.trans this.symm)
              | cons a as =>
                rw [hcs] at hrest0
                have : a = s := (List.cons.inj hrest0).1
                exact hdisj a (List.mem_cons_self _ _) (this ▸ e2 ▸ e1)
            · have h1 := hpostmax q e1
              rcases hbig with e3 | ⟨e3, _⟩
              · omega
              · rw [e3] at e1
                simp at e1
      -- a link of the predecessor that does not lead to `t` leads behind `t`
      have hqZ : ∀ Z : Nat, fwdAt h q l = some Z → Z ≠ t → Z ∈ post := by
        intro Z hZ hZt
        obtain ⟨hZcs, hZlt⟩ := hlo l hl q hqcs Z hZ
        by_cases hqt : q = t
        · rw [hqt] at hZlt
          exact later_of_max_lt hcs hpw hZcs hZlt
        · rw [hcs] at hZcs
          rcases List.mem_append.mp hZcs with e | e
          · exfalso
            have hsm := hsmall Z e
            obtain ⟨p1, p2, hp12⟩ := List.append_of_mem e
            have hcs2 : cs = p1 ++ Z :: (p2 ++ t :: post) := by
              rw [hcs, hp12]
              simp
            have hZl : ∃ zn : Node, h[Z]? = some (some zn) :=
              isChain_live cs (some s) hR.chain Z (by rw [hcs2]; simp)
            obtain ⟨zn, hzn⟩ := hZl
            have hnext := isChain_next hR.chain hcs2 hzn
            have hsome : (fwdAt h Z 0).isSome = true := by
              rw [(views_live hzn).2.2.2 0, hnext]
              cases p2 <;> rfl
            exact hqstop Z hZ ⟨hsm, hsome⟩
          · rcases List.mem_cons.mp e with e1 | e1
            · exact absurd e1 hZt
            · exact e1
      unfold spliceFwd at hf
      rw [hgetD, hF4 q, if_neg hqn, hF4 t, if_neg htnw, hF4 b] at hf
      by_cases hh : l < height
      · rw [if_pos hh] at hf
        by_cases hbr : fwdAt h q l ≠ some t
        · rw [if_pos hbr] at hf
          by_cases hbq : b = q
          · rw [if_pos hbq] at hf
            simp only [Option.some.injEq] at hf
            subst hf
            refine ⟨(hmem5 _).mpr (Or.inl rfl), ?_⟩
            rw [hbq, hmn]
            by_cases hqt : q = t
            · rw [hqt, hmt]
              exact hA
            · rw [hmo q hqt hqn]
              exact hB q (hqpre hqt) _ (hk2 _ hm2)
          · rw [if_neg hbq] at hf
            by_cases hbn : b = h.length
            · rw [if_pos hbn] at hf
              have hZt : nx ≠ t := fun e => hbr (e ▸ hf)
              obtain ⟨_, r2, r3⟩ := hnewlink nx (hqZ nx hf hZt)
              rw [hbn]
              exact ⟨r2, r3⟩
            · rw [if_neg hbn, if_neg hbn] at hf
              exact hold l hl b (((hmem5 b).mp hb).resolve_left hbn) nx hf
        · rw [if_neg hbr] at hf
          by_cases hbt : b = t
          · rw [if_pos hbt] at hf
            simp only [Option.some.injEq] at hf
            subst hf
            refine ⟨(hmem5 _).mpr (Or.inl rfl), ?_⟩
            rw [hbt, hmt, hmn]
            exact hA
          · rw [if_neg hbt] at hf
            by_cases hbn : b = h.length
            · rw [if_pos hbn] at hf
              obtain ⟨hZcs, hZlt⟩ := hlo l hl t htcs nx hf
              obtain ⟨_, r2, r3⟩ := hnewlink nx (later_of_max_lt hcs hpw hZcs hZlt)
              rw [hbn]
              exact ⟨r2, r3⟩
            · rw [if_neg hbn, if_neg hbn] at hf
              exact hold l hl b (((hmem5 b).mp hb).resolve_left hbn) nx hf
      · rw [if_neg hh] at hf
        by_cases hbn : b = h.length
        · rw [if_pos hbn] at hf
          simp at hf
        · rw [if_neg hbn, if_neg hbn] at hf
          exact hold l hl b (((hmem5 b).mp hb).resolve_left hbn) nx hf
    · rw [if_neg hl0] at hf
      have hl00 : l = 0 := by
        have : l < SKIP_LIST_LEVELS := hl
        have h6 : 1 + (SKIP_LIST_LEVELS - 1) = SKIP_LIST_LEVELS := rfl
        rw [h6] at hl0
        omega
      subst hl00
      rw [fwd4, if_pos rfl] at hf
      by_cases hbt : b = t
      · rw [if_pos hbt] at hf
        simp only [Option.some.injEq] at hf
        subst hf
        refine ⟨(hmem5 _).mpr (Or.inl rfl), ?_⟩
        rw [hbt, hmt, hmn]
        exact hA
      · rw [if_neg hbt] at hf
        by_cases hbn : b = h.length
        · rw [if_pos hbn, ← ft 0] at hf
          obtain ⟨hZcs, hZlt⟩ := hlo 0 hl t htcs nx hf
          obtain ⟨_, r2, r3⟩ := hnewlink nx (later_of_max_lt hcs hpw hZcs hZlt)
          rw [hbn]
          exact ⟨r2, r3⟩
        · rw [if_neg hbn] at hf
          exact hold 0 hl b (((hmem5 b).mp hb).resolve_left hbn) nx hf
  · -- exact cached keys
    intro _ b hb
    by_cases hbt : b = t
    · rw [hbt, hkt, hmt]
      exact hx1
    · by_cases hbn : b = h.length
      · rw [hbn, hkn, hmn]
        exact hx2
      · have hbcs : b ∈ cs := ((hmem5 b).mp hb).resolve_left hbn
        rw [hko b hbt hbn, hmo b hbt hbn]
        have hlen : 1 < cs.length := by
          rw [hcs] at hbcs ⊢
          rw [List.length_append, List.length_cons]
          rcases List.mem_append.mp hbcs with e | e
          · have : 0 < pre.length := List.length_pos.mpr (List.ne_nil_of_mem e)
            omega
          · rcases List.mem_cons.mp e with e1 | e1
            · exact absurd e1 hbt
            · have : 0 < post.length := List.length_pos.mpr (List.ne_nil_of_mem e1)
              omega
        exact hR.exact hlen b hbcs
  · -- order
    unfold blocksOrdered
    rw [List.pairwise_append, List.pairwise_cons, List.pairwise_cons]
    have hpren : ∀ a ∈ pre, a ≠ t ∧ a ≠ h.length := fun a ha =>
      ⟨fun e => htpre (e ▸ ha), hltlen a (by rw [hcs]; simp [ha])⟩
    have hpostn : ∀ a ∈ post, a ≠ t ∧ a ≠ h.length := fun a ha =>
      ⟨fun e => htpost (e ▸ ha), hltlen a (by rw [hcs]; simp [ha])⟩
    have htpostk : ∀ b ∈ post, ∀ k ∈ blockKeys h b, nn1.m_max_key < k := by
      intro b hb k hk
      rw [hC (List.ne_nil_of_mem hb)]
      exact o2 b hb k hk
    refine ⟨?_, ⟨?_, ?_, ?_⟩, ?_⟩
    · refine o1.imp_of_mem ?_
      intro a b ha hb hab k hk
      rw [hko b (hpren b hb).1 (hpren b hb).2] at hk
      rw [hmo a (hpren a ha).1 (hpren a ha).2]
      exact hab k hk
    · intro b hb k hk
      rw [hmt]
      rcases List.mem_cons.mp hb with e | e
      · rw [e, hkn] at hk
        exact hcross _ hm1 k hk
      · rw [hko b (hpostn b e).1 (hpostn b e).2] at hk
        have := htpostk b e k hk
        omega
    · intro b hb k hk
      rw [hko b (hpostn b hb).1 (hpostn b hb).2] at hk
      rw [hmn]
      exact htpostk b hb k hk
    · refine o3.imp_of_mem ?_
      intro a b ha hb hab k hk
      rw [hko b (hpostn b hb).1 (hpostn b hb).2] at hk
      rw [hmo a (hpostn a ha).1 (hpostn a ha).2]
      exact hab k hk
    · intro a ha b hb k hk
      rw [hmo a (hpren a ha).1 (hpren a ha).2]
      rcases List.mem_cons.mp hb with e | e
      · rw [e, hkt] at hk
        exact hB a ha k (hk1 k hk)
      · rcases List.mem_cons.mp e with e1 | e1
        · rw [e1, hkn] at hk
          exact hB a ha k (hk2 k hk)
        · rw [hko b (hpostn b e1).1 (hpostn b e1).2] at hk
          exact o4 a ha b (List.mem_cons_of_mem _ e1) k hk
  · -- sorted
    intro b hb
    rw [hKsplit, List.pairwise_append] at hKs
    by_cases hbt : b = t
    · rw [hbt, hkt]
      exact hKs.1
    · by_cases hbn : b = h.length
      · rw [hbn, hkn]
        exact hKs.2.1
      · rw [hko b hbt hbn]
        exact hR.sorted b (((hmem5 b).mp hb).resolve_left hbn)
  · -- the keys are those of the old blocks
    intro b hb k hk
    by_cases hbt : b = t
    · rw [hbt, hkt] at hk
      exact ⟨t, htcs, hk1 k hk⟩
    · by_cases hbn : b = h.length
      · rw [hbn, hkn] at hk
        exact ⟨t, htcs, hk2 k hk⟩
      · rw [hko b hbt hbn] at hk
        exact ⟨b, ((hmem5 b).mp hb).resolve_left hbn, hk⟩

/-- Fields of a block after `Node::insert`: the links stay, the cached `max_key` is the
maximum of the old one and the new key. -/
theorem insert_fields {n n1 : Node} {e : Entry} {pos : Nat} (h : n.insert e = .ok (n1, pos)) :
    n1.forward = n.forward ∧ n1.m_max_key = max n.m_max_key e.key := by
  unfold Node.insert at h
  simp only [bind_eq_ok] at h
  obtain ⟨a, _, a1, _, a2, _, h⟩ := h
  split at h
  · exact absurd h throw_bind_ne_ok
  · simp only [pure_bind_eq, pure, Except.pure, bind, Except.bind, Except.ok.injEq,
      Prod.mk.injEq] at h
    rw [← h.1]
    exact ⟨rfl, rfl⟩

/-- Position chosen by `Node::insert` in a sorted block: the entries in front of it have
keys of at most the new key, the entries from it on have greater keys. -/
theorem insert_bounds {n n1 : Node} {e : Entry} {pos : Nat} (hs : n.sorted)
    (hU : n.size + 1 < U16) (h : n.insert e = .ok (n1, pos)) :
    n1.live = n.live.take pos ++ e :: n.live.drop pos ∧
    (∀ x ∈ n.live.take pos, x.key ≤ e.key) ∧ (∀ y ∈ n.live.drop pos, e.key < y.key) := by
  obtain ⟨hsz, hp⟩ := hs
  obtain ⟨hps, hsize, hroom, hlive, hub⟩ := insert_live hsz hU h
  obtain ⟨_, _, hsp⟩ := upperBound_spec n.data e.key n.size (sorted_index hp) n.size 0 n.size
    pos (by omega) hub
  obtain ⟨hbefore, hafter⟩ := hsp (le_refl _)
  refine ⟨hlive, ?_, ?_⟩
  · intro x hx
    have hx1 : x ∈ n.data.take pos := by
      have : n.live.take pos = n.data.take pos := by
        show (n.data.take n.size).take pos = _
        rw [List.take_take, Nat.min_eq_left hps]
      rw [← this]
      exact hx
    obtain ⟨i, hi, he⟩ := mem_take_index hx1
    exact hbefore i x (Nat.zero_le _) hi he
  · intro y hy
    obtain ⟨i, hi1, hi2, he⟩ := mem_drop_take_index hy
    exact hafter i y hi1 (by omega) he

/-- An insertion into the block the search returned keeps the chain routed, when the block
is sorted and does not hold the key. -/
theorem insert_routed {h : Heap} {s t : Nat} {cs lb : List Nat} {tn tn1 : Node} {e : Entry}
    {pos : Nat} (hR : Routed h s cs) (hfind : find_node h (some s) e.key = .ok (t, lb))
    (ht : h[t]? = some (some tn)) (hsort : tn.sorted) (hU : tn.size + 1 < U16)
    (hfresh : ∀ x ∈ tn.live, x.key ≠ e.key) (hins : tn.insert e = .ok (tn1, pos)) :
    Routed (h.store t tn1) s cs ∧
      ∀ b ∈ cs, ∀ k ∈ blockKeys (h.store t tn1) b,
        k = e.key ∨ ∃ b0 ∈ cs, k ∈ blockKeys h b0 := by
  obtain ⟨hroute, _, _⟩ := find_node_preds hR.chain hR.levels hfind
  obtain ⟨pre, post, hcs, hsmall, hbig⟩ := routeTarget_split hroute
  obtain ⟨hfw, hmx⟩ := insert_fields hins
  obtain ⟨hlive, hbefore, hafter⟩ := insert_bounds hsort hU hins
  obtain ⟨q1, _⟩ := insert_sorted hsort hU hfresh hins
  obtain ⟨mt, _, kt, _⟩ := views_live ht
  have htcs : t ∈ cs := by rw [hcs]; simp
  have ho := hR.order
  unfold blocksOrdered at ho
  rw [hcs, List.pairwise_append, List.pairwise_cons] at ho
  obtain ⟨_, _, o4⟩ := ho
  have hkeys1 : ∀ k ∈ tn1.live.map Entry.key, k = e.key ∨ k ∈ blockKeys h t := by
    intro k hk
    rw [hlive] at hk
    obtain ⟨x, hx, hxk⟩ := List.mem_map.mp hk
    rcases List.mem_append.mp hx with e1 | e1
    · exact Or.inr (by rw [kt, ← hxk]; exact List.mem_map_of_mem _ (List.mem_of_mem_take e1))
    · rcases List.mem_cons.mp e1 with e2 | e2
      · exact Or.inl (by rw [← hxk, e2])
      · exact Or.inr (by rw [kt, ← hxk]; exact List.mem_map_of_mem _ (List.mem_of_mem_drop e2))
  have hR1 : Routed (h.store t tn1) s cs := by
    refine hR.replace hcs ht hfw (by rw [hmx]; exact le_max_left _ _) ?_ ?_ ?_ ?_
    · intro hne
      rcases hbig with e1 | ⟨e1, _⟩
      · exfalso
        apply hne
        rw [hmx, ← mt]
        exact max_eq_left e1
      · exact e1
    · intro k hk b hb
      rcases hkeys1 k hk with e1 | e1
      · rw [e1]
        exact hsmall b hb
      · exact o4 b hb t (List.mem_cons_self _ _) k e1
    · exact List.Pairwise.map _ (fun _ _ hxy => hxy) q1.2
    · intro hlen
      have hex := hR.exact hlen t htcs
      rw [kt, List.getLast?_map] at hex
      rw [List.getLast?_map, hlive, hmx]
      cases hd : tn.live.drop pos with
      | nil =>
        have htk : tn.live.take pos = tn.live := by
          have := List.take_append_drop pos tn.live
          rw [hd, List.append_nil] at this
          exact this
        rw [List.getLast?_append_of_ne_nil _ (List.cons_ne_nil _ _)]
        simp only [List.getLast?_singleton, Option.map_some', Option.some.injEq]
        cases hl : tn.live.getLast? with
        | none =>
          rw [hl] at hex
          simp at hex
        | some x =>
          rw [hl] at hex
          simp only [Option.map_some', Option.some.injEq] at hex
          have hxm : x ∈ tn.live.take pos := by
            rw [htk]
            exact List.mem_of_getLast?_eq_some hl
          have := hbefore x hxm
          rw [← mt, ← hex]
          exact (max_eq_right this).symm
      | cons y ys =>
        have hlast : (tn.live.take pos ++ e :: y :: ys).getLast? = tn.live.getLast? := by
          have h1 : tn.live = tn.live.take pos ++ y :: ys := by
            rw [← hd, List.take_append_drop]
          have h2 := congrArg List.getLast? h1
          rw [List.getLast?_append_of_ne_nil _ (List.cons_ne_nil _ _)] at h2
          rw [List.getLast?_append_of_ne_nil _ (List.cons_ne_nil _ _), List.getLast?_cons_cons,
            h2]
        rw [hlast]
        cases hl : tn.live.getLast? with
        | none =>
          rw [hl] at hex
          simp at hex
        | some x =>
          rw [hl] at hex
          simp only [Option.map_some', Option.some.injEq] at hex ⊢
          have hxm : x ∈ tn.live.drop pos := by
            have h1 : tn.live = tn.live.take pos ++ tn.live.drop pos :=
              (List.take_append_drop _ _).symm
            rw [h1, List.getLast?_append_of_ne_nil _ (by rw [hd]; exact List.cons_ne_nil _ _)]
              at hl
            exact List.mem_of_getLast?_eq_some hl
          have := hafter x hxm
          rw [← mt, ← hex]
          exact (max_eq_left (le_of_lt this)).symm
  refine ⟨hR1, ?_⟩
  intro b hb k hk
  have htl : t < h.length := lt_of_getElem? ht
  by_cases hbt : b = t
  · have hv1 : (h.store t tn1)[t]? = some (some tn1) := by
      rw [store_getElem? _ _ _ _ htl, if_pos rfl]
    rw [hbt, (views_live hv1).2.2.1] at hk
    rcases hkeys1 k hk with e1 | e1
    · exact Or.inl e1
    · exact Or.inr ⟨t, htcs, e1⟩
  · have hvo : (h.store t tn1)[b]? = h[b]? := by
      rw [store_getElem? _ _ _ _ htl, if_neg (Ne.symm hbt)]
    rw [(views_congr hvo).2.2.1] at hk
    exact Or.inr ⟨b, hb, hk⟩

/-- The search of `lower_bound` on an ascending range: a successful search returns a
position inside the range such that the keys before it are below the key searched for
and the keys from it on are at least that key. -/
theorem lowerBound_spec (data : List Entry) (key : Int) (hi : Nat)
    (hs : ∀ (i j : Nat) (ei ej : Entry), i < j → j < hi → data[i]? = some ei →
      data[j]? = some ej → ei.key < ej.key) (fuel : Nat) :
    ∀ (first len p : Nat), first + len ≤ hi → lowerBound data key fuel first len = .ok p →
      first ≤ p ∧ p ≤ first + len ∧ (len ≤ fuel →
        (∀ (i : Nat) (e : Entry), first ≤ i → i < p → data[i]? = some e → e.key < key) ∧
        (∀ (i : Nat) (e : Entry), p ≤ i → i < first + len → data[i]? = some e →
          key ≤ e.key)) := by
  induction fuel with
  | zero =>
    intro first len p _ h
    simp only [lowerBound, Except.ok.injEq] at h
    subst h
    refine ⟨le_refl _, by omega, fun hl => ⟨fun i e h1 h2 => by omega, fun i e h1 h2 => by omega⟩⟩
  | succ fuel ih =>
    intro first len p hle h
    unfold lowerBound at h
    by_cases hl0 : len = 0
    · simp only [hl0, if_true, Except.ok.injEq] at h
      subst h
      exact ⟨le_refl _, by omega, fun _ => ⟨fun i e h1 h2 => by omega, fun i e h1 h2 => by omega⟩⟩
    · simp only [hl0, if_false] at h
      cases hd : data[first + len / 2]? with
      | none => simp [hd] at h
      | some e0 =>
        simp only [hd] at h
        by_cases hk : e0.key < key
        · rw [if_pos hk] at h
          obtain ⟨a1, a2, a3⟩ := ih (first + len / 2 + 1) (len - len / 2 - 1) p (by omega) h
          refine ⟨by omega, by omega, fun hf => ?_⟩
          obtain ⟨b1, b2⟩ := a3 (by omega)
          refine ⟨fun i e h1 h2 he => ?_, fun i e h1 h2 he => b2 i e h1 (by omega) he⟩
          by_cases hgt : first + len / 2 + 1 ≤ i
          · exact b1 i e hgt h2 he
          · by_cases heq : i = first + len / 2
            · subst heq
              rw [hd] at he
              simp only [Option.some.injEq] at he
              rw [← he]
              exact hk
            · have := hs i (first + len / 2) e e0 (by omega) (by omega) he hd
              omega
        · rw [if_neg hk] at h
          obtain ⟨a1, a2, a3⟩ := ih first (len / 2) p (by omega) h
          refine ⟨a1, by omega, fun hf => ?_⟩
          obtain ⟨b1, b2⟩ := a3 (by omega)
          refine ⟨b1, fun i e h1 h2 he => ?_⟩
          by_cases hlt : i < first + len / 2
          · exact b2 i e h1 hlt he
          · by_cases heq : i = first + len / 2
            · subst heq
              rw [hd] at he
              simp only [Option.some.injEq] at he
              rw [← he]
              omega
            · have := hs (first + len / 2) i e0 e (by omega) (by omega) hd he
              omega

/-- A lookup that finds nothing in a sorted block: the block does not hold the key. -/
theorem find_none_not_mem {n : Node} {key : Int} (hs : n.sorted)
    (hf : n.find key = .ok none) : ∀ x ∈ n.live, x.key ≠ key := by
  obtain ⟨hsz, hp⟩ := hs
  unfold Node.find at hf
  simp only [bind_eq_ok] at hf
  obtain ⟨pos, hlb, hf⟩ := hf
  obtain ⟨_, hple, hsp⟩ := lowerBound_spec n.data key n.size (sorted_index hp) n.size 0 n.size
    pos (by omega) hlb
  obtain ⟨hbefore, hafter⟩ := hsp (le_refl _)
  intro x hx hxk
  obtain ⟨i, hi, he⟩ := mem_take_index hx
  have hge : pos ≤ i := by
    by_contra hc
    have := hbefore i x (Nat.zero_le _) (by omega) he
    omega
  by_cases hps : pos = n.size
  · omega
  · rw [if_neg hps] at hf
    rw [pure_bind_eq] at hf
    obtain ⟨e0, he0, hf⟩ := bind_eq_ok.mp hf
    have he0' : n.data[pos]? = some e0 := by
      unfold readAt at he0
      cases hd : n.data[pos]? with
      | none => simp [hd] at he0
      | some y =>
        rw [hd] at he0
        simp only [Except.ok.injEq] at he0
        rw [he0]
    by_cases hne : e0.key ≠ key
    · have h1 := hafter pos e0 (le_refl _) (by omega) he0'
      by_cases hpi : pos = i
      · rw [hpi, he] at he0'
        simp only [Option.some.injEq] at he0'
        rw [← he0'] at hne
        exact hne hxk
      · have := sorted_index hp pos i e0 x (by omega) hi he0' he
        omega
    · rw [if_neg hne, pure_bind_eq] at hf
      simp [pure, Except.pure] at hf

/-- In a routed chain a key held by a block is routed to that block. -/
theorem routeTarget_of_mem {h : Heap} {s : Nat} {cs : List Nat} (hR : Routed h s cs)
    {b : Nat} (hb : b ∈ cs) {k : Int} (hk : k ∈ blockKeys h b) :
    routeTarget h k cs = some b := by
  obtain ⟨pre, post, hcs⟩ := List.append_of_mem hb
  have ho := hR.order
  unfold blocksOrdered at ho
  rw [hcs, List.pairwise_append, List.pairwise_cons] at ho
  obtain ⟨_, _, o4⟩ := ho
  have hpre : ∀ a ∈ pre, maxKeyAt h a < k :=
    fun a ha => o4 a ha b (List.mem_cons_self _ _) k hk
  by_cases hlen : 1 < cs.length
  · have hex := hR.exact hlen b hb
    obtain ⟨ys, hys⟩ := List.getLast?_eq_some_iff.mp hex
    have hsrt := hR.sorted b hb
    rw [hys, List.pairwise_append] at hsrt
    have hle : k ≤ maxKeyAt h b := by
      rw [hys] at hk
      rcases List.mem_append.mp hk with e | e
      · exact le_of_lt (hsrt.2.2 k e _ (List.mem_singleton_self _))
      · simp only [List.mem_singleton] at e
        rw [e]
    have hfind : cs.find? (fun a => decide (k ≤ maxKeyAt h a)) = some b := by
      apply find?_split hcs
      · intro a ha
        have := hpre a ha
        simp only [decide_eq_false_iff_not, not_le]
        exact this
      · simp only [decide_eq_true_eq]
        exact hle
    simp only [routeTarget, hfind]
  · have hcs1 : cs = [b] := by
      rw [hcs, List.length_append, List.length_cons] at hlen
      have h1 : pre = [] := List.eq_nil_of_length_eq_zero (by omega)
      have h2 : post = [] := List.eq_nil_of_length_eq_zero (by omega)
      rw [hcs, h1, h2]
      rfl
    rw [hcs1]
    simp only [routeTarget, List.find?]
    by_cases hk2 : k ≤ maxKeyAt h b
    · simp [hk2]
    · simp [hk2]

/-- Every block of a heap that satisfies the structural invariant has
`SKIP_LIST_LEVELS` forward pointers. -/
theorem CInv.nf {c : Container} (hc : CInv c) :
    ∀ (b : Nat) (n : Node), c.heap[b]? = some (some n) →
      n.forward.length = SKIP_LIST_LEVELS := by
  obtain ⟨_, _, r, hi⟩ := hc
  intro b n hn
  exact hi.nf_eq b n.lk (skel_live hn)

/-- The body of `insert` keeps the structural invariant, the sortedness of the blocks and
the routing invariant, when no block of the chain holds the key. -/
theorem insertAux_good (draw : Nat → Nat) (entry : Entry) (K : List Int) (fuel : Nat) :
    ∀ (k : Nat) (c c1 : Container) (it : Iterator) (cs : List Nat), CInv c →
      SortedHeap c.heap K → Routed c.heap 0 cs →
      (∀ b ∈ cs, entry.key ∉ blockKeys c.heap b) →
      insertAux draw entry fuel k c = .ok (c1, it) →
      SortedHeap c1.heap (entry.key :: K) ∧ ∃ cs1 : List Nat, Routed c1.heap 0 cs1 := by
  induction fuel with
  | zero =>
    intro k c c1 it cs _ _ _ _ hins
    simp [insertAux] at hins
  | succ fuel ih =>
    intro k c c1 it cs hc hs hR hk hins
    obtain ⟨hh, hb, r, hi⟩ := id hc
    have hnf := hc.nf
    rw [insertAux] at hins
    simp only [bind_eq_ok] at hins
    obtain ⟨⟨t, lb⟩, hfind, tn, htn, hins⟩ := hins
    rw [hh] at hfind
    have htn := load_eq_ok.mp htn
    have hkl := skel_live htn
    obtain ⟨hst, hkeys⟩ := hs t tn htn
    obtain ⟨hroute, _, _⟩ := find_node_preds hR.chain hR.levels hfind
    obtain ⟨pre0, post0, hcs0, _, _⟩ := routeTarget_split hroute
    have htcs : t ∈ cs := by rw [hcs0]; simp
    rw [hb] at hins
    split at hins
    · rename_i hfull
      simp only [bind_eq_ok] at hins
      obtain ⟨⟨tn1, nn1⟩, hsp, h2, e2, hins⟩ := hins
      dsimp only at hins e2
      obtain ⟨s1, s2, l1, l2⟩ := split_sorted hst hfull hsp
      have hs1 : SortedHeap (c.heap.store t tn1 ++ [some nn1]) K := by
        refine (hs.store (lt_of_getElem? htn) s1 ?_).snoc s2 ?_
        · intro x hx
          rw [l1] at hx
          exact hkeys x (List.mem_of_mem_take hx)
        · intro x hx
          rw [l2] at hx
          exact hkeys x (List.mem_of_mem_drop hx)
      have hs2 : SortedHeap h2 K := hs1.modify e2 (fun _ => ⟨rfl, rfl⟩)
      have key : ∃ h3 h4 h5 : Heap,
          (match tn1.fwd 0 with
            | some nx => h2.modify (some nx) (fun x => { x with prev := some c.heap.length })
            | none => pure h2) = .ok h3 ∧
          h3.modify (some t) (fun x => x.setFwd 0 (some c.heap.length)) = .ok h4 ∧
          spliceLevels (draw k) t c.heap.length lb (SKIP_LIST_LEVELS - 1) 1 h4 = .ok h5 ∧
          insertAux draw entry fuel (k + 1) { c with heap := h5 } = .ok (c1, it) := by
        cases hfx : tn1.fwd 0 with
        | none =>
          rw [hfx] at hins
          simp only [bind_eq_ok] at hins
          obtain ⟨h3, e3, h4, e4, h5, e5, hins⟩ := hins
          rw [hb]
          exact ⟨h3, h4, h5, e3, e4, e5, hins⟩
        | some nx =>
          rw [hfx] at hins
          simp only [bind_eq_ok] at hins
          obtain ⟨h3, e3, h4, e4, h5, e5, hins⟩ := hins
          rw [hb]
          exact ⟨h3, h4, h5, e3, e4, e5, hins⟩
      obtain ⟨h3, h4, h5, e3, e4, e5, hins⟩ := key
      have hs3 : SortedHeap h3 K := by
        cases hfx : tn1.fwd 0 with
        | none =>
          rw [hfx] at e3
          simp only [pure, Except.pure, Except.ok.injEq] at e3
          rw [← e3]
          exact hs2
        | some nx =>
          rw [hfx] at e3
          exact hs2.modify e3 (fun _ => ⟨rfl, rfl⟩)
      have hs4 : SortedHeap h4 K := hs3.modify e4 (fun _ => ⟨rfl, rfl⟩)
      have hs5 : SortedHeap h5 K := spliceLevels_sorted _ _ _ _ K _ _ _ _ hs4 e5
      obtain ⟨r1, hi1⟩ := split_step_inv hi htn hfull hsp e2 e3 e4
      have hsk := spliceLevels_skel _ _ _ _ _ _ _ _ (by omega) e5
      have hc5 : CInv { c with heap := h5 } := by
        refine ⟨hh, hb, r1, ?_⟩
        show InvR r1 (skel h5)
        rw [hsk]
        exact hi1
      obtain ⟨cs5, hR5, hsub⟩ :=
        split_routed (draw k) hR hnf hfind htn hst hfull hsp e2 e3 e4 e5
      refine ih (k + 1) _ c1 it cs5 hc5 hs5 hR5 ?_ hins
      intro b hb5 hmem
      obtain ⟨b0, hb0, hmem0⟩ := hsub b hb5 _ hmem
      exact hk b0 hb0 hmem0
    · rename_i hfull
      simp only [bind_eq_ok] at hins
      obtain ⟨⟨tn1, pos⟩, hn1, h2, hbal, hins⟩ := hins
      simp only [pure, Except.pure, Except.ok.injEq, Prod.mk.injEq] at hins
      rw [← hins.1]
      show SortedHeap h2 (entry.key :: K) ∧ ∃ cs1 : List Nat, Routed h2 0 cs1
      have hle := hi.size_le t tn.lk hkl
      have hsz : tn.lk.size = tn.size := rfl
      have hlk := insert_lk hn1
      have hmod : (tn.size + 1) % U16 = tn.size + 1 := by
        unfold U16
        omega
      rw [hmod] at hlk
      have hi1 := hi.resize (tn.size + 1) hkl (by omega)
        (fun hlt => hi.lone t tn.lk hkl (by omega))
      rw [← hlk, ← skel_store] at hi1
      rw [hh] at hbal
      rw [balance_inv_id hi1 hbal]
      have hfresh : ∀ x ∈ tn.live, x.key ≠ entry.key := by
        intro x hx e
        apply hk t htcs
        rw [(views_live htn).2.2.1, ← e]
        exact List.mem_map_of_mem _ hx
      obtain ⟨q1, q2⟩ := insert_sorted hst (by unfold U16; omega) hfresh hn1
      obtain ⟨hR1, _⟩ := insert_routed hR hfind htn hst (by unfold U16; omega) hfresh hn1
      refine ⟨?_, cs, hR1⟩
      refine (hs.mono (fun k hk2 => List.mem_cons_of_mem _ hk2)).store (lt_of_getElem? htn) q1 ?_
      intro x hx
      rcases q2 x hx with e | e
      · rw [e]
        exact List.mem_cons_self _ _
      · exact List.mem_cons_of_mem _ (hkeys x e)

/-- Overwriting the value of one entry leaves the keys of the array as they are. -/
theorem set_val_keys (d : List Entry) (i s : Nat) (e : Entry) (v : Int)
    (he : d[i]? = some e) :
    ((d.set i { e with val := v }).take s).map Entry.key = (d.take s).map Entry.key := by
  rw [List.map_take, List.map_take, List.map_set]
  congr 1
  apply List.ext_getElem?
  intro j
  rw [List.getElem?_set]
  by_cases hij : i = j
  · subst hij
    rw [if_pos rfl, List.getElem?_map, he]
    have hlt : i < d.length := by
      rcases Nat.lt_or_ge i d.length with h1 | h1
      · exact h1
      · rw [List.getElem?_eq_none h1] at he
        cases he
    rw [List.length_map, if_pos hlt]
    rfl
  · rw [if_neg hij]

/-- Shape of a successful `find` on a container whose head is the block 0. -/
theorem find_ok_cases {c : Container} {key : Int} {iter : Iterator} (hh : c.head = some 0)
    (hf : find c key = .ok iter) :
    ∃ (t : Nat) (lb : List Nat) (tn : Node) (r : Option Nat),
      find_node c.heap (some 0) key = .ok (t, lb) ∧ c.heap[t]? = some (some tn) ∧
      tn.find key = .ok r ∧
      ((∃ pos : Nat, r = some pos ∧ iter = { node := some t, index := pos, forward := true }) ∨
       (r = none ∧ iter = Container.end_)) := by
  unfold find at hf
  rw [hh] at hf
  dsimp only at hf
  simp only [bind_eq_ok] at hf
  obtain ⟨⟨t, lb⟩, hfn, tn, htn, r, hr, hf⟩ := hf
  refine ⟨t, lb, tn, r, hfn, load_eq_ok.mp htn, hr, ?_⟩
  cases r with
  | none =>
    simp only [pure, Except.pure, Except.ok.injEq] at hf
    exact Or.inr ⟨rfl, hf.symm⟩
  | some pos =>
    simp only [pure, Except.pure, Except.ok.injEq] at hf
    exact Or.inl ⟨pos, rfl, hf.symm⟩

/-- The function `update` keeps the sortedness of the blocks and the routing invariant. -/
theorem update_good {c c1 : Container} {e : Entry} {draw : Nat → Nat} {it : Iterator}
    {K : List Int} {cs : List Nat} (hc : CInv c) (hs : SortedHeap c.heap K)
    (hR : Routed c.heap 0 cs) (hu : update c e draw = .ok (c1, it)) :
    SortedHeap c1.heap (e.key :: K) ∧ ∃ cs1 : List Nat, Routed c1.heap 0 cs1 := by
  obtain ⟨hh, hb, r, hi⟩ := id hc
  unfold update at hu
  obtain ⟨iter, hfind, hu⟩ := bind_eq_ok.mp hu
  obtain ⟨t, lb, tn, rr, hfn, htn, hnf, hcase⟩ := find_ok_cases hh hfind
  obtain ⟨hroute, _, _⟩ := find_node_preds hR.chain hR.levels hfn
  obtain ⟨pre0, post0, hcs0, _, _⟩ := routeTarget_split hroute
  have htcs : t ∈ cs := by rw [hcs0]; simp
  obtain ⟨hst, hkeys⟩ := hs t tn htn
  rcases hcase with ⟨pos, hrr, hiter⟩ | ⟨hrr, hiter⟩
  · subst hiter
    have hsame : (! Iterator.same { node := some t, index := pos, forward := true }
        Container.end_) = true := rfl
    rw [if_pos hsame] at hu
    obtain ⟨n, hn, hu⟩ := bind_eq_ok.mp hu
    have hn := load_eq_ok.mp hn
    rw [htn] at hn
    simp only [Option.some.injEq] at hn
    subst hn
    split at hu
    · exact absurd hu throw_bind_ne_ok
    · rw [pure_bind_eq] at hu
      simp only [bind_eq_ok] at hu
      obtain ⟨e0, he0, h1, hm, hu⟩ := hu
      simp only [pure, Except.pure, Except.ok.injEq, Prod.mk.injEq] at hu
      obtain ⟨a, m, ha, hm1, eh⟩ := modify_ok hm
      simp only [Option.some.injEq] at ha
      subst ha
      rw [htn] at hm1
      simp only [Option.some.injEq] at hm1
      subst hm1
      have hd0 : tn.data[pos]? = some e0 := by
        unfold readAt at he0
        cases hx : tn.data[pos]? with
        | none => simp [hx] at he0
        | some x =>
          simp only [hx, Except.ok.injEq] at he0
          rw [he0]
      obtain ⟨tn1, htn1⟩ : ∃ x : Node,
          x = { tn with data := tn.data.set pos { e0 with val := e.val } } := ⟨_, rfl⟩
      rw [← htn1] at eh
      have hk1 : tn1.live.map Entry.key = tn.live.map Entry.key := by
        rw [htn1]
        exact set_val_keys tn.data pos tn.size e0 e.val hd0
      have hsrt0 : (tn.live.map Entry.key).Pairwise (fun x y => x < y) :=
        List.pairwise_map.mpr hst.2
      have hsrt1 : tn1.live.Pairwise (fun x y => x.key < y.key) := by
        have := hsrt0
        rw [← hk1] at this
        exact List.pairwise_map.mp this
      have hfw : tn1.forward = tn.forward := by rw [htn1]
      have hmx : tn1.m_max_key = tn.m_max_key := by rw [htn1]
      have hsz : tn1.size ≤ tn1.data.length := by
        rw [htn1]
        show tn.size ≤ (tn.data.set pos _).length
        rw [List.length_set]
        exact hst.1
      rw [← hu.1]
      show SortedHeap h1 (e.key :: K) ∧ ∃ cs1 : List Nat, Routed h1 0 cs1
      rw [eh]
      constructor
      · refine (hs.mono (fun k hk2 => List.mem_cons_of_mem _ hk2)).store
          (lt_of_getElem? htn) ⟨hsz, hsrt1⟩ ?_
        intro x hx
        have h1 : x.key ∈ tn1.live.map Entry.key := List.mem_map_of_mem _ hx
        rw [hk1] at h1
        obtain ⟨y, hy, hyx⟩ := List.mem_map.mp h1
        rw [← hyx]
        exact List.mem_cons_of_mem _ (hkeys y hy)
      · refine ⟨cs, Routed.replace hR hcs0 htn hfw (le_of_eq hmx.symm)
          (fun hne => absurd hmx hne) ?_ ?_ ?_⟩
        · intro k hk b hbp
          rw [hk1, ← (views_live htn).2.2.1] at hk
          have ho := hR.order
          unfold blocksOrdered at ho
          rw [hcs0, List.pairwise_append] at ho
          exact ho.2.2 b hbp t (List.mem_cons_self _ _) k hk
        · rw [hk1]
          exact hsrt0
        · intro hlen
          have := hR.exact hlen t htcs
          rw [(views_live htn).2.2.1, (views_live htn).1] at this
          rw [hk1, hmx]
          exact this
  · subst hiter
    subst hrr
    have hsame : (! Iterator.same Container.end_ Container.end_) = false := rfl
    rw [hsame] at hu
    simp only [Bool.false_eq_true, if_false] at hu
    have hmiss := find_none_not_mem hst hnf
    have hk : ∀ b ∈ cs, e.key ∉ blockKeys c.heap b := by
      intro b hbcs hmem
      have hrt := routeTarget_of_mem hR hbcs hmem
      rw [hroute] at hrt
      simp only [Option.some.injEq] at hrt
      subst hrt
      rw [(views_live htn).2.2.1] at hmem
      obtain ⟨y, hy, hyx⟩ := List.mem_map.mp hmem
      exact hmiss y hy hyx
    exact insertAux_good draw e K _ 0 c c1 it cs hc hs hR hk hu

/-- A sequence of `insert` and `update` calls in which no `insert` gives a key that an
earlier call of the sequence, or the list `K`, names keeps every block sorted. -/
theorem runPub_fresh_sorted (ops : List PubOp) :
    ∀ (c c1 : Container) (K : List Int) (cs : List Nat), CInv c → SortedHeap c.heap K →
      Routed c.heap 0 cs → freshPub K ops = true → runPub c ops = .ok c1 →
      ∃ K1 : List Int, SortedHeap c1.heap K1 := by
  induction ops with
  | nil =>
    intro c c1 K cs _ hs _ _ hr
    simp only [runPub, Except.ok.injEq] at hr
    rw [← hr]
    exact ⟨K, hs⟩
  | cons op ops ih =>
    intro c c1 K cs hc hs hR hf hr
    simp only [runPub, bind_eq_ok] at hr
    obtain ⟨c2, hstep, hr⟩ := hr
    have hc2 := stepPub_CInv op hc hstep
    cases op with
    | ins key val draw =>
      simp only [freshPub, Bool.and_eq_true, decide_eq_true_eq] at hf
      simp only [stepPub, insert, bind_eq_ok] at hstep
      obtain ⟨⟨c3, it⟩, hins, hc3⟩ := hstep
      simp only [pure, Except.pure, Except.ok.injEq] at hc3
      subst hc3
      have hk : ∀ b ∈ cs, (⟨key, val⟩ : Entry).key ∉ blockKeys c.heap b := by
        intro b hbcs hmem
        obtain ⟨n, hn⟩ := isChain_live cs _ hR.chain b hbcs
        rw [(views_live hn).2.2.1] at hmem
        obtain ⟨y, hy, hyx⟩ := List.mem_map.mp hmem
        apply hf.1
        have := (hs b n hn).2 y hy
        rw [hyx] at this
        exact this
      obtain ⟨hs3, cs3, hR3⟩ := insertAux_good draw ⟨key, val⟩ K _ 0 c c3 it cs hc hs hR hk hins
      exact ih c3 c1 (key :: K) cs3 hc2 hs3 hR3 hf.2 hr
    | upd key val draw =>
      simp only [freshPub] at hf
      simp only [stepPub, bind_eq_ok] at hstep
      obtain ⟨⟨c3, it⟩, hu, hc3⟩ := hstep
      simp only [pure, Except.pure, Except.ok.injEq] at hc3
      subst hc3
      obtain ⟨hs3, cs3, hR3⟩ := @update_good c c3 ⟨key, val⟩ draw it K cs hc hs hR hu
      exact ih c3 c1 (key :: K) cs3 hc2 hs3 hR3 hf hr
    | del key =>
      simp [freshPub] at hf

/-- The routing invariant of a newly constructed container. -/
theorem construct_Routed {m0 : Nat} {c0 : Container} (hc : construct 256 m0 = some c0) :
    SortedHeap c0.heap [] ∧ Routed c0.heap 0 [0] := by
  unfold construct at hc
  split at hc
  · simp at hc
  · simp only [Option.some.injEq] at hc
    subst hc
    have h0 : ([some (Node.new 256)] : Heap)[0]? = some (some (Node.new 256)) := rfl
    have hl : (Node.new 256).live = [] := List.take_zero _
    constructor
    · intro a n ha
      cases a with
      | zero =>
        simp only [List.getElem?_cons_zero, Option.some.injEq] at ha
        subst ha
        refine ⟨⟨Nat.zero_le _, ?_⟩, ?_⟩
        · rw [hl]
          exact List.Pairwise.nil
        · intro x hx
          rw [hl] at hx
          simp at hx
      | succ a => simp at ha
    · show Routed [some (Node.new 256)] 0 [0]
      have hk : blockKeys [some (Node.new 256)] 0 = [] := by
        rw [(views_live h0).2.2.1, hl]
        rfl
      refine ⟨by decide, ?_, ?_, ?_, ?_⟩
      · intro l hl2 b hb n hn nx hnx
        simp only [List.mem_singleton] at hb
        subst hb
        rw [h0] at hn
        simp only [Option.some.injEq] at hn
        subst hn
        exfalso
        have : ∀ l : Nat, l < SKIP_LIST_LEVELS → (Node.new 256).fwd l = none := by decide
        rw [this l hl2] at hnx
        cases hnx
      · intro hlen
        simp at hlen
      · unfold blocksOrdered
        exact List.pairwise_singleton _ _
      · intro b hb
        simp only [List.mem_singleton] at hb
        subst hb
        rw [hk]
        exact List.Pairwise.nil

/-- Evaluation of `insert(1, 1); update(2, 2); update(1, 7)` on a new container. -/
theorem runPub_stateUpd :
    runPub (stateA 0) [PubOp.ins 1 1 lowDraw, PubOp.upd 2 2 lowDraw, PubOp.upd 1 7 lowDraw]
      = .ok stateUpd :=
  ok_of_toOption (by decide!)

/-- C15 (amended). After every sequence of `insert` and `update` calls in which no
`insert` gives a key that an earlier call of the sequence gave, run without fault on a
newly constructed container with block capacity 256 and with any level draws, the live
entries of every block are inside its array and strictly ascending by key. -/
theorem C15_inserts_updates_sorted (m0 : Nat) (ops : List PubOp) (c0 c : Container)
    (hc : construct 256 m0 = some c0) (hf : freshPub [] ops = true)
    (hr : runPub c0 ops = .ok c) :
    ∀ (a : Nat) (n : Node), c.heap[a]? = some (some n) →
      n.size ≤ n.data.length ∧ n.live.Pairwise (fun x y => x.key < y.key) := by
  obtain ⟨hs0, hR0⟩ := construct_Routed hc
  obtain ⟨K1, hs1⟩ := runPub_fresh_sorted ops c0 c [] [0] (construct_CInv hc) hs0 hR0 hf hr
  intro a n ha
  exact (hs1 a n ha).1

/-- C15 (witness): the amended statement applied to `insert(1, 1); update(2, 2);
update(1, 7)`. -/
theorem C15_inserts_updates_sorted_witness :
    construct 256 0 = some (stateA 0) ∧
    freshPub [] [PubOp.ins 1 1 lowDraw, PubOp.upd 2 2 lowDraw, PubOp.upd 1 7 lowDraw]
      = true ∧
    runPub (stateA 0) [PubOp.ins 1 1 lowDraw, PubOp.upd 2 2 lowDraw, PubOp.upd 1 7 lowDraw]
      = .ok stateUpd ∧
    ∀ (a : Nat) (n : Node), stateUpd.heap[a]? = some (some n) →
      n.size ≤ n.data.length ∧ n.live.Pairwise (fun x y => x.key < y.key) :=
  ⟨rfl, by decide, runPub_stateUpd,
    C15_inserts_updates_sorted 0
      [PubOp.ins 1 1 lowDraw, PubOp.upd 2 2 lowDraw, PubOp.upd 1 7 lowDraw]
      (stateA 0) stateUpd rfl (by decide) runPub_stateUpd⟩

end BlockedSkipList
